import Mathlib

/-!
# CFGgrind calling-context engine: shallow embedding of `context.c` and `fn.c`

Conventions of the embedding.

* A pointer is a natural number and `0` is the null pointer.  A `fn_node*` is the
  address of the record (the value that `cxt_hash_val` folds into the hash); the records
  live in `State.fn_mem`, a map from addresses to records.
* A `Context*` is `p > 0` and denotes `State.cxt_heap[p-1]`: `LPG_MALLOC` hands out a
  pointer that no earlier allocation returned, and Contexts are never freed.
* A hash chain (the `next` links that start at `cxts.table[i]`) is the list of the
  Context pointers on it, head of the chain first.
* A `fn_node**` that walks downwards (`fn--`) is the list of the slots it meets:
  `*fn` is the head, `fn--` is the tail.  A read below the array yields `0`, the value
  of the sentinel slot.
* `UWord` arithmetic wraps modulo `2 ^ 64`.  Counters and table sizes (`UInt`) are
  natural numbers.
* A failed `LPG_ASSERT` aborts the run: the function returns `none`.
* Slots of a fresh allocation that the code has not written yet read as `0`.
* A C string is the list of its `char` values before the terminating NUL; `strcmp(a, b)
  == 0` is equality of the lists.
* An `obj_node*` or `file_node*` is `p > 0` and denotes `obj_heap[p-1]` or
  `file_heap[p-1]`; the address of a new `fn_node` is given by `Tables.fn_malloc`.  The
  chains of the three identity tables are lists of pointers, like the Context chains; the
  field `next` of a record is written as the source writes it.
* The table sizes `N_OBJ_ENTRIES`, `N_FILE_ENTRIES`, `N_FN_ENTRIES` are constants of
  `global.h`, which is not among the sources: they are parameters, carried in `Tables`.
* `State.current_fn_active` holds the size and the counters of the buffer that
  `current_fn_active.array` points to.  The address of that buffer, the buffers that are
  not current and the effect of `VG_(free)` are kept in `ArrayMem`, beside the tables: a
  buffer that was freed is never allocated again, and reading, writing or freeing it
  gives `none`.
-/

namespace CFGgrind

/-! ## Data model -/

/-- Number of bits of the machine word `UWord` (a 64-bit host). -/
def UWord_bits : Nat := 64

def N_FNSTACK_INITIAL_ENTRIES : Nat := 500

def N_CXT_INITIAL_ENTRIES : Nat := 2537

/-- The record `Context`: stored length, sequence number, hash and the stored path
`fn[0..size)`.  The chain link `next` is carried by the bucket lists of `cxt_hash`. -/
structure Context where
  size : Nat
  base_number : Nat
  hash : Nat
  fn : List Nat
deriving DecidableEq, Inhabited

/-- The record `fn_node`, with the fields that `new_fn_node` fills in.  The name is a C
string: the list of its `char` values before the terminating NUL. -/
structure fn_node where
  name : List Int
  number : Nat
  last_cxt : Nat
  pure_cxt : Nat
  file : Nat
  next : Nat
  is_malloc : Bool
  is_realloc : Bool
  is_free : Bool
deriving DecidableEq, Inhabited

/-- The context hash table `cxts`: `table[i]` is the chain of bucket `i`. -/
structure cxt_hash where
  size : Nat
  entries : Nat
  table : List (List Nat)
deriving DecidableEq, Inhabited

/-- The function stack: `bottom` is the array, `top` is the index `top - bottom`. -/
structure fn_stack where
  size : Nat
  bottom : List Nat
  top : Nat
deriving DecidableEq, Inhabited

/-- One call-stack frame.  `push_cxt` writes `cxt` and `fn_sp`; `other` stands for the
fields of the frame that belong to the call-stack code. -/
structure call_entry where
  cxt : Nat
  fn_sp : Nat
  other : Nat
deriving DecidableEq, Inhabited

structure call_stack where
  size : Nat
  entry : List call_entry
  sp : Nat
deriving DecidableEq, Inhabited

/-- The active-count array `current_fn_active`: its size and the counters of its buffer. -/
structure fn_array where
  size : Nat
  array : List Nat
deriving DecidableEq, Inhabited

/-- The counters of `LPG_(stat)` that `context.c` and `fn.c` touch. -/
structure Statistics where
  cxt_hash_resizes : Nat
  context_counter : Nat
  distinct_contexts : Nat
  cxt_lru_misses : Nat
  distinct_objs : Nat
  distinct_files : Nat
  distinct_fns : Nat
  no_debug_BBs : Nat
  full_debug_BBs : Nat
  file_line_debug_BBs : Nat
  fn_name_debug_BBs : Nat
  fn_array_resizes : Nat
deriving DecidableEq, Inhabited

/-- The globals of `context.c` together with the memory they point into. -/
structure State where
  cxts : cxt_hash
  cxt_heap : List Context
  fn_mem : Nat → fn_node
  stat : Statistics
  current_fn_stack : fn_stack
  current_call_stack : call_stack
  current_state_cxt : Nat
  current_fn_active : fn_array

/-- Dereference of a `Context*`.  A pointer that is null or not allocated reads as the
zero record. -/
def cxt_at (heap : List Context) : Nat → Context
  | 0 => default
  | p + 1 => heap.getD p default

/-! ## Initialisation -/

/-- The result of `init_fn_stack`: 500 slots, `top = bottom`, `bottom[0] = 0`. -/
def init_fn_stack : fn_stack :=
  { size := N_FNSTACK_INITIAL_ENTRIES
    bottom := List.replicate N_FNSTACK_INITIAL_ENTRIES 0
    top := 0 }

/-- The result of `init_cxt_table`: 2537 empty buckets, no entries. -/
def init_cxt_table : cxt_hash :=
  { size := N_CXT_INITIAL_ENTRIES
    entries := 0
    table := List.replicate N_CXT_INITIAL_ENTRIES [] }

/-! ## Context table -/

/-- One pass of the loop of `resize_cxt_table` over a chain element `curr`:
`new_idx = curr->hash % new_size; curr->next = new_table[new_idx];
new_table[new_idx] = curr`. -/
def resize_link (heap : List Context) (new_size : Nat) (new_table : List (List Nat))
    (curr : Nat) : List (List Nat) :=
  let new_idx := (cxt_at heap curr).hash % new_size
  new_table.set new_idx (curr :: new_table.getD new_idx [])

/-- The `while (NULL != curr)` loop of `resize_cxt_table` over one chain. -/
def resize_chain (heap : List Context) (new_size : Nat) (new_table : List (List Nat))
    (chain : List Nat) : List (List Nat) :=
  chain.foldl (resize_link heap new_size) new_table

/-- The outer loop of `resize_cxt_table`, `for (i = 0; i < cxts.size; i++)`, as a fold over
the bucket indices `is`. -/
def resize_buckets (heap : List Context) (new_size : Nat) (table : List (List Nat))
    (new_table : List (List Nat)) (is : List Nat) : List (List Nat) :=
  is.foldl (fun nt i => resize_chain heap new_size nt (table.getD i [])) new_table

/-- The function `resize_cxt_table`: a table of `2 * size + 3` empty buckets, into which
the chains of the buckets `0 .. size-1` are relinked in this order. -/
def resize_cxt_table (s : State) : State :=
  let new_size := 2 * s.cxts.size + 3
  let new_table : List (List Nat) := List.replicate new_size []
  let new_table := resize_buckets s.cxt_heap new_size s.cxts.table new_table
    (List.range s.cxts.size)
  { s with
    cxts := { size := new_size, entries := s.cxts.entries, table := new_table }
    stat := { s.stat with cxt_hash_resizes := s.stat.cxt_hash_resizes + 1 } }

/-- The hash update `(hash<<7) + (hash>>25) + (UWord)(*fn)` in `UWord` arithmetic. -/
def hash_step (hash f : Nat) : Nat :=
  ((hash <<< 7) + (hash >>> 25) + f) % 2 ^ UWord_bits

/-- The loop of `cxt_hash_val`; `count` is a `UInt` and `count--` wraps. -/
def cxt_hash_val_loop : List Nat → Nat → Nat → Nat
  | [], hash, _ => hash
  | f :: fn, hash, count =>
    if f = 0 then hash
    else
      let hash := hash_step hash f
      let count := (count + 2 ^ 32 - 1) % 2 ^ 32
      if count = 0 then hash else cxt_hash_val_loop fn hash count

/-- The function `cxt_hash_val(fn, size)`. -/
def cxt_hash_val (fn : List Nat) (size : Nat) : Nat :=
  cxt_hash_val_loop fn 0 size

/-- The loop of `is_cxt`: `fn` walks down the path, `cxt_fn` walks up `cxt->fn`; `count`
is the `int` copy of `cxt->size`. -/
def is_cxt_loop : List Nat → List Nat → Nat → Bool
  | [], _, _ => true
  | f :: fn, cxt_fn, count =>
    if f ≠ 0 ∧ count > 0 then
      if cxt_fn.headD 0 ≠ f then false
      else is_cxt_loop fn cxt_fn.tail (count - 1)
    else true

/-- The function `is_cxt(hash, fn, cxt)`. -/
def is_cxt (hash : Nat) (fn : List Nat) (cxt : Context) : Bool :=
  if hash ≠ cxt.hash then false
  else is_cxt_loop fn cxt.fn cxt.size

/-- The copy loop of `new_cxt`: returns the hash and the entries written to `cxt->fn`
(`offset` is their number). -/
def new_cxt_loop : List Nat → Nat → List Nat → Nat → Nat × List Nat
  | [], hash, acc, _ => (hash, acc)
  | f :: fn, hash, acc, size =>
    if f = 0 then (hash, acc)
    else
      let hash := hash_step hash f
      let acc := acc ++ [f]
      if acc.length ≥ size then (hash, acc) else new_cxt_loop fn hash acc size

/-- The fill-degree check of `new_cxt` (source lines 183 to 185): `cxts.entries++`, then
`resize_cxt_table` if `10 * cxts.entries / cxts.size > 8`. -/
def new_cxt_check (s : State) : State :=
  let s1 := { s with cxts := { s.cxts with entries := s.cxts.entries + 1 } }
  if 10 * s1.cxts.entries / s1.cxts.size > 8 then resize_cxt_table s1 else s1

/-- The end of `new_cxt` (source lines 201 to 213): with `hash` and the copied entries
`fns` from the loop, the Context is filled in, counted and linked at the head of the
chain of bucket `hash % cxts.size`.  Returns the new state and the new pointer. -/
def new_cxt_link (s : State) (hash : Nat) (fns : List Nat) (size : Nat) : State × Nat :=
  let offset := fns.length
  let size := if offset < size then offset else size
  let cxt : Context :=
    { size := size, base_number := s.stat.context_counter, hash := hash, fn := fns }
  let p := s.cxt_heap.length + 1
  let idx := hash % s.cxts.size
  ({ s with
     cxt_heap := s.cxt_heap ++ [cxt]
     stat := { s.stat with
               context_counter := s.stat.context_counter + 1
               distinct_contexts := s.stat.distinct_contexts + 1 }
     cxts := { s.cxts with
               table := s.cxts.table.set idx (p :: s.cxts.table.getD idx []) } }, p)

/-- The function `new_cxt(fn)`: returns the new state and the pointer to the new Context
(`0` when the path is empty). -/
def new_cxt (s : State) (fn : List Nat) : State × Nat :=
  let top_fn := fn.headD 0
  if top_fn = 0 then (s, 0)
  else
    let size := 1
    let s2 := new_cxt_check s
    let r := new_cxt_loop fn 0 [] size
    new_cxt_link s2 r.1 r.2 size

/-- The chain walk of `get_cxt`: the first Context of the chain that `is_cxt` accepts, or
`0` at the end of the chain. -/
def chain_search (heap : List Context) (hash : Nat) (fn : List Nat) : List Nat → Nat
  | [] => 0
  | cxt :: next =>
    if is_cxt hash fn (cxt_at heap cxt) then cxt else chain_search heap hash fn next

/-- The slow path of `get_cxt`, from `cxt_lru_misses++` to the end of the function. -/
def get_cxt_miss (s : State) (fn : List Nat) (hash : Nat) : State × Nat :=
  let s := { s with stat := { s.stat with cxt_lru_misses := s.stat.cxt_lru_misses + 1 } }
  let idx := hash % s.cxts.size
  let cxt := chain_search s.cxt_heap hash fn (s.cxts.table.getD idx [])
  let r := if cxt = 0 then new_cxt s fn else (s, cxt)
  let top_fn := fn.headD 0
  ({ r.1 with
     fn_mem := Function.update r.1.fn_mem top_fn
       { r.1.fn_mem top_fn with last_cxt := r.2 } }, r.2)

/-- The function `get_cxt(fn)`: returns the new state and the Context pointer. -/
def get_cxt (s : State) (fn : List Nat) : State × Nat :=
  let top_fn := fn.headD 0
  if top_fn = 0 then (s, 0)
  else
    let size := 1
    let size := if size = 0 then 1 else size
    let hash := cxt_hash_val fn size
    let cxt := (s.fn_mem top_fn).last_cxt
    if cxt ≠ 0 ∧ is_cxt hash fn (cxt_at s.cxt_heap cxt) = true then (s, cxt)
    else get_cxt_miss s fn hash

/-! ## Function stack -/

/-- The view of the pointer `bottom + i` as a downward path: slots `i, i-1, .., 0`. -/
def fn_path (bottom : List Nat) (i : Nat) : List Nat :=
  (List.range (i + 1)).reverse.map (fun j => bottom.getD j 0)

/-- The growth step of `push_cxt`: a new array of twice the size that holds the old
slots at the same indices. -/
def grow_fn_stack (stk : fn_stack) : fn_stack :=
  let new_size := stk.size * 2
  { size := new_size
    bottom := (List.range new_size).map
      (fun i => if i < stk.size then stk.bottom.getD i 0 else 0)
    top := stk.top }

/-- The function `get_fn_entry(n)`: the index of the counter, or `none` when the assertion
`n < current_fn_active.size` fails. -/
def get_fn_entry (a : fn_array) (n : Nat) : Option Nat :=
  if n < a.size then some n else none

/-- The start of `push_cxt` (source lines 283 to 286): the two assertions, then the
current Context and the depth `top - bottom` are saved in the frame `entry[sp]`. -/
def push_cxt_save (s : State) : Option State :=
  let cs := s.current_call_stack
  if ¬ cs.sp < cs.size then none
  else if (cs.entry.getD cs.sp default).cxt ≠ 0 then none
  else
    let e := cs.entry.getD cs.sp default
    let e := { e with cxt := s.current_state_cxt, fn_sp := s.current_fn_stack.top }
    some { s with current_call_stack := { cs with entry := cs.entry.set cs.sp e } }

/-- The part of `push_cxt` from the growth test to `*top = fn` (source lines 290 to
319): the array is doubled if `fn_entries == size - 1`, the active count of `fn` is
incremented if `fn` is not null and the slot at `top` is null, then `top++; *top = fn`. -/
def push_cxt_extend (s : State) (fn : Nat) : Option State :=
  let fn_entries := s.current_fn_stack.top
  let stk := if fn_entries + 1 = s.current_fn_stack.size
    then grow_fn_stack s.current_fn_stack else s.current_fn_stack
  let active : Option fn_array :=
    if fn ≠ 0 ∧ stk.bottom.getD stk.top 0 = 0 then
      (get_fn_entry s.current_fn_active (s.fn_mem fn).number).map fun n =>
        { s.current_fn_active with
          array := s.current_fn_active.array.set n
            (s.current_fn_active.array.getD n 0 + 1) }
    else some s.current_fn_active
  active.map fun a =>
    let stk := { stk with top := stk.top + 1 }
    let stk := { stk with bottom := stk.bottom.set stk.top fn }
    { s with current_fn_stack := stk, current_fn_active := a }

/-- The last statement of `push_cxt` (source line 320):
`current_state.cxt = resolve(current_fn_stack.top)`. -/
def push_cxt_resolve (resolve : State → List Nat → State × Nat) (s : State) : State :=
  let r := resolve s (fn_path s.current_fn_stack.bottom s.current_fn_stack.top)
  { r.1 with current_state_cxt := r.2 }

/-- The body of `push_cxt(fn)` with the context resolver as a parameter (`get_cxt` in
the source); `none` when an assertion fails. -/
def push_cxt_with (resolve : State → List Nat → State × Nat) (s : State) (fn : Nat) :
    Option State :=
  (push_cxt_save s).bind fun s =>
    if fn ≠ 0 ∧ s.current_fn_stack.bottom.getD s.current_fn_stack.top 0 = fn then some s
    else (push_cxt_extend s fn).map (push_cxt_resolve resolve)

/-- The function `push_cxt(fn)`. -/
def push_cxt (s : State) (fn : Nat) : Option State :=
  push_cxt_with get_cxt s fn

/-! ## Front-cache disabled

The variant of the resolver that the front-cache property compares `get_cxt` with: the
test of `last_cxt` is removed, every call takes the table lookup. -/

/-- The resolver `get_cxt` without the front-cache test. -/
def get_cxt_nocache (s : State) (fn : List Nat) : State × Nat :=
  let top_fn := fn.headD 0
  if top_fn = 0 then (s, 0)
  else
    let size := 1
    let size := if size = 0 then 1 else size
    let hash := cxt_hash_val fn size
    get_cxt_miss s fn hash

/-- The function `push_cxt` over `get_cxt_nocache`. -/
def push_cxt_nocache (s : State) (fn : Nat) : Option State :=
  push_cxt_with get_cxt_nocache s fn

/-! ## Runs -/

/-- A state in which the context table has just been initialised: `init_cxt_table` has
run, no Context is allocated and every function record has the `last_cxt = 0` that
`new_fn_node` gives it. -/
def Initial (s : State) : Prop :=
  s.cxts = init_cxt_table ∧ s.cxt_heap = [] ∧ ∀ a, (s.fn_mem a).last_cxt = 0

/-- A sequence of `get_cxt` calls: the final state and the pointers returned, in order. -/
def get_cxt_seq (s : State) : List (List Nat) → State × List Nat
  | [] => (s, [])
  | fn :: rest =>
    let r := get_cxt s fn
    let r2 := get_cxt_seq r.1 rest
    (r2.1, r.2 :: r2.2)

/-- One event of a run.  `collab` is a step of the code around this component (the
call-stack code, `set_current_fn_stack`, the restore of a saved frame): it replaces the
function stack, the call stack, the current Context and the active-count array. -/
inductive Call where
  | get_cxt (fn : List Nat)
  | push_cxt (fn : Nat)
  | collab (stk : fn_stack) (cs : call_stack) (cxt : Nat) (act : fn_array)

/-- One event; the number returned is the Context pointer that the call resolved
(the new current Context for `push_cxt`). -/
def run_call (resolve : State → List Nat → State × Nat) (s : State) :
    Call → Option (State × Nat)
  | Call.get_cxt fn => some (resolve s fn)
  | Call.push_cxt fn =>
    (push_cxt_with resolve s fn).map fun s1 => (s1, s1.current_state_cxt)
  | Call.collab stk cs cxt act =>
    some ({ s with
            current_fn_stack := stk
            current_call_stack := cs
            current_state_cxt := cxt
            current_fn_active := act }, cxt)

/-- A run: the final state and the pointers resolved, or `none` if an assertion failed. -/
def run (resolve : State → List Nat → State × Nat) (s : State) :
    List Call → Option (State × List Nat)
  | [] => some (s, [])
  | c :: rest =>
    (run_call resolve s c).bind fun r =>
      (run resolve r.1 rest).map fun r2 => (r2.1, r.2 :: r2.2)

/-- The states that a run of the source (`get_cxt` as resolver) reaches from an initial
state. -/
def Reachable (s : State) : Prop :=
  ∃ s0 calls rs, Initial s0 ∧ run get_cxt s0 calls = some (s, rs)

/-- Overwrites the statistic `cxt_lru_misses`. -/
def set_misses (s : State) (m : Nat) : State :=
  { s with stat := { s.stat with cxt_lru_misses := m } }

/-! ## Representation invariant of the context table -/

/-- The Context `p` is allocated and is the one that `new_cxt` builds for a path with
top `f`. -/
def CxtFor (heap : List Context) (p f : Nat) : Prop :=
  0 < p ∧ p ≤ heap.length ∧ f ≠ 0 ∧ (cxt_at heap p).size = 1 ∧
    (cxt_at heap p).fn = [f] ∧ (cxt_at heap p).hash = hash_step 0 f

/-- The Context `p` is on the chain of the bucket of `f` and stores the path `[f]`. -/
def Linked (s : State) (p f : Nat) : Prop :=
  p ∈ s.cxts.table.getD (hash_step 0 f % s.cxts.size) [] ∧
    (cxt_at s.cxt_heap p).fn = [f]

/-- Invariant of the context table and of the front-cache hints. -/
structure TableWF (s : State) : Prop where
  len : s.cxts.table.length = s.cxts.size
  pos : 0 < s.cxts.size
  shape : ∀ i p, p ∈ s.cxts.table.getD i [] →
    ∃ f, CxtFor s.cxt_heap p f ∧ hash_step 0 f % s.cxts.size = i
  uniq : ∀ i j p q, p ∈ s.cxts.table.getD i [] → q ∈ s.cxts.table.getD j [] →
    (cxt_at s.cxt_heap p).fn = (cxt_at s.cxt_heap q).fn → p = q
  nodup : s.cxts.table.flatten.Nodup
  hint : ∀ a, (s.fn_mem a).last_cxt ≠ 0 → Linked s (s.fn_mem a).last_cxt a

/-- Counting invariant of the context table: the two context counters of the statistics
and `cxts.entries` equal the number of Contexts allocated, which is also the number of
Contexts linked in the chains, and the Context allocated as the `k + 1`-th carries the
sequence number `k`. -/
def CountWF (s : State) : Prop :=
  s.stat.context_counter = s.cxt_heap.length ∧
    s.stat.distinct_contexts = s.cxt_heap.length ∧
    s.cxts.entries = s.cxt_heap.length ∧
    s.cxts.table.flatten.length = s.cxt_heap.length ∧
    ∀ k, k < s.cxt_heap.length → (cxt_at s.cxt_heap (k + 1)).base_number = k

/-- Every Context allocated is linked in a chain of the table. -/
def AllLinked (s : State) : Prop :=
  ∀ p, 0 < p → p ≤ s.cxt_heap.length → p ∈ s.cxts.table.flatten

/-! ## Push sequences and slot counts -/

/-- The call stack can take a push: the two assertions at the start of `push_cxt` hold. -/
def frame_free (cs : call_stack) : Prop :=
  cs.sp < cs.size ∧ (cs.entry.getD cs.sp default).cxt = 0

/-- A sequence of `push_cxt` calls.  Each call comes with the call stack that the
call-stack code has made current before it (that code moves `sp` and clears the frame). -/
def push_cxt_seq (s : State) : List (call_stack × Nat) → Option State
  | [] => some s
  | (cs, fn) :: rest =>
    (push_cxt { s with current_call_stack := cs } fn).bind fun s1 => push_cxt_seq s1 rest

/-- The function stack is empty (`top` at the sentinel slot, which holds null) and every
active count is zero. -/
def EmptyStacks (s : State) : Prop :=
  s.current_fn_stack.top = 0 ∧ s.current_fn_stack.bottom.getD 0 0 = 0 ∧
    s.current_fn_stack.bottom.length = s.current_fn_stack.size ∧
    0 < s.current_fn_stack.size ∧
    s.current_fn_active.array = List.replicate s.current_fn_active.size 0

/-- Number of slots `bottom[1 .. top]` that hold the function record `f`. -/
def slots_holding (stk : fn_stack) (f : Nat) : Nat :=
  (List.range stk.top).countP fun i => decide (stk.bottom.getD (i + 1) 0 = f)

/-- Number of slots `bottom[1 .. top]` that hold a function record with sequence number
`n`. -/
def slots_numbered (mem : Nat → fn_node) (stk : fn_stack) (n : Nat) : Nat :=
  (List.range stk.top).countP fun i =>
    decide (stk.bottom.getD (i + 1) 0 ≠ 0 ∧ (mem (stk.bottom.getD (i + 1) 0)).number = n)

/-- Number of slots `bottom[1 .. top]` that hold a function record with sequence number
`n` and lie directly above a slot that holds null (the sentinel or a null marker). -/
def first_slots (mem : Nat → fn_node) (stk : fn_stack) (n : Nat) : Nat :=
  (List.range stk.top).countP fun i =>
    decide (stk.bottom.getD (i + 1) 0 ≠ 0 ∧ stk.bottom.getD i 0 = 0 ∧
      (mem (stk.bottom.getD (i + 1) 0)).number = n)

/-- Invariant of the function stack and the active-count array under `push_cxt`: `top`
lies inside the array `bottom`, and the counter at every index `n` equals the number of
slots that hold a function numbered `n` directly above a null slot. -/
def StackWF (s : State) : Prop :=
  s.current_fn_stack.bottom.length = s.current_fn_stack.size ∧
    s.current_fn_stack.top < s.current_fn_stack.size ∧
    s.current_fn_active.array.length = s.current_fn_active.size ∧
    ∀ n, s.current_fn_active.array.getD n 0 = first_slots s.fn_mem s.current_fn_stack n

/-- The paths `[1], [2], .., [n]` (each above the sentinel): `n` pairwise distinct top
functions. -/
def distinct_paths (n : Nat) : List (List Nat) :=
  (List.range n).map fun i => [i + 1, 0]

/-! ## Active-count array (`fn.c`) -/

def N_INITIAL_FN_ARRAY_SIZE : Nat := 10071

/-- The loop `while (newsize <= distinct_fns) newsize *= 2` of `resize_fn_array`, with a
bound `fuel` on the number of tests: `none` if the loop is still running after `fuel`
tests. -/
def resize_newsize : Nat → Nat → Nat → Option Nat
  | 0, _, _ => none
  | fuel + 1, newsize, distinct_fns =>
    if newsize ≤ distinct_fns then resize_newsize fuel (newsize * 2) distinct_fns
    else some newsize

/-- The function `resize_fn_array`: the new size from the doubling loop, a new array that
holds the old counters at the same indices and zeros above, `fn_array_resizes++`.  The
loop gets `distinct_fns + 2` tests, which is enough whenever the size is not 0; with size
0 the source loop never ends, and the result is `none`.  The allocation of the new buffer
and the `VG_(free)` of the old one are in `move_buffer`. -/
def resize_fn_array (s : State) : Option State :=
  (resize_newsize (s.stat.distinct_fns + 2) s.current_fn_active.size
      s.stat.distinct_fns).map fun newsize =>
    { s with
      current_fn_active :=
        { size := newsize
          array := (List.range newsize).map fun i =>
            if i < s.current_fn_active.size then s.current_fn_active.array.getD i 0
            else 0 }
      stat := { s.stat with fn_array_resizes := s.stat.fn_array_resizes + 1 } }

/-! ## String hash (`fn.c`) -/

def HASH_CONSTANT : Int := 256

/-- The loop of `str_hash`.  `hash_value` is an `int` and `*s` a `char`; the sum
`HASH_CONSTANT * hash_value + *s` is converted to `unsigned` (reduction modulo `2 ^ 32`)
for the division by the `UInt table_size`.  The loop ends at the NUL. -/
def str_hash_loop (table_size : Nat) : List Int → Nat → Nat
  | [], hash_value => hash_value
  | c :: s, hash_value =>
    if c = 0 then hash_value
    else str_hash_loop table_size s
      (((HASH_CONSTANT * (hash_value : Int) + c) % 2 ^ 32).toNat % table_size)

/-- The function `str_hash(s, table_size)`. -/
def str_hash (s : List Int) (table_size : Nat) : Nat :=
  str_hash_loop table_size s 0

/-- The value of a string read as a big-endian number in base 256 (the words of the
specification of the hash, to compare `str_hash` with). -/
def base256_value (s : List Int) : Int :=
  s.foldl (fun v c => 256 * v + c) 0

/-- The fold `hash := (256 * hash + char) mod m` from 0 over the full string (the words of
the specification). -/
def rolling_hash (s : List Int) (m : Nat) : Int :=
  s.foldl (fun h c => (256 * h + c) % (m : Int)) 0

/-! ## Identity tables (`fn.c`) -/

/-- What the accessors `DebugInfo_get_filename`, `DebugInfo_get_text_avma`,
`DebugInfo_get_text_size` and `DebugInfo_get_text_bias` return for a handle. -/
structure DebugInfo where
  filename : List Int
  text_avma : Nat
  text_size : Nat
  text_bias : Int
deriving DecidableEq, Inhabited

/-- The record `obj_node`; `files[i]` is the chain of bucket `i`. -/
structure obj_node where
  name : List Int
  last_slash_pos : Nat
  number : Nat
  start : Nat
  size : Nat
  offset : Int
  files : List (List Nat)
  next : Nat
deriving DecidableEq, Inhabited

/-- The record `file_node`; `fns[i]` is the chain of bucket `i`. -/
structure file_node where
  name : List Int
  fns : List (List Nat)
  number : Nat
  obj : Nat
  next : Nat
deriving DecidableEq, Inhabited

/-- The globals of `fn.c` on top of those of `context.c`, with the memory of the object
and file records.  `fn_malloc n` is the address that `LPG_MALLOC` returns for the function
record created when `distinct_fns = n`.  `search_runtime_resolve obj` is the outcome of the
code scan of `search_runtime_resolve` on the object (address and length when the pattern
is found); the scan itself is outside this component. -/
structure Tables where
  st : State
  N_OBJ_ENTRIES : Nat
  N_FILE_ENTRIES : Nat
  N_FN_ENTRIES : Nat
  obj_table : List (List Nat)
  obj_heap : List obj_node
  file_heap : List file_node
  fn_malloc : Nat → Nat
  runtime_resolve_addr : Nat
  runtime_resolve_length : Nat
  search_runtime_resolve : obj_node → Option (Nat × Nat)

/-- Dereference of an `obj_node*`. -/
def obj_at (heap : List obj_node) : Nat → obj_node
  | 0 => default
  | p + 1 => heap.getD p default

/-- Dereference of a `file_node*`. -/
def file_at (heap : List file_node) : Nat → file_node
  | 0 => default
  | p + 1 => heap.getD p default

/-- A write through an `obj_node*`. -/
def obj_put (heap : List obj_node) (p : Nat) (obj : obj_node) : List obj_node :=
  match p with
  | 0 => heap
  | q + 1 => heap.set q obj

/-- A write through a `file_node*`. -/
def file_put (heap : List file_node) (p : Nat) (file : file_node) : List file_node :=
  match p with
  | 0 => heap
  | q + 1 => heap.set q file

/-- The function `init_obj_table`: `N_OBJ_ENTRIES` empty buckets. -/
def init_obj_table (w : Tables) : Tables :=
  { w with obj_table := List.replicate w.N_OBJ_ENTRIES [] }

/-- The string `"???"` of `anonymous_obj`. -/
def anonymous_obj : List Int := [63, 63, 63]

/-- The lookup loop of the three tables,
`while (NULL != curr && strcmp(name, curr->name) != 0) curr = curr->next`:
the first record of the chain with the name, or `0`. -/
def name_search (name_of : Nat → List Int) (name : List Int) : List Nat → Nat
  | [] => 0
  | curr :: next =>
    if name = name_of curr then curr else name_search name_of name next

/-- The loop of `new_obj_node` that sets `last_slash_pos`: `i` is the index, `pos` the
value so far; `'/'` is 47. -/
def last_slash_loop : List Int → Nat → Nat → Nat
  | [], _, pos => pos
  | c :: s, i, pos =>
    if c = 0 then pos else last_slash_loop s (i + 1) (if c = 47 then i + 1 else pos)

/-- The function `new_obj_node(di, next)`: returns the new state and the new pointer. -/
def new_obj_node (w : Tables) (di : Option DebugInfo) (next : Nat) : Tables × Nat :=
  let name := match di with
    | some d => d.filename
    | none => anonymous_obj
  let distinct_objs := w.st.stat.distinct_objs + 1
  let obj : obj_node :=
    { name := name
      last_slash_pos := last_slash_loop name 0 0
      number := distinct_objs
      start := match di with
        | some d => d.text_avma
        | none => 0
      size := match di with
        | some d => d.text_size
        | none => 0
      offset := match di with
        | some d => d.text_bias
        | none => 0
      files := List.replicate w.N_FILE_ENTRIES []
      next := next }
  let p := w.obj_heap.length + 1
  let w1 := { w with
    obj_heap := w.obj_heap ++ [obj]
    st := { w.st with stat := { w.st.stat with distinct_objs := distinct_objs } } }
  let w2 := if w1.runtime_resolve_addr = 0 then
      match w1.search_runtime_resolve obj with
      | some r => { w1 with runtime_resolve_addr := r.1, runtime_resolve_length := r.2 }
      | none => w1
    else w1
  (w2, p)

/-- The function `get_obj_node(di)`: returns the new state and the object record. -/
def get_obj_node (w : Tables) (di : Option DebugInfo) : Tables × Nat :=
  let obj_name := match di with
    | some d => d.filename
    | none => anonymous_obj
  let objname_hash := str_hash obj_name w.N_OBJ_ENTRIES
  let chain := w.obj_table.getD objname_hash []
  let curr_obj_node := name_search (fun p => (obj_at w.obj_heap p).name) obj_name chain
  if curr_obj_node = 0 then
    let r := new_obj_node w di (chain.headD 0)
    ({ r.1 with obj_table := r.1.obj_table.set objname_hash (r.2 :: chain) }, r.2)
  else (w, curr_obj_node)

/-- The function `new_file_node(filename, obj, next)`: returns the new state and the new
pointer. -/
def new_file_node (w : Tables) (filename : List Int) (obj : Nat) (next : Nat) :
    Tables × Nat :=
  let distinct_files := w.st.stat.distinct_files + 1
  let file : file_node :=
    { name := filename
      fns := List.replicate w.N_FN_ENTRIES []
      number := distinct_files
      obj := obj
      next := next }
  let p := w.file_heap.length + 1
  ({ w with
     file_heap := w.file_heap ++ [file]
     st := { w.st with stat := { w.st.stat with distinct_files := distinct_files } } }, p)

/-- The path name that `get_file_node` builds: `strcpy(filename, dir)`, then `"/"` is
appended if `filename[0] != 0`, then `file`. -/
def file_key (dir file : List Int) : List Int :=
  let filename := dir
  let filename := if filename.headD 0 ≠ 0 then filename ++ [47] else filename
  filename ++ file

/-- The function `get_file_node(curr_obj_node, dir, file)`: returns the new state and the
file record. -/
def get_file_node (w : Tables) (curr_obj_node : Nat) (dir file : List Int) : Tables × Nat :=
  let filename := file_key dir file
  let filename_hash := str_hash filename w.N_FILE_ENTRIES
  let obj := obj_at w.obj_heap curr_obj_node
  let chain := obj.files.getD filename_hash []
  let curr_file_node := name_search (fun p => (file_at w.file_heap p).name) filename chain
  if curr_file_node = 0 then
    let r := new_file_node w filename curr_obj_node (chain.headD 0)
    let obj := obj_at r.1.obj_heap curr_obj_node
    ({ r.1 with
       obj_heap := obj_put r.1.obj_heap curr_obj_node
         { obj with files := obj.files.set filename_hash (r.2 :: chain) } }, r.2)
  else (w, curr_file_node)

/-- The function `new_fn_node(fnname, file, next)`: returns the new state and the new
pointer, or `none` if `resize_fn_array` does not return. -/
def new_fn_node (w : Tables) (fnname : List Int) (file : Nat) (next : Nat) :
    Option (Tables × Nat) :=
  let fn := w.fn_malloc w.st.stat.distinct_fns
  let distinct_fns := w.st.stat.distinct_fns + 1
  let node : fn_node :=
    { name := fnname
      number := distinct_fns
      last_cxt := 0
      pure_cxt := 0
      file := file
      next := next
      is_malloc := false
      is_realloc := false
      is_free := false }
  let st : State := { w.st with
    fn_mem := Function.update w.st.fn_mem fn node
    stat := { w.st.stat with distinct_fns := distinct_fns } }
  let st2 := if st.stat.distinct_fns ≥ st.current_fn_active.size then resize_fn_array st
    else some st
  st2.map fun st3 => ({ w with st := st3 }, fn)

/-- The function `get_fn_node_infile(curr_file_node, fnname)`: returns the new state and
the function record; `none` if the assertion `curr_file_node != 0` fails or
`new_fn_node` does not return. -/
def get_fn_node_infile (w : Tables) (curr_file_node : Nat) (fnname : List Int) :
    Option (Tables × Nat) :=
  if curr_file_node = 0 then none
  else
    let fnname_hash := str_hash fnname w.N_FN_ENTRIES
    let file := file_at w.file_heap curr_file_node
    let chain := file.fns.getD fnname_hash []
    let curr_fn_node := name_search (fun p => (w.st.fn_mem p).name) fnname chain
    if curr_fn_node = 0 then
      (new_fn_node w fnname curr_file_node (chain.headD 0)).map fun r =>
        let file := file_at r.1.file_heap curr_file_node
        ({ r.1 with
           file_heap := file_put r.1.file_heap curr_file_node
             { file with fns := file.fns.set fnname_hash (r.2 :: chain) } }, r.2)
    else some (w, curr_fn_node)

/-- The function `get_fn_node_inseg(di, dirname, filename, fnname)`. -/
def get_fn_node_inseg (w : Tables) (di : Option DebugInfo)
    (dirname filename fnname : List Int) : Option (Tables × Nat) :=
  let r1 := get_obj_node w di
  let r2 := get_file_node r1.1 r1.2 dirname filename
  get_fn_node_infile r2.1 r2.2 fnname

/-! ## Debug information (`fn.c`) -/

/-- The string `"???"` that `get_debug_info` stores for a miss. -/
def unknown_name : List Int := [63, 63, 63]

/-- What the debug-info reader answers for one address: the handle of
`find_DebugInfo`, the return value of `get_filename_linenum` with the file, the
directory and the line it stores, and the return value of `get_fnname` with the name it
stores. -/
structure debug_answer where
  debug_info : Option DebugInfo
  found_file_line : Bool
  file : List Int
  dir : List Int
  line : Nat
  found_fn : Bool
  fn_name : List Int
deriving DecidableEq, Inhabited

/-- The outputs of `get_debug_info`: the return value and what `*dir`, `*file`,
`*fn_name`, `*line_num` and `*pDebugInfo` hold afterwards (`none` for an output whose
pointer argument is null). -/
structure debug_info_out where
  result : Bool
  dir : List Int
  file : List Int
  fn_name : List Int
  line_num : Option Nat
  pDebugInfo : Option (Option DebugInfo)
deriving DecidableEq, Inhabited

/-- The function `get_debug_info` for an address whose answers from the debug-info reader
are `a`; `want_line` and `want_di` say whether `line_num` and `pDebugInfo` are non-null. -/
def get_debug_info (s : State) (a : debug_answer) (want_line want_di : Bool) :
    State × debug_info_out :=
  let pDebugInfo := if want_di then some a.debug_info else none
  let found_file_line := a.found_file_line
  let found_fn := a.found_fn
  if !found_file_line && !found_fn then
    ({ s with stat := { s.stat with no_debug_BBs := s.stat.no_debug_BBs + 1 } },
      { result := false
        dir := a.dir
        file := unknown_name
        fn_name := unknown_name
        line_num := if want_line then some 0 else none
        pDebugInfo := pDebugInfo })
  else if found_file_line && found_fn then
    ({ s with stat := { s.stat with full_debug_BBs := s.stat.full_debug_BBs + 1 } },
      { result := true
        dir := a.dir
        file := a.file
        fn_name := a.fn_name
        line_num := if want_line then some a.line else none
        pDebugInfo := pDebugInfo })
  else if found_file_line && !found_fn then
    ({ s with
       stat := { s.stat with file_line_debug_BBs := s.stat.file_line_debug_BBs + 1 } },
      { result := true
        dir := a.dir
        file := a.file
        fn_name := unknown_name
        line_num := if want_line then some a.line else none
        pDebugInfo := pDebugInfo })
  else
    ({ s with stat := { s.stat with fn_name_debug_BBs := s.stat.fn_name_debug_BBs + 1 } },
      { result := true
        dir := a.dir
        file := unknown_name
        fn_name := a.fn_name
        line_num := if want_line then some 0 else none
        pDebugInfo := pDebugInfo })

/-! ## Attaching the function record to a basic block (`fn.c`) -/

/-- The record `BB`, with the fields that `get_fn_node` reads and writes. -/
structure BB where
  fn : Nat
  line : Nat
deriving DecidableEq, Inhabited

/-- The locals `di`, `dirname`, `filename`, `fnname` and `line_num` of `get_fn_node` at the
call of `get_fn_node_inseg` (source line 541): what `get_debug_info` and the renamings of
source lines 503 to 539 have computed from the debug-info reader. -/
structure fn_names where
  di : Option DebugInfo
  dirname : List Int
  filename : List Int
  fnname : List Int
  line_num : Nat
deriving DecidableEq, Inhabited

/-- The string `"malloc"`. -/
def malloc_name : List Int := [109, 97, 108, 108, 111, 99]

/-- The string `"realloc"`. -/
def realloc_name : List Int := [114, 101, 97, 108, 108, 111, 99]

/-- The string `"free"`. -/
def free_name : List Int := [102, 114, 101, 101]

/-- The function `get_fn_node(bb)`: the test of `bb->fn`, and then the function from the
call of `get_fn_node_inseg` on (source lines 541 to 560), given the locals `names` that the
part in between has computed.  With `pure[0] = 0; pure[1] = fn` the argument `pure + 1` of
`get_cxt` is the downward path `[fn, 0]`.  Returns the new state, the new `*bb` and
the function record; `none` if `get_fn_node_inseg` does not return. -/
def get_fn_node (w : Tables) (bb : BB) (names : fn_names) : Option (Tables × BB × Nat) :=
  if bb.fn ≠ 0 then some (w, bb, bb.fn)
  else
    (get_fn_node_inseg w names.di names.dirname names.filename names.fnname).map fun r =>
      let fn := r.2
      let w2 :=
        if (r.1.st.fn_mem fn).pure_cxt = 0 then
          let c := get_cxt r.1.st [fn, 0]
          let node := c.1.fn_mem fn
          { r.1 with
            st := { c.1 with
              fn_mem := Function.update c.1.fn_mem fn
                { node with
                  pure_cxt := c.2
                  is_malloc := decide (node.name = malloc_name)
                  is_realloc := decide (node.name = realloc_name)
                  is_free := decide (node.name = free_name) } } }
        else r.1
      (w2, { bb with fn := fn, line := names.line_num }, fn)

/-! ## Representation invariants of the identity tables -/

/-- Invariant of the object table: every record of the object memory is linked in the
bucket of its name, carries its creation index as number and a file table of
`N_FILE_ENTRIES` buckets, and no two records have the same name. -/
structure ObjWF (w : Tables) : Prop where
  pos : 0 < w.N_OBJ_ENTRIES
  len : w.obj_table.length = w.N_OBJ_ENTRIES
  count : w.st.stat.distinct_objs = w.obj_heap.length
  linked : ∀ h p, p ∈ w.obj_table.getD h [] →
    0 < p ∧ p ≤ w.obj_heap.length ∧
      str_hash (obj_at w.obj_heap p).name w.N_OBJ_ENTRIES = h
  all : ∀ p, 0 < p → p ≤ w.obj_heap.length →
    p ∈ w.obj_table.getD (str_hash (obj_at w.obj_heap p).name w.N_OBJ_ENTRIES) [] ∧
      (obj_at w.obj_heap p).number = p ∧
      (obj_at w.obj_heap p).files.length = w.N_FILE_ENTRIES
  names : ∀ p q, 0 < p → p ≤ w.obj_heap.length → 0 < q → q ≤ w.obj_heap.length →
    (obj_at w.obj_heap p).name = (obj_at w.obj_heap q).name → p = q

/-- Invariant of the file tables: every record of the file memory belongs to an object
and is linked in the bucket of its name in the file table of that object, carries its
creation index as number and a function table of `N_FN_ENTRIES` buckets, and no two
records of one object have the same name. -/
structure FileWF (w : Tables) : Prop where
  pos : 0 < w.N_FILE_ENTRIES
  count : w.st.stat.distinct_files = w.file_heap.length
  linked : ∀ o h p, 0 < o → o ≤ w.obj_heap.length →
    p ∈ (obj_at w.obj_heap o).files.getD h [] →
    0 < p ∧ p ≤ w.file_heap.length ∧
      str_hash (file_at w.file_heap p).name w.N_FILE_ENTRIES = h ∧
      (file_at w.file_heap p).obj = o
  all : ∀ p, 0 < p → p ≤ w.file_heap.length →
    0 < (file_at w.file_heap p).obj ∧ (file_at w.file_heap p).obj ≤ w.obj_heap.length ∧
      p ∈ (obj_at w.obj_heap (file_at w.file_heap p).obj).files.getD
        (str_hash (file_at w.file_heap p).name w.N_FILE_ENTRIES) [] ∧
      (file_at w.file_heap p).number = p ∧
      (file_at w.file_heap p).fns.length = w.N_FN_ENTRIES
  names : ∀ p q, 0 < p → p ≤ w.file_heap.length → 0 < q → q ≤ w.file_heap.length →
    (file_at w.file_heap p).obj = (file_at w.file_heap q).obj →
    (file_at w.file_heap p).name = (file_at w.file_heap q).name → p = q

/-- Invariant of the function tables: `LPG_MALLOC` never returns null or an address twice;
the function records created so far are those at `fn_malloc 0 .. fn_malloc
(distinct_fns - 1)`, the record at `fn_malloc k` has number `k + 1`, belongs to a file
and is linked in the bucket of its name in the function table of that file; the tables
link nothing else; and no two records of one file have the same name. -/
structure FnWF (w : Tables) : Prop where
  pos : 0 < w.N_FN_ENTRIES
  malloc_inj : ∀ i j, w.fn_malloc i = w.fn_malloc j → i = j
  malloc_pos : ∀ i, w.fn_malloc i ≠ 0
  linked : ∀ f h a, 0 < f → f ≤ w.file_heap.length →
    a ∈ (file_at w.file_heap f).fns.getD h [] →
    str_hash (w.st.fn_mem a).name w.N_FN_ENTRIES = h ∧ (w.st.fn_mem a).file = f ∧
      ∃ k, k < w.st.stat.distinct_fns ∧ a = w.fn_malloc k
  all : ∀ k, k < w.st.stat.distinct_fns →
    (w.st.fn_mem (w.fn_malloc k)).number = k + 1 ∧
      0 < (w.st.fn_mem (w.fn_malloc k)).file ∧
      (w.st.fn_mem (w.fn_malloc k)).file ≤ w.file_heap.length ∧
      w.fn_malloc k ∈ (file_at w.file_heap (w.st.fn_mem (w.fn_malloc k)).file).fns.getD
        (str_hash (w.st.fn_mem (w.fn_malloc k)).name w.N_FN_ENTRIES) []
  names : ∀ j k, j < w.st.stat.distinct_fns → k < w.st.stat.distinct_fns →
    (w.st.fn_mem (w.fn_malloc j)).file = (w.st.fn_mem (w.fn_malloc k)).file →
    (w.st.fn_mem (w.fn_malloc j)).name = (w.st.fn_mem (w.fn_malloc k)).name → j = k

/-- Invariant of the three identity tables. -/
def IdWF (w : Tables) : Prop :=
  ObjWF w ∧ FileWF w ∧ FnWF w

/-- Freshly initialised identity tables: `init_obj_table` has run, no record exists, the
three counters are 0, the table sizes are not 0 and `LPG_MALLOC` never returns null or
an address twice. -/
def FreshTables (w : Tables) : Prop :=
  0 < w.N_OBJ_ENTRIES ∧ 0 < w.N_FILE_ENTRIES ∧ 0 < w.N_FN_ENTRIES ∧
    w.obj_table = List.replicate w.N_OBJ_ENTRIES [] ∧
    w.obj_heap = [] ∧ w.file_heap = [] ∧
    w.st.stat.distinct_objs = 0 ∧ w.st.stat.distinct_files = 0 ∧
    w.st.stat.distinct_fns = 0 ∧
    (∀ i j, w.fn_malloc i = w.fn_malloc j → i = j) ∧ (∀ i, w.fn_malloc i ≠ 0)

/-- The name under which `get_obj_node` and `new_obj_node` handle a module,
`di ? VG_(DebugInfo_get_filename)(di) : anonymous_obj`. -/
def obj_name_of : Option DebugInfo → List Int
  | some d => d.filename
  | none => anonymous_obj

/-- The key under which `get_fn_node_inseg` interns a function: the module name, the
constructed path of the file and the function name. -/
def fn_key (names : fn_names) : List Int × List Int × List Int :=
  (obj_name_of names.di, file_key names.dirname names.filename, names.fnname)

/-- The key of the function record at the address `a`: the name of the object of its
file, the name of its file and its name. -/
def key_of (w : Tables) (a : Nat) : List Int × List Int × List Int :=
  ((obj_at w.obj_heap (file_at w.file_heap (w.st.fn_mem a).file).obj).name,
    (file_at w.file_heap (w.st.fn_mem a).file).name, (w.st.fn_mem a).name)

/-- The tables `w1` extend the tables `w`: the allocator is the same, and the records of
`w` exist in `w1` with the same names, back-references and numbers. -/
def Extends (w w1 : Tables) : Prop :=
  w1.fn_malloc = w.fn_malloc ∧
    w.obj_heap.length ≤ w1.obj_heap.length ∧
    w.file_heap.length ≤ w1.file_heap.length ∧
    w.st.stat.distinct_fns ≤ w1.st.stat.distinct_fns ∧
    (∀ p, p ≤ w.obj_heap.length →
      (obj_at w1.obj_heap p).name = (obj_at w.obj_heap p).name) ∧
    (∀ p, p ≤ w.file_heap.length →
      (file_at w1.file_heap p).name = (file_at w.file_heap p).name ∧
        (file_at w1.file_heap p).obj = (file_at w.file_heap p).obj) ∧
    ∀ k, k < w.st.stat.distinct_fns →
      (w1.st.fn_mem (w.fn_malloc k)).name = (w.st.fn_mem (w.fn_malloc k)).name ∧
        (w1.st.fn_mem (w.fn_malloc k)).file = (w.st.fn_mem (w.fn_malloc k)).file ∧
        (w1.st.fn_mem (w.fn_malloc k)).number = (w.st.fn_mem (w.fn_malloc k)).number

/-- Invariant of the states that `get_fn_node` produces: the invariants of the identity
tables and of the context table hold, every function record that exists has its pure
Context, which is the Context of the table for the path of that function alone, and the
table has no Context for an address that `LPG_MALLOC` has not yet returned. -/
structure PureWF (w : Tables) : Prop where
  id : IdWF w
  tab : TableWF w.st
  pure : ∀ k, k < w.st.stat.distinct_fns →
    Linked w.st (w.st.fn_mem (w.fn_malloc k)).pure_cxt (w.fn_malloc k)
  absent : ∀ k, w.st.stat.distinct_fns ≤ k → ∀ i q, q ∈ w.st.cxts.table.getD i [] →
    (cxt_at w.st.cxt_heap q).fn ≠ [w.fn_malloc k]

/-- A sequence of `get_obj_node` calls: the final state and the records returned. -/
def get_obj_node_seq (w : Tables) : List (Option DebugInfo) → Tables × List Nat
  | [] => (w, [])
  | di :: rest =>
    let r := get_obj_node w di
    let r2 := get_obj_node_seq r.1 rest
    (r2.1, r.2 :: r2.2)

/-! ## Instruction names (`instrs.c`) -/

/-- The record `InstrDesc`. -/
structure InstrDesc where
  name : Option (List Int)
  lineno : Int
deriving DecidableEq, Inhabited

/-- The record `UniqueInstr`, with the fields that `instrs.c` uses; a null `name` or `desc`
is `none`. -/
structure UniqueInstr where
  addr : Nat
  size : Int
  name : Option (List Int)
  desc : Option InstrDesc
deriving DecidableEq, Inhabited

/-- Dereference of a `UniqueInstr*`: the pointer `p > 0` denotes `pool[p-1]`. -/
def instr_at (pool : List UniqueInstr) : Nat → UniqueInstr
  | 0 => default
  | p + 1 => pool.getD p default

/-- A write through a `UniqueInstr*`. -/
def instr_put (pool : List UniqueInstr) (p : Nat) (instr : UniqueInstr) : List UniqueInstr :=
  match p with
  | 0 => pool
  | q + 1 => pool.set q instr

/-- The search of `smart_hash_get` from the pointer `p` on. -/
def smart_hash_get_from (addr : Nat) : List UniqueInstr → Nat → Nat
  | [], _ => 0
  | instr :: rest, p =>
    if instr.addr = addr then p else smart_hash_get_from addr rest (p + 1)

/-- Modelled from the spec: `LPG_(smart_hash_get)(instrs_pool, addr, LPG_(instr_addr))`.
The `SmartHash` is code of this repository that is not among the sources; the spec calls
the pool a simple address-keyed cache.  The pool is the list of the records put so far,
and the result is the pointer to the first record whose key `instr_addr` is `addr`, or
null. -/
def smart_hash_get (pool : List UniqueInstr) (addr : Nat) : Nat :=
  smart_hash_get_from addr pool 1

/-- Modelled from the spec: `LPG_(smart_hash_put)(instrs_pool, instr, LPG_(instr_addr))`
for a record that `LPG_MALLOC` has just allocated: the record is stored, and its pointer
is the next one, `pool.length + 1`. -/
def smart_hash_put (pool : List UniqueInstr) (instr : UniqueInstr) : List UniqueInstr :=
  pool ++ [instr]

/-- The function `find_instr(addr)`. -/
def find_instr (pool : List UniqueInstr) (addr : Nat) : Nat :=
  smart_hash_get pool addr

/-- The function `get_instr(addr, size)`: returns the new pool and the record; `none` when
an assertion fails. -/
def get_instr (pool : List UniqueInstr) (addr : Nat) (size : Int) :
    Option (List UniqueInstr × Nat) :=
  let instr := find_instr pool addr
  if instr ≠ 0 then
    if (instr_at pool instr).addr ≠ addr then none
    else if size ≠ 0 then
      if (instr_at pool instr).size = 0 then
        some (instr_put pool instr { instr_at pool instr with size := size }, instr)
      else if (instr_at pool instr).size ≠ size then none
      else some (pool, instr)
    else some (pool, instr)
  else
    let instr : UniqueInstr := { addr := addr, size := size, name := none, desc := none }
    some (smart_hash_put pool instr, pool.length + 1)

/-- The loop of `next_line`: `fd` is what is left of the file, `buffer` the characters
stored so far (`idx` is their number).  Each pass asserts `idx < 1023`, reads one
character, ends at the end of the file (`s == 0`) or at a newline (10), drops a carriage
return (13) and stores any other character.  Returns the characters stored and what is
left of the file; `none` when the assertion fails. -/
def next_line_loop : List Int → List Int → Option (List Int × List Int)
  | [], buffer => if buffer.length < 1023 then some (buffer, []) else none
  | c :: fd, buffer =>
    if buffer.length < 1023 then
      if c = 10 then some (buffer, fd)
      else if c = 13 then next_line_loop fd buffer
      else next_line_loop fd (buffer ++ [c])
    else none

/-- The content of a zeroed buffer that holds the characters `buffer`, read as a C string:
the characters before the first NUL. -/
def c_string (buffer : List Int) : List Int :=
  buffer.takeWhile fun c => c ≠ 0

/-- The function `next_line(fd)`: `idx > 0 ? buffer : 0` and what is left of the file;
the line is null (`none`) when no character was stored.  The outer `none` is a failed
assertion. -/
def next_line (fd : List Int) : Option (Option (List Int) × List Int) :=
  (next_line_loop fd []).map fun r =>
    (if r.1.length > 0 then some (c_string r.1) else none, r.2)

/-- The body of the loop of `read_instr_names` for the line `line`; `strtoull16` is the
library conversion `VG_(strtoull16)(line, 0)`.  The colon is 58: `name` is what follows
the first colon, and `*name = 0` cuts `line` there. -/
def read_instr_line (strtoull16 : List Int → Nat) (pool : List UniqueInstr)
    (line : List Int) : Option (List UniqueInstr) :=
  if (58 : Int) ∈ line then
    let name := (line.dropWhile fun c => c ≠ 58).tail
    let line := line.takeWhile fun c => c ≠ 58
    let addr := strtoull16 line
    if addr ≠ 0 ∧ name.headD 0 ≠ 0 then
      (get_instr pool addr 0).map fun r =>
        instr_put r.1 r.2 { instr_at r.1 r.2 with name := some name }
    else some pool
  else some pool

/-- The loop `while ((line = next_line(fd)))` of `read_instr_names`, with a bound `fuel` on
the number of lines read: `none` if an assertion fails or the loop is still running
after `fuel` lines. -/
def read_instr_loop (strtoull16 : List Int → Nat) :
    Nat → List Int → List UniqueInstr → Option (List UniqueInstr)
  | 0, _, _ => none
  | fuel + 1, fd, pool =>
    match next_line fd with
    | none => none
    | some (none, _) => some pool
    | some (some line, fd1) =>
      (read_instr_line strtoull16 pool line).bind
        (read_instr_loop strtoull16 fuel fd1)

/-- The function `read_instr_names`.  `instrs_map` is `none` when the option
`LPG_(clo).instrs_map` is not set, `some none` when the file cannot be opened
(`tl_assert(0)`) and `some (some content)` for a file with the characters `content`.
Every line that is not null takes at least one character, so `content.length + 1` lines
are enough. -/
def read_instr_names (strtoull16 : List Int → Nat) (instrs_map : Option (Option (List Int)))
    (pool : List UniqueInstr) : Option (List UniqueInstr) :=
  match instrs_map with
  | none => some pool
  | some none => none
  | some (some content) => read_instr_loop strtoull16 (content.length + 1) content pool

/-- The characters of a line that `next_line` stores: all but the carriage returns. -/
def stored_chars (l : List Int) : List Int :=
  l.filter fun c => c ≠ 13

/-- The entry that a line of the mapping file denotes (the words of the specification:
`<hex-address>:<name>` with a non-zero address and a non-empty name), or `none` for a
malformed line.  The line is read without its carriage returns and up to its first NUL;
the address is the text before the first colon, the name the text after it. -/
def line_entry (strtoull16 : List Int → Nat) (l : List Int) : Option (Nat × List Int) :=
  let s := c_string (stored_chars l)
  if (58 : Int) ∈ s then
    let address := strtoull16 (s.takeWhile fun c => c ≠ 58)
    let name := (s.dropWhile fun c => c ≠ 58).tail
    if address ≠ 0 ∧ name ≠ [] then some (address, name) else none
  else none

/-- The content of a file with the lines `ls`, each ended by a newline, followed by the
characters `last` after the last newline. -/
def file_content (ls : List (List Int)) (last : List Int) : List Int :=
  (ls.map fun l => l ++ [10]).flatten ++ last

/-- What the pool holds for the address `addr`: `none` if `find_instr` finds no record,
and the name of the record (null or a string) otherwise. -/
def instr_name (pool : List UniqueInstr) (addr : Nat) : Option (Option (List Int)) :=
  if find_instr pool addr = 0 then none
  else some (instr_at pool (find_instr pool addr)).name

/-- The pool `pool2` holds the names that the lines `lines`, read in this order into the
pool `pool`, give: an address has the name of the last line that denotes an entry for it,
and what `pool` held if no line does. -/
def NamesAfter (strtoull16 : List Int → Nat) (lines : List (List Int))
    (pool pool2 : List UniqueInstr) : Prop :=
  (∀ pre l post a n, lines = pre ++ l :: post → line_entry strtoull16 l = some (a, n) →
      (∀ m ∈ post, ∀ n2, line_entry strtoull16 m ≠ some (a, n2)) →
      instr_name pool2 a = some (some n)) ∧
    ∀ a, (∀ m ∈ lines, ∀ n, line_entry strtoull16 m ≠ some (a, n)) →
      instr_name pool2 a = instr_name pool a

/-- The value of a hexadecimal digit, or `none`. -/
def hex_digit (c : Int) : Option Nat :=
  if 48 ≤ c ∧ c ≤ 57 then some (c - 48).toNat
  else if 97 ≤ c ∧ c ≤ 102 then some (c - 87).toNat
  else if 65 ≤ c ∧ c ≤ 70 then some (c - 55).toNat
  else none

/-- The loop `n = 16*n + digit` of the library conversion over the leading hexadecimal
digits, in `ULong` arithmetic. -/
def hex_loop : List Int → Nat → Nat
  | [], n => n
  | c :: s, n =>
    match hex_digit c with
    | some digit => hex_loop s ((16 * n + digit) % 2 ^ 64)
    | none => n

/-- The library conversion `VG_(strtoull16)(str, 0)` for a string without leading white
space, sign or `0x` prefix: the value of its leading hexadecimal digits.  It stands for
the conversion in the concrete runs; `read_instr_names` takes the conversion as a
parameter. -/
def hex_value (s : List Int) : Nat :=
  hex_loop s 0

/-! ## Buffers of the active-count array

The structure `fn_array` of the source is a size and a pointer to a buffer of counters.
`copy_current_fn_array` copies the pointer, and `resize_fn_array` frees the buffer that
`current_fn_active` points to.  The memory of the buffers is kept beside the tables. -/

/-- An `fn_array` structure as the source holds it: the size and the address of the buffer
`array` (`0` is null). -/
structure fn_array_ptr where
  size : Nat
  array : Nat
deriving DecidableEq, Inhabited

/-- The tables with the memory of the active-count buffers.  `array` is the address in
`current_fn_active.array`; the counters of that buffer are the counters of
`w.st.current_fn_active`.  `heap` is the buffer memory, the buffer at the address `p` is
`heap[p - 1]`: `some` counters for a buffer that is allocated (for the current buffer the
counters that it had when it became current), `none` once `VG_(free)` has freed it;
`LPG_MALLOC` returns the next address, and no address twice.  `arrs` are the `fn_array`
structures that a run has produced. -/
structure ArrayMem where
  w : Tables
  array : Nat
  heap : List (Option (List Nat))
  arrs : List fn_array_ptr

/-- The buffer at an address: `none` for null, for an address that was not allocated and
for a buffer that was freed. -/
def buf_at (heap : List (Option (List Nat))) : Nat → Option (List Nat)
  | 0 => none
  | p + 1 => heap.getD p none

/-- A write to the memory at an address. -/
def buf_put (heap : List (Option (List Nat))) (p : Nat) (b : Option (List Nat)) :
    List (Option (List Nat)) :=
  match p with
  | 0 => heap
  | q + 1 => heap.set q b

/-- The function `init_fn_array(a)`: the size is `N_INITIAL_FN_ARRAY_SIZE`, or
`distinct_fns + 1` if that is more; `a->array` is a new buffer of `size` zero counters.
Returns the memory and the structure written to `a`. -/
def init_fn_array (m : ArrayMem) : ArrayMem × fn_array_ptr :=
  let size := N_INITIAL_FN_ARRAY_SIZE
  let size := if size ≤ m.w.st.stat.distinct_fns then m.w.st.stat.distinct_fns + 1 else size
  ({ m with heap := m.heap ++ [some (List.replicate size 0)] },
    { size := size, array := m.heap.length + 1 })

/-- The function `copy_current_fn_array(dst)`: `dst->size = current_fn_active.size;
dst->array = current_fn_active.array`, the structure written to `dst`. -/
def copy_current_fn_array (m : ArrayMem) : fn_array_ptr :=
  { size := m.w.st.current_fn_active.size, array := m.array }

/-- The buffer memory with the counters of the current buffer written to it. -/
def current_heap (m : ArrayMem) : List (Option (List Nat)) :=
  if (buf_at m.heap m.array).isSome then
    buf_put m.heap m.array (some m.w.st.current_fn_active.array)
  else m.heap

/-- The memory side of `resize_fn_array`, for the tables `w1` after it: the copy loop
reads the buffer that `current_fn_active.array` points to and `VG_(free)` frees it, so
the result is `none` if that buffer is not allocated; the new buffer lies at the next
address. -/
def move_buffer (m : ArrayMem) (w1 : Tables) : Option ArrayMem :=
  if (buf_at m.heap m.array).isSome then
    some { m with
      w := w1
      heap := buf_put m.heap m.array none ++ [some w1.st.current_fn_active.array]
      array := m.heap.length + 1 }
  else none

/-- The function `resize_fn_array` on the memory. -/
def resize_fn_array_buf (m : ArrayMem) : Option ArrayMem :=
  (resize_fn_array m.w.st).bind fun st => move_buffer m { m.w with st := st }

/-- The function `set_current_fn_array(a)`: `current_fn_active` takes the size and the
buffer address of `a`, then `resize_fn_array` runs if `size <= distinct_fns`.  The
counters of the buffer that was current stay in the memory, those of the buffer of `a`
are the counters of `current_fn_active` from now on (the empty list if that buffer is not
allocated: every later read or write of it gives `none`). -/
def set_current_fn_array (m : ArrayMem) (a : fn_array_ptr) : Option ArrayMem :=
  let heap := current_heap m
  let m1 : ArrayMem := { m with
    heap := heap
    array := a.array
    w := { m.w with
      st := { m.w.st with
        current_fn_active := { size := a.size, array := (buf_at heap a.array).getD [] } } } }
  if m1.w.st.current_fn_active.size ≤ m1.w.st.stat.distinct_fns then resize_fn_array_buf m1
  else some m1

/-- The function `get_fn_node_inseg` on the memory.  `new_fn_node` calls `resize_fn_array`
at most once, and `resize_fn_array` alone increments the counter `fn_array_resizes`: the
buffer is moved exactly if the counter has changed. -/
def get_fn_node_inseg_buf (m : ArrayMem) (di : Option DebugInfo)
    (dirname filename fnname : List Int) : Option (ArrayMem × Nat) :=
  (get_fn_node_inseg m.w di dirname filename fnname).bind fun r =>
    if r.1.st.stat.fn_array_resizes = m.w.st.stat.fn_array_resizes then
      some ({ m with w := r.1 }, r.2)
    else (move_buffer m r.1).map fun m1 => (m1, r.2)

/-- The part of `push_cxt` from the growth test to `*top = fn` on the memory: the
increment `(*pactive)++` writes to the buffer that `current_fn_active.array` points to,
so the result is `none` if the increment is reached and that buffer is not allocated. -/
def push_cxt_extend_buf (m : ArrayMem) (fn : Nat) : Option ArrayMem :=
  let s := m.w.st
  let stk := if s.current_fn_stack.top + 1 = s.current_fn_stack.size
    then grow_fn_stack s.current_fn_stack else s.current_fn_stack
  if fn ≠ 0 ∧ stk.bottom.getD stk.top 0 = 0 ∧ (buf_at m.heap m.array).isNone then none
  else (push_cxt_extend s fn).map fun st => { m with w := { m.w with st := st } }

/-! ## Runs over the active-count array -/

/-- One event of a run over the active-count array: `init` is `init_fn_array(a)` for a new
`fn_array`, `copy` is `copy_current_fn_array(dst)` for a new `fn_array`, `install i` is
`set_current_fn_array(a)` for the `i`-th `fn_array` that the run has produced, `intern` is
`get_fn_node_inseg`, and `push k` is the part of `push_cxt` that holds the increment of
the active count, for the `k`-th function record created. -/
inductive ArrayOp where
  | init
  | copy
  | install (i : Nat)
  | intern (di : Option DebugInfo) (dirname filename fnname : List Int)
  | push (k : Nat)

/-- One event.  An `install` of a structure that was not produced and a `push` of a record
that does not exist leave the state as it is.  `none` when an assertion fails, when
`resize_fn_array` does not return, or when a buffer that is not allocated is read,
written or freed. -/
def array_step (m : ArrayMem) : ArrayOp → Option ArrayMem
  | ArrayOp.init => some { (init_fn_array m).1 with arrs := m.arrs ++ [(init_fn_array m).2] }
  | ArrayOp.copy => some { m with arrs := m.arrs ++ [copy_current_fn_array m] }
  | ArrayOp.install i =>
    match m.arrs[i]? with
    | none => some m
    | some a => set_current_fn_array m a
  | ArrayOp.intern di dirname filename fnname =>
    (get_fn_node_inseg_buf m di dirname filename fnname).map fun r => r.1
  | ArrayOp.push k =>
    if k < m.w.st.stat.distinct_fns then push_cxt_extend_buf m (m.w.fn_malloc k)
    else some m

/-- A run of events: the final state, or `none` if an event fails. -/
def array_run (m : ArrayMem) : List ArrayOp → Option ArrayMem
  | [] => some m
  | op :: rest => (array_step m op).bind fun m1 => array_run m1 rest

/-- The memory at the start of the program: no buffer is allocated and
`current_fn_active.array` is null. -/
def initial_mem (w : Tables) : ArrayMem :=
  { w := w, array := 0, heap := [], arrs := [] }

/-- The event installs nothing, or a structure whose buffer is allocated. -/
def live_install (m : ArrayMem) : ArrayOp → Bool
  | ArrayOp.install i =>
    match m.arrs[i]? with
    | none => true
    | some a => (buf_at m.heap a.array).isSome
  | _ => true

/-- Every `install` of the run installs a structure whose buffer is allocated at that
time: `resize_fn_array` has not freed it. -/
def live_installs (m : ArrayMem) : List ArrayOp → Bool
  | [] => true
  | op :: rest =>
    live_install m op &&
      match array_step m op with
      | none => true
      | some m1 => live_installs m1 rest

/-- Invariant of the runs over the active-count array: the invariant of the identity
tables; the current array has more counters than there are function records; the buffer
that `current_fn_active.array` points to is allocated and has `size` counters; and every
structure produced has a size of at least 1 and an address that was allocated, with a
buffer of `size` counters unless it was freed. -/
structure ArrayWF (m : ArrayMem) : Prop where
  id : IdWF m.w
  size : m.w.st.stat.distinct_fns < m.w.st.current_fn_active.size
  len : m.w.st.current_fn_active.array.length = m.w.st.current_fn_active.size
  cur : ∃ b, buf_at m.heap m.array = some b ∧ b.length = m.w.st.current_fn_active.size
  arrs : ∀ a, a ∈ m.arrs → 1 ≤ a.size ∧ a.array ≤ m.heap.length ∧
    ∀ b, buf_at m.heap a.array = some b → b.length = a.size

/-! ## Concrete states -/

/-- A function-record memory: the record at address `a` has sequence number `a`, and
the fields that `new_fn_node` clears are clear. -/
def fresh_fn_mem : Nat → fn_node := fun a =>
  { name := []
    number := a
    last_cxt := 0
    pure_cxt := 0
    file := 0
    next := 0
    is_malloc := false
    is_realloc := false
    is_free := false }

/-- A call stack of eight empty frames with `sp = 0`. -/
def fresh_call_stack : call_stack :=
  { size := 8
    entry := List.replicate 8 { cxt := 0, fn_sp := 0, other := 0 }
    sp := 0 }

/-- The call stack before the third of three nested pushes from `fresh_state`: frame 0
holds the save of the first push (no Context, depth 0), frame 1 the save of the second
push (Context 1, depth 1), and `sp = 2`. -/
def call_stack_depth2 : call_stack :=
  { size := 8
    entry := { cxt := 0, fn_sp := 0, other := 0 } :: { cxt := 1, fn_sp := 1, other := 0 } ::
      List.replicate 6 { cxt := 0, fn_sp := 0, other := 0 }
    sp := 2 }

/-- The state after `init_cxt_table` and `init_fn_stack`, with zeroed counters, an empty
call stack, no current Context and an active-count array of 16 zero counters. -/
def fresh_state : State :=
  { cxts := init_cxt_table
    cxt_heap := []
    fn_mem := fresh_fn_mem
    stat := default
    current_fn_stack := init_fn_stack
    current_call_stack := fresh_call_stack
    current_state_cxt := 0
    current_fn_active := { size := 16, array := List.replicate 16 0 } }

/-- Freshly initialised identity tables over `fresh_state`: table sizes 47, 53 and 87, no
object and no file record, function records allocated at the addresses 64, 128, 192, ..,
and a code scan that finds nothing. -/
def fresh_tables : Tables :=
  { st := fresh_state
    N_OBJ_ENTRIES := 47
    N_FILE_ENTRIES := 53
    N_FN_ENTRIES := 87
    obj_table := List.replicate 47 []
    obj_heap := []
    file_heap := []
    fn_malloc := fun n => 64 * (n + 1)
    runtime_resolve_addr := 0
    runtime_resolve_length := 0
    search_runtime_resolve := fun _ => none }

/-- The tables of `fresh_tables` with four functions counted and an active-count array of
two counters. -/
def small_array_tables : Tables :=
  { fresh_tables with
    st := { fresh_state with
      current_fn_active := { size := 2, array := [7, 9] }
      stat := { (default : Statistics) with distinct_fns := 4 } } }

/-- The locals of `get_fn_node` for a basic block of the function `fnname` in the file
`"a.c"` (no directory) of the module `"/bin/a"`, line 1. -/
def names_in_a (fnname : List Int) : fn_names :=
  { di := some { filename := [47, 98, 105, 110, 47, 97], text_avma := 4096,
                 text_size := 256, text_bias := 0 }
    dirname := []
    filename := [97, 46, 99]
    fnname := fnname
    line_num := 1 }

/-- The string `"main"`. -/
def main_name : List Int := [109, 97, 105, 110]

/-- The string `"foo"`. -/
def foo_name : List Int := [102, 111, 111]

/-- The string `"bar"`. -/
def bar_name : List Int := [98, 97, 114]

/-- The name of the `k`-th function of a program with many functions: three characters
from `'0'` (48) on, the digits of `k` to the base 64, lowest first. -/
def numbered_name (k : Nat) : List Int :=
  [((48 + k % 64 : Nat) : Int), ((48 + k / 64 % 64 : Nat) : Int),
    ((48 + k / 4096 : Nat) : Int)]

/-- The interning of the `k`-th function, in the file `"a.c"` of the module `"/bin/a"`. -/
def intern_numbered (k : Nat) : ArrayOp :=
  ArrayOp.intern (names_in_a []).di [] [97, 46, 99] (numbered_name k)

/-- Invariant of the run that interns the numbered functions after an array of 10071
counters was produced, installed and copied: `c` functions exist, the `k`-th is named
`numbered_name k`, the two structures of the run hold the buffer at the address 1, and
that buffer is the current one, with 10071 counters, or it has been freed. -/
structure NumberedWF (m : ArrayMem) (c : Nat) : Prop where
  wf : ArrayWF m
  count : m.w.st.stat.distinct_fns = c
  names : ∀ k, k < c → (m.w.st.fn_mem (m.w.fn_malloc k)).name = numbered_name k
  arrs : m.arrs = [{ size := 10071, array := 1 }, { size := 10071, array := 1 }]
  heap : 1 ≤ m.heap.length
  buffer : (m.array = 1 ∧ m.w.st.current_fn_active.size = 10071) ∨ buf_at m.heap 1 = none

/-! # Theorems -/


/-! ## List facts used by the table proofs -/

theorem getD_set_chain (l : List (List Nat)) (i j : Nat) (v : List Nat) (h : i < l.length) :
    (l.set i v).getD j [] = if i = j then v else l.getD j [] := by
  simp only [List.getD_eq_getElem?_getD, List.getElem?_set, h, if_true]
  split <;> simp

theorem flatten_set_cons_perm (l : List (List Nat)) (i c : Nat) (h : i < l.length) :
    (l.set i (c :: l.getD i [])).flatten.Perm (c :: l.flatten) := by
  induction l generalizing i with
  | nil => simp at h
  | cons a t ih =>
    cases i with
    | zero => simp
    | succ k =>
      have hk : k < t.length := by simpa using h
      have := ih k hk
      simp only [List.set_cons_succ, List.flatten_cons, List.getD_cons_succ]
      exact (List.Perm.append_left a this).trans (List.perm_middle)

theorem map_getD_range (l : List (List Nat)) :
    (List.range l.length).map (fun i => l.getD i []) = l := by
  apply List.ext_getElem
  · simp
  · intro n h1 h2
    simp [List.getD_eq_getElem?_getD, List.getElem?_eq_getElem h2]

/-! ## `resize_cxt_table` -/

theorem resize_link_length (heap : List Context) (n : Nat) (nt : List (List Nat)) (c : Nat) :
    (resize_link heap n nt c).length = nt.length := by
  simp [resize_link]

theorem resize_chain_length (heap : List Context) (n : Nat) (chain : List Nat)
    (nt : List (List Nat)) :
    (resize_chain heap n nt chain).length = nt.length := by
  induction chain generalizing nt with
  | nil => rfl
  | cons c t ih =>
    simp only [resize_chain, List.foldl_cons] at ih ⊢
    rw [ih, resize_link_length]

theorem resize_link_getD (heap : List Context) (n : Nat) (nt : List (List Nat)) (c j : Nat)
    (hl : nt.length = n) (hn : 0 < n) :
    (resize_link heap n nt c).getD j [] =
      if (cxt_at heap c).hash % n = j then c :: nt.getD j [] else nt.getD j [] := by
  have hlt : (cxt_at heap c).hash % n < nt.length := by
    rw [hl]; exact Nat.mod_lt _ hn
  simp only [resize_link]
  rw [getD_set_chain _ _ _ _ hlt]
  split
  · next h => subst h; rfl
  · rfl

theorem resize_link_perm (heap : List Context) (n : Nat) (nt : List (List Nat)) (c : Nat)
    (hl : nt.length = n) (hn : 0 < n) :
    (resize_link heap n nt c).flatten.Perm (c :: nt.flatten) := by
  have hlt : (cxt_at heap c).hash % n < nt.length := by
    rw [hl]; exact Nat.mod_lt _ hn
  exact flatten_set_cons_perm nt _ c hlt

theorem resize_chain_mem (heap : List Context) (n : Nat) (chain : List Nat)
    (nt : List (List Nat)) (hl : nt.length = n) (hn : 0 < n) (p j : Nat) :
    p ∈ (resize_chain heap n nt chain).getD j [] ↔
      p ∈ nt.getD j [] ∨ (p ∈ chain ∧ (cxt_at heap p).hash % n = j) := by
  induction chain generalizing nt with
  | nil => simp [resize_chain]
  | cons c t ih =>
    have hl2 : (resize_link heap n nt c).length = n := by rw [resize_link_length, hl]
    have := ih (resize_link heap n nt c) hl2
    simp only [resize_chain, List.foldl_cons] at this ⊢
    rw [this, resize_link_getD heap n nt c j hl hn]
    split
    · next h =>
      simp only [List.mem_cons]
      constructor
      · rintro ((rfl | h1) | h2)
        · exact Or.inr ⟨Or.inl rfl, h⟩
        · exact Or.inl h1
        · exact Or.inr ⟨Or.inr h2.1, h2.2⟩
      · rintro (h1 | ⟨rfl | h2, h3⟩)
        · exact Or.inl (Or.inr h1)
        · exact Or.inl (Or.inl rfl)
        · exact Or.inr ⟨h2, h3⟩
    · next h =>
      simp only [List.mem_cons]
      constructor
      · rintro (h1 | h2)
        · exact Or.inl h1
        · exact Or.inr ⟨Or.inr h2.1, h2.2⟩
      · rintro (h1 | ⟨rfl | h2, h3⟩)
        · exact Or.inl h1
        · exact absurd h3 h
        · exact Or.inr ⟨h2, h3⟩

theorem resize_chain_perm (heap : List Context) (n : Nat) (chain : List Nat)
    (nt : List (List Nat)) (hl : nt.length = n) (hn : 0 < n) :
    (resize_chain heap n nt chain).flatten.Perm (chain ++ nt.flatten) := by
  induction chain generalizing nt with
  | nil => simp [resize_chain]
  | cons c t ih =>
    have hl2 : (resize_link heap n nt c).length = n := by rw [resize_link_length, hl]
    have h1 := ih (resize_link heap n nt c) hl2
    simp only [resize_chain, List.foldl_cons] at h1 ⊢
    refine h1.trans ?_
    refine (List.Perm.append_left t (resize_link_perm heap n nt c hl hn)).trans ?_
    simp

theorem resize_buckets_length (heap : List Context) (n : Nat) (table : List (List Nat))
    (is : List Nat) (nt : List (List Nat)) :
    (resize_buckets heap n table nt is).length = nt.length := by
  induction is generalizing nt with
  | nil => rfl
  | cons i t ih =>
    simp only [resize_buckets, List.foldl_cons] at ih ⊢
    rw [ih, resize_chain_length]

theorem resize_buckets_mem (heap : List Context) (n : Nat) (table : List (List Nat))
    (is : List Nat) (nt : List (List Nat)) (hl : nt.length = n) (hn : 0 < n) (p j : Nat) :
    p ∈ (resize_buckets heap n table nt is).getD j [] ↔
      p ∈ nt.getD j [] ∨
        ((∃ i ∈ is, p ∈ table.getD i []) ∧ (cxt_at heap p).hash % n = j) := by
  induction is generalizing nt with
  | nil => simp [resize_buckets]
  | cons i t ih =>
    have hl2 : (resize_chain heap n nt (table.getD i [])).length = n := by
      rw [resize_chain_length, hl]
    have := ih (resize_chain heap n nt (table.getD i [])) hl2
    simp only [resize_buckets, List.foldl_cons] at this ⊢
    rw [this, resize_chain_mem heap n _ nt hl hn]
    simp only [List.mem_cons, exists_eq_or_imp]
    tauto

theorem resize_buckets_perm (heap : List Context) (n : Nat) (table : List (List Nat))
    (is : List Nat) (nt : List (List Nat)) (hl : nt.length = n) (hn : 0 < n) :
    (resize_buckets heap n table nt is).flatten.Perm
      ((is.map (fun i => table.getD i [])).flatten ++ nt.flatten) := by
  induction is generalizing nt with
  | nil => simp [resize_buckets]
  | cons i t ih =>
    have hl2 : (resize_chain heap n nt (table.getD i [])).length = n := by
      rw [resize_chain_length, hl]
    have h1 := ih (resize_chain heap n nt (table.getD i [])) hl2
    simp only [resize_buckets, List.foldl_cons] at h1 ⊢
    refine h1.trans ?_
    refine (List.Perm.append_left _ (resize_chain_perm heap n _ nt hl hn)).trans ?_
    simp only [List.map_cons, List.flatten_cons, List.append_assoc]
    rw [← List.append_assoc, ← List.append_assoc]
    exact List.Perm.append_right _ List.perm_append_comm


theorem getD_replicate_nil (n j : Nat) :
    (List.replicate n ([] : List Nat)).getD j [] = [] := by
  simp only [List.getD_eq_getElem?_getD, List.getElem?_replicate]
  split <;> rfl

theorem mem_getD_lt (l : List (List Nat)) (i p : Nat) (h : p ∈ l.getD i []) :
    i < l.length := by
  by_contra hc
  have : l[i]? = none := List.getElem?_eq_none (Nat.le_of_not_lt hc)
  simp [List.getD_eq_getElem?_getD, this] at h

theorem mem_flatten_iff_getD (l : List (List Nat)) (p : Nat) :
    p ∈ l.flatten ↔ ∃ i, p ∈ l.getD i [] := by
  constructor
  · intro h
    obtain ⟨c, hc, hp⟩ := List.mem_flatten.mp h
    obtain ⟨i, hi⟩ := List.mem_iff_getElem?.mp hc
    exact ⟨i, by simp [List.getD_eq_getElem?_getD, hi, hp]⟩
  · rintro ⟨i, hi⟩
    have hlt := mem_getD_lt l i p hi
    rw [List.getD_eq_getElem l [] hlt] at hi
    exact List.mem_flatten.mpr ⟨l[i], List.getElem_mem hlt, hi⟩

theorem resize_size (s : State) : (resize_cxt_table s).cxts.size = 2 * s.cxts.size + 3 := rfl

theorem resize_heap (s : State) : (resize_cxt_table s).cxt_heap = s.cxt_heap := rfl

theorem resize_entries (s : State) : (resize_cxt_table s).cxts.entries = s.cxts.entries := rfl

theorem resize_fn_mem (s : State) : (resize_cxt_table s).fn_mem = s.fn_mem := rfl

theorem resize_table_length (s : State) :
    (resize_cxt_table s).cxts.table.length = 2 * s.cxts.size + 3 := by
  simp [resize_cxt_table, resize_buckets_length]

theorem resize_mem (s : State) (hlen : s.cxts.table.length = s.cxts.size) (p j : Nat) :
    p ∈ (resize_cxt_table s).cxts.table.getD j [] ↔
      (∃ i, p ∈ s.cxts.table.getD i []) ∧
        (cxt_at s.cxt_heap p).hash % (2 * s.cxts.size + 3) = j := by
  simp only [resize_cxt_table]
  rw [resize_buckets_mem _ _ _ _ _ (List.length_replicate _ _) (by omega)]
  rw [getD_replicate_nil]
  constructor
  · rintro (h | ⟨⟨i, _, hi⟩, h2⟩)
    · simp at h
    · exact ⟨⟨i, hi⟩, h2⟩
  · rintro ⟨⟨i, hi⟩, h2⟩
    refine Or.inr ⟨⟨i, ?_, hi⟩, h2⟩
    have := mem_getD_lt _ _ _ hi
    rw [hlen] at this
    exact List.mem_range.mpr this

theorem resize_perm (s : State) (hlen : s.cxts.table.length = s.cxts.size) :
    (resize_cxt_table s).cxts.table.flatten.Perm s.cxts.table.flatten := by
  simp only [resize_cxt_table]
  refine (resize_buckets_perm _ _ _ _ _ (List.length_replicate _ _) (by omega)).trans ?_
  rw [← hlen, map_getD_range]
  simp

theorem linked_resize (s : State) (hwf : TableWF s) (p f : Nat) (h : Linked s p f) :
    Linked (resize_cxt_table s) p f := by
  obtain ⟨h1, h2⟩ := h
  refine ⟨?_, h2⟩
  rw [resize_mem s hwf.len, resize_size]
  refine ⟨⟨_, h1⟩, ?_⟩
  obtain ⟨g, hg, _⟩ := hwf.shape _ _ h1
  obtain ⟨_, _, _, _, hfn, hh⟩ := hg
  rw [hfn] at h2
  have : g = f := by simpa using h2
  rw [hh, this]

theorem resize_wf (s : State) (hwf : TableWF s) : TableWF (resize_cxt_table s) where
  len := by rw [resize_table_length, resize_size]
  pos := by rw [resize_size]; omega
  shape := by
    intro j p hp
    rw [resize_mem s hwf.len] at hp
    obtain ⟨⟨i, hi⟩, hj⟩ := hp
    obtain ⟨f, hf, _⟩ := hwf.shape i p hi
    refine ⟨f, hf, ?_⟩
    rw [resize_size, ← hf.2.2.2.2.2, ← hj]
  uniq := by
    intro i j p q hp hq he
    rw [resize_mem s hwf.len] at hp hq
    obtain ⟨⟨i1, hi1⟩, _⟩ := hp
    obtain ⟨⟨i2, hi2⟩, _⟩ := hq
    exact hwf.uniq i1 i2 p q hi1 hi2 he
  nodup := (resize_perm s hwf.len).nodup_iff.mpr hwf.nodup
  hint := by
    intro a ha
    exact linked_resize s hwf _ _ (hwf.hint a ha)


/-! ## `cxt_hash_val`, `is_cxt`, `new_cxt` at depth 1 -/

theorem cxt_hash_val_one (f : Nat) (rest : List Nat) (hf : f ≠ 0) :
    cxt_hash_val (f :: rest) 1 = hash_step 0 f := by
  simp [cxt_hash_val, cxt_hash_val_loop, hf]

theorem new_cxt_loop_one (f : Nat) (rest : List Nat) (hf : f ≠ 0) :
    new_cxt_loop (f :: rest) 0 [] 1 = (hash_step 0 f, [f]) := by
  simp [new_cxt_loop, hf]

theorem is_cxt_loop_zero (fn cxt_fn : List Nat) : is_cxt_loop fn cxt_fn 0 = true := by
  cases fn <;> simp [is_cxt_loop]

theorem is_cxt_one (h f g : Nat) (rest : List Nat) (c : Context) (hf : f ≠ 0)
    (hsize : c.size = 1) (hfn : c.fn = [g]) :
    is_cxt h (f :: rest) c = true ↔ h = c.hash ∧ g = f := by
  simp only [is_cxt, is_cxt_loop, hsize, hfn]
  by_cases hh : h = c.hash
  · by_cases hg : g = f
    · simp [hh, hg, hf, is_cxt_loop_zero]
    · simp [hh, hg, hf]
  · simp [hh]

theorem cxt_at_append_old (heap : List Context) (c : Context) (p : Nat) (hp : p ≤ heap.length) :
    cxt_at (heap ++ [c]) p = cxt_at heap p := by
  cases p with
  | zero => rfl
  | succ k =>
    have hk : k < heap.length := hp
    simp [cxt_at, List.getD_eq_getElem?_getD, List.getElem?_append, hk]

theorem cxt_at_append_new (heap : List Context) (c : Context) :
    cxt_at (heap ++ [c]) (heap.length + 1) = c := by
  simp [cxt_at, List.getD_eq_getElem?_getD]

theorem cxtFor_append (heap : List Context) (c : Context) (p f : Nat)
    (h : CxtFor heap p f) : CxtFor (heap ++ [c]) p f := by
  obtain ⟨h1, h2, h3, h4, h5, h6⟩ := h
  have := cxt_at_append_old heap c p h2
  refine ⟨h1, ?_, h3, ?_, ?_, ?_⟩
  · simp; omega
  · rw [this]; exact h4
  · rw [this]; exact h5
  · rw [this]; exact h6

/-! ## The chain walk -/

theorem chain_search_spec (heap : List Context) (hash : Nat) (fn : List Nat)
    (chain : List Nat) :
    (chain_search heap hash fn chain = 0 ∧
        ∀ p ∈ chain, p ≠ 0 → is_cxt hash fn (cxt_at heap p) = false) ∨
      (chain_search heap hash fn chain ∈ chain ∧
        is_cxt hash fn (cxt_at heap (chain_search heap hash fn chain)) = true) := by
  induction chain with
  | nil => left; simp [chain_search]
  | cons c t ih =>
    simp only [chain_search]
    by_cases hc : is_cxt hash fn (cxt_at heap c) = true
    · right; simp [hc]
    · simp only [hc]
      rcases ih with ⟨h1, h2⟩ | ⟨h1, h2⟩
      · left
        refine ⟨by simpa using h1, ?_⟩
        intro p hp hp0
        rcases List.mem_cons.mp hp with rfl | hp
        · simpa using hc
        · exact h2 p hp hp0
      · right
        exact ⟨by simpa using List.mem_cons_of_mem _ h1, by simpa using h2⟩


/-! ## `new_cxt` -/

theorem new_cxt_check_wf (s : State) (hwf : TableWF s) : TableWF (new_cxt_check s) := by
  have h1 : TableWF { s with cxts := { s.cxts with entries := s.cxts.entries + 1 } } :=
    ⟨hwf.len, hwf.pos, hwf.shape, hwf.uniq, hwf.nodup, hwf.hint⟩
  unfold new_cxt_check
  dsimp only
  split
  · exact resize_wf _ h1
  · exact h1

theorem new_cxt_check_heap (s : State) : (new_cxt_check s).cxt_heap = s.cxt_heap := by
  unfold new_cxt_check
  dsimp only
  split <;> rfl

theorem new_cxt_check_fn_mem (s : State) : (new_cxt_check s).fn_mem = s.fn_mem := by
  unfold new_cxt_check
  dsimp only
  split <;> rfl

theorem new_cxt_check_mem (s : State) (hwf : TableWF s) (p j : Nat)
    (h : p ∈ (new_cxt_check s).cxts.table.getD j []) : ∃ i, p ∈ s.cxts.table.getD i [] := by
  have h1 : TableWF { s with cxts := { s.cxts with entries := s.cxts.entries + 1 } } :=
    ⟨hwf.len, hwf.pos, hwf.shape, hwf.uniq, hwf.nodup, hwf.hint⟩
  unfold new_cxt_check at h
  dsimp only at h
  split at h
  · exact ((resize_mem _ h1.len p j).mp h).1
  · exact ⟨j, h⟩

theorem new_cxt_check_linked (s : State) (hwf : TableWF s) (p f : Nat) (h : Linked s p f) :
    Linked (new_cxt_check s) p f := by
  have h1 : TableWF { s with cxts := { s.cxts with entries := s.cxts.entries + 1 } } :=
    ⟨hwf.len, hwf.pos, hwf.shape, hwf.uniq, hwf.nodup, hwf.hint⟩
  unfold new_cxt_check
  dsimp only
  split
  · exact linked_resize _ h1 p f h
  · exact h

theorem new_cxt_link_mem (s : State) (hwf : TableWF s) (hash : Nat) (fns : List Nat)
    (size q j : Nat) :
    q ∈ (new_cxt_link s hash fns size).1.cxts.table.getD j [] ↔
      (q = s.cxt_heap.length + 1 ∧ hash % s.cxts.size = j) ∨ q ∈ s.cxts.table.getD j [] := by
  have hlt : hash % s.cxts.size < s.cxts.table.length := by
    rw [hwf.len]; exact Nat.mod_lt _ hwf.pos
  simp only [new_cxt_link]
  rw [getD_set_chain _ _ _ _ hlt]
  split
  · next h => subst h; simp
  · next h => simp [h]

theorem new_cxt_link_wf (s : State) (hwf : TableWF s) (f : Nat) (hf : f ≠ 0)
    (habs : ∀ i q, q ∈ s.cxts.table.getD i [] → (cxt_at s.cxt_heap q).fn ≠ [f]) :
    TableWF (new_cxt_link s (hash_step 0 f) [f] 1).1 ∧
      Linked (new_cxt_link s (hash_step 0 f) [f] 1).1 (s.cxt_heap.length + 1) f ∧
      (∀ q g, Linked s q g → Linked (new_cxt_link s (hash_step 0 f) [f] 1).1 q g) := by
  have hlt : hash_step 0 f % s.cxts.size < s.cxts.table.length := by
    rw [hwf.len]; exact Nat.mod_lt _ hwf.pos
  have hsize : (new_cxt_link s (hash_step 0 f) [f] 1).1.cxts.size = s.cxts.size := rfl
  have hheap : (new_cxt_link s (hash_step 0 f) [f] 1).1.cxt_heap =
      s.cxt_heap ++ [{ size := 1, base_number := s.stat.context_counter,
                       hash := hash_step 0 f, fn := [f] }] := rfl
  have hmem : (new_cxt_link s (hash_step 0 f) [f] 1).1.fn_mem = s.fn_mem := rfl
  have hold : ∀ j q, q ∈ s.cxts.table.getD j [] →
      cxt_at (new_cxt_link s (hash_step 0 f) [f] 1).1.cxt_heap q = cxt_at s.cxt_heap q := by
    intro j q hq
    obtain ⟨g, hg, _⟩ := hwf.shape j q hq
    rw [hheap]
    exact cxt_at_append_old _ _ _ hg.2.1
  have hnew : cxt_at (new_cxt_link s (hash_step 0 f) [f] 1).1.cxt_heap
      (s.cxt_heap.length + 1) = { size := 1, base_number := s.stat.context_counter,
                                  hash := hash_step 0 f, fn := [f] } := by
    rw [hheap]; exact cxt_at_append_new _ _
  have hmono : ∀ q g, Linked s q g → Linked (new_cxt_link s (hash_step 0 f) [f] 1).1 q g := by
    intro q g hq
    refine ⟨?_, ?_⟩
    · rw [new_cxt_link_mem s hwf, hsize]
      exact Or.inr hq.1
    · rw [hold _ q hq.1]; exact hq.2
  refine ⟨?_, ?_, hmono⟩
  · refine ⟨?_, ?_, ?_, ?_, ?_, ?_⟩
    · simp only [new_cxt_link, List.length_set]; exact hwf.len
    · exact hwf.pos
    · intro j q hq
      rw [new_cxt_link_mem s hwf] at hq
      rcases hq with ⟨rfl, hj⟩ | hq
      · refine ⟨f, ⟨by omega, ?_, hf, ?_, ?_, ?_⟩, ?_⟩
        · rw [hheap]; simp
        · rw [hnew]
        · rw [hnew]
        · rw [hnew]
        · rw [hsize]; exact hj
      · obtain ⟨g, hg, hj⟩ := hwf.shape j q hq
        refine ⟨g, ?_, ?_⟩
        · rw [hheap]; exact cxtFor_append _ _ _ _ hg
        · rw [hsize]; exact hj
    · intro i j p q hp hq he
      rw [new_cxt_link_mem s hwf] at hp hq
      rcases hp with ⟨rfl, _⟩ | hp <;> rcases hq with ⟨rfl, _⟩ | hq
      · rfl
      · rw [hnew, hold _ q hq] at he
        exact absurd he.symm (habs j q hq)
      · rw [hnew, hold _ p hp] at he
        exact absurd he (habs i p hp)
      · rw [hold _ p hp, hold _ q hq] at he
        exact hwf.uniq i j p q hp hq he
    · have hperm : (new_cxt_link s (hash_step 0 f) [f] 1).1.cxts.table.flatten.Perm
          ((s.cxt_heap.length + 1) :: s.cxts.table.flatten) :=
        flatten_set_cons_perm _ _ _ hlt
      rw [hperm.nodup_iff, List.nodup_cons]
      refine ⟨?_, hwf.nodup⟩
      intro hin
      obtain ⟨i, hi⟩ := (mem_flatten_iff_getD _ _).mp hin
      obtain ⟨g, hg, _⟩ := hwf.shape i _ hi
      have := hg.2.1
      omega
    · intro a ha
      rw [hmem] at ha ⊢
      exact hmono _ _ (hwf.hint a ha)
  · refine ⟨?_, ?_⟩
    · rw [new_cxt_link_mem s hwf, hsize]
      exact Or.inl ⟨rfl, rfl⟩
    · rw [hnew]

theorem new_cxt_cons (s : State) (f : Nat) (rest : List Nat) (hf : f ≠ 0) :
    new_cxt s (f :: rest) = new_cxt_link (new_cxt_check s) (hash_step 0 f) [f] 1 := by
  simp [new_cxt, hf, new_cxt_loop_one]


/-! ## `get_cxt` -/

theorem linked_congr (s t : State) (hc : t.cxts = s.cxts) (hh : t.cxt_heap = s.cxt_heap)
    (p f : Nat) (h : Linked s p f) : Linked t p f := by
  unfold Linked at h ⊢
  rw [hc, hh]
  exact h

theorem wf_congr (s t : State) (hwf : TableWF s) (hc : t.cxts = s.cxts)
    (hh : t.cxt_heap = s.cxt_heap)
    (hm : ∀ a, (t.fn_mem a).last_cxt ≠ 0 → Linked s (t.fn_mem a).last_cxt a) :
    TableWF t where
  len := by rw [hc]; exact hwf.len
  pos := by rw [hc]; exact hwf.pos
  shape := by rw [hc, hh]; exact hwf.shape
  uniq := by rw [hc, hh]; exact hwf.uniq
  nodup := by rw [hc]; exact hwf.nodup
  hint := fun a ha => linked_congr s t hc hh _ _ (hm a ha)

theorem linked_is_cxt (s : State) (hwf : TableWF s) (p f : Nat) (rest : List Nat)
    (hf : f ≠ 0) (h : Linked s p f) :
    is_cxt (hash_step 0 f) (f :: rest) (cxt_at s.cxt_heap p) = true := by
  obtain ⟨g, hg, _⟩ := hwf.shape _ _ h.1
  obtain ⟨_, _, _, h4, h5, h6⟩ := hg
  have hgf : g = f := by
    have := h.2; rw [h5] at this; simpa using this
  rw [is_cxt_one _ f g rest _ hf h4 h5]
  exact ⟨by rw [h6, hgf], hgf⟩

theorem is_cxt_linked (s : State) (hwf : TableWF s) (p f : Nat) (rest : List Nat)
    (hf : f ≠ 0) (hp : p ∈ s.cxts.table.getD (hash_step 0 f % s.cxts.size) [])
    (h : is_cxt (hash_step 0 f) (f :: rest) (cxt_at s.cxt_heap p) = true) :
    Linked s p f := by
  obtain ⟨g, hg, _⟩ := hwf.shape _ _ hp
  obtain ⟨_, _, _, h4, h5, h6⟩ := hg
  rw [is_cxt_one _ f g rest _ hf h4 h5] at h
  exact ⟨hp, by rw [h5, h.2]⟩

theorem linked_unique (s : State) (hwf : TableWF s) (p q f : Nat)
    (hp : Linked s p f) (hq : Linked s q f) : p = q :=
  hwf.uniq _ _ p q hp.1 hq.1 (by rw [hp.2, hq.2])

theorem linked_of_fn (s : State) (hwf : TableWF s) (i p f : Nat)
    (hp : p ∈ s.cxts.table.getD i []) (hfn : (cxt_at s.cxt_heap p).fn = [f]) :
    Linked s p f := by
  obtain ⟨g, hg, hi⟩ := hwf.shape _ _ hp
  have hgf : g = f := by
    have := hg.2.2.2.2.1; rw [hfn] at this; simpa using this.symm
  subst hgf
  subst hi
  exact ⟨hp, hfn⟩

theorem linked_pos (s : State) (hwf : TableWF s) (p f : Nat) (h : Linked s p f) : p ≠ 0 := by
  obtain ⟨g, hg, _⟩ := hwf.shape _ _ h.1
  have := hg.1
  omega

/-- The table lookup of `get_cxt` followed by `new_cxt` on a miss. -/
theorem lookup_spec (s : State) (hwf : TableWF s) (f : Nat) (rest : List Nat) (hf : f ≠ 0)
    (r : State × Nat)
    (hr : r = if chain_search s.cxt_heap (hash_step 0 f) (f :: rest)
          (s.cxts.table.getD (hash_step 0 f % s.cxts.size) []) = 0
        then new_cxt s (f :: rest)
        else (s, chain_search s.cxt_heap (hash_step 0 f) (f :: rest)
          (s.cxts.table.getD (hash_step 0 f % s.cxts.size) [])) ) :
    TableWF r.1 ∧ Linked r.1 r.2 f ∧ (∀ q g, Linked s q g → Linked r.1 q g) ∧
      (∀ q, Linked s q f → r = (s, q)) ∧ r.1.fn_mem = s.fn_mem := by
  rcases chain_search_spec s.cxt_heap (hash_step 0 f) (f :: rest)
      (s.cxts.table.getD (hash_step 0 f % s.cxts.size) []) with ⟨h0, hnone⟩ | ⟨hin, hok⟩
  · -- miss: a new Context is created
    rw [if_pos h0, new_cxt_cons s f rest hf] at hr
    have habs : ∀ i q, q ∈ s.cxts.table.getD i [] → (cxt_at s.cxt_heap q).fn ≠ [f] := by
      intro i q hq hfn
      have hl := linked_of_fn s hwf i q f hq hfn
      have h1 := linked_is_cxt s hwf q f rest hf hl
      have h2 := hnone q hl.1 (linked_pos s hwf q f hl)
      rw [h1] at h2
      exact absurd h2 (by simp)
    have hwf2 := new_cxt_check_wf s hwf
    have habs2 : ∀ i q, q ∈ (new_cxt_check s).cxts.table.getD i [] →
        (cxt_at (new_cxt_check s).cxt_heap q).fn ≠ [f] := by
      intro i q hq
      obtain ⟨j, hj⟩ := new_cxt_check_mem s hwf q i hq
      rw [new_cxt_check_heap]
      exact habs j q hj
    obtain ⟨k1, k2, k3⟩ := new_cxt_link_wf (new_cxt_check s) hwf2 f hf habs2
    subst hr
    refine ⟨k1, ?_, ?_, ?_, ?_⟩
    · exact k2
    · intro q g hq
      exact k3 q g (new_cxt_check_linked s hwf q g hq)
    · intro q hq
      exact absurd hq.2 (habs _ q hq.1)
    · exact new_cxt_check_fn_mem s
  · -- hit in the chain
    have hl := is_cxt_linked s hwf _ f rest hf hin hok
    have hne := linked_pos s hwf _ f hl
    rw [if_neg hne] at hr
    subst hr
    refine ⟨hwf, hl, fun q g hq => hq, ?_, rfl⟩
    intro q hq
    rw [linked_unique s hwf _ q f hl hq]


theorem fn_node_last_cxt_eta (n : fn_node) : { n with last_cxt := n.last_cxt } = n := rfl

theorem get_cxt_miss_spec (s : State) (hwf : TableWF s) (f : Nat) (rest : List Nat)
    (hf : f ≠ 0) :
    TableWF (get_cxt_miss s (f :: rest) (hash_step 0 f)).1 ∧
      Linked (get_cxt_miss s (f :: rest) (hash_step 0 f)).1
        (get_cxt_miss s (f :: rest) (hash_step 0 f)).2 f ∧
      (∀ q g, Linked s q g →
        Linked (get_cxt_miss s (f :: rest) (hash_step 0 f)).1 q g) ∧
      (∀ q, Linked s q f → (get_cxt_miss s (f :: rest) (hash_step 0 f)).2 = q) ∧
      (∀ q, Linked s q f → (s.fn_mem f).last_cxt = q →
        get_cxt_miss s (f :: rest) (hash_step 0 f) =
          (set_misses s (s.stat.cxt_lru_misses + 1), q)) := by
  have hwfm : TableWF (set_misses s (s.stat.cxt_lru_misses + 1)) :=
    wf_congr s _ hwf rfl rfl (fun a ha => hwf.hint a ha)
  obtain ⟨k1, k2, k3, k4, k5⟩ :=
    lookup_spec (set_misses s (s.stat.cxt_lru_misses + 1)) hwfm f rest hf _ rfl
  have hlm : ∀ q g, Linked s q g → Linked (set_misses s (s.stat.cxt_lru_misses + 1)) q g :=
    fun q g h => linked_congr s _ rfl rfl q g h
  refine ⟨?_, ?_, ?_, ?_, ?_⟩
  · refine wf_congr _ _ k1 rfl rfl ?_
    intro a ha
    by_cases hfa : a = f
    · subst hfa
      simp only [get_cxt_miss, set_misses, List.headD_cons, Function.update_same]
      exact k2
    · have hq : ((get_cxt_miss s (f :: rest) (hash_step 0 f)).1.fn_mem a) =
          s.fn_mem a := by
        simp only [get_cxt_miss, List.headD_cons]
        rw [Function.update_noteq hfa]
        exact congrFun k5 a
      rw [hq] at ha ⊢
      exact k3 _ _ (hlm _ _ (hwf.hint a ha))
  · exact linked_congr _ _ rfl rfl _ _ k2
  · intro q g hq
    exact linked_congr _ _ rfl rfl _ _ (k3 q g (hlm q g hq))
  · intro q hq
    have := k4 q (hlm q f hq)
    exact congrArg Prod.snd this
  · intro q hq hlast
    have := k4 q (hlm q f hq)
    simp only [get_cxt_miss, set_misses, List.headD_cons] at this ⊢
    rw [this]
    simp only
    rw [← hlast, fn_node_last_cxt_eta, Function.update_eq_self]

theorem get_cxt_cons (s : State) (f : Nat) (rest : List Nat) (hf : f ≠ 0) :
    get_cxt s (f :: rest) =
      if (s.fn_mem f).last_cxt ≠ 0 ∧
          is_cxt (hash_step 0 f) (f :: rest) (cxt_at s.cxt_heap (s.fn_mem f).last_cxt) = true
      then (s, (s.fn_mem f).last_cxt)
      else get_cxt_miss s (f :: rest) (hash_step 0 f) := by
  simp [get_cxt, hf, cxt_hash_val_one]

theorem get_cxt_nocache_cons (s : State) (f : Nat) (rest : List Nat) (hf : f ≠ 0) :
    get_cxt_nocache s (f :: rest) = get_cxt_miss s (f :: rest) (hash_step 0 f) := by
  simp [get_cxt_nocache, hf, cxt_hash_val_one]

theorem get_cxt_null (s : State) (fn : List Nat) (h : fn.headD 0 = 0) :
    get_cxt s fn = (s, 0) := by
  unfold get_cxt
  dsimp only
  rw [if_pos h]

theorem get_cxt_nocache_null (s : State) (fn : List Nat) (h : fn.headD 0 = 0) :
    get_cxt_nocache s fn = (s, 0) := by
  unfold get_cxt_nocache
  dsimp only
  rw [if_pos h]

theorem get_cxt_spec (s : State) (hwf : TableWF s) (f : Nat) (rest : List Nat)
    (hf : f ≠ 0) :
    TableWF (get_cxt s (f :: rest)).1 ∧
      Linked (get_cxt s (f :: rest)).1 (get_cxt s (f :: rest)).2 f ∧
      (∀ q g, Linked s q g → Linked (get_cxt s (f :: rest)).1 q g) ∧
      (∀ q, Linked s q f → (get_cxt s (f :: rest)).2 = q) := by
  rw [get_cxt_cons s f rest hf]
  obtain ⟨m1, m2, m3, m4, _⟩ := get_cxt_miss_spec s hwf f rest hf
  split
  · next h =>
    have hl := hwf.hint f h.1
    refine ⟨hwf, hl, fun q g hq => hq, ?_⟩
    intro q hq
    exact linked_unique s hwf _ q f hl hq
  · exact ⟨m1, m2, m3, m4⟩

theorem get_cxt_wf (s : State) (hwf : TableWF s) (fn : List Nat) :
    TableWF (get_cxt s fn).1 := by
  cases fn with
  | nil => rw [get_cxt_null s [] rfl]; exact hwf
  | cons f rest =>
    by_cases hf : f = 0
    · rw [get_cxt_null s (f :: rest) hf]; exact hwf
    · exact (get_cxt_spec s hwf f rest hf).1

theorem get_cxt_mono (s : State) (hwf : TableWF s) (fn : List Nat) (q g : Nat)
    (h : Linked s q g) : Linked (get_cxt s fn).1 q g := by
  cases fn with
  | nil => rw [get_cxt_null s [] rfl]; exact h
  | cons f rest =>
    by_cases hf : f = 0
    · rw [get_cxt_null s (f :: rest) hf]; exact h
    · exact (get_cxt_spec s hwf f rest hf).2.2.1 q g h

/-- With the invariant, the resolver without front-cache returns what `get_cxt` returns
and reaches the same state up to the miss counter. -/
theorem get_cxt_nocache_eq (s : State) (hwf : TableWF s) (fn : List Nat) :
    ∃ m, get_cxt_nocache s fn = (set_misses (get_cxt s fn).1 m, (get_cxt s fn).2) := by
  by_cases h0 : fn.headD 0 = 0
  · rw [get_cxt_null s fn h0, get_cxt_nocache_null s fn h0]
    exact ⟨s.stat.cxt_lru_misses, rfl⟩
  · cases fn with
    | nil => exact absurd rfl h0
    | cons f rest =>
      have hf : f ≠ 0 := h0
      rw [get_cxt_cons s f rest hf, get_cxt_nocache_cons s f rest hf]
      split
      · next h =>
        have hl := hwf.hint f h.1
        refine ⟨s.stat.cxt_lru_misses + 1, ?_⟩
        exact (get_cxt_miss_spec s hwf f rest hf).2.2.2.2 _ hl rfl
      · exact ⟨(get_cxt_miss s (f :: rest) (hash_step 0 f)).1.stat.cxt_lru_misses, rfl⟩


/-! ## Runs keep the invariant -/

theorem initial_wf (s : State) (h : Initial s) : TableWF s := by
  obtain ⟨h1, h2, h3⟩ := h
  have hget : ∀ i, s.cxts.table.getD i [] = [] := by
    intro i; rw [h1]; exact getD_replicate_nil _ _
  refine ⟨?_, ?_, ?_, ?_, ?_, ?_⟩
  · rw [h1]; exact List.length_replicate _ _
  · rw [h1]; show 0 < N_CXT_INITIAL_ENTRIES; unfold N_CXT_INITIAL_ENTRIES; omega
  · intro i p hp; rw [hget] at hp; simp at hp
  · intro i j p q hp; rw [hget] at hp; simp at hp
  · rw [List.nodup_iff_count_le_one]
    intro a
    by_cases ha : a ∈ s.cxts.table.flatten
    · obtain ⟨i, hi⟩ := (mem_flatten_iff_getD _ _).mp ha
      rw [hget] at hi; simp at hi
    · rw [List.count_eq_zero_of_not_mem ha]; omega
  · intro a ha; exact absurd (h3 a) ha

theorem get_cxt_seq_spec (paths : List (List Nat)) (s : State) (hwf : TableWF s) :
    TableWF (get_cxt_seq s paths).1 ∧
      (∀ q g, Linked s q g → Linked (get_cxt_seq s paths).1 q g) ∧
      ∀ k, k < paths.length → (paths.getD k []).headD 0 ≠ 0 →
        Linked (get_cxt_seq s paths).1 ((get_cxt_seq s paths).2.getD k 0)
          ((paths.getD k []).headD 0) := by
  induction paths generalizing s with
  | nil => exact ⟨hwf, fun q g h => h, fun k hk => absurd hk (by simp)⟩
  | cons fn rest ih =>
    have hwf1 := get_cxt_wf s hwf fn
    obtain ⟨i1, i2, i3⟩ := ih (get_cxt s fn).1 hwf1
    refine ⟨i1, ?_, ?_⟩
    · intro q g hq
      exact i2 q g (get_cxt_mono s hwf fn q g hq)
    · intro k hk hne
      cases k with
      | zero =>
        simp only [List.getD_cons_zero] at hne
        simp only [get_cxt_seq, List.getD_cons_zero]
        cases fn with
        | nil => exact absurd rfl hne
        | cons f tl =>
          have hf : f ≠ 0 := hne
          exact i2 _ _ (get_cxt_spec s hwf f tl hf).2.1
      | succ k =>
        simp only [List.getD_cons_succ] at hne
        simp only [get_cxt_seq, List.getD_cons_succ]
        exact i3 k (by simpa using hk) hne

theorem push_cxt_save_frame (s s1 : State) (h : push_cxt_save s = some s1) :
    s1.cxts = s.cxts ∧ s1.cxt_heap = s.cxt_heap ∧ s1.fn_mem = s.fn_mem ∧
      s1.stat = s.stat ∧ s1.current_fn_stack = s.current_fn_stack ∧
      s1.current_fn_active = s.current_fn_active ∧
      s1.current_state_cxt = s.current_state_cxt := by
  unfold push_cxt_save at h
  dsimp only at h
  split at h
  · exact absurd h (by simp)
  · split at h
    · exact absurd h (by simp)
    · cases h
      exact ⟨rfl, rfl, rfl, rfl, rfl, rfl, rfl⟩

theorem push_cxt_extend_frame (s s1 : State) (fn : Nat) (h : push_cxt_extend s fn = some s1) :
    s1.cxts = s.cxts ∧ s1.cxt_heap = s.cxt_heap ∧ s1.fn_mem = s.fn_mem ∧
      s1.stat = s.stat ∧ s1.current_call_stack = s.current_call_stack ∧
      s1.current_state_cxt = s.current_state_cxt := by
  unfold push_cxt_extend at h
  dsimp only at h
  rw [Option.map_eq_some'] at h
  obtain ⟨a, _, ha⟩ := h
  subst ha
  exact ⟨rfl, rfl, rfl, rfl, rfl, rfl⟩

theorem push_cxt_resolve_wf (s : State) (hwf : TableWF s) :
    TableWF (push_cxt_resolve get_cxt s) := by
  have := get_cxt_wf s hwf (fn_path s.current_fn_stack.bottom s.current_fn_stack.top)
  exact wf_congr _ _ this rfl rfl (fun a ha => this.hint a ha)

theorem push_cxt_wf (s s1 : State) (fn : Nat) (hwf : TableWF s)
    (h : push_cxt_with get_cxt s fn = some s1) : TableWF s1 := by
  unfold push_cxt_with at h
  rw [Option.bind_eq_some] at h
  obtain ⟨s2, h2, h3⟩ := h
  obtain ⟨f1, f2, f3, _⟩ := push_cxt_save_frame s s2 h2
  have hwf2 : TableWF s2 := wf_congr s s2 hwf f1 f2 (by rw [f3]; exact hwf.hint)
  split at h3
  · cases h3; exact hwf2
  · rw [Option.map_eq_some'] at h3
    obtain ⟨s3, h4, h5⟩ := h3
    obtain ⟨g1, g2, g3, _⟩ := push_cxt_extend_frame s2 s3 fn h4
    have hwf3 : TableWF s3 := wf_congr s2 s3 hwf2 g1 g2 (by rw [g3]; exact hwf2.hint)
    subst h5
    exact push_cxt_resolve_wf s3 hwf3

theorem run_call_wf (s s1 : State) (c : Call) (p : Nat) (hwf : TableWF s)
    (h : run_call get_cxt s c = some (s1, p)) : TableWF s1 := by
  cases c with
  | get_cxt fn =>
    simp only [run_call, Option.some.injEq] at h
    have h1 : s1 = (get_cxt s fn).1 := by rw [h]
    rw [h1]
    exact get_cxt_wf s hwf fn
  | push_cxt fn =>
    simp only [run_call, Option.map_eq_some'] at h
    obtain ⟨s2, h2, h3⟩ := h
    cases h3
    exact push_cxt_wf s s1 fn hwf h2
  | collab stk cs cxt act =>
    simp only [run_call, Option.some.injEq, Prod.mk.injEq] at h
    rw [← h.1]
    exact wf_congr s _ hwf rfl rfl (fun a ha => hwf.hint a ha)

theorem run_wf (calls : List Call) (s s1 : State) (rs : List Nat) (hwf : TableWF s)
    (h : run get_cxt s calls = some (s1, rs)) : TableWF s1 := by
  induction calls generalizing s rs with
  | nil =>
    simp only [run, Option.some.injEq, Prod.mk.injEq] at h
    rw [← h.1]; exact hwf
  | cons c rest ih =>
    simp only [run, Option.bind_eq_some, Option.map_eq_some'] at h
    obtain ⟨⟨s2, p⟩, h2, ⟨s3, rs3⟩, h3, h4⟩ := h
    simp only [Prod.mk.injEq] at h4
    have := ih s2 rs3 (run_call_wf s s2 c p hwf h2) (by rw [h3, h4.1])
    exact this

theorem reachable_wf (s : State) (h : Reachable s) : TableWF s := by
  obtain ⟨s0, calls, rs, h0, hr⟩ := h
  exact run_wf calls s0 s rs (initial_wf s0 h0) hr


/-! ## Context canonicalization -/

/-- C1. Context canonicalization: in every sequence of `get_cxt` calls that starts from
an initialised context table, two calls whose paths have the same non-null top function
return the same non-null Context pointer, whatever lies below the top and however many
resizes happen in between; and the final table holds no two Contexts with equal stored
path and links no Context twice. -/
theorem get_cxt_canonical (s0 : State) (h0 : Initial s0) (paths : List (List Nat)) :
    (∀ i j, i < paths.length → j < paths.length →
        (paths.getD i []).headD 0 ≠ 0 →
        (paths.getD i []).headD 0 = (paths.getD j []).headD 0 →
        (get_cxt_seq s0 paths).2.getD i 0 = (get_cxt_seq s0 paths).2.getD j 0 ∧
          (get_cxt_seq s0 paths).2.getD i 0 ≠ 0) ∧
      (∀ i j p q, p ∈ (get_cxt_seq s0 paths).1.cxts.table.getD i [] →
        q ∈ (get_cxt_seq s0 paths).1.cxts.table.getD j [] →
        (cxt_at (get_cxt_seq s0 paths).1.cxt_heap p).fn =
          (cxt_at (get_cxt_seq s0 paths).1.cxt_heap q).fn → p = q) ∧
      (get_cxt_seq s0 paths).1.cxts.table.flatten.Nodup := by
  obtain ⟨k1, _, k3⟩ := get_cxt_seq_spec paths s0 (initial_wf s0 h0)
  refine ⟨?_, k1.uniq, k1.nodup⟩
  intro i j hi hj hne heq
  have li := k3 i hi hne
  have lj := k3 j hj (by rw [← heq]; exact hne)
  rw [← heq] at lj
  exact ⟨linked_unique _ k1 _ _ _ li lj, linked_pos _ k1 _ _ li⟩

/-- Witness of C1: three calls from `fresh_state`, the first and the third with top 5. -/
theorem get_cxt_canonical_witness :
    Initial fresh_state ∧
      (get_cxt_seq fresh_state [[5, 6, 0], [7, 0], [5, 1, 0]]).2.getD 0 0 =
        (get_cxt_seq fresh_state [[5, 6, 0], [7, 0], [5, 1, 0]]).2.getD 2 0 :=
  ⟨⟨rfl, rfl, fun _ => rfl⟩,
   ((get_cxt_canonical fresh_state ⟨rfl, rfl, fun _ => rfl⟩
      [[5, 6, 0], [7, 0], [5, 1, 0]]).1 0 2 (by decide) (by decide) (by decide)
      (by decide)).1⟩


/-! ## Front-cache transparency -/

theorem set_misses_set_misses (s : State) (m n : Nat) :
    set_misses (set_misses s m) n = set_misses s n := rfl

theorem new_cxt_check_set_misses (s : State) (m : Nat) :
    new_cxt_check (set_misses s m) = set_misses (new_cxt_check s) m := by
  unfold new_cxt_check
  dsimp only [set_misses]
  split <;> rfl

theorem new_cxt_set_misses (s : State) (m : Nat) (fn : List Nat) :
    new_cxt (set_misses s m) fn = (set_misses (new_cxt s fn).1 m, (new_cxt s fn).2) := by
  unfold new_cxt
  dsimp only
  split
  · rfl
  · rw [new_cxt_check_set_misses]
    rfl

theorem get_cxt_miss_set_misses (s : State) (m : Nat) (fn : List Nat) (hash : Nat) :
    get_cxt_miss (set_misses s m) fn hash =
      (set_misses (get_cxt_miss s fn hash).1 (m + 1), (get_cxt_miss s fn hash).2) := by
  have h1 : set_misses (set_misses s m) (m + 1) =
      set_misses (set_misses s (s.stat.cxt_lru_misses + 1)) (m + 1) := rfl
  unfold get_cxt_miss
  dsimp only
  change (let r := (if chain_search s.cxt_heap hash fn
        (s.cxts.table.getD (hash % s.cxts.size) []) = 0
      then new_cxt (set_misses (set_misses s m) (m + 1)) fn
      else (set_misses (set_misses s m) (m + 1), chain_search s.cxt_heap hash fn
        (s.cxts.table.getD (hash % s.cxts.size) [])));
      (({ r.1 with
          fn_mem := Function.update r.1.fn_mem (fn.headD 0)
            { r.1.fn_mem (fn.headD 0) with last_cxt := r.2 } } : State), r.2)) = _
  rw [h1]
  split
  · rw [new_cxt_set_misses]
    rfl
  · rfl

theorem get_cxt_nocache_set_misses (s : State) (m : Nat) (fn : List Nat) :
    ∃ n, get_cxt_nocache (set_misses s m) fn =
      (set_misses (get_cxt_nocache s fn).1 n, (get_cxt_nocache s fn).2) := by
  unfold get_cxt_nocache
  dsimp only
  split
  · exact ⟨m, rfl⟩
  · exact ⟨m + 1, get_cxt_miss_set_misses s m fn _⟩

/-- One resolution: the variant without front-cache, started in a state that differs
from `s` in the miss counter only, returns what `get_cxt` returns on `s`. -/
theorem resolve_sim (s : State) (hwf : TableWF s) (m : Nat) (fn : List Nat) :
    ∃ n, get_cxt_nocache (set_misses s m) fn =
      (set_misses (get_cxt s fn).1 n, (get_cxt s fn).2) := by
  obtain ⟨n1, h1⟩ := get_cxt_nocache_set_misses s m fn
  obtain ⟨n2, h2⟩ := get_cxt_nocache_eq s hwf fn
  refine ⟨n1, ?_⟩
  rw [h1, h2]
  rfl


theorem push_cxt_save_set_misses (s : State) (m : Nat) :
    push_cxt_save (set_misses s m) = (push_cxt_save s).map (fun t => set_misses t m) := by
  unfold push_cxt_save
  dsimp only [set_misses]
  split
  · rfl
  · split <;> rfl

theorem push_cxt_extend_set_misses (s : State) (m : Nat) (fn : Nat) :
    push_cxt_extend (set_misses s m) fn =
      (push_cxt_extend s fn).map (fun t => set_misses t m) := by
  unfold push_cxt_extend
  dsimp only [set_misses]
  rw [Option.map_map]
  rfl

theorem push_cxt_resolve_sim (s : State) (hwf : TableWF s) (m : Nat) :
    ∃ n, push_cxt_resolve get_cxt_nocache (set_misses s m) =
      set_misses (push_cxt_resolve get_cxt s) n := by
  obtain ⟨n, hn⟩ :=
    resolve_sim s hwf m (fn_path s.current_fn_stack.bottom s.current_fn_stack.top)
  refine ⟨n, ?_⟩
  unfold push_cxt_resolve
  dsimp only
  change ({ (get_cxt_nocache (set_misses s m)
        (fn_path s.current_fn_stack.bottom s.current_fn_stack.top)).1 with
      current_state_cxt := (get_cxt_nocache (set_misses s m)
        (fn_path s.current_fn_stack.bottom s.current_fn_stack.top)).2 } : State) = _
  rw [hn]
  rfl

theorem push_cxt_sim (s : State) (hwf : TableWF s) (m fn : Nat) :
    (push_cxt_with get_cxt s fn = none ∧
        push_cxt_with get_cxt_nocache (set_misses s m) fn = none) ∨
      ∃ s1 n, push_cxt_with get_cxt s fn = some s1 ∧
        push_cxt_with get_cxt_nocache (set_misses s m) fn = some (set_misses s1 n) := by
  unfold push_cxt_with
  rw [push_cxt_save_set_misses]
  cases hs : push_cxt_save s with
  | none => left; exact ⟨rfl, rfl⟩
  | some s2 =>
    obtain ⟨f1, f2, f3, _⟩ := push_cxt_save_frame s s2 hs
    have hwf2 : TableWF s2 := wf_congr s s2 hwf f1 f2 (by rw [f3]; exact hwf.hint)
    simp only [Option.map_some', Option.some_bind]
    by_cases hc : fn ≠ 0 ∧ s2.current_fn_stack.bottom.getD s2.current_fn_stack.top 0 = fn
    · right
      refine ⟨s2, m, ?_, ?_⟩
      · rw [if_pos hc]
      · have hc2 : fn ≠ 0 ∧ (set_misses s2 m).current_fn_stack.bottom.getD
            (set_misses s2 m).current_fn_stack.top 0 = fn := hc
        rw [if_pos hc2]
    · have hc2 : ¬ (fn ≠ 0 ∧ (set_misses s2 m).current_fn_stack.bottom.getD
          (set_misses s2 m).current_fn_stack.top 0 = fn) := hc
      rw [if_neg hc, if_neg hc2, push_cxt_extend_set_misses]
      cases he : push_cxt_extend s2 fn with
      | none => left; exact ⟨rfl, rfl⟩
      | some s3 =>
        obtain ⟨g1, g2, g3, _⟩ := push_cxt_extend_frame s2 s3 fn he
        have hwf3 : TableWF s3 := wf_congr s2 s3 hwf2 g1 g2 (by rw [g3]; exact hwf2.hint)
        obtain ⟨n, hn⟩ := push_cxt_resolve_sim s3 hwf3 m
        right
        refine ⟨push_cxt_resolve get_cxt s3, n, rfl, ?_⟩
        simp only [Option.map_some']
        rw [hn]

theorem run_call_sim (s : State) (hwf : TableWF s) (m : Nat) (c : Call) :
    (run_call get_cxt s c = none ∧ run_call get_cxt_nocache (set_misses s m) c = none) ∨
      ∃ s1 p n, run_call get_cxt s c = some (s1, p) ∧
        run_call get_cxt_nocache (set_misses s m) c = some (set_misses s1 n, p) := by
  cases c with
  | get_cxt fn =>
    right
    obtain ⟨n, hn⟩ := resolve_sim s hwf m fn
    exact ⟨(get_cxt s fn).1, (get_cxt s fn).2, n, rfl, by simp only [run_call]; rw [hn]⟩
  | push_cxt fn =>
    rcases push_cxt_sim s hwf m fn with ⟨h1, h2⟩ | ⟨s1, n, h1, h2⟩
    · left
      simp only [run_call, h1, h2, Option.map_none', and_self]
    · right
      refine ⟨s1, s1.current_state_cxt, n, ?_, ?_⟩
      · simp only [run_call, h1, Option.map_some']
      · simp only [run_call, h2, Option.map_some']
        rfl
  | collab stk cs cxt act =>
    right
    exact ⟨_, cxt, m, rfl, rfl⟩

theorem run_sim (calls : List Call) (s : State) (hwf : TableWF s) (m : Nat) :
    (run get_cxt s calls = none ∧ run get_cxt_nocache (set_misses s m) calls = none) ∨
      ∃ s1 rs n, run get_cxt s calls = some (s1, rs) ∧
        run get_cxt_nocache (set_misses s m) calls = some (set_misses s1 n, rs) := by
  induction calls generalizing s m with
  | nil => right; exact ⟨s, [], m, rfl, rfl⟩
  | cons c rest ih =>
    rcases run_call_sim s hwf m c with ⟨h1, h2⟩ | ⟨s1, p, n, h1, h2⟩
    · left
      simp only [run, h1, h2, Option.none_bind, and_self]
    · have hwf1 := run_call_wf s s1 c p hwf h1
      rcases ih s1 hwf1 n with ⟨k1, k2⟩ | ⟨s2, rs, n2, k1, k2⟩
      · left
        simp only [run, h1, h2, Option.some_bind, k1, k2, Option.map_none', and_self]
      · right
        refine ⟨s2, p :: rs, n2, ?_, ?_⟩
        · simp only [run, h1, Option.some_bind, k1, Option.map_some']
        · simp only [run, h2, Option.some_bind, k2, Option.map_some']

/-- C2. Front-cache transparency: from an initialised state, a run of `get_cxt` and
`push_cxt` calls (with steps of the surrounding code in between) and the same run with
the front-cache test removed either both stop at a failed assertion, or both finish, with
the same Context pointer resolved at every call and with final states that differ in the
statistic `cxt_lru_misses` only: the same Contexts with the same sequence numbers are
allocated and linked in the same table. -/
theorem front_cache_transparent (s0 : State) (h0 : Initial s0) (calls : List Call) :
    (run get_cxt s0 calls = none ∧ run get_cxt_nocache s0 calls = none) ∨
      ∃ s rs n, run get_cxt s0 calls = some (s, rs) ∧
        run get_cxt_nocache s0 calls = some (set_misses s n, rs) ∧
        (set_misses s n).cxt_heap = s.cxt_heap ∧ (set_misses s n).cxts = s.cxts ∧
        (set_misses s n).fn_mem = s.fn_mem := by
  rcases run_sim calls s0 (initial_wf s0 h0) s0.stat.cxt_lru_misses with h | ⟨s, rs, n, h1, h2⟩
  · left; exact h
  · right; exact ⟨s, rs, n, h1, h2, rfl, rfl, rfl⟩

/-- Witness of C2: two pushes of function 5 around a step of the call-stack code, then a
direct `get_cxt`, from `fresh_state`. -/
theorem front_cache_transparent_witness :
    Initial fresh_state ∧
      ((run get_cxt fresh_state
          [Call.push_cxt 5, Call.collab init_fn_stack fresh_call_stack 0
            { size := 16, array := List.replicate 16 0 }, Call.push_cxt 5,
            Call.get_cxt [5, 0]] = none ∧
        run get_cxt_nocache fresh_state
          [Call.push_cxt 5, Call.collab init_fn_stack fresh_call_stack 0
            { size := 16, array := List.replicate 16 0 }, Call.push_cxt 5,
            Call.get_cxt [5, 0]] = none) ∨
      ∃ s rs n, run get_cxt fresh_state
          [Call.push_cxt 5, Call.collab init_fn_stack fresh_call_stack 0
            { size := 16, array := List.replicate 16 0 }, Call.push_cxt 5,
            Call.get_cxt [5, 0]] = some (s, rs) ∧
        run get_cxt_nocache fresh_state
          [Call.push_cxt 5, Call.collab init_fn_stack fresh_call_stack 0
            { size := 16, array := List.replicate 16 0 }, Call.push_cxt 5,
            Call.get_cxt [5, 0]] = some (set_misses s n, rs) ∧
        (set_misses s n).cxt_heap = s.cxt_heap ∧ (set_misses s n).cxts = s.cxts ∧
        (set_misses s n).fn_mem = s.fn_mem) :=
  ⟨⟨rfl, rfl, fun _ => rfl⟩,
   front_cache_transparent fresh_state ⟨rfl, rfl, fun _ => rfl⟩ _⟩


/-! ## Depth truncation and the empty path -/

theorem is_cxt_below (h a : Nat) (below1 below2 : List Nat) (c : Context)
    (hsize : c.size ≤ 1) :
    is_cxt h (a :: below1) c = is_cxt h (a :: below2) c := by
  unfold is_cxt
  split
  · rfl
  · unfold is_cxt_loop
    have h0 : c.size - 1 = 0 := by omega
    rw [h0, is_cxt_loop_zero, is_cxt_loop_zero]

theorem chain_search_below (heap : List Context) (h a : Nat) (below1 below2 : List Nat)
    (chain : List Nat) (hsize : ∀ p ∈ chain, (cxt_at heap p).size ≤ 1) :
    chain_search heap h (a :: below1) chain = chain_search heap h (a :: below2) chain := by
  induction chain with
  | nil => rfl
  | cons c t ih =>
    simp only [chain_search]
    rw [is_cxt_below h a below1 below2 _ (hsize c (List.mem_cons_self _ _)),
      ih (fun p hp => hsize p (List.mem_cons_of_mem _ hp))]

theorem get_cxt_miss_below (s : State) (hwf : TableWF s) (a : Nat) (below1 below2 : List Nat)
    (ha : a ≠ 0) (h : Nat) :
    get_cxt_miss s (a :: below1) h = get_cxt_miss s (a :: below2) h := by
  have hc : ∀ p ∈ s.cxts.table.getD (h % s.cxts.size) [], (cxt_at s.cxt_heap p).size ≤ 1 := by
    intro p hp
    obtain ⟨g, hg, _⟩ := hwf.shape _ p hp
    rw [hg.2.2.2.1]
  unfold get_cxt_miss
  dsimp only
  rw [chain_search_below s.cxt_heap h a below1 below2 _ hc,
    new_cxt_cons _ a below1 ha, new_cxt_cons _ a below2 ha]
  rfl

theorem get_cxt_below (s : State) (hwf : TableWF s) (a : Nat) (below1 below2 : List Nat)
    (ha : a ≠ 0) : get_cxt s (a :: below1) = get_cxt s (a :: below2) := by
  rw [get_cxt_cons s a below1 ha, get_cxt_cons s a below2 ha,
    get_cxt_miss_below s hwf a below1 below2 ha]
  by_cases hl : (s.fn_mem a).last_cxt = 0
  · simp [hl]
  · obtain ⟨g, hg, _⟩ := hwf.shape _ _ (hwf.hint a hl).1
    rw [is_cxt_below _ a below1 below2 _ (by rw [hg.2.2.2.1])]

theorem linked_shape (s : State) (hwf : TableWF s) (p f : Nat) (h : Linked s p f) :
    (cxt_at s.cxt_heap p).fn = [f] ∧ (cxt_at s.cxt_heap p).size = 1 := by
  obtain ⟨g, hg, _⟩ := hwf.shape _ _ h.1
  exact ⟨h.2, hg.2.2.2.1⟩

/-- C5. Depth truncation: in a reachable state the result of `get_cxt` (pointer and new
state) is the same for two paths with the same non-null top `a`, whatever lies below; a
second call with another path below `a` returns the Context of the first call; that
Context is not null and stores the path `[a]` of length exactly 1. -/
theorem depth_truncation (s : State) (hs : Reachable s) (a : Nat) (ha : a ≠ 0)
    (below1 below2 : List Nat) :
    get_cxt s (a :: below1) = get_cxt s (a :: below2) ∧
      (get_cxt (get_cxt s (a :: below1)).1 (a :: below2)).2 = (get_cxt s (a :: below1)).2 ∧
      (get_cxt s (a :: below1)).2 ≠ 0 ∧
      (cxt_at (get_cxt s (a :: below1)).1.cxt_heap (get_cxt s (a :: below1)).2).fn = [a] ∧
      (cxt_at (get_cxt s (a :: below1)).1.cxt_heap (get_cxt s (a :: below1)).2).size = 1 := by
  have hwf := reachable_wf s hs
  obtain ⟨k1, k2, _, _⟩ := get_cxt_spec s hwf a below1 ha
  obtain ⟨_, _, _, m4⟩ := get_cxt_spec _ k1 a below2 ha
  have hsh := linked_shape _ k1 _ _ k2
  exact ⟨get_cxt_below s hwf a below1 below2 ha, m4 _ k2, linked_pos _ k1 _ _ k2,
    hsh.1, hsh.2⟩

/-- Witness of C5: the paths `[5, 6, 7]` and `[5, 8, 9]` above the sentinel, in
`fresh_state`. -/
theorem depth_truncation_witness :
    Reachable fresh_state ∧
      get_cxt fresh_state [5, 6, 7, 0] = get_cxt fresh_state [5, 8, 9, 0] :=
  ⟨⟨fresh_state, [], [], ⟨rfl, rfl, fun _ => rfl⟩, rfl⟩,
   (depth_truncation fresh_state ⟨fresh_state, [], [], ⟨rfl, rfl, fun _ => rfl⟩, rfl⟩ 5
      (by decide) [6, 7, 0] [8, 9, 0]).1⟩

/-- C6. Empty path: if the slot given to `get_cxt` holds null, the call returns null and
the whole state (table, entry count, counters, miss statistic, front-caches) is
unchanged; in a reachable state `get_cxt` returns null only in that case. -/
theorem get_cxt_null_iff (s : State) (fn : List Nat) :
    (fn.headD 0 = 0 → get_cxt s fn = (s, 0)) ∧
      (Reachable s → ((get_cxt s fn).2 = 0 ↔ fn.headD 0 = 0)) := by
  refine ⟨get_cxt_null s fn, ?_⟩
  intro hs
  constructor
  · intro h0
    by_contra hne
    cases fn with
    | nil => exact hne rfl
    | cons f rest =>
      have hf : f ≠ 0 := hne
      have hwf := reachable_wf s hs
      obtain ⟨k1, k2, _, _⟩ := get_cxt_spec s hwf f rest hf
      exact linked_pos _ k1 _ _ k2 h0
  · intro h0
    rw [get_cxt_null s fn h0]

/-- Witness of C6: the empty path in `fresh_state`. -/
theorem get_cxt_null_iff_witness :
    get_cxt fresh_state [0] = (fresh_state, 0) ∧
      ((get_cxt fresh_state [5, 0]).2 = 0 ↔ ([5, 0] : List Nat).headD 0 = 0) :=
  ⟨(get_cxt_null_iff fresh_state [0]).1 rfl,
   (get_cxt_null_iff fresh_state [5, 0]).2
     ⟨fresh_state, [], [], ⟨rfl, rfl, fun _ => rfl⟩, rfl⟩⟩


/-! ## Resize correctness -/

/-- After `resize_cxt_table` both resolvers return the Context that is linked for the
top function. -/
theorem get_cxt_after_resize (s : State) (hwf : TableWF s) (p f : Nat) (hf : f ≠ 0)
    (below : List Nat) (h : Linked s p f) :
    (get_cxt (resize_cxt_table s) (f :: below)).2 = p ∧
      (get_cxt_nocache (resize_cxt_table s) (f :: below)).2 = p := by
  have hwf2 := resize_wf s hwf
  have hl := linked_resize s hwf p f h
  refine ⟨(get_cxt_spec _ hwf2 f below hf).2.2.2 p hl, ?_⟩
  rw [get_cxt_nocache_cons _ f below hf]
  exact (get_cxt_miss_spec _ hwf2 f below hf).2.2.2.1 p hl

/-- C4. Resize correctness: `resize_cxt_table` turns a table of `n` buckets into one of
`2 * n + 3` buckets whose chains hold the same Context pointers (a permutation of the old
chains: none lost, none duplicated, none added); the Context records and the entry count
are unchanged; a Context lies in bucket `j` of the new table exactly if it was linked
before and `hash % (2 * n + 3) = j`.  Hence if `s` is the state after a `get_cxt` call in
a reachable state, then after the resize `get_cxt`, with or without front-cache, returns
for a path with the same top the Context that the call returned. -/
theorem resize_cxt_table_correct (s : State) (hlen : s.cxts.table.length = s.cxts.size) :
    (resize_cxt_table s).cxts.size = 2 * s.cxts.size + 3 ∧
      (resize_cxt_table s).cxts.table.length = 2 * s.cxts.size + 3 ∧
      (resize_cxt_table s).cxts.table.flatten.Perm s.cxts.table.flatten ∧
      (resize_cxt_table s).cxt_heap = s.cxt_heap ∧
      (resize_cxt_table s).cxts.entries = s.cxts.entries ∧
      (∀ p j, p ∈ (resize_cxt_table s).cxts.table.getD j [] ↔
        p ∈ s.cxts.table.flatten ∧
          (cxt_at s.cxt_heap p).hash % (2 * s.cxts.size + 3) = j) ∧
      (∀ s0 f below below1, Reachable s0 → f ≠ 0 → s = (get_cxt s0 (f :: below)).1 →
        (get_cxt (resize_cxt_table s) (f :: below1)).2 = (get_cxt s0 (f :: below)).2 ∧
        (get_cxt_nocache (resize_cxt_table s) (f :: below1)).2 =
          (get_cxt s0 (f :: below)).2) := by
  refine ⟨rfl, resize_table_length s, resize_perm s hlen, rfl, rfl, ?_, ?_⟩
  · intro p j
    rw [resize_mem s hlen, mem_flatten_iff_getD]
  · intro s0 f below below1 hs0 hf hs
    obtain ⟨k1, k2, _, _⟩ := get_cxt_spec s0 (reachable_wf s0 hs0) f below hf
    rw [← hs] at k1 k2
    exact get_cxt_after_resize s k1 _ f hf below1 k2

/-- Witness of C4: the state after `get_cxt` on the path `[5]` in `fresh_state`; after
the resize the path `[5, 9]` resolves to the same Context. -/
theorem resize_cxt_table_correct_witness :
    (get_cxt fresh_state [5, 0]).1.cxts.table.length =
        (get_cxt fresh_state [5, 0]).1.cxts.size ∧
      (get_cxt (resize_cxt_table (get_cxt fresh_state [5, 0]).1) [5, 9, 0]).2 =
        (get_cxt fresh_state [5, 0]).2 :=
  ⟨(get_cxt_wf fresh_state (initial_wf fresh_state ⟨rfl, rfl, fun _ => rfl⟩) [5, 0]).len,
   ((resize_cxt_table_correct (get_cxt fresh_state [5, 0]).1
      (get_cxt_wf fresh_state (initial_wf fresh_state ⟨rfl, rfl, fun _ => rfl⟩)
        [5, 0]).len).2.2.2.2.2.2 fresh_state 5 [0] [9, 0]
      ⟨fresh_state, [], [], ⟨rfl, rfl, fun _ => rfl⟩, rfl⟩ (by decide) rfl).1⟩


/-! ## `push_cxt`: what the context table code leaves alone -/

theorem new_cxt_check_frame (s : State) :
    (new_cxt_check s).fn_mem = s.fn_mem ∧
      (new_cxt_check s).current_fn_stack = s.current_fn_stack ∧
      (new_cxt_check s).current_call_stack = s.current_call_stack ∧
      (new_cxt_check s).current_state_cxt = s.current_state_cxt ∧
      (new_cxt_check s).current_fn_active = s.current_fn_active := by
  unfold new_cxt_check
  dsimp only
  split <;> exact ⟨rfl, rfl, rfl, rfl, rfl⟩

theorem new_cxt_frame (s : State) (fn : List Nat) :
    (new_cxt s fn).1.fn_mem = s.fn_mem ∧
      (new_cxt s fn).1.current_fn_stack = s.current_fn_stack ∧
      (new_cxt s fn).1.current_call_stack = s.current_call_stack ∧
      (new_cxt s fn).1.current_state_cxt = s.current_state_cxt ∧
      (new_cxt s fn).1.current_fn_active = s.current_fn_active := by
  unfold new_cxt
  dsimp only
  split
  · exact ⟨rfl, rfl, rfl, rfl, rfl⟩
  · exact new_cxt_check_frame s

theorem get_cxt_miss_frame (s : State) (fn : List Nat) (hash : Nat) :
    (∀ a, ((get_cxt_miss s fn hash).1.fn_mem a).number = (s.fn_mem a).number) ∧
      (get_cxt_miss s fn hash).1.current_fn_stack = s.current_fn_stack ∧
      (get_cxt_miss s fn hash).1.current_call_stack = s.current_call_stack ∧
      (get_cxt_miss s fn hash).1.current_state_cxt = s.current_state_cxt ∧
      (get_cxt_miss s fn hash).1.current_fn_active = s.current_fn_active := by
  unfold get_cxt_miss
  dsimp only
  split
  · obtain ⟨h1, h2, h3, h4, h5⟩ := new_cxt_frame
      { s with stat := { s.stat with cxt_lru_misses := s.stat.cxt_lru_misses + 1 } } fn
    refine ⟨?_, h2, h3, h4, h5⟩
    intro a
    by_cases ha : a = fn.headD 0
    · subst ha
      rw [Function.update_same, h1]
    · rw [Function.update_noteq ha, h1]
  · refine ⟨?_, rfl, rfl, rfl, rfl⟩
    intro a
    by_cases ha : a = fn.headD 0
    · subst ha
      rw [Function.update_same]
    · rw [Function.update_noteq ha]

theorem get_cxt_frame (s : State) (fn : List Nat) :
    (∀ a, ((get_cxt s fn).1.fn_mem a).number = (s.fn_mem a).number) ∧
      (get_cxt s fn).1.current_fn_stack = s.current_fn_stack ∧
      (get_cxt s fn).1.current_call_stack = s.current_call_stack ∧
      (get_cxt s fn).1.current_state_cxt = s.current_state_cxt ∧
      (get_cxt s fn).1.current_fn_active = s.current_fn_active := by
  by_cases h0 : fn.headD 0 = 0
  · rw [get_cxt_null s fn h0]
    exact ⟨fun _ => rfl, rfl, rfl, rfl, rfl⟩
  · cases fn with
    | nil => exact absurd rfl h0
    | cons f rest =>
      have hf : f ≠ 0 := h0
      rw [get_cxt_cons s f rest hf]
      by_cases hc : (s.fn_mem f).last_cxt ≠ 0 ∧
          is_cxt (hash_step 0 f) (f :: rest) (cxt_at s.cxt_heap (s.fn_mem f).last_cxt) = true
      · rw [if_pos hc]
        exact ⟨fun _ => rfl, rfl, rfl, rfl, rfl⟩
      · rw [if_neg hc]
        exact get_cxt_miss_frame s (f :: rest) _

theorem push_cxt_resolve_frame (s : State) :
    (∀ a, ((push_cxt_resolve get_cxt s).fn_mem a).number = (s.fn_mem a).number) ∧
      (push_cxt_resolve get_cxt s).current_fn_stack = s.current_fn_stack ∧
      (push_cxt_resolve get_cxt s).current_call_stack = s.current_call_stack ∧
      (push_cxt_resolve get_cxt s).current_fn_active = s.current_fn_active ∧
      (push_cxt_resolve get_cxt s).current_state_cxt =
        (get_cxt s (fn_path s.current_fn_stack.bottom s.current_fn_stack.top)).2 := by
  obtain ⟨h1, h2, h3, _, h5⟩ :=
    get_cxt_frame s (fn_path s.current_fn_stack.bottom s.current_fn_stack.top)
  exact ⟨h1, h2, h3, h5, rfl⟩

theorem fn_path_head (bottom : List Nat) (i : Nat) :
    (fn_path bottom i).headD 0 = bottom.getD i 0 := by
  simp [fn_path, List.range_succ]

/-! ## `push_cxt`: the frame save -/

theorem push_cxt_save_spec (s : State)
    (hsp : s.current_call_stack.sp < s.current_call_stack.size)
    (hfree : (s.current_call_stack.entry.getD s.current_call_stack.sp default).cxt = 0) :
    push_cxt_save s = some { s with
      current_call_stack := { s.current_call_stack with
        entry := s.current_call_stack.entry.set s.current_call_stack.sp
          { s.current_call_stack.entry.getD s.current_call_stack.sp default with
            cxt := s.current_state_cxt
            fn_sp := s.current_fn_stack.top } } } := by
  unfold push_cxt_save
  dsimp only
  rw [if_neg (by simpa using hsp), if_neg (by simpa using hfree)]

theorem getD_set_entry (l : List call_entry) (i j : Nat) (e : call_entry) :
    (l.set i e).getD j default = if i = j ∧ i < l.length then e else l.getD j default := by
  simp only [List.getD_eq_getElem?_getD, List.getElem?_set]
  by_cases hij : i = j
  · subst hij
    by_cases hl : i < l.length
    · simp [hl]
    · simp [hl, List.getElem?_eq_none (Nat.le_of_not_lt hl)]
  · simp [hij]

/-- What `push_cxt_save` does to the call stack: `sp` and `size` stay, the frame at `sp`
gets the current Context and the depth, its other fields and all other frames stay. -/
theorem push_cxt_save_call_stack (s s1 : State) (h : push_cxt_save s = some s1) :
    s1.current_call_stack.sp = s.current_call_stack.sp ∧
      s1.current_call_stack.size = s.current_call_stack.size ∧
      s1.current_call_stack.entry.length = s.current_call_stack.entry.length ∧
      (∀ i, i ≠ s.current_call_stack.sp →
        s1.current_call_stack.entry.getD i default =
          s.current_call_stack.entry.getD i default) ∧
      (s.current_call_stack.sp < s.current_call_stack.entry.length →
        (s1.current_call_stack.entry.getD s.current_call_stack.sp default).cxt =
            s.current_state_cxt ∧
          (s1.current_call_stack.entry.getD s.current_call_stack.sp default).fn_sp =
            s.current_fn_stack.top ∧
          (s1.current_call_stack.entry.getD s.current_call_stack.sp default).other =
            (s.current_call_stack.entry.getD s.current_call_stack.sp default).other) := by
  unfold push_cxt_save at h
  dsimp only at h
  split at h
  · exact absurd h (by simp)
  · split at h
    · exact absurd h (by simp)
    · cases h
      refine ⟨rfl, rfl, by simp, ?_, ?_⟩
      · intro i hi
        dsimp only
        rw [getD_set_entry, if_neg (fun hc => hi hc.1.symm)]
      · intro hlt
        dsimp only
        rw [getD_set_entry, if_pos ⟨rfl, hlt⟩]
        exact ⟨rfl, rfl, rfl⟩


/-! ## `push_cxt`: the function stack and the active counts -/

theorem getD_set_nat (l : List Nat) (i j v : Nat) :
    (l.set i v).getD j 0 = if i = j ∧ i < l.length then v else l.getD j 0 := by
  simp only [List.getD_eq_getElem?_getD, List.getElem?_set]
  by_cases hij : i = j
  · subst hij
    by_cases hl : i < l.length
    · simp [hl]
    · simp [hl, List.getElem?_eq_none (Nat.le_of_not_lt hl)]
  · simp [hij]

theorem grow_fn_stack_length (stk : fn_stack) :
    (grow_fn_stack stk).bottom.length = (grow_fn_stack stk).size := by
  simp [grow_fn_stack]

theorem grow_fn_stack_getD (stk : fn_stack) (i : Nat) (hi : i < stk.size) :
    (grow_fn_stack stk).bottom.getD i 0 = stk.bottom.getD i 0 := by
  have h2 : i < stk.size * 2 := by omega
  simp [grow_fn_stack, List.getD_eq_getElem?_getD, List.getElem?_range h2, hi]

/-- The stack after the growth test of `push_cxt`. -/
theorem grow_test_spec (stk : fn_stack) (hlen : stk.bottom.length = stk.size)
    (htop : stk.top < stk.size) :
    (if stk.top + 1 = stk.size then grow_fn_stack stk else stk).top = stk.top ∧
      (if stk.top + 1 = stk.size then grow_fn_stack stk else stk).bottom.length =
        (if stk.top + 1 = stk.size then grow_fn_stack stk else stk).size ∧
      (if stk.top + 1 = stk.size then grow_fn_stack stk else stk).size =
        (if stk.top + 1 = stk.size then stk.size * 2 else stk.size) ∧
      stk.top + 1 < (if stk.top + 1 = stk.size then grow_fn_stack stk else stk).size ∧
      ∀ i, i < stk.size →
        (if stk.top + 1 = stk.size then grow_fn_stack stk else stk).bottom.getD i 0 =
          stk.bottom.getD i 0 := by
  split
  · next h =>
    refine ⟨rfl, grow_fn_stack_length stk, rfl, ?_, fun i hi => grow_fn_stack_getD stk i hi⟩
    show stk.top + 1 < stk.size * 2
    omega
  · next h =>
    exact ⟨rfl, hlen, rfl, by omega, fun i _ => rfl⟩

/-- What a successful `push_cxt_extend` does: `top` advances by one, the new top slot
holds `fn`, the slots up to the old top keep their content, the size is kept or doubled;
the counter of `fn` is incremented exactly if `fn` is not null and the old top slot is
null. -/
theorem push_cxt_extend_spec (s s1 : State) (fn : Nat)
    (hlen : s.current_fn_stack.bottom.length = s.current_fn_stack.size)
    (htop : s.current_fn_stack.top < s.current_fn_stack.size)
    (h : push_cxt_extend s fn = some s1) :
    s1.current_fn_stack.top = s.current_fn_stack.top + 1 ∧
      s1.current_fn_stack.bottom.length = s1.current_fn_stack.size ∧
      s1.current_fn_stack.top < s1.current_fn_stack.size ∧
      s1.current_fn_stack.size =
        (if s.current_fn_stack.top + 1 = s.current_fn_stack.size
          then s.current_fn_stack.size * 2 else s.current_fn_stack.size) ∧
      s1.current_fn_stack.bottom.getD (s.current_fn_stack.top + 1) 0 = fn ∧
      (∀ i, i ≤ s.current_fn_stack.top →
        s1.current_fn_stack.bottom.getD i 0 = s.current_fn_stack.bottom.getD i 0) ∧
      s1.current_fn_active.size = s.current_fn_active.size ∧
      s1.current_fn_active.array =
        (if fn ≠ 0 ∧ s.current_fn_stack.bottom.getD s.current_fn_stack.top 0 = 0
          then s.current_fn_active.array.set (s.fn_mem fn).number
            (s.current_fn_active.array.getD (s.fn_mem fn).number 0 + 1)
          else s.current_fn_active.array) ∧
      (fn ≠ 0 ∧ s.current_fn_stack.bottom.getD s.current_fn_stack.top 0 = 0 →
        (s.fn_mem fn).number < s.current_fn_active.size) := by
  obtain ⟨g1, g2, g3, g4, g5⟩ := grow_test_spec s.current_fn_stack hlen htop
  unfold push_cxt_extend at h
  dsimp only at h
  rw [Option.map_eq_some'] at h
  obtain ⟨a, ha, hs1⟩ := h
  subst hs1
  dsimp only
  rw [g1, g5 _ htop] at ha
  refine ⟨by rw [g1], by rw [List.length_set, g2], by rw [g1]; exact g4, g3, ?_, ?_, ?_⟩
  · rw [g1, getD_set_nat, if_pos ⟨rfl, by rw [g2]; exact g4⟩]
  · intro i hi
    rw [g1, getD_set_nat, if_neg (by omega), g5 i (by omega)]
  · by_cases hc : fn ≠ 0 ∧ s.current_fn_stack.bottom.getD s.current_fn_stack.top 0 = 0
    · rw [if_pos hc] at ha ⊢
      rw [Option.map_eq_some'] at ha
      obtain ⟨n, hn, ha⟩ := ha
      unfold get_fn_entry at hn
      split at hn
      · next hlt =>
        cases hn
        subst ha
        exact ⟨rfl, rfl, fun _ => hlt⟩
      · exact absurd hn (by simp)
    · rw [if_neg hc] at ha ⊢
      cases ha
      exact ⟨rfl, rfl, fun h => absurd h hc⟩

/-- The call `push_cxt_extend` succeeds unless `get_fn_entry` is reached with a number
outside the active-count array. -/
theorem push_cxt_extend_some (s : State) (fn : Nat)
    (hnum : fn ≠ 0 → (s.fn_mem fn).number < s.current_fn_active.size) :
    ∃ s1, push_cxt_extend s fn = some s1 := by
  rw [← Option.isSome_iff_exists]
  unfold push_cxt_extend
  dsimp only
  rw [Option.isSome_map']
  split <;>
  · split
    · next hc =>
      rw [Option.isSome_map']
      unfold get_fn_entry
      rw [if_pos (hnum hc.1)]
      rfl
    · rfl


/-! ## `push_cxt` as a whole -/

/-- A successful `push_cxt` either stops after the save (coalesced push) or extends the
stack and resolves the new path. -/
theorem push_cxt_cases (s s2 : State) (fn : Nat) (h : push_cxt s fn = some s2) :
    ∃ s1, push_cxt_save s = some s1 ∧
      ((fn ≠ 0 ∧ s.current_fn_stack.bottom.getD s.current_fn_stack.top 0 = fn ∧ s2 = s1) ∨
        (¬ (fn ≠ 0 ∧ s.current_fn_stack.bottom.getD s.current_fn_stack.top 0 = fn) ∧
          ∃ s3, push_cxt_extend s1 fn = some s3 ∧ s2 = push_cxt_resolve get_cxt s3)) := by
  unfold push_cxt push_cxt_with at h
  rw [Option.bind_eq_some] at h
  obtain ⟨s1, h1, h2⟩ := h
  obtain ⟨_, _, _, _, f5, _, _⟩ := push_cxt_save_frame s s1 h1
  refine ⟨s1, h1, ?_⟩
  rw [f5] at h2
  split at h2
  · next hc =>
    cases h2
    exact Or.inl ⟨hc.1, hc.2, rfl⟩
  · next hc =>
    rw [Option.map_eq_some'] at h2
    obtain ⟨s3, h3, h4⟩ := h2
    exact Or.inr ⟨hc, s3, h3, h4.symm⟩

/-- The call `push_cxt` succeeds if the frame at `sp` is free and the number of `fn` lies
inside the active-count array. -/
theorem push_cxt_some (s : State) (fn : Nat) (hfree : frame_free s.current_call_stack)
    (hnum : fn ≠ 0 → (s.fn_mem fn).number < s.current_fn_active.size) :
    ∃ s2, push_cxt s fn = some s2 := by
  unfold push_cxt push_cxt_with
  rw [push_cxt_save_spec s hfree.1 hfree.2, Option.some_bind]
  split
  · exact ⟨_, rfl⟩
  · obtain ⟨s3, h3⟩ := push_cxt_extend_some
      { s with
        current_call_stack := { s.current_call_stack with
          entry := s.current_call_stack.entry.set s.current_call_stack.sp
            { s.current_call_stack.entry.getD s.current_call_stack.sp default with
              cxt := s.current_state_cxt
              fn_sp := s.current_fn_stack.top } } } fn hnum
    rw [h3]
    exact ⟨_, rfl⟩

/-- The effect of a successful `push_cxt` on the function stack and the active counts. -/
theorem push_cxt_step (s s2 : State) (fn : Nat)
    (hlen : s.current_fn_stack.bottom.length = s.current_fn_stack.size)
    (htop : s.current_fn_stack.top < s.current_fn_stack.size)
    (h : push_cxt s fn = some s2) :
    (∀ a, (s2.fn_mem a).number = (s.fn_mem a).number) ∧
      ((fn ≠ 0 ∧ s.current_fn_stack.bottom.getD s.current_fn_stack.top 0 = fn ∧
          s2.current_fn_stack = s.current_fn_stack ∧
          s2.current_fn_active = s.current_fn_active) ∨
        (¬ (fn ≠ 0 ∧ s.current_fn_stack.bottom.getD s.current_fn_stack.top 0 = fn) ∧
          s2.current_fn_stack.top = s.current_fn_stack.top + 1 ∧
          s2.current_fn_stack.bottom.length = s2.current_fn_stack.size ∧
          s2.current_fn_stack.top < s2.current_fn_stack.size ∧
          s2.current_fn_stack.size =
            (if s.current_fn_stack.top + 1 = s.current_fn_stack.size
              then s.current_fn_stack.size * 2 else s.current_fn_stack.size) ∧
          s2.current_fn_stack.bottom.getD (s.current_fn_stack.top + 1) 0 = fn ∧
          (∀ i, i ≤ s.current_fn_stack.top →
            s2.current_fn_stack.bottom.getD i 0 = s.current_fn_stack.bottom.getD i 0) ∧
          s2.current_fn_active.size = s.current_fn_active.size ∧
          s2.current_fn_active.array =
            (if fn ≠ 0 ∧ s.current_fn_stack.bottom.getD s.current_fn_stack.top 0 = 0
              then s.current_fn_active.array.set (s.fn_mem fn).number
                (s.current_fn_active.array.getD (s.fn_mem fn).number 0 + 1)
              else s.current_fn_active.array) ∧
          (fn ≠ 0 ∧ s.current_fn_stack.bottom.getD s.current_fn_stack.top 0 = 0 →
            (s.fn_mem fn).number < s.current_fn_active.size))) := by
  obtain ⟨s1, h1, hcases⟩ := push_cxt_cases s s2 fn h
  obtain ⟨_, _, f3, _, f5, f6, _⟩ := push_cxt_save_frame s s1 h1
  rcases hcases with ⟨c1, c2, c3⟩ | ⟨c1, s3, c2, c3⟩
  · subst c3
    exact ⟨fun a => by rw [f3], Or.inl ⟨c1, c2, f5, f6⟩⟩
  · obtain ⟨_, _, g3, _⟩ := push_cxt_extend_frame s1 s3 fn c2
    obtain ⟨e1, e2, e3, e4, e5, e6, e7, e8, e9⟩ :=
      push_cxt_extend_spec s1 s3 fn (by rw [f5]; exact hlen) (by rw [f5]; exact htop) c2
    obtain ⟨r1, r2, _, r4, _⟩ := push_cxt_resolve_frame s3
    subst c3
    simp only [f5, f6, f3] at e1 e4 e5 e6 e7 e8 e9
    refine ⟨fun a => by rw [r1, g3, f3], Or.inr ⟨c1, ?_⟩⟩
    rw [r2, r4]
    exact ⟨e1, e2, e3, e4, e5, e6, e7, e8, e9⟩


/-- A version of `push_cxt_some` that asks for the bound on the number only when the
counter is incremented. -/
theorem push_cxt_some_of_top (s : State) (fn : Nat) (hfree : frame_free s.current_call_stack)
    (hlen : s.current_fn_stack.bottom.length = s.current_fn_stack.size)
    (htop : s.current_fn_stack.top < s.current_fn_stack.size)
    (hnum : fn ≠ 0 → s.current_fn_stack.bottom.getD s.current_fn_stack.top 0 = 0 →
      (s.fn_mem fn).number < s.current_fn_active.size) :
    ∃ s2, push_cxt s fn = some s2 := by
  obtain ⟨g1, _, _, _, g5⟩ := grow_test_spec s.current_fn_stack hlen htop
  unfold push_cxt push_cxt_with
  rw [push_cxt_save_spec s hfree.1 hfree.2, Option.some_bind]
  split
  · exact ⟨_, rfl⟩
  · rw [← Option.isSome_iff_exists, Option.isSome_map']
    unfold push_cxt_extend
    dsimp only
    rw [Option.isSome_map', g1, g5 _ htop]
    split
    · next hc =>
      rw [Option.isSome_map']
      unfold get_fn_entry
      rw [if_pos (hnum hc.1 hc.2)]
      rfl
    · rfl

/-! ## Coalesced push and null push -/

/-- C8. Coalesced push: if `fn` is not null and equals the function in the top slot, and
the frame at `sp` is free, `push_cxt` succeeds and leaves the function stack, the active
counts, the current Context, the context table, the Contexts, the function records and
the statistics unchanged; in the call stack `sp`, `size` and every other frame are
unchanged and the frame at `sp` receives the current Context and the depth. -/
theorem coalesced_push (s : State) (fn : Nat) (hfn : fn ≠ 0)
    (hsame : s.current_fn_stack.bottom.getD s.current_fn_stack.top 0 = fn)
    (hfree : frame_free s.current_call_stack) :
    ∃ s1, push_cxt s fn = some s1 ∧
      s1.current_fn_stack = s.current_fn_stack ∧
      s1.current_fn_active = s.current_fn_active ∧
      s1.current_state_cxt = s.current_state_cxt ∧
      s1.cxts = s.cxts ∧ s1.cxt_heap = s.cxt_heap ∧ s1.fn_mem = s.fn_mem ∧
      s1.stat = s.stat ∧
      s1.current_call_stack.sp = s.current_call_stack.sp ∧
      s1.current_call_stack.size = s.current_call_stack.size ∧
      s1.current_call_stack.entry.length = s.current_call_stack.entry.length ∧
      (∀ i, i ≠ s.current_call_stack.sp →
        s1.current_call_stack.entry.getD i default =
          s.current_call_stack.entry.getD i default) ∧
      (s.current_call_stack.sp < s.current_call_stack.entry.length →
        (s1.current_call_stack.entry.getD s.current_call_stack.sp default).cxt =
            s.current_state_cxt ∧
          (s1.current_call_stack.entry.getD s.current_call_stack.sp default).fn_sp =
            s.current_fn_stack.top ∧
          (s1.current_call_stack.entry.getD s.current_call_stack.sp default).other =
            (s.current_call_stack.entry.getD s.current_call_stack.sp default).other) := by
  obtain ⟨s1, hs1⟩ : ∃ s1, push_cxt_save s = some s1 :=
    ⟨_, push_cxt_save_spec s hfree.1 hfree.2⟩
  obtain ⟨f1, f2, f3, f4, f5, f6, f7⟩ := push_cxt_save_frame s s1 hs1
  obtain ⟨k1, k2, k3, k4, k5⟩ := push_cxt_save_call_stack s s1 hs1
  refine ⟨s1, ?_, f5, f6, f7, f1, f2, f3, f4, k1, k2, k3, k4, k5⟩
  unfold push_cxt push_cxt_with
  rw [hs1, Option.some_bind, f5]
  exact if_pos ⟨hfn, hsame⟩

/-- Witness of C8: function 5 is on top of the stack and is pushed again. -/
theorem coalesced_push_witness :
    ∃ s1, push_cxt { fresh_state with
          current_fn_stack := { size := 4, bottom := [0, 5, 0, 0], top := 1 } } 5 = some s1 ∧
        s1.current_fn_stack = { size := 4, bottom := [0, 5, 0, 0], top := 1 } := by
  obtain ⟨s1, h1, h2, _⟩ := coalesced_push
    { fresh_state with current_fn_stack := { size := 4, bottom := [0, 5, 0, 0], top := 1 } }
    5 (by decide) (by decide) ⟨by decide, by decide⟩
  exact ⟨s1, h1, h2⟩

/-- Counterexample to C7 as stated: the null push in `fresh_state` succeeds and moves
`top` from 0 to 1. -/
theorem null_push_counterexample :
    fresh_state.current_fn_stack.top = 0 ∧
      (push_cxt fresh_state 0).map (fun s => s.current_fn_stack.top) = some 1 := by
  decide

theorem push_cxt_resolve_null (s : State)
    (h : s.current_fn_stack.bottom.getD s.current_fn_stack.top 0 = 0) :
    push_cxt_resolve get_cxt s = { s with current_state_cxt := 0 } := by
  unfold push_cxt_resolve
  dsimp only
  rw [get_cxt_null s _ (by rw [fn_path_head]; exact h)]

/-- C7 (amended). Null push: if the frame at `sp` is free and `top` lies inside the
array, `push_cxt(0)` succeeds, saves the current Context and the depth in the frame at
`sp`, and then extends the stack by a null marker: `top` advances by one, the new top
slot holds null, the slots up to the old top are unchanged and the size is kept or
doubled.  The current Context becomes null; the active counts, the context table, the
Contexts, the function records and the statistics are unchanged. -/
theorem null_push (s : State) (hfree : frame_free s.current_call_stack)
    (hlen : s.current_fn_stack.bottom.length = s.current_fn_stack.size)
    (htop : s.current_fn_stack.top < s.current_fn_stack.size) :
    ∃ s1, push_cxt s 0 = some s1 ∧
      s1.current_fn_stack.top = s.current_fn_stack.top + 1 ∧
      s1.current_fn_stack.bottom.getD (s.current_fn_stack.top + 1) 0 = 0 ∧
      (∀ i, i ≤ s.current_fn_stack.top →
        s1.current_fn_stack.bottom.getD i 0 = s.current_fn_stack.bottom.getD i 0) ∧
      s1.current_fn_stack.size =
        (if s.current_fn_stack.top + 1 = s.current_fn_stack.size
          then s.current_fn_stack.size * 2 else s.current_fn_stack.size) ∧
      s1.current_state_cxt = 0 ∧
      s1.current_fn_active = s.current_fn_active ∧
      s1.cxts = s.cxts ∧ s1.cxt_heap = s.cxt_heap ∧ s1.fn_mem = s.fn_mem ∧
      s1.stat = s.stat ∧
      s1.current_call_stack.sp = s.current_call_stack.sp ∧
      (∀ i, i ≠ s.current_call_stack.sp →
        s1.current_call_stack.entry.getD i default =
          s.current_call_stack.entry.getD i default) ∧
      (s.current_call_stack.sp < s.current_call_stack.entry.length →
        (s1.current_call_stack.entry.getD s.current_call_stack.sp default).cxt =
            s.current_state_cxt ∧
          (s1.current_call_stack.entry.getD s.current_call_stack.sp default).fn_sp =
            s.current_fn_stack.top) := by
  obtain ⟨s2, h2⟩ := push_cxt_some_of_top s 0 hfree hlen htop (fun h => absurd rfl h)
  obtain ⟨s1, h1, hcases⟩ := push_cxt_cases s s2 0 h2
  obtain ⟨f1, f2, f3, f4, f5, f6, _⟩ := push_cxt_save_frame s s1 h1
  obtain ⟨k1, _, _, k4, k5⟩ := push_cxt_save_call_stack s s1 h1
  rcases hcases with ⟨c1, _⟩ | ⟨_, s3, c2, c3⟩
  · exact absurd rfl c1
  · obtain ⟨g1, g2, g3, g4, g5, _⟩ := push_cxt_extend_frame s1 s3 0 c2
    obtain ⟨e1, _, _, e4, e5, e6, e7, e8, _⟩ :=
      push_cxt_extend_spec s1 s3 0 (by rw [f5]; exact hlen) (by rw [f5]; exact htop) c2
    have hnull : s3.current_fn_stack.bottom.getD s3.current_fn_stack.top 0 = 0 := by
      rw [e1]; exact e5
    rw [push_cxt_resolve_null s3 hnull] at c3
    simp only [f5] at e1 e4 e5 e6
    have hact : s3.current_fn_active = s.current_fn_active := by
      rw [if_neg (fun hc => hc.1 rfl)] at e8
      have : s3.current_fn_active = s1.current_fn_active := by
        cases hs3 : s3.current_fn_active
        cases hs1 : s1.current_fn_active
        rw [hs3, hs1] at e7 e8
        simp only at e7 e8
        rw [e7, e8]
      rw [this, f6]
    subst c3
    refine ⟨_, h2, e1, e5, e6, e4, rfl, hact, ?_, ?_, ?_, ?_, ?_, ?_, ?_⟩
    · show s3.cxts = s.cxts
      rw [g1, f1]
    · show s3.cxt_heap = s.cxt_heap
      rw [g2, f2]
    · show s3.fn_mem = s.fn_mem
      rw [g3, f3]
    · show s3.stat = s.stat
      rw [g4, f4]
    · show s3.current_call_stack.sp = s.current_call_stack.sp
      rw [g5, k1]
    · intro i hi
      show s3.current_call_stack.entry.getD i default = _
      rw [g5]; exact k4 i hi
    · intro hlt
      show (s3.current_call_stack.entry.getD s.current_call_stack.sp default).cxt = _ ∧
        (s3.current_call_stack.entry.getD s.current_call_stack.sp default).fn_sp = _
      rw [g5]
      exact ⟨(k5 hlt).1, (k5 hlt).2.1⟩

/-- Witness of C7 (amended): the null push in `fresh_state`. -/
theorem null_push_witness :
    ∃ s1, push_cxt fresh_state 0 = some s1 ∧ s1.current_fn_stack.top = 1 ∧
      s1.current_state_cxt = 0 := by
  obtain ⟨s1, h1, h2, _, _, _, h6, _⟩ :=
    null_push fresh_state ⟨by decide, by decide⟩ (List.length_replicate _ _) (by decide)
  exact ⟨s1, h1, h2, h6⟩


/-! ## Active counts -/

theorem empty_stacks_wf (s : State) (h : EmptyStacks s) : StackWF s := by
  obtain ⟨h1, _, h3, h4, h5⟩ := h
  refine ⟨h3, by rw [h1]; exact h4, by rw [h5]; exact List.length_replicate _ _, ?_⟩
  intro n
  rw [h5]
  unfold first_slots
  rw [h1]
  simp only [List.range_zero, List.countP_nil, List.getD_eq_getElem?_getD,
    List.getElem?_replicate]
  split <;> rfl

theorem first_slots_push (mem mem2 : Nat → fn_node) (stk stk2 : fn_stack) (fn n : Nat)
    (hmem : ∀ a, (mem2 a).number = (mem a).number)
    (htop : stk2.top = stk.top + 1)
    (hnew : stk2.bottom.getD (stk.top + 1) 0 = fn)
    (hold : ∀ i, i ≤ stk.top → stk2.bottom.getD i 0 = stk.bottom.getD i 0) :
    first_slots mem2 stk2 n = first_slots mem stk n +
      (if fn ≠ 0 ∧ stk.bottom.getD stk.top 0 = 0 ∧ (mem fn).number = n then 1 else 0) := by
  unfold first_slots
  rw [htop, List.range_succ, List.countP_append, List.countP_singleton]
  congr 1
  · apply List.countP_congr
    intro i hi
    have hlt : i < stk.top := List.mem_range.mp hi
    rw [hold (i + 1) (by omega), hold i (by omega), hmem]
  · rw [hnew, hold stk.top (Nat.le_refl _), hmem]
    simp only [decide_eq_true_eq]

theorem first_slots_congr (mem mem2 : Nat → fn_node) (stk : fn_stack) (n : Nat)
    (hmem : ∀ a, (mem2 a).number = (mem a).number) :
    first_slots mem2 stk n = first_slots mem stk n := by
  unfold first_slots
  apply List.countP_congr
  intro i _
  rw [hmem]

theorem push_cxt_stack_wf (s s2 : State) (cs : call_stack) (fn : Nat) (hwf : StackWF s)
    (h : push_cxt { s with current_call_stack := cs } fn = some s2) : StackWF s2 := by
  obtain ⟨w1, w2, w3, w4⟩ := hwf
  obtain ⟨hnum, hcases⟩ := push_cxt_step { s with current_call_stack := cs } s2 fn w1 w2 h
  dsimp only at hnum hcases
  rcases hcases with ⟨_, _, c3, c4⟩ | ⟨_, e1, e2, e3, _, e5, e6, e7, e8, e9⟩
  · refine ⟨by rw [c3]; exact w1, by rw [c3]; exact w2, by rw [c4]; exact w3, ?_⟩
    intro n
    rw [c3, c4, first_slots_congr _ _ _ _ hnum]
    exact w4 n
  · refine ⟨e2, e3, ?_, ?_⟩
    · rw [e7, e8]
      split
      · rw [List.length_set]; exact w3
      · exact w3
    · intro n
      rw [first_slots_push s.fn_mem s2.fn_mem s.current_fn_stack s2.current_fn_stack fn n
        hnum e1 e5 e6, e8, ← w4 n]
      by_cases hc : fn ≠ 0 ∧ s.current_fn_stack.bottom.getD s.current_fn_stack.top 0 = 0
      · have hlt : (s.fn_mem fn).number < s.current_fn_active.array.length := by
          rw [w3]; exact e9 hc
        rw [if_pos hc, getD_set_nat]
        by_cases hn : (s.fn_mem fn).number = n
        · rw [if_pos ⟨hn, hlt⟩, if_pos ⟨hc.1, hc.2, hn⟩, hn]
        · rw [if_neg (fun hh => hn hh.1), if_neg (fun hh => hn hh.2.2)]
          rfl
      · rw [if_neg hc, if_neg (fun hh => hc ⟨hh.1, hh.2.1⟩)]
        rfl

theorem push_cxt_seq_stack_wf (pushes : List (call_stack × Nat)) (s s2 : State)
    (hwf : StackWF s) (h : push_cxt_seq s pushes = some s2) : StackWF s2 := by
  induction pushes generalizing s with
  | nil =>
    simp only [push_cxt_seq, Option.some.injEq] at h
    rw [← h]; exact hwf
  | cons c rest ih =>
    obtain ⟨cs, fn⟩ := c
    simp only [push_cxt_seq, Option.bind_eq_some] at h
    obtain ⟨s1, h1, h2⟩ := h
    exact ih s1 (push_cxt_stack_wf s s1 cs fn hwf h1) h2

/-- Counterexample to C10 as stated: after `push_cxt(5)` and `push_cxt(6)` from
`fresh_state` the function numbered 6 occupies one stack slot and its active count is
0. -/
theorem active_count_counterexample :
    (push_cxt_seq fresh_state
        [(fresh_call_stack, 5), ({ fresh_call_stack with sp := 1 }, 6)]).map
      (fun s => ((s.fn_mem 6).number, s.current_fn_active.array.getD 6 0,
        slots_holding s.current_fn_stack 6)) = some (6, 0, 1) := by
  decide

/-- C10 (amended). Active-count invariant: in every state reached by a sequence of
`push_cxt` calls from an empty function stack with an all-zero active-count array, the
active count at every index `n` equals the number of stack slots `bottom[1 .. top]` that
hold a function with sequence number `n` directly above a null slot; it is therefore at
most the number of slots that hold a function with sequence number `n`. -/
theorem active_count_first_slots (s0 : State) (h0 : EmptyStacks s0)
    (pushes : List (call_stack × Nat)) (s : State)
    (h : push_cxt_seq s0 pushes = some s) (n : Nat) :
    s.current_fn_active.array.getD n 0 = first_slots s.fn_mem s.current_fn_stack n ∧
      s.current_fn_active.array.getD n 0 ≤ slots_numbered s.fn_mem s.current_fn_stack n := by
  have hwf := push_cxt_seq_stack_wf pushes s0 s (empty_stacks_wf s0 h0) h
  refine ⟨hwf.2.2.2 n, ?_⟩
  rw [hwf.2.2.2 n]
  unfold first_slots slots_numbered
  apply List.countP_mono_left
  intro i _ hi
  simp only [decide_eq_true_eq] at hi ⊢
  exact ⟨hi.1, hi.2.2⟩

/-- Witness of C10 (amended): the pushes of 5 and 6 from `fresh_state`. -/
theorem active_count_first_slots_witness :
    ∃ s, push_cxt_seq fresh_state
        [(fresh_call_stack, 5), ({ fresh_call_stack with sp := 1 }, 6)] = some s ∧
      s.current_fn_active.array.getD 6 0 = first_slots s.fn_mem s.current_fn_stack 6 :=
  ⟨_, rfl, (active_count_first_slots fresh_state
    ⟨rfl, rfl, List.length_replicate _ _, by decide, rfl⟩
    [(fresh_call_stack, 5), ({ fresh_call_stack with sp := 1 }, 6)] _ rfl 6).1⟩


/-- One push that is not coalesced, from a state with `top` inside the array: it succeeds
under the bound that `get_fn_entry` asserts, and the facts of `push_cxt_step` hold. -/
theorem push_cxt_fresh_top (s : State) (cs : call_stack) (fn : Nat) (hfn : fn ≠ 0)
    (hfree : frame_free cs)
    (hlen : s.current_fn_stack.bottom.length = s.current_fn_stack.size)
    (htop : s.current_fn_stack.top < s.current_fn_stack.size)
    (hdiff : s.current_fn_stack.bottom.getD s.current_fn_stack.top 0 ≠ fn)
    (hnum : s.current_fn_stack.bottom.getD s.current_fn_stack.top 0 = 0 →
      (s.fn_mem fn).number < s.current_fn_active.size) :
    ∃ s2, push_cxt { s with current_call_stack := cs } fn = some s2 ∧
      (∀ a, (s2.fn_mem a).number = (s.fn_mem a).number) ∧
      s2.current_fn_stack.top = s.current_fn_stack.top + 1 ∧
      s2.current_fn_stack.bottom.length = s2.current_fn_stack.size ∧
      s2.current_fn_stack.top < s2.current_fn_stack.size ∧
      s2.current_fn_stack.bottom.getD (s.current_fn_stack.top + 1) 0 = fn ∧
      (∀ i, i ≤ s.current_fn_stack.top →
        s2.current_fn_stack.bottom.getD i 0 = s.current_fn_stack.bottom.getD i 0) ∧
      s2.current_fn_active.size = s.current_fn_active.size ∧
      s2.current_fn_active.array =
        (if s.current_fn_stack.bottom.getD s.current_fn_stack.top 0 = 0
          then s.current_fn_active.array.set (s.fn_mem fn).number
            (s.current_fn_active.array.getD (s.fn_mem fn).number 0 + 1)
          else s.current_fn_active.array) := by
  obtain ⟨s2, h2⟩ := push_cxt_some_of_top { s with current_call_stack := cs } fn hfree hlen
    htop (fun _ h => hnum h)
  obtain ⟨hn, hcases⟩ := push_cxt_step { s with current_call_stack := cs } s2 fn hlen htop h2
  dsimp only at hn hcases
  rcases hcases with ⟨_, c2, _⟩ | ⟨_, e1, e2, e3, _, e5, e6, e7, e8, _⟩
  · exact absurd c2 hdiff
  · refine ⟨s2, h2, hn, e1, e2, e3, e5, e6, e7, ?_⟩
    rw [e8]
    by_cases hz : s.current_fn_stack.bottom.getD s.current_fn_stack.top 0 = 0
    · rw [if_pos ⟨hfn, hz⟩, if_pos hz]
    · rw [if_neg (fun hh => hz hh.2), if_neg hz]

/-- Counterexample to C9 as stated: after `push_cxt(5)`, `push_cxt(6)`, `push_cxt(5)`
from `fresh_state` the function numbered 5 occupies two stack slots and its active count
reads 1, not 2. -/
theorem recursion_count_counterexample :
    (push_cxt_seq fresh_state
        [(fresh_call_stack, 5), ({ fresh_call_stack with sp := 1 }, 6),
          (call_stack_depth2, 5)]).map
      (fun s => ((s.fn_mem 5).number, s.current_fn_active.array.getD 5 0,
        slots_holding s.current_fn_stack 5)) = some (5, 1, 2) := by
  decide

/-- C9 (amended). Active count under recursion: from an empty function stack and an
all-zero active-count array that covers the number of `f`, the calls `push_cxt(f)`,
`push_cxt(g)`, `push_cxt(f)` for distinct non-null `f` and `g` succeed (the frame at `sp`
being free at each call) and leave `f` in two stack slots, at depth 1 and 3, while the
active count of `f` reads 1: `push_cxt` increments the count only for a function pushed
directly above a null slot. -/
theorem recursion_active_count (s0 : State) (h0 : EmptyStacks s0) (f g : Nat)
    (hf : f ≠ 0) (hg : g ≠ 0) (hfg : f ≠ g)
    (hnum : (s0.fn_mem f).number < s0.current_fn_active.size)
    (c1 c2 c3 : call_stack) (hc1 : frame_free c1) (hc2 : frame_free c2)
    (hc3 : frame_free c3) :
    ∃ s3, push_cxt_seq s0 [(c1, f), (c2, g), (c3, f)] = some s3 ∧
      s3.current_fn_active.array.getD (s3.fn_mem f).number 0 = 1 ∧
      s3.current_fn_stack.top = 3 ∧
      s3.current_fn_stack.bottom.getD 1 0 = f ∧
      s3.current_fn_stack.bottom.getD 2 0 = g ∧
      s3.current_fn_stack.bottom.getD 3 0 = f ∧
      slots_holding s3.current_fn_stack f = 2 := by
  obtain ⟨t0, z0, l0, p0, a0⟩ := h0
  have htop0 : s0.current_fn_stack.top < s0.current_fn_stack.size := by rw [t0]; exact p0
  have hz0 : s0.current_fn_stack.bottom.getD s0.current_fn_stack.top 0 = 0 := by
    rw [t0]; exact z0
  obtain ⟨s1, h1, n1, t1, l1, b1, e1, _, sz1, ar1⟩ :=
    push_cxt_fresh_top s0 c1 f hf hc1 l0 htop0 (by rw [hz0]; exact fun h => hf h.symm)
      (fun _ => hnum)
  rw [t0] at t1 e1
  have hs1 : s1.current_fn_stack.bottom.getD s1.current_fn_stack.top 0 = f := by
    rw [t1]; exact e1
  obtain ⟨s2, h2, n2, t2, l2, b2, e2, o2, sz2, ar2⟩ :=
    push_cxt_fresh_top s1 c2 g hg hc2 l1 b1 (by rw [hs1]; exact hfg)
      (fun h => absurd (hs1.symm.trans h) hf)
  rw [t1] at t2 e2 o2
  have hs2 : s2.current_fn_stack.bottom.getD s2.current_fn_stack.top 0 = g := by
    rw [t2]; exact e2
  obtain ⟨s3, h3, n3, t3, _, _, e3, o3, sz3, ar3⟩ :=
    push_cxt_fresh_top s2 c3 f hf hc3 l2 b2 (by rw [hs2]; exact fun h => hfg h.symm)
      (fun h => absurd (hs2.symm.trans h) hg)
  rw [t2] at t3 e3 o3
  have k1 : s3.current_fn_stack.bottom.getD 1 0 = f := by
    rw [o3 1 (by omega), o2 1 (by omega)]; exact e1
  have k2 : s3.current_fn_stack.bottom.getD 2 0 = g := by
    rw [o3 2 (by omega)]; exact e2
  refine ⟨s3, ?_, ?_, t3, k1, k2, e3, ?_⟩
  · simp only [push_cxt_seq, h1, h2, h3, Option.some_bind]
  · rw [n3, n2, n1, ar3, if_neg (by rw [hs2]; exact hg), ar2,
      if_neg (by rw [hs1]; exact hf), ar1, if_pos hz0, getD_set_nat, a0]
    have hlt : (s0.fn_mem f).number <
        (List.replicate s0.current_fn_active.size 0).length := by
      rw [List.length_replicate]; exact hnum
    rw [if_pos ⟨rfl, hlt⟩]
    simp [List.getD_eq_getElem?_getD, List.getElem?_replicate, hnum]
  · have k3 : s3.current_fn_stack.bottom.getD 3 0 = f := e3
    unfold slots_holding
    rw [t3]
    simp only [List.getD_eq_getElem?_getD] at k1 k2 k3
    simp [List.range_succ, List.countP_cons, k1, k2, k3, hfg.symm]

/-- Witness of C9 (amended): the functions 5 and 6 in `fresh_state`. -/
theorem recursion_active_count_witness :
    ∃ s3, push_cxt_seq fresh_state
        [(fresh_call_stack, 5), ({ fresh_call_stack with sp := 1 }, 6),
          (call_stack_depth2, 5)] = some s3 ∧
      s3.current_fn_active.array.getD (s3.fn_mem 5).number 0 = 1 := by
  obtain ⟨s3, h1, h2, _⟩ := recursion_active_count fresh_state
    ⟨rfl, rfl, List.length_replicate _ _, by decide, rfl⟩ 5 6 (by decide) (by decide)
    (by decide) (by decide) fresh_call_stack { fresh_call_stack with sp := 1 }
    call_stack_depth2 ⟨by decide, by decide⟩ ⟨by decide, by decide⟩
    ⟨by decide, by decide⟩
  exact ⟨s3, h1, h2⟩


/-! ## Fill degree -/

theorem new_cxt_check_entries (s : State) :
    (new_cxt_check s).cxts.entries = s.cxts.entries + 1 ∧
      (new_cxt_check s).cxts.size =
        (if 10 * (s.cxts.entries + 1) / s.cxts.size > 8 then 2 * s.cxts.size + 3
          else s.cxts.size) := by
  unfold new_cxt_check
  dsimp only
  split <;> exact ⟨rfl, rfl⟩

/-- A call of `get_cxt` for a function that has no Context in the table creates one:
`entries` grows by one, the size follows the fill-degree test of `new_cxt`, and every
Context of the new table other than the new one was in the old table. -/
theorem get_cxt_create (s : State) (hwf : TableWF s) (f : Nat) (rest : List Nat) (hf : f ≠ 0)
    (habs : ∀ i q, q ∈ s.cxts.table.getD i [] → (cxt_at s.cxt_heap q).fn ≠ [f]) :
    (get_cxt s (f :: rest)).1.cxts.entries = s.cxts.entries + 1 ∧
      (get_cxt s (f :: rest)).1.cxts.size =
        (if 10 * (s.cxts.entries + 1) / s.cxts.size > 8 then 2 * s.cxts.size + 3
          else s.cxts.size) ∧
      ∀ g, g ≠ f →
        (∀ i q, q ∈ s.cxts.table.getD i [] → (cxt_at s.cxt_heap q).fn ≠ [g]) →
        ∀ i q, q ∈ (get_cxt s (f :: rest)).1.cxts.table.getD i [] →
          (cxt_at (get_cxt s (f :: rest)).1.cxt_heap q).fn ≠ [g] := by
  have hlast : (s.fn_mem f).last_cxt = 0 := by
    by_contra hne
    have hl := hwf.hint f hne
    exact habs _ _ hl.1 hl.2
  have hwfm : TableWF (set_misses s (s.stat.cxt_lru_misses + 1)) :=
    wf_congr s _ hwf rfl rfl (fun a ha => hwf.hint a ha)
  have hsearch : chain_search s.cxt_heap (hash_step 0 f) (f :: rest)
      (s.cxts.table.getD (hash_step 0 f % s.cxts.size) []) = 0 := by
    rcases chain_search_spec s.cxt_heap (hash_step 0 f) (f :: rest)
      (s.cxts.table.getD (hash_step 0 f % s.cxts.size) []) with ⟨h0, _⟩ | ⟨hin, hok⟩
    · exact h0
    · have hl := is_cxt_linked s hwf _ f rest hf hin hok
      exact absurd hl.2 (habs _ _ hl.1)
  have hget : get_cxt s (f :: rest) =
      (let r := new_cxt_link (new_cxt_check (set_misses s (s.stat.cxt_lru_misses + 1)))
        (hash_step 0 f) [f] 1
       ({ r.1 with
          fn_mem := Function.update r.1.fn_mem f
            { r.1.fn_mem f with last_cxt := r.2 } }, r.2)) := by
    rw [get_cxt_cons s f rest hf, if_neg (fun hc => hc.1 hlast)]
    unfold get_cxt_miss
    dsimp only
    rw [hsearch, if_pos rfl, List.headD_cons]
    change (let r := new_cxt (set_misses s (s.stat.cxt_lru_misses + 1)) (f :: rest)
       (({ r.1 with
          fn_mem := Function.update r.1.fn_mem f
            { r.1.fn_mem f with last_cxt := r.2 } } : State), r.2)) = _
    rw [new_cxt_cons _ f rest hf]
  rw [hget]
  dsimp only
  obtain ⟨c1, c2⟩ := new_cxt_check_entries (set_misses s (s.stat.cxt_lru_misses + 1))
  refine ⟨c1, c2, ?_⟩
  intro g hg hgabs i q hq
  have hwf2 := new_cxt_check_wf _ hwfm
  have hq2 : q ∈ (new_cxt_link (new_cxt_check (set_misses s (s.stat.cxt_lru_misses + 1)))
      (hash_step 0 f) [f] 1).1.cxts.table.getD i [] := hq
  rw [new_cxt_link_mem _ hwf2] at hq2
  change (cxt_at ((new_cxt_check (set_misses s (s.stat.cxt_lru_misses + 1))).cxt_heap ++
    [{ size := 1, base_number := _, hash := hash_step 0 f, fn := [f] }]) q).fn ≠ [g]
  rcases hq2 with ⟨rfl, _⟩ | hq2
  · rw [cxt_at_append_new]
    intro hc
    simp only [List.cons.injEq, and_true] at hc
    exact hg hc.symm
  · obtain ⟨g2, hg2, _⟩ := hwf2.shape i q hq2
    rw [cxt_at_append_old _ _ _ hg2.2.1, new_cxt_check_heap]
    obtain ⟨j, hj⟩ := new_cxt_check_mem _ hwfm q i hq2
    exact hgabs j q hj

theorem get_cxt_seq_append (l1 l2 : List (List Nat)) (s : State) :
    (get_cxt_seq s (l1 ++ l2)).1 = (get_cxt_seq (get_cxt_seq s l1).1 l2).1 := by
  induction l1 generalizing s with
  | nil => rfl
  | cons a t ih =>
    simp only [List.cons_append, get_cxt_seq]
    exact ih _

theorem distinct_paths_succ (n : Nat) :
    distinct_paths (n + 1) = distinct_paths n ++ [[n + 1, 0]] := by
  simp [distinct_paths, List.range_succ]

/-- While `10 * entries < 9 * 2537`, creating Contexts for `n` distinct functions in an
initialised table leaves `n` entries in 2537 buckets: no resize happens. -/
theorem distinct_paths_fill (s0 : State) (h0 : Initial s0) (n : Nat) (hn : 10 * n < 9 * 2537) :
    TableWF (get_cxt_seq s0 (distinct_paths n)).1 ∧
      (get_cxt_seq s0 (distinct_paths n)).1.cxts.entries = n ∧
      (get_cxt_seq s0 (distinct_paths n)).1.cxts.size = 2537 ∧
      ∀ g, n < g → ∀ i q, q ∈ (get_cxt_seq s0 (distinct_paths n)).1.cxts.table.getD i [] →
        (cxt_at (get_cxt_seq s0 (distinct_paths n)).1.cxt_heap q).fn ≠ [g] := by
  induction n with
  | zero =>
    obtain ⟨h1, h2, h3⟩ := h0
    refine ⟨initial_wf s0 ⟨h1, h2, h3⟩, ?_, ?_, ?_⟩
    · show s0.cxts.entries = 0
      rw [h1]; rfl
    · show s0.cxts.size = 2537
      rw [h1]; rfl
    · intro g _ i q hq
      have hq2 : q ∈ s0.cxts.table.getD i [] := hq
      rw [h1] at hq2
      have : init_cxt_table.table.getD i [] = [] := getD_replicate_nil _ _
      rw [this] at hq2
      simp at hq2
  | succ k ih =>
    obtain ⟨i1, i2, i3, i4⟩ := ih (by omega)
    rw [distinct_paths_succ, get_cxt_seq_append]
    have hstep : (get_cxt_seq (get_cxt_seq s0 (distinct_paths k)).1 [[k + 1, 0]]).1 =
        (get_cxt (get_cxt_seq s0 (distinct_paths k)).1 [k + 1, 0]).1 := rfl
    rw [hstep]
    obtain ⟨c1, c2, c3⟩ := get_cxt_create _ i1 (k + 1) [0] (by omega)
      (i4 (k + 1) (by omega))
    refine ⟨get_cxt_wf _ i1 _, ?_, ?_, ?_⟩
    · rw [c1, i2]
    · rw [c2, i2, i3, if_neg]
      have : 10 * (k + 1) / 2537 ≤ 8 := by
        apply Nat.le_of_lt_succ
        rw [Nat.div_lt_iff_lt_mul (by omega)]
        omega
      omega
    · intro g hg
      exact c3 g (by omega) (i4 g (by omega))

/-- C3, the code at the failing input: after `get_cxt` has created Contexts for 2030
distinct functions in the initialised table, `new_cxt` has not resized: 2030 entries lie
in 2537 buckets, and `10 * entries <= 8 * size` is false (20300 > 20296). -/
theorem load_factor_exceeded :
    (get_cxt_seq fresh_state (distinct_paths 2030)).1.cxts.entries = 2030 ∧
      (get_cxt_seq fresh_state (distinct_paths 2030)).1.cxts.size = 2537 ∧
      ¬ (10 * (get_cxt_seq fresh_state (distinct_paths 2030)).1.cxts.entries ≤
          8 * (get_cxt_seq fresh_state (distinct_paths 2030)).1.cxts.size) := by
  obtain ⟨_, h2, h3, _⟩ :=
    distinct_paths_fill fresh_state ⟨rfl, rfl, fun _ => rfl⟩ 2030 (by omega)
  refine ⟨h2, h3, ?_⟩
  rw [h2, h3]
  omega


/-! ## Function-stack bounds and growth -/

/-- C12. Function-stack bounds invariant: if `top` lies inside the array
(`top - bottom < size`, the array having `size` slots) before `push_cxt`, then after a
`push_cxt` that returns, for every argument `fn`, `top` lies inside the array again, so the
write `*top = fn` is inside the allocated array and the top slot holds `fn`; `size` is
unchanged or exactly doubled and `top - bottom` is unchanged or grows by 1.  The call
returns whenever the frame at `sp` is free and the number of `fn` lies inside the
active-count array (needed only when the slot at `top` is null).  The stack of
`init_fn_stack` satisfies the precondition. -/
theorem fn_stack_bounds (s : State) (fn : Nat)
    (hlen : s.current_fn_stack.bottom.length = s.current_fn_stack.size)
    (htop : s.current_fn_stack.top < s.current_fn_stack.size) :
    (∀ s2, push_cxt s fn = some s2 →
        s2.current_fn_stack.top < s2.current_fn_stack.size ∧
        s2.current_fn_stack.bottom.length = s2.current_fn_stack.size ∧
        (s2.current_fn_stack.size = s.current_fn_stack.size ∨
          s2.current_fn_stack.size = s.current_fn_stack.size * 2) ∧
        (s2.current_fn_stack.top = s.current_fn_stack.top ∨
          s2.current_fn_stack.top = s.current_fn_stack.top + 1) ∧
        s2.current_fn_stack.bottom.getD s2.current_fn_stack.top 0 = fn) ∧
      (frame_free s.current_call_stack →
        (fn ≠ 0 → s.current_fn_stack.bottom.getD s.current_fn_stack.top 0 = 0 →
          (s.fn_mem fn).number < s.current_fn_active.size) →
        ∃ s2, push_cxt s fn = some s2) ∧
      init_fn_stack.top < init_fn_stack.size ∧
      init_fn_stack.bottom.length = init_fn_stack.size := by
  refine ⟨?_, fun hfree hnum => push_cxt_some_of_top s fn hfree hlen htop hnum, ?_, ?_⟩
  · intro s2 h
    obtain ⟨_, hcases⟩ := push_cxt_step s s2 fn hlen htop h
    rcases hcases with ⟨_, c2, c3, _⟩ | ⟨_, e1, e2, e3, e4, e5, _⟩
    · rw [c3]
      exact ⟨htop, hlen, Or.inl rfl, Or.inl rfl, c2⟩
    · refine ⟨e3, e2, ?_, Or.inr e1, by rw [e1]; exact e5⟩
      rw [e4]
      split
      · exact Or.inr rfl
      · exact Or.inl rfl
  · show 0 < N_FNSTACK_INITIAL_ENTRIES
    unfold N_FNSTACK_INITIAL_ENTRIES
    omega
  · exact List.length_replicate _ _

/-- Witness of C12: a push of function 5 onto the stack of `init_fn_stack`. -/
theorem fn_stack_bounds_witness :
    fresh_state.current_fn_stack.bottom.length = fresh_state.current_fn_stack.size ∧
      fresh_state.current_fn_stack.top < fresh_state.current_fn_stack.size ∧
      ∃ s2, push_cxt fresh_state 5 = some s2 ∧
        s2.current_fn_stack.top < s2.current_fn_stack.size := by
  have hlen : fresh_state.current_fn_stack.bottom.length =
      fresh_state.current_fn_stack.size := List.length_replicate _ _
  have htop : fresh_state.current_fn_stack.top < fresh_state.current_fn_stack.size := by
    decide
  obtain ⟨h1, h2, _⟩ := fn_stack_bounds fresh_state 5 hlen htop
  obtain ⟨s2, hs2⟩ := h2 ⟨by decide, by decide⟩ (fun _ _ => by decide)
  exact ⟨hlen, htop, s2, hs2, (h1 s2 hs2).1⟩


/-- A run of pushes in which every function is non-null and differs from the one pushed
before it (the first from the function in the top slot): every push succeeds and extends
the stack; `k` is the capacity the stack started with, and the size follows the
doublings. -/
theorem push_cxt_seq_grow (k : Nat) (pushes : List (call_stack × Nat)) (s : State)
    (hlen : s.current_fn_stack.bottom.length = s.current_fn_stack.size)
    (htop : s.current_fn_stack.top < s.current_fn_stack.size)
    (hphase : (s.current_fn_stack.top < k ∧ s.current_fn_stack.size = k) ∨
      (k ≤ s.current_fn_stack.top ∧ s.current_fn_stack.top < 2 * k ∧
        s.current_fn_stack.size = 2 * k) ∨
      (2 * k ≤ s.current_fn_stack.top ∧ s.current_fn_stack.top < 4 * k ∧
        s.current_fn_stack.size = 4 * k) ∨
      4 * k ≤ s.current_fn_stack.top)
    (hok : ∀ p ∈ pushes, frame_free p.1 ∧ p.2 ≠ 0)
    (hchain : List.Chain (fun a b => a ≠ b)
      (s.current_fn_stack.bottom.getD s.current_fn_stack.top 0) (pushes.map Prod.snd))
    (hnum : s.current_fn_stack.bottom.getD s.current_fn_stack.top 0 = 0 →
      ∀ p, pushes.head? = some p → (s.fn_mem p.2).number < s.current_fn_active.size) :
    ∃ s1, push_cxt_seq s pushes = some s1 ∧
      s1.current_fn_stack.top = s.current_fn_stack.top + pushes.length ∧
      (∀ i, i ≤ s.current_fn_stack.top →
        s1.current_fn_stack.bottom.getD i 0 = s.current_fn_stack.bottom.getD i 0) ∧
      (∀ i, i < pushes.length →
        s1.current_fn_stack.bottom.getD (s.current_fn_stack.top + 1 + i) 0 =
          (pushes.map Prod.snd).getD i 0) ∧
      s1.current_fn_stack.bottom.length = s1.current_fn_stack.size ∧
      s1.current_fn_stack.top < s1.current_fn_stack.size ∧
      ((s1.current_fn_stack.top < k ∧ s1.current_fn_stack.size = k) ∨
        (k ≤ s1.current_fn_stack.top ∧ s1.current_fn_stack.top < 2 * k ∧
          s1.current_fn_stack.size = 2 * k) ∨
        (2 * k ≤ s1.current_fn_stack.top ∧ s1.current_fn_stack.top < 4 * k ∧
          s1.current_fn_stack.size = 4 * k) ∨
        4 * k ≤ s1.current_fn_stack.top) := by
  induction pushes generalizing s with
  | nil =>
    exact ⟨s, rfl, rfl, fun _ _ => rfl, fun i hi => absurd hi (by simp), hlen, htop, hphase⟩
  | cons c rest ih =>
    obtain ⟨cs, fn⟩ := c
    have hc := hok (cs, fn) (List.mem_cons_self _ _)
    simp only [List.map_cons, List.chain_cons] at hchain
    obtain ⟨s1, h1⟩ := push_cxt_some_of_top { s with current_call_stack := cs } fn hc.1
      hlen htop (fun _ hz => hnum hz (cs, fn) rfl)
    obtain ⟨_, hcases⟩ := push_cxt_step { s with current_call_stack := cs } s1 fn hlen htop h1
    dsimp only at hcases
    rcases hcases with ⟨_, c2, _⟩ | ⟨_, e1, e2, e3, e4, e5, e6, _⟩
    · exact absurd c2 hchain.1
    · have hslot : s1.current_fn_stack.bottom.getD s1.current_fn_stack.top 0 = fn := by
        rw [e1]; exact e5
      have hphase1 : (s1.current_fn_stack.top < k ∧ s1.current_fn_stack.size = k) ∨
          (k ≤ s1.current_fn_stack.top ∧ s1.current_fn_stack.top < 2 * k ∧
            s1.current_fn_stack.size = 2 * k) ∨
          (2 * k ≤ s1.current_fn_stack.top ∧ s1.current_fn_stack.top < 4 * k ∧
            s1.current_fn_stack.size = 4 * k) ∨
          4 * k ≤ s1.current_fn_stack.top := by
        rw [e4, e1]
        split <;> omega
      obtain ⟨s2, k1, k2, k3, k4, k5, k6, k7⟩ := ih s1 e2 e3 hphase1
        (fun p hp => hok p (List.mem_cons_of_mem _ hp))
        (by rw [hslot]; exact hchain.2)
        (fun hz => absurd (hslot.symm.trans hz) hc.2)
      refine ⟨s2, ?_, ?_, ?_, ?_, k5, k6, k7⟩
      · simp only [push_cxt_seq, h1, Option.some_bind]
        exact k1
      · rw [k2, e1, List.length_cons]; omega
      · intro i hi
        rw [k3 i (by rw [e1]; omega), e6 i hi]
      · intro i hi
        cases i with
        | zero =>
          rw [List.map_cons, List.getD_cons_zero, Nat.add_zero,
            k3 _ (by rw [e1]), e5]
        | succ j =>
          rw [List.map_cons, List.getD_cons_succ]
          have := k4 j (by simpa using hi)
          rw [e1] at this
          rw [← this]
          congr 1
          omega

/-- C11. Stack growth preserves contents: for every `k >= 1`, pushing `2 * k + 1`
non-null function records, each different from its predecessor, with `push_cxt` onto a
function stack of capacity `k` whose `top` is at the sentinel succeeds (the frame at `sp`
being free at each call and the number of the first function lying inside the
active-count array) and leaves `top` at `2 * k + 1`, the sentinel at index 0, the i-th
pushed record at index `i` and the size at `4 * k`, two doublings later.  A push that
triggers growth (`top - bottom == size - 1`) doubles `size` and keeps every slot at index
`0 .. top` in its position. -/
theorem stack_growth_preserves (k : Nat) (hk : 1 ≤ k) (s0 : State)
    (pushes : List (call_stack × Nat))
    (hsize : s0.current_fn_stack.size = k)
    (hlen : s0.current_fn_stack.bottom.length = k)
    (htop : s0.current_fn_stack.top = 0)
    (hsent : s0.current_fn_stack.bottom.getD 0 0 = 0)
    (hcount : pushes.length = 2 * k + 1)
    (hok : ∀ p ∈ pushes, frame_free p.1 ∧ p.2 ≠ 0)
    (hdiff : List.Chain' (fun a b => a ≠ b) (pushes.map Prod.snd))
    (hnum : ∀ p, pushes.head? = some p →
      (s0.fn_mem p.2).number < s0.current_fn_active.size) :
    (∃ s1, push_cxt_seq s0 pushes = some s1 ∧
        s1.current_fn_stack.top = 2 * k + 1 ∧
        s1.current_fn_stack.bottom.getD 0 0 = 0 ∧
        (∀ i, i < 2 * k + 1 →
          s1.current_fn_stack.bottom.getD (i + 1) 0 = (pushes.map Prod.snd).getD i 0) ∧
        s1.current_fn_stack.size = 4 * k ∧
        s1.current_fn_stack.bottom.length = 4 * k) ∧
      (∀ (s s2 : State) (fn : Nat),
        s.current_fn_stack.bottom.length = s.current_fn_stack.size →
        s.current_fn_stack.top + 1 = s.current_fn_stack.size →
        ¬ (fn ≠ 0 ∧ s.current_fn_stack.bottom.getD s.current_fn_stack.top 0 = fn) →
        push_cxt s fn = some s2 →
        s2.current_fn_stack.size = 2 * s.current_fn_stack.size ∧
          s2.current_fn_stack.top = s.current_fn_stack.top + 1 ∧
          ∀ i, i ≤ s.current_fn_stack.top →
            s2.current_fn_stack.bottom.getD i 0 = s.current_fn_stack.bottom.getD i 0) := by
  constructor
  · have hchain : List.Chain (fun a b => a ≠ b)
        (s0.current_fn_stack.bottom.getD s0.current_fn_stack.top 0)
        (pushes.map Prod.snd) := by
      rw [htop, hsent]
      cases pushes with
      | nil => exact List.Chain.nil
      | cons c rest =>
        simp only [List.map_cons, List.chain_cons]
        refine ⟨fun h => (hok c (List.mem_cons_self _ _)).2 h.symm, ?_⟩
        simpa [List.Chain'] using hdiff
    obtain ⟨s1, k1, k2, k3, k4, k5, k6, k7⟩ := push_cxt_seq_grow k pushes s0
      (by rw [hlen, hsize]) (by rw [htop, hsize]; omega)
      (Or.inl ⟨by rw [htop]; omega, hsize⟩) hok hchain (fun _ => hnum)
    rw [htop, hcount] at k2
    have hsz : s1.current_fn_stack.size = 4 * k := by omega
    refine ⟨s1, k1, by omega, ?_, ?_, hsz, by rw [k5, hsz]⟩
    · rw [k3 0 (by omega)]; exact hsent
    · intro i hi
      have := k4 i (by omega)
      rw [htop] at this
      rw [← this]
      congr 1
      omega
  · intro s s2 fn hl hfull hnc h
    obtain ⟨_, hcases⟩ := push_cxt_step s s2 fn hl (by omega) h
    rcases hcases with ⟨c1, c2, _⟩ | ⟨_, e1, _, _, e4, _, e6, _⟩
    · exact absurd ⟨c1, c2⟩ hnc
    · rw [if_pos hfull] at e4
      exact ⟨by omega, e1, e6⟩


/-- Witness of C11: three functions pushed onto a stack of capacity 1. -/
theorem stack_growth_preserves_witness :
    ∃ s1, push_cxt_seq
        { fresh_state with current_fn_stack := { size := 1, bottom := [0], top := 0 } }
        [(fresh_call_stack, 5), ({ fresh_call_stack with sp := 1 }, 6),
          (call_stack_depth2, 7)] = some s1 ∧
      s1.current_fn_stack.top = 3 ∧ s1.current_fn_stack.size = 4 ∧
      s1.current_fn_stack.bottom.getD 3 0 = 7 := by
  have hok : ∀ p ∈ [(fresh_call_stack, 5), ({ fresh_call_stack with sp := 1 }, 6),
      (call_stack_depth2, 7)], frame_free p.1 ∧ p.2 ≠ 0 := by
    intro p hp
    simp only [List.mem_cons, List.mem_singleton, List.not_mem_nil, or_false] at hp
    rcases hp with rfl | rfl | rfl <;> exact ⟨⟨by decide, by decide⟩, by decide⟩
  obtain ⟨⟨s1, h1, h2, _, h4, h5, _⟩, _⟩ := stack_growth_preserves 1 (by decide)
    { fresh_state with current_fn_stack := { size := 1, bottom := [0], top := 0 } }
    [(fresh_call_stack, 5), ({ fresh_call_stack with sp := 1 }, 6),
      (call_stack_depth2, 7)] rfl rfl rfl rfl rfl hok
    (by simp [List.Chain'])
    (by intro p hp; cases hp; decide)
  exact ⟨s1, h1, h2, h5, h4 2 (by decide)⟩


/-! ## Active-count array: access and growth -/

/-- Counterexample to C15 as stated: with the 16 counters of `fresh_state`, the access
`get_fn_entry(16)` fails its assertion, and so does `push_cxt` of the function numbered
16; nothing grows. -/
theorem lazy_growth_counterexample :
    fresh_state.current_fn_active.size = 16 ∧
      get_fn_entry fresh_state.current_fn_active 16 = none ∧
      (fresh_state.fn_mem 16).number = 16 ∧
      (push_cxt fresh_state 16).isNone = true := by
  decide

/-- C15 (amended). Access to the active-count array: `get_fn_entry(n)` returns the counter
at index `n` exactly if `n` is below the current size, and fails its assertion
`n < current_fn_active.size` exactly if `n` is at or beyond it; it never changes the
array. -/
theorem get_fn_entry_bounds (a : fn_array) (n : Nat) :
    (get_fn_entry a n = some n ↔ n < a.size) ∧ (get_fn_entry a n = none ↔ a.size ≤ n) := by
  unfold get_fn_entry
  by_cases h : n < a.size
  · simp [h]
  · simp [h, Nat.le_of_not_lt h]

theorem resize_newsize_spec (fuel n d : Nat) (hn : 1 ≤ n) (hf : 1 ≤ fuel)
    (hfuel : d + 2 ≤ fuel + n) :
    ∃ j, resize_newsize fuel n d = some (n * 2 ^ j) ∧ d < n * 2 ^ j ∧
      ∀ i, i < j → n * 2 ^ i ≤ d := by
  induction fuel generalizing n with
  | zero => omega
  | succ f ih =>
    unfold resize_newsize
    by_cases hle : n ≤ d
    · rw [if_pos hle]
      obtain ⟨j, h1, h2, h3⟩ := ih (n * 2) (by omega) (by omega) (by omega)
      refine ⟨j + 1, ?_, ?_, ?_⟩
      · rw [h1, pow_succ]
        congr 1
        ring
      · rw [pow_succ]
        calc d < n * 2 * 2 ^ j := h2
          _ = n * (2 ^ j * 2) := by ring
      · intro i hi
        cases i with
        | zero => simpa using hle
        | succ i2 =>
          have := h3 i2 (by omega)
          rw [pow_succ]
          calc n * (2 ^ i2 * 2) = n * 2 * 2 ^ i2 := by ring
            _ ≤ d := this
    · rw [if_neg hle]
      exact ⟨0, by simp, by simpa using Nat.lt_of_not_le hle, fun i hi => absurd hi (by omega)⟩

theorem getD_map_range (n i : Nat) (f : Nat → Nat) :
    ((List.range n).map f).getD i 0 = if i < n then f i else 0 := by
  by_cases h : i < n
  · simp [List.getD_eq_getElem?_getD, List.getElem?_range h, h]
  · have hnone : (List.range n)[i]? = none :=
      List.getElem?_eq_none (by rw [List.length_range]; omega)
    simp [List.getD_eq_getElem?_getD, h, hnone]

/-- What `resize_fn_array` does when the size is at least 1: it returns, the new size is
`size * 2 ^ j` for the least `j` with `size * 2 ^ j > distinct_fns`, the counters below the
old size are kept and the counters above are 0. -/
theorem resize_fn_array_spec (s : State) (hs : 1 ≤ s.current_fn_active.size) :
    ∃ j s1, resize_fn_array s = some s1 ∧
      s1.current_fn_active.size = s.current_fn_active.size * 2 ^ j ∧
      s.stat.distinct_fns < s.current_fn_active.size * 2 ^ j ∧
      (∀ i, i < j → s.current_fn_active.size * 2 ^ i ≤ s.stat.distinct_fns) ∧
      s1.current_fn_active.array.length = s1.current_fn_active.size ∧
      (∀ i, i < s.current_fn_active.size →
        s1.current_fn_active.array.getD i 0 = s.current_fn_active.array.getD i 0) ∧
      (∀ i, s.current_fn_active.size ≤ i → s1.current_fn_active.array.getD i 0 = 0) ∧
      s1.fn_mem = s.fn_mem ∧ s1.cxts = s.cxts ∧ s1.cxt_heap = s.cxt_heap ∧
      s1.current_fn_stack = s.current_fn_stack ∧
      s1.current_call_stack = s.current_call_stack ∧
      s1.current_state_cxt = s.current_state_cxt ∧
      s1.stat = { s.stat with fn_array_resizes := s.stat.fn_array_resizes + 1 } := by
  obtain ⟨j, h1, h2, h3⟩ := resize_newsize_spec (s.stat.distinct_fns + 2)
    s.current_fn_active.size s.stat.distinct_fns hs (by omega) (by omega)
  have hres : resize_fn_array s = some
      { s with
        current_fn_active :=
          { size := s.current_fn_active.size * 2 ^ j
            array := (List.range (s.current_fn_active.size * 2 ^ j)).map fun i =>
              if i < s.current_fn_active.size then s.current_fn_active.array.getD i 0
              else 0 }
        stat := { s.stat with fn_array_resizes := s.stat.fn_array_resizes + 1 } } := by
    unfold resize_fn_array
    rw [h1]
    rfl
  refine ⟨j, _, hres, rfl, h2, h3, ?_, ?_, ?_, rfl, rfl, rfl, rfl, rfl, rfl, rfl⟩
  · simp
  · intro i hi
    dsimp only
    rw [getD_map_range, if_pos hi]
    have : s.current_fn_active.size ≤ s.current_fn_active.size * 2 ^ j :=
      Nat.le_mul_of_pos_right _ (Nat.pow_pos (by omega))
    rw [if_pos (by omega)]
  · intro i hi
    dsimp only
    rw [getD_map_range]
    split
    · rw [if_neg (by omega)]
    · rfl


/-- C16. Eager growth on interning: when the current active-count array has size
`s >= 1`, `new_fn_node` returns; the new record gets the sequence number
`d = distinct_fns + 1`.  If `d < s` the array is unchanged.  If `d >= s`,
`resize_fn_array` has run and the array has size `s * 2 ^ j` for the least `j >= 1` with
`s * 2 ^ j > d`, the counters at indices below `s` are the old ones and the counters at
indices from `s` on are 0. -/
theorem eager_growth (w : Tables) (fnname : List Int) (file next : Nat)
    (hs : 1 ≤ w.st.current_fn_active.size) :
    ∃ w1, new_fn_node w fnname file next = some (w1, w.fn_malloc w.st.stat.distinct_fns) ∧
      (w1.st.fn_mem (w.fn_malloc w.st.stat.distinct_fns)).number =
        w.st.stat.distinct_fns + 1 ∧
      w1.st.stat.distinct_fns = w.st.stat.distinct_fns + 1 ∧
      (w.st.stat.distinct_fns + 1 < w.st.current_fn_active.size →
        w1.st.current_fn_active = w.st.current_fn_active) ∧
      (w.st.current_fn_active.size ≤ w.st.stat.distinct_fns + 1 →
        ∃ j, 1 ≤ j ∧
          w1.st.current_fn_active.size = w.st.current_fn_active.size * 2 ^ j ∧
          w.st.stat.distinct_fns + 1 < w.st.current_fn_active.size * 2 ^ j ∧
          (∀ i, i < j → w.st.current_fn_active.size * 2 ^ i ≤ w.st.stat.distinct_fns + 1) ∧
          w1.st.current_fn_active.array.length = w1.st.current_fn_active.size ∧
          (∀ i, i < w.st.current_fn_active.size →
            w1.st.current_fn_active.array.getD i 0 =
              w.st.current_fn_active.array.getD i 0) ∧
          (∀ i, w.st.current_fn_active.size ≤ i →
            w1.st.current_fn_active.array.getD i 0 = 0)) := by
  by_cases hc : w.st.current_fn_active.size ≤ w.st.stat.distinct_fns + 1
  · obtain ⟨j, s1, r1, r2, r3, r4, r5, r6, r7, r8, _, _, _, _, _, r9⟩ := resize_fn_array_spec
      { w.st with
        fn_mem := Function.update w.st.fn_mem (w.fn_malloc w.st.stat.distinct_fns)
          { name := fnname
            number := w.st.stat.distinct_fns + 1
            last_cxt := 0
            pure_cxt := 0
            file := file
            next := next
            is_malloc := false
            is_realloc := false
            is_free := false }
        stat := { w.st.stat with distinct_fns := w.st.stat.distinct_fns + 1 } } hs
    dsimp only at r1 r2 r3 r4 r5 r6 r7 r8 r9
    refine ⟨{ w with st := s1 }, ?_, ?_, ?_, fun h => absurd hc (by omega), fun _ => ?_⟩
    · unfold new_fn_node
      dsimp only
      rw [if_pos hc, r1]
      rfl
    · show (s1.fn_mem (w.fn_malloc w.st.stat.distinct_fns)).number = _
      rw [r8, Function.update_same]
    · show s1.stat.distinct_fns = _
      rw [r9]
    · refine ⟨j, ?_, r2, r3, r4, r5, r6, r7⟩
      by_contra hj
      have hj0 : j = 0 := by omega
      rw [hj0] at r3
      simp at r3
      omega
  · have hres : new_fn_node w fnname file next = some
        ({ w with
           st := { w.st with
             fn_mem := Function.update w.st.fn_mem (w.fn_malloc w.st.stat.distinct_fns)
               { name := fnname
                 number := w.st.stat.distinct_fns + 1
                 last_cxt := 0
                 pure_cxt := 0
                 file := file
                 next := next
                 is_malloc := false
                 is_realloc := false
                 is_free := false }
             stat := { w.st.stat with distinct_fns := w.st.stat.distinct_fns + 1 } } },
          w.fn_malloc w.st.stat.distinct_fns) := by
      unfold new_fn_node
      dsimp only
      rw [if_neg hc]
      rfl
    refine ⟨_, hres, ?_, rfl, fun _ => rfl, fun h => absurd h hc⟩
    dsimp only
    rw [Function.update_same]

/-- Witness of C16: two counters `[7, 9]` and a new record with sequence number 5; the
array grows to 8 counters. -/
theorem eager_growth_witness :
    ∃ w1, new_fn_node small_array_tables [102] 1 0 = some (w1, 320) ∧
      w1.st.current_fn_active.size = 8 ∧
      w1.st.current_fn_active.array.getD 1 0 = 9 ∧
      w1.st.current_fn_active.array.getD 5 0 = 0 := by
  obtain ⟨w1, h1, _, _, _, h5⟩ := eager_growth small_array_tables [102] 1 0 (by decide)
  obtain ⟨j, h6, h7, h8, h9, _, h11, h12⟩ := h5 (by decide)
  have hj : j = 2 := by
    have e1 : small_array_tables.st.current_fn_active.size = 2 := rfl
    have e2 : small_array_tables.st.stat.distinct_fns = 4 := rfl
    rw [e1, e2] at h8 h9
    have hj2 : ¬ j ≤ 1 := by
      intro hle
      have : 2 * 2 ^ j ≤ 2 * 2 ^ 1 :=
        Nat.mul_le_mul_left 2 (Nat.pow_le_pow_right (by omega) hle)
      omega
    have hj3 : ¬ 3 ≤ j := by
      intro hge
      have := h9 2 (by omega)
      omega
    omega
  rw [hj] at h7
  exact ⟨w1, h1, h7, h11 1 (by decide), h12 5 (by decide)⟩


/-! ## String hash -/

theorem str_hash_loop_rolling (m : Nat) (hm1 : 1 ≤ m) (hm2 : m ≤ 2 ^ 23) (s : List Int)
    (h : Nat) (hh : h < m) (hs : ∀ c ∈ s, 1 ≤ c ∧ c ≤ 127) :
    ((str_hash_loop m s h : Nat) : Int) =
        s.foldl (fun h c => (256 * h + c) % (m : Int)) (h : Int) ∧
      str_hash_loop m s h < m := by
  induction s generalizing h with
  | nil => exact ⟨rfl, hh⟩
  | cons c t ih =>
    obtain ⟨hc1, hc2⟩ := hs c (List.mem_cons_self _ _)
    have hc0 : c ≠ 0 := by omega
    have hnn : 0 ≤ HASH_CONSTANT * (h : Int) + c := by
      unfold HASH_CONSTANT; omega
    have hlt : HASH_CONSTANT * (h : Int) + c < 2 ^ 32 := by
      unfold HASH_CONSTANT
      have : (h : Int) < 2 ^ 23 := by
        have : h < 2 ^ 23 := by omega
        exact_mod_cast this
      norm_num at this ⊢
      omega
    have hmod : (HASH_CONSTANT * (h : Int) + c) % 2 ^ 32 = HASH_CONSTANT * (h : Int) + c :=
      Int.emod_eq_of_lt hnn hlt
    have hstep : ((((HASH_CONSTANT * (h : Int) + c) % 2 ^ 32).toNat % m : Nat) : Int) =
        (256 * (h : Int) + c) % (m : Int) := by
      rw [hmod, Int.natCast_mod, Int.toNat_of_nonneg hnn]
      rfl
    have hnew : ((HASH_CONSTANT * (h : Int) + c) % 2 ^ 32).toNat % m < m :=
      Nat.mod_lt _ (by omega)
    obtain ⟨i1, i2⟩ := ih _ hnew (fun x hx => hs x (List.mem_cons_of_mem _ hx))
    simp only [str_hash_loop, if_neg hc0, List.foldl_cons]
    rw [i1, hstep]
    exact ⟨rfl, i2⟩

theorem foldl_base256_congr (m : Int) (s : List Int) (a b : Int) (h : a % m = b % m) :
    (s.foldl (fun v c => 256 * v + c) a) % m = (s.foldl (fun v c => 256 * v + c) b) % m := by
  induction s generalizing a b with
  | nil => exact h
  | cons c t ih =>
    simp only [List.foldl_cons]
    apply ih
    have h1 : (256 * a) % m = (256 * b) % m := by
      rw [Int.mul_emod, h, ← Int.mul_emod]
    rw [Int.add_emod, h1, ← Int.add_emod]

theorem rolling_eq_base256 (m : Int) (hm : 0 < m) (s : List Int) (a : Int)
    (ha0 : 0 ≤ a) (ha : a < m) :
    s.foldl (fun h c => (256 * h + c) % m) a = (s.foldl (fun v c => 256 * v + c) a) % m := by
  induction s generalizing a with
  | nil =>
    simp only [List.foldl_nil]
    exact (Int.emod_eq_of_lt ha0 ha).symm
  | cons c t ih =>
    simp only [List.foldl_cons]
    rw [ih _ (Int.emod_nonneg _ (by omega)) (Int.emod_lt_of_pos _ hm)]
    exact foldl_base256_congr m t _ _ (Int.emod_emod_of_dvd _ (dvd_refl m))

/-- C17. String hash: for every string of characters with codes in `1 .. 127` and every
table size `m` with `1 <= m <= 2 ^ 23`, `str_hash(s, m)` is the value of `s` read as a
big-endian number in base 256, reduced modulo `m`; it is the fold
`hash := (256 * hash + char) mod m` from 0 over the full string; it is below `m`; and the
hash of the empty string is 0. -/
theorem str_hash_spec (s : List Int) (m : Nat) (hs : ∀ c ∈ s, 1 ≤ c ∧ c ≤ 127)
    (hm1 : 1 ≤ m) (hm2 : m ≤ 2 ^ 23) :
    ((str_hash s m : Nat) : Int) = base256_value s % (m : Int) ∧
      ((str_hash s m : Nat) : Int) = rolling_hash s m ∧
      str_hash s m < m ∧
      str_hash [] m = 0 := by
  obtain ⟨h1, h2⟩ := str_hash_loop_rolling m hm1 hm2 s 0 (by omega) hs
  have hm : (0 : Int) < (m : Int) := by exact_mod_cast hm1
  have h3 := rolling_eq_base256 (m : Int) hm s 0 (le_refl 0) hm
  refine ⟨?_, ?_, h2, rfl⟩
  · unfold str_hash base256_value
    rw [h1]
    exact h3
  · unfold str_hash rolling_hash
    rw [h1]
    rfl

/-- Witness of C17: the string `"main"` (codes 109, 97, 105, 110) and the table size 87. -/
theorem str_hash_spec_witness :
    (∀ c ∈ ([109, 97, 105, 110] : List Int), 1 ≤ c ∧ c ≤ 127) ∧
      ((str_hash [109, 97, 105, 110] 87 : Nat) : Int) =
        base256_value [109, 97, 105, 110] % ((87 : Nat) : Int) ∧
      str_hash [109, 97, 105, 110] 87 < 87 :=
  ⟨by decide,
   (str_hash_spec [109, 97, 105, 110] 87 (by decide) (by decide) (by decide)).1,
   (str_hash_spec [109, 97, 105, 110] 87 (by decide) (by decide) (by decide)).2.2.1⟩


/-! ## Debug-info miss categories -/

/-- Counterexample to C20 as stated: the reader reports the file and the line as found, with
line 0, and the function as found, under a name that is the string `"???"`;
`get_debug_info` passes both on and returns True, so the function name is the sentinel
and the line is 0 although both were found. -/
theorem debug_info_counterexample :
    (get_debug_info fresh_state
        { debug_info := none, found_file_line := true, file := [97], dir := [],
          line := 0, found_fn := true, fn_name := [63, 63, 63] } true true).2.fn_name =
      unknown_name ∧
    (get_debug_info fresh_state
        { debug_info := none, found_file_line := true, file := [97], dir := [],
          line := 0, found_fn := true, fn_name := [63, 63, 63] } true true).2.line_num =
      some 0 ∧
    (get_debug_info fresh_state
        { debug_info := none, found_file_line := true, file := [97], dir := [],
          line := 0, found_fn := true, fn_name := [63, 63, 63] } true true).2.result =
      true := by
  decide

/-- C20 (amended). Debug-info miss categories: for each of the four combinations of
(file/line found, function name found), `get_debug_info` increments exactly one of the
counters `full_debug_BBs`, `file_line_debug_BBs`, `fn_name_debug_BBs`, `no_debug_BBs` by
one and leaves the other three unchanged; it returns False if and only if neither was
found; the function name is `"???"` whenever the function was not found and is the name
that the reader reported otherwise; the file is `"???"` and the line is 0 whenever
file/line was not found, and they are the file and the line that the reader reported
otherwise. -/
theorem get_debug_info_categories (s : State) (a : debug_answer) (want_line want_di : Bool) :
    ((get_debug_info s a want_line want_di).1.stat.full_debug_BBs =
        s.stat.full_debug_BBs +
          (if a.found_file_line = true ∧ a.found_fn = true then 1 else 0)) ∧
      ((get_debug_info s a want_line want_di).1.stat.file_line_debug_BBs =
        s.stat.file_line_debug_BBs +
          (if a.found_file_line = true ∧ a.found_fn = false then 1 else 0)) ∧
      ((get_debug_info s a want_line want_di).1.stat.fn_name_debug_BBs =
        s.stat.fn_name_debug_BBs +
          (if a.found_file_line = false ∧ a.found_fn = true then 1 else 0)) ∧
      ((get_debug_info s a want_line want_di).1.stat.no_debug_BBs =
        s.stat.no_debug_BBs +
          (if a.found_file_line = false ∧ a.found_fn = false then 1 else 0)) ∧
      ((get_debug_info s a want_line want_di).2.result = false ↔
        a.found_file_line = false ∧ a.found_fn = false) ∧
      (get_debug_info s a want_line want_di).2.fn_name =
        (if a.found_fn = true then a.fn_name else unknown_name) ∧
      (get_debug_info s a want_line want_di).2.file =
        (if a.found_file_line = true then a.file else unknown_name) ∧
      (get_debug_info s a want_line want_di).2.line_num =
        (if want_line = true then
          some (if a.found_file_line = true then a.line else 0) else none) := by
  unfold get_debug_info
  cases hfl : a.found_file_line <;> cases hfn : a.found_fn <;> cases want_line <;> simp

/-! ## The identity tables -/

theorem name_search_spec (name_of : Nat → List Int) (name : List Int) (chain : List Nat) :
    (name_search name_of name chain = 0 ∧ ∀ p ∈ chain, p ≠ 0 → name_of p ≠ name) ∨
      (name_search name_of name chain ∈ chain ∧
        name_of (name_search name_of name chain) = name) := by
  induction chain with
  | nil => left; simp [name_search]
  | cons curr next ih =>
    unfold name_search
    by_cases h : name = name_of curr
    · rw [if_pos h]
      right
      exact ⟨List.mem_cons_self _ _, h.symm⟩
    · rw [if_neg h]
      rcases ih with ⟨h0, hall⟩ | ⟨hm, hn⟩
      · left
        refine ⟨h0, ?_⟩
        intro p hp hp0
        rcases List.mem_cons.mp hp with rfl | hp
        · exact fun hc => h hc.symm
        · exact hall p hp hp0
      · right
        exact ⟨List.mem_cons_of_mem _ hm, hn⟩

theorem name_search_unique (name_of : Nat → List Int) (name : List Int) (chain : List Nat)
    (p : Nat) (hp : p ∈ chain) (hn : name_of p = name)
    (hu : ∀ q ∈ chain, name_of q = name → q = p) :
    name_search name_of name chain = p := by
  rcases name_search_spec name_of name chain with ⟨h0, hall⟩ | ⟨hm, hn2⟩
  · by_cases hp0 : p = 0
    · rw [h0, hp0]
    · exact absurd hn (hall p hp hp0)
  · exact hu _ hm hn2

theorem name_search_absent (name_of : Nat → List Int) (name : List Int) (chain : List Nat)
    (h : ∀ p ∈ chain, name_of p ≠ name) : name_search name_of name chain = 0 := by
  rcases name_search_spec name_of name chain with ⟨h0, _⟩ | ⟨hm, hn2⟩
  · exact h0
  · exact absurd hn2 (h _ hm)

theorem str_hash_loop_lt (n : Nat) (s : List Int) (v : Nat) (hv : v < n) :
    str_hash_loop n s v < n := by
  induction s generalizing v with
  | nil => simpa [str_hash_loop] using hv
  | cons c s ih =>
    unfold str_hash_loop
    split
    · exact hv
    · exact ih _ (Nat.mod_lt _ (by omega))

theorem str_hash_lt (s : List Int) (n : Nat) (hn : 0 < n) : str_hash s n < n :=
  str_hash_loop_lt n s 0 hn

theorem obj_at_append_old (heap : List obj_node) (x : obj_node) (p : Nat)
    (hp : p ≤ heap.length) : obj_at (heap ++ [x]) p = obj_at heap p := by
  cases p with
  | zero => rfl
  | succ q =>
    have hq : q < heap.length := hp
    simp [obj_at, List.getD_eq_getElem?_getD, List.getElem?_append_left hq]

theorem obj_at_append_new (heap : List obj_node) (x : obj_node) :
    obj_at (heap ++ [x]) (heap.length + 1) = x := by
  simp [obj_at, List.getD_eq_getElem?_getD]

theorem obj_at_put_same (heap : List obj_node) (x : obj_node) (p : Nat) (h0 : 0 < p)
    (hp : p ≤ heap.length) : obj_at (obj_put heap p x) p = x := by
  cases p with
  | zero => omega
  | succ q =>
    have hq : q < heap.length := hp
    simp [obj_at, obj_put, List.getD_eq_getElem?_getD, hq]

theorem obj_at_put_other (heap : List obj_node) (x : obj_node) (p q : Nat) (h : q ≠ p) :
    obj_at (obj_put heap p x) q = obj_at heap q := by
  cases p with
  | zero => rfl
  | succ p =>
    cases q with
    | zero => rfl
    | succ q =>
      have hne : p ≠ q := fun hc => h (by rw [hc])
      simp [obj_at, obj_put, List.getD_eq_getElem?_getD, List.getElem?_set, hne]

theorem length_obj_put (heap : List obj_node) (x : obj_node) (p : Nat) :
    (obj_put heap p x).length = heap.length := by
  cases p with
  | zero => rfl
  | succ p => simp [obj_put]

theorem file_at_append_old (heap : List file_node) (x : file_node) (p : Nat)
    (hp : p ≤ heap.length) : file_at (heap ++ [x]) p = file_at heap p := by
  cases p with
  | zero => rfl
  | succ q =>
    have hq : q < heap.length := hp
    simp [file_at, List.getD_eq_getElem?_getD, List.getElem?_append_left hq]

theorem file_at_append_new (heap : List file_node) (x : file_node) :
    file_at (heap ++ [x]) (heap.length + 1) = x := by
  simp [file_at, List.getD_eq_getElem?_getD]

theorem file_at_put_same (heap : List file_node) (x : file_node) (p : Nat) (h0 : 0 < p)
    (hp : p ≤ heap.length) : file_at (file_put heap p x) p = x := by
  cases p with
  | zero => omega
  | succ q =>
    have hq : q < heap.length := hp
    simp [file_at, file_put, List.getD_eq_getElem?_getD, hq]

theorem file_at_put_other (heap : List file_node) (x : file_node) (p q : Nat) (h : q ≠ p) :
    file_at (file_put heap p x) q = file_at heap q := by
  cases p with
  | zero => rfl
  | succ p =>
    cases q with
    | zero => rfl
    | succ q =>
      have hne : p ≠ q := fun hc => h (by rw [hc])
      simp [file_at, file_put, List.getD_eq_getElem?_getD, List.getElem?_set, hne]

theorem length_file_put (heap : List file_node) (x : file_node) (p : Nat) :
    (file_put heap p x).length = heap.length := by
  cases p with
  | zero => rfl
  | succ p => simp [file_put]

/-- The components of the result of `new_obj_node`. -/
theorem new_obj_node_spec (w : Tables) (di : Option DebugInfo) (next : Nat) :
    (new_obj_node w di next).2 = w.obj_heap.length + 1 ∧
      (∃ obj : obj_node, (new_obj_node w di next).1.obj_heap = w.obj_heap ++ [obj] ∧
        obj.name = obj_name_of di ∧ obj.number = w.st.stat.distinct_objs + 1 ∧
        obj.files = List.replicate w.N_FILE_ENTRIES [] ∧
        obj.start = di.elim 0 DebugInfo.text_avma ∧
        obj.size = di.elim 0 DebugInfo.text_size ∧
        obj.offset = di.elim 0 DebugInfo.text_bias) ∧
      (new_obj_node w di next).1.st = { w.st with
        stat := { w.st.stat with distinct_objs := w.st.stat.distinct_objs + 1 } } ∧
      (new_obj_node w di next).1.obj_table = w.obj_table ∧
      (new_obj_node w di next).1.file_heap = w.file_heap ∧
      (new_obj_node w di next).1.N_OBJ_ENTRIES = w.N_OBJ_ENTRIES ∧
      (new_obj_node w di next).1.N_FILE_ENTRIES = w.N_FILE_ENTRIES ∧
      (new_obj_node w di next).1.N_FN_ENTRIES = w.N_FN_ENTRIES ∧
      (new_obj_node w di next).1.fn_malloc = w.fn_malloc := by
  unfold new_obj_node
  dsimp only
  generalize w.search_runtime_resolve _ = o
  refine ⟨rfl, ⟨?_, ?_, ?_⟩, ?_⟩
  pick_goal 2
  · split
    · cases o <;> exact rfl
    · exact rfl
  · cases di <;> exact ⟨rfl, rfl, rfl, rfl, rfl, rfl⟩
  · split
    · cases o <;> exact ⟨rfl, rfl, rfl, rfl, rfl, rfl, rfl⟩
    · exact ⟨rfl, rfl, rfl, rfl, rfl, rfl, rfl⟩

theorem get_obj_node_eq (w : Tables) (di : Option DebugInfo) :
    get_obj_node w di =
      if name_search (fun p => (obj_at w.obj_heap p).name) (obj_name_of di)
          (w.obj_table.getD (str_hash (obj_name_of di) w.N_OBJ_ENTRIES) []) = 0 then
        ({ (new_obj_node w di
              ((w.obj_table.getD (str_hash (obj_name_of di) w.N_OBJ_ENTRIES) []).headD 0)).1 with
            obj_table := (new_obj_node w di
              ((w.obj_table.getD (str_hash (obj_name_of di) w.N_OBJ_ENTRIES) []).headD
                0)).1.obj_table.set (str_hash (obj_name_of di) w.N_OBJ_ENTRIES)
              ((new_obj_node w di
                ((w.obj_table.getD (str_hash (obj_name_of di) w.N_OBJ_ENTRIES) []).headD
                  0)).2 :: w.obj_table.getD (str_hash (obj_name_of di) w.N_OBJ_ENTRIES) []) },
          (new_obj_node w di
            ((w.obj_table.getD (str_hash (obj_name_of di) w.N_OBJ_ENTRIES) []).headD 0)).2)
      else (w, name_search (fun p => (obj_at w.obj_heap p).name) (obj_name_of di)
          (w.obj_table.getD (str_hash (obj_name_of di) w.N_OBJ_ENTRIES) [])) := by
  cases di <;> rfl

/-- A module that has a record is found: `get_obj_node` returns the record and leaves the
state as it is. -/
theorem get_obj_node_found (w : Tables) (di : Option DebugInfo) (hw : ObjWF w) (p : Nat)
    (h0 : 0 < p) (hp : p ≤ w.obj_heap.length)
    (hn : (obj_at w.obj_heap p).name = obj_name_of di) :
    get_obj_node w di = (w, p) := by
  have hmem := (hw.all p h0 hp).1
  rw [hn] at hmem
  have hs : name_search (fun p => (obj_at w.obj_heap p).name) (obj_name_of di)
      (w.obj_table.getD (str_hash (obj_name_of di) w.N_OBJ_ENTRIES) []) = p := by
    apply name_search_unique _ _ _ p hmem hn
    intro q hq hqn
    have hq2 := hw.linked _ q hq
    exact hw.names q p hq2.1 hq2.2.1 h0 hp (hqn.trans hn.symm)
  rw [get_obj_node_eq, hs, if_neg (by omega)]

/-- A module that has no record gets one: the components of the state after
`get_obj_node`. -/
theorem get_obj_node_new (w : Tables) (di : Option DebugInfo) (hw : ObjWF w)
    (habs : ∀ p, 0 < p → p ≤ w.obj_heap.length →
      (obj_at w.obj_heap p).name ≠ obj_name_of di) :
    (get_obj_node w di).2 = w.obj_heap.length + 1 ∧
      (∃ obj : obj_node, (get_obj_node w di).1.obj_heap = w.obj_heap ++ [obj] ∧
        obj.name = obj_name_of di ∧ obj.number = w.st.stat.distinct_objs + 1 ∧
        obj.files = List.replicate w.N_FILE_ENTRIES [] ∧
        obj.start = di.elim 0 DebugInfo.text_avma ∧
        obj.size = di.elim 0 DebugInfo.text_size ∧
        obj.offset = di.elim 0 DebugInfo.text_bias) ∧
      (get_obj_node w di).1.st = { w.st with
        stat := { w.st.stat with distinct_objs := w.st.stat.distinct_objs + 1 } } ∧
      (get_obj_node w di).1.obj_table =
        w.obj_table.set (str_hash (obj_name_of di) w.N_OBJ_ENTRIES)
          ((w.obj_heap.length + 1) ::
            w.obj_table.getD (str_hash (obj_name_of di) w.N_OBJ_ENTRIES) []) ∧
      (get_obj_node w di).1.file_heap = w.file_heap ∧
      (get_obj_node w di).1.N_OBJ_ENTRIES = w.N_OBJ_ENTRIES ∧
      (get_obj_node w di).1.N_FILE_ENTRIES = w.N_FILE_ENTRIES ∧
      (get_obj_node w di).1.N_FN_ENTRIES = w.N_FN_ENTRIES ∧
      (get_obj_node w di).1.fn_malloc = w.fn_malloc := by
  have hs : name_search (fun p => (obj_at w.obj_heap p).name) (obj_name_of di)
      (w.obj_table.getD (str_hash (obj_name_of di) w.N_OBJ_ENTRIES) []) = 0 := by
    apply name_search_absent
    intro q hq
    have hq2 := hw.linked _ q hq
    exact habs q hq2.1 hq2.2.1
  rw [get_obj_node_eq, if_pos hs]
  obtain ⟨h2, hobj, hst, htab, hfh, hn1, hn2, hn3, hfm⟩ := new_obj_node_spec w di
    ((w.obj_table.getD (str_hash (obj_name_of di) w.N_OBJ_ENTRIES) []).headD 0)
  dsimp only
  rw [h2, htab]
  exact ⟨rfl, hobj, hst, rfl, hfh, hn1, hn2, hn3, hfm⟩

/-- The function `get_obj_node` keeps the invariant of the object table. -/
theorem get_obj_node_wf (w : Tables) (di : Option DebugInfo) (hw : ObjWF w) :
    ObjWF (get_obj_node w di).1 := by
  by_cases hex : ∃ p, 0 < p ∧ p ≤ w.obj_heap.length ∧
      (obj_at w.obj_heap p).name = obj_name_of di
  · obtain ⟨p, h0, hp, hn⟩ := hex
    rw [get_obj_node_found w di hw p h0 hp hn]
    exact hw
  · have habs : ∀ p, 0 < p → p ≤ w.obj_heap.length →
        (obj_at w.obj_heap p).name ≠ obj_name_of di :=
      fun p h0 hp hn => hex ⟨p, h0, hp, hn⟩
    obtain ⟨-, ⟨obj, hheap, hname, hnum, hfiles, -⟩, hst, htab, -, hn1, hn2, -, -⟩ :=
      get_obj_node_new w di hw habs
    have hlt : str_hash (obj_name_of di) w.N_OBJ_ENTRIES < w.obj_table.length := by
      rw [hw.len]
      exact str_hash_lt _ _ hw.pos
    have hold : ∀ p, p ≤ w.obj_heap.length →
        obj_at (get_obj_node w di).1.obj_heap p = obj_at w.obj_heap p := by
      intro p hp
      rw [hheap]
      exact obj_at_append_old _ _ _ hp
    have hnew : obj_at (get_obj_node w di).1.obj_heap (w.obj_heap.length + 1) = obj := by
      rw [hheap]
      exact obj_at_append_new _ _
    have hlen : (get_obj_node w di).1.obj_heap.length = w.obj_heap.length + 1 := by
      rw [hheap]
      simp
    constructor
    · rw [hn1]
      exact hw.pos
    · rw [htab, hn1, List.length_set]
      exact hw.len
    · rw [hst, hlen]
      show w.st.stat.distinct_objs + 1 = _
      rw [hw.count]
    · intro h p hp
      rw [htab, getD_set_chain _ _ _ _ hlt] at hp
      rw [hn1, hlen]
      by_cases hh : str_hash (obj_name_of di) w.N_OBJ_ENTRIES = h
      · rw [if_pos hh] at hp
        rcases List.mem_cons.mp hp with rfl | hp
        · rw [hnew, hname]
          exact ⟨by omega, le_refl _, hh⟩
        · have h3 := hw.linked _ p hp
          rw [hold p h3.2.1]
          exact ⟨h3.1, by omega, by rw [h3.2.2]; exact hh⟩
      · rw [if_neg hh] at hp
        have h3 := hw.linked _ p hp
        rw [hold p h3.2.1]
        exact ⟨h3.1, by omega, h3.2.2⟩
    · intro p h0 hp
      rw [hlen] at hp
      rw [htab, getD_set_chain _ _ _ _ hlt, hn1, hn2]
      by_cases hpl : p ≤ w.obj_heap.length
      · rw [hold p hpl]
        have h3 := hw.all p h0 hpl
        refine ⟨?_, h3.2⟩
        split
        · rename_i hh
          rw [hh]
          exact List.mem_cons_of_mem _ h3.1
        · exact h3.1
      · have hpe : p = w.obj_heap.length + 1 := by omega
        subst hpe
        rw [hnew, hname, if_pos rfl, hnum, hfiles, hw.count]
        exact ⟨List.mem_cons_self _ _, rfl, List.length_replicate _ _⟩
    · intro p q hp0 hp hq0 hq hpq
      rw [hlen] at hp hq
      by_cases hpl : p ≤ w.obj_heap.length
      · by_cases hql : q ≤ w.obj_heap.length
        · rw [hold p hpl, hold q hql] at hpq
          exact hw.names p q hp0 hpl hq0 hql hpq
        · have hqe : q = w.obj_heap.length + 1 := by omega
          subst hqe
          rw [hold p hpl, hnew, hname] at hpq
          exact absurd hpq (habs p hp0 hpl)
      · have hpe : p = w.obj_heap.length + 1 := by omega
        subst hpe
        by_cases hql : q ≤ w.obj_heap.length
        · rw [hold q hql, hnew, hname] at hpq
          exact absurd hpq.symm (habs q hq0 hql)
        · omega

/-- One call of `get_obj_node`: the invariant is kept, the records that exist stay as they
are, and the record returned exists and has the name of the module. -/
theorem get_obj_node_step (w : Tables) (di : Option DebugInfo) (hw : ObjWF w) :
    ObjWF (get_obj_node w di).1 ∧
      w.obj_heap.length ≤ (get_obj_node w di).1.obj_heap.length ∧
      (∀ p, p ≤ w.obj_heap.length →
        obj_at (get_obj_node w di).1.obj_heap p = obj_at w.obj_heap p) ∧
      0 < (get_obj_node w di).2 ∧
      (get_obj_node w di).2 ≤ (get_obj_node w di).1.obj_heap.length ∧
      (obj_at (get_obj_node w di).1.obj_heap (get_obj_node w di).2).name =
        obj_name_of di := by
  refine ⟨get_obj_node_wf w di hw, ?_⟩
  by_cases hex : ∃ p, 0 < p ∧ p ≤ w.obj_heap.length ∧
      (obj_at w.obj_heap p).name = obj_name_of di
  · obtain ⟨p, h0, hp, hn⟩ := hex
    rw [get_obj_node_found w di hw p h0 hp hn]
    exact ⟨le_refl _, fun _ _ => rfl, h0, hp, hn⟩
  · have habs : ∀ p, 0 < p → p ≤ w.obj_heap.length →
        (obj_at w.obj_heap p).name ≠ obj_name_of di :=
      fun p h0 hp hn => hex ⟨p, h0, hp, hn⟩
    obtain ⟨h2, ⟨obj, hheap, hname, -⟩, -⟩ := get_obj_node_new w di hw habs
    rw [h2, hheap, obj_at_append_new, List.length_append]
    exact ⟨by simp, fun p hp => obj_at_append_old _ _ _ hp, by omega, by simp, hname⟩

/-- A sequence of `get_obj_node` calls: the invariant is kept, the records that exist
stay as they are, and the record returned by each call exists at the end and has the
name of the module of the call. -/
theorem get_obj_node_seq_spec (dis : List (Option DebugInfo)) :
    ∀ w : Tables, ObjWF w →
      ObjWF (get_obj_node_seq w dis).1 ∧
      w.obj_heap.length ≤ (get_obj_node_seq w dis).1.obj_heap.length ∧
      (∀ p, p ≤ w.obj_heap.length →
        obj_at (get_obj_node_seq w dis).1.obj_heap p = obj_at w.obj_heap p) ∧
      ∀ i di, dis[i]? = some di →
        0 < (get_obj_node_seq w dis).2.getD i 0 ∧
        (get_obj_node_seq w dis).2.getD i 0 ≤ (get_obj_node_seq w dis).1.obj_heap.length ∧
        (obj_at (get_obj_node_seq w dis).1.obj_heap
          ((get_obj_node_seq w dis).2.getD i 0)).name = obj_name_of di := by
  induction dis with
  | nil =>
    intro w hw
    exact ⟨hw, le_refl _, fun _ _ => rfl, fun i di h => by simp at h⟩
  | cons d rest ih =>
    intro w hw
    obtain ⟨hw1, hlen1, hold1, h0, hp, hn⟩ := get_obj_node_step w d hw
    obtain ⟨hw2, hlen2, hold2, hall⟩ := ih (get_obj_node w d).1 hw1
    refine ⟨hw2, le_trans hlen1 hlen2, ?_, ?_⟩
    · intro p hpl
      show obj_at (get_obj_node_seq (get_obj_node w d).1 rest).1.obj_heap p = _
      rw [hold2 p (le_trans hpl hlen1), hold1 p hpl]
    · intro i di hi
      cases i with
      | zero =>
        have hd : d = di := by simpa using hi
        subst hd
        show 0 < (get_obj_node w d).2 ∧
          (get_obj_node w d).2 ≤
            (get_obj_node_seq (get_obj_node w d).1 rest).1.obj_heap.length ∧
          (obj_at (get_obj_node_seq (get_obj_node w d).1 rest).1.obj_heap
            (get_obj_node w d).2).name = obj_name_of d
        rw [hold2 _ hp]
        exact ⟨h0, le_trans hp hlen2, hn⟩
      | succ i =>
        have hi2 : rest[i]? = some di := by simpa using hi
        exact hall i di hi2

/-- Freshly initialised tables satisfy the invariant of the object table. -/
theorem fresh_obj_wf (w : Tables) (h : FreshTables w) : ObjWF w := by
  obtain ⟨h1, -, -, htab, hheap, -, hcount, -⟩ := h
  constructor
  · exact h1
  · rw [htab, List.length_replicate]
  · rw [hcount, hheap]
    rfl
  · intro h p hp
    rw [htab, getD_replicate_nil] at hp
    simp at hp
  · intro p h0 hp
    rw [hheap] at hp
    simp at hp
    omega
  · intro p q h0 hp
    rw [hheap] at hp
    simp at hp
    omega

/-- The start, the size and the bias of a record named `"???"` stay 0 over a call of
`get_obj_node` that has no handle or whose module is not named `"???"`. -/
theorem get_obj_node_anonymous_zero (w : Tables) (di : Option DebugInfo) (hw : ObjWF w)
    (hz : ∀ p, 0 < p → p ≤ w.obj_heap.length →
      (obj_at w.obj_heap p).name = anonymous_obj →
      (obj_at w.obj_heap p).start = 0 ∧ (obj_at w.obj_heap p).size = 0 ∧
        (obj_at w.obj_heap p).offset = 0)
    (hdi : ∀ d, di = some d → d.filename ≠ anonymous_obj) :
    ∀ p, 0 < p → p ≤ (get_obj_node w di).1.obj_heap.length →
      (obj_at (get_obj_node w di).1.obj_heap p).name = anonymous_obj →
      (obj_at (get_obj_node w di).1.obj_heap p).start = 0 ∧
        (obj_at (get_obj_node w di).1.obj_heap p).size = 0 ∧
        (obj_at (get_obj_node w di).1.obj_heap p).offset = 0 := by
  by_cases hex : ∃ p, 0 < p ∧ p ≤ w.obj_heap.length ∧
      (obj_at w.obj_heap p).name = obj_name_of di
  · obtain ⟨p, h0, hp, hn⟩ := hex
    rw [get_obj_node_found w di hw p h0 hp hn]
    exact hz
  · have habs : ∀ p, 0 < p → p ≤ w.obj_heap.length →
        (obj_at w.obj_heap p).name ≠ obj_name_of di :=
      fun p h0 hp hn => hex ⟨p, h0, hp, hn⟩
    obtain ⟨-, ⟨obj, hheap, hname, -, -, hstart, hsize, hoff⟩, -⟩ :=
      get_obj_node_new w di hw habs
    intro p h0 hp
    rw [hheap] at hp ⊢
    rw [List.length_append] at hp
    by_cases hpl : p ≤ w.obj_heap.length
    · rw [obj_at_append_old _ _ _ hpl]
      exact hz p h0 hpl
    · have hpe : p = w.obj_heap.length + 1 := by
        simp at hp
        omega
      subst hpe
      rw [obj_at_append_new, hname, hstart, hsize, hoff]
      intro hnm
      cases di with
      | none => exact ⟨rfl, rfl, rfl⟩
      | some d => exact absurd hnm (hdi d rfl)

/-- The record that a call without a handle returns in a sequence of `get_obj_node` calls
has start, size and bias 0 if no earlier call has a handle of a module named `"???"`
and the records named `"???"` that existed before have them 0. -/
theorem get_obj_node_seq_zero (dis : List (Option DebugInfo)) :
    ∀ w : Tables, ObjWF w →
      (∀ p, 0 < p → p ≤ w.obj_heap.length → (obj_at w.obj_heap p).name = anonymous_obj →
        (obj_at w.obj_heap p).start = 0 ∧ (obj_at w.obj_heap p).size = 0 ∧
          (obj_at w.obj_heap p).offset = 0) →
      ∀ i, dis[i]? = some none →
        (∀ j d, j < i → dis[j]? = some (some d) → d.filename ≠ anonymous_obj) →
        (obj_at (get_obj_node_seq w dis).1.obj_heap
            ((get_obj_node_seq w dis).2.getD i 0)).start = 0 ∧
          (obj_at (get_obj_node_seq w dis).1.obj_heap
            ((get_obj_node_seq w dis).2.getD i 0)).size = 0 ∧
          (obj_at (get_obj_node_seq w dis).1.obj_heap
            ((get_obj_node_seq w dis).2.getD i 0)).offset = 0 := by
  induction dis with
  | nil =>
    intro w _ _ i h
    simp at h
  | cons d rest ih =>
    intro w hw hz i hi hpre
    obtain ⟨hw1, hlen1, hold1, h0, hp, hn⟩ := get_obj_node_step w d hw
    obtain ⟨hw2, hlen2, hold2, hall⟩ := get_obj_node_seq_spec rest (get_obj_node w d).1 hw1
    cases i with
    | zero =>
      have hd : d = none := by simpa using hi
      subst hd
      show (obj_at (get_obj_node_seq (get_obj_node w none).1 rest).1.obj_heap
          (get_obj_node w none).2).start = 0 ∧
        (obj_at (get_obj_node_seq (get_obj_node w none).1 rest).1.obj_heap
          (get_obj_node w none).2).size = 0 ∧
        (obj_at (get_obj_node_seq (get_obj_node w none).1 rest).1.obj_heap
          (get_obj_node w none).2).offset = 0
      rw [hold2 _ hp]
      exact get_obj_node_anonymous_zero w none hw hz (fun d hd => by cases hd) _ h0 hp hn
    | succ i =>
      have hi2 : rest[i]? = some none := by simpa using hi
      have hz1 := get_obj_node_anonymous_zero w d hw hz
        (fun x hx => hpre 0 x (Nat.succ_pos _) (by simp [hx]))
      exact ih (get_obj_node w d).1 hw1 hz1 i hi2
        (fun j x hj hx => hpre (j + 1) x (by omega) (by simpa using hx))

/-- What the lookup by name does for a handle whose file name is the sentinel `"???"`
itself: after the lookup of such a module, with a text segment that starts at 4096, the
lookup without a handle returns the record of that module, with start 4096 and size 8. -/
theorem sentinel_name_shared :
    (get_obj_node_seq fresh_tables
        [some { filename := [63, 63, 63], text_avma := 4096, text_size := 8, text_bias := 0 },
          none]).2 = [1, 1] ∧
      (obj_at (get_obj_node_seq fresh_tables
        [some { filename := [63, 63, 63], text_avma := 4096, text_size := 8, text_bias := 0 },
          none]).1.obj_heap 1).name = anonymous_obj ∧
      (obj_at (get_obj_node_seq fresh_tables
        [some { filename := [63, 63, 63], text_avma := 4096, text_size := 8, text_bias := 0 },
          none]).1.obj_heap 1).start = 4096 ∧
      (obj_at (get_obj_node_seq fresh_tables
        [some { filename := [63, 63, 63], text_avma := 4096, text_size := 8, text_bias := 0 },
          none]).1.obj_heap 1).size = 8 := by
  decide

/-- The tables `fresh_tables` are freshly initialised. -/
theorem fresh_tables_fresh : FreshTables fresh_tables := by
  refine ⟨by decide, by decide, by decide, rfl, rfl, rfl, rfl, rfl, rfl, ?_, ?_⟩
  · intro i j h
    simp only [fresh_tables] at h
    omega
  · intro i
    simp only [fresh_tables]
    omega

/-- A file of the object that has a record is found: `get_file_node` returns the record
and leaves the state as it is. -/
theorem get_file_node_found (w : Tables) (o : Nat) (dir file : List Int) (hw : FileWF w)
    (p : Nat) (h0 : 0 < p) (hp : p ≤ w.file_heap.length)
    (ho : (file_at w.file_heap p).obj = o)
    (hn : (file_at w.file_heap p).name = file_key dir file) :
    get_file_node w o dir file = (w, p) := by
  have hall := hw.all p h0 hp
  have hmem := hall.2.2.1
  rw [ho, hn] at hmem
  rw [ho] at hall
  have hs : name_search (fun p => (file_at w.file_heap p).name) (file_key dir file)
      ((obj_at w.obj_heap o).files.getD (str_hash (file_key dir file) w.N_FILE_ENTRIES) [])
        = p := by
    apply name_search_unique _ _ _ p hmem hn
    intro q hq hqn
    have hq2 := hw.linked o _ q hall.1 hall.2.1 hq
    exact hw.names q p hq2.1 hq2.2.1 h0 hp (hq2.2.2.2.trans ho.symm) (hqn.trans hn.symm)
  unfold get_file_node
  dsimp only
  rw [hs, if_neg (by omega)]

/-- A file of the object that has no record gets one: the state after `get_file_node`. -/
theorem get_file_node_new (w : Tables) (o : Nat) (dir file : List Int) (hw : FileWF w)
    (ho0 : 0 < o) (ho : o ≤ w.obj_heap.length)
    (habs : ∀ p, 0 < p → p ≤ w.file_heap.length → (file_at w.file_heap p).obj = o →
      (file_at w.file_heap p).name ≠ file_key dir file) :
    get_file_node w o dir file =
      ({ w with
         file_heap := w.file_heap ++
           [{ name := file_key dir file
              fns := List.replicate w.N_FN_ENTRIES []
              number := w.st.stat.distinct_files + 1
              obj := o
              next := ((obj_at w.obj_heap o).files.getD
                (str_hash (file_key dir file) w.N_FILE_ENTRIES) []).headD 0 }]
         st := { w.st with
           stat := { w.st.stat with distinct_files := w.st.stat.distinct_files + 1 } }
         obj_heap := obj_put w.obj_heap o
           { obj_at w.obj_heap o with
             files := (obj_at w.obj_heap o).files.set
               (str_hash (file_key dir file) w.N_FILE_ENTRIES)
               ((w.file_heap.length + 1) :: (obj_at w.obj_heap o).files.getD
                 (str_hash (file_key dir file) w.N_FILE_ENTRIES) []) } },
        w.file_heap.length + 1) := by
  have hs : name_search (fun p => (file_at w.file_heap p).name) (file_key dir file)
      ((obj_at w.obj_heap o).files.getD (str_hash (file_key dir file) w.N_FILE_ENTRIES) [])
        = 0 := by
    apply name_search_absent
    intro q hq
    have hq2 := hw.linked o _ q ho0 ho hq
    exact habs q hq2.1 hq2.2.1 hq2.2.2.2
  unfold get_file_node
  dsimp only
  rw [hs, if_pos rfl]
  rfl

/-- The function `get_file_node` keeps the invariant of the file tables. -/
theorem get_file_node_wf (w : Tables) (o : Nat) (dir file : List Int) (hwo : ObjWF w)
    (hw : FileWF w) (ho0 : 0 < o) (ho : o ≤ w.obj_heap.length) :
    FileWF (get_file_node w o dir file).1 := by
  by_cases hex : ∃ p, 0 < p ∧ p ≤ w.file_heap.length ∧ (file_at w.file_heap p).obj = o ∧
      (file_at w.file_heap p).name = file_key dir file
  · obtain ⟨p, h0, hp, hpo, hn⟩ := hex
    rw [get_file_node_found w o dir file hw p h0 hp hpo hn]
    exact hw
  · have habs : ∀ p, 0 < p → p ≤ w.file_heap.length → (file_at w.file_heap p).obj = o →
        (file_at w.file_heap p).name ≠ file_key dir file :=
      fun p h0 hp hpo hn => hex ⟨p, h0, hp, hpo, hn⟩
    rw [get_file_node_new w o dir file hw ho0 ho habs]
    dsimp only
    have hlt : str_hash (file_key dir file) w.N_FILE_ENTRIES <
        (obj_at w.obj_heap o).files.length := by
      rw [(hwo.all o ho0 ho).2.2]
      exact str_hash_lt _ _ hw.pos
    constructor
    · exact hw.pos
    · show w.st.stat.distinct_files + 1 = _
      rw [hw.count]
      simp
    · intro o2 h p ho20 ho2 hp
      dsimp only at ho2 hp ⊢
      rw [length_obj_put] at ho2
      rw [List.length_append]
      by_cases hoo : o2 = o
      · subst hoo
        rw [obj_at_put_same _ _ _ ho0 ho] at hp
        dsimp only at hp
        rw [getD_set_chain _ _ _ _ hlt] at hp
        by_cases hh : str_hash (file_key dir file) w.N_FILE_ENTRIES = h
        · rw [if_pos hh] at hp
          rcases List.mem_cons.mp hp with rfl | hp
          · rw [file_at_append_new]
            exact ⟨by omega, by simp, hh, rfl⟩
          · have h3 := hw.linked o2 _ p ho0 ho hp
            rw [file_at_append_old _ _ _ h3.2.1]
            exact ⟨h3.1, by omega, by rw [h3.2.2.1]; exact hh, h3.2.2.2⟩
        · rw [if_neg hh] at hp
          have h3 := hw.linked o2 _ p ho0 ho hp
          rw [file_at_append_old _ _ _ h3.2.1]
          exact ⟨h3.1, by omega, h3.2.2.1, h3.2.2.2⟩
      · rw [obj_at_put_other _ _ _ _ hoo] at hp
        have h3 := hw.linked o2 _ p ho20 ho2 hp
        rw [file_at_append_old _ _ _ h3.2.1]
        exact ⟨h3.1, by omega, h3.2.2.1, h3.2.2.2⟩
    · intro p h0 hp
      dsimp only at hp ⊢
      rw [List.length_append] at hp
      rw [length_obj_put]
      by_cases hpl : p ≤ w.file_heap.length
      · rw [file_at_append_old _ _ _ hpl]
        have h3 := hw.all p h0 hpl
        refine ⟨h3.1, h3.2.1, ?_, h3.2.2.2⟩
        by_cases hoo : (file_at w.file_heap p).obj = o
        · rw [hoo, obj_at_put_same _ _ _ ho0 ho]
          dsimp only
          rw [getD_set_chain _ _ _ _ hlt]
          have h4 := h3.2.2.1
          rw [hoo] at h4
          split
          · rename_i hh
            rw [hh]
            exact List.mem_cons_of_mem _ h4
          · exact h4
        · rw [obj_at_put_other _ _ _ _ hoo]
          exact h3.2.2.1
      · have hpe : p = w.file_heap.length + 1 := by
          simp at hp
          omega
        subst hpe
        rw [file_at_append_new]
        dsimp only
        rw [obj_at_put_same _ _ _ ho0 ho]
        dsimp only
        rw [getD_set_chain _ _ _ _ hlt, if_pos rfl, hw.count]
        exact ⟨ho0, ho, List.mem_cons_self _ _, rfl, List.length_replicate _ _⟩
    · intro p q hp0 hp hq0 hq hpo hpq
      dsimp only at hp hq hpo hpq
      rw [List.length_append] at hp hq
      by_cases hpl : p ≤ w.file_heap.length
      · by_cases hql : q ≤ w.file_heap.length
        · rw [file_at_append_old _ _ _ hpl, file_at_append_old _ _ _ hql] at hpo hpq
          exact hw.names p q hp0 hpl hq0 hql hpo hpq
        · have hqe : q = w.file_heap.length + 1 := by
            simp at hq
            omega
          subst hqe
          rw [file_at_append_old _ _ _ hpl, file_at_append_new] at hpo hpq
          exact absurd hpq (habs p hp0 hpl hpo)
      · have hpe : p = w.file_heap.length + 1 := by
          simp at hp
          omega
        subst hpe
        by_cases hql : q ≤ w.file_heap.length
        · rw [file_at_append_old _ _ _ hql, file_at_append_new] at hpo hpq
          exact absurd hpq.symm (habs q hq0 hql hpo.symm)
        · simp at hq
          omega

/-- The state after `new_fn_node` when the active-count array has at least one counter:
the record is written at the address that `LPG_MALLOC` returns, `distinct_fns` is
incremented, and the active-count array is the old one or a larger one that holds the
old counters. -/
theorem new_fn_node_spec (w : Tables) (fnname : List Int) (file next : Nat)
    (hs : 1 ≤ w.st.current_fn_active.size) :
    ∃ st1, new_fn_node w fnname file next =
        some ({ w with st := st1 }, w.fn_malloc w.st.stat.distinct_fns) ∧
      st1.fn_mem = Function.update w.st.fn_mem (w.fn_malloc w.st.stat.distinct_fns)
        { name := fnname
          number := w.st.stat.distinct_fns + 1
          last_cxt := 0
          pure_cxt := 0
          file := file
          next := next
          is_malloc := false
          is_realloc := false
          is_free := false } ∧
      st1.cxts = w.st.cxts ∧ st1.cxt_heap = w.st.cxt_heap ∧
      st1.current_fn_stack = w.st.current_fn_stack ∧
      st1.current_call_stack = w.st.current_call_stack ∧
      st1.current_state_cxt = w.st.current_state_cxt ∧
      st1.stat.distinct_fns = w.st.stat.distinct_fns + 1 ∧
      st1.stat.distinct_objs = w.st.stat.distinct_objs ∧
      st1.stat.distinct_files = w.st.stat.distinct_files ∧
      st1.stat.distinct_contexts = w.st.stat.distinct_contexts ∧
      st1.stat.context_counter = w.st.stat.context_counter ∧
      w.st.stat.distinct_fns + 1 < st1.current_fn_active.size ∧
      (st1.current_fn_active = w.st.current_fn_active ∨
        (st1.current_fn_active.array.length = st1.current_fn_active.size ∧
          (∀ i, i < w.st.current_fn_active.size →
            st1.current_fn_active.array.getD i 0 = w.st.current_fn_active.array.getD i 0) ∧
          (∀ i, w.st.current_fn_active.size ≤ i →
            st1.current_fn_active.array.getD i 0 = 0))) := by
  by_cases hc : w.st.current_fn_active.size ≤ w.st.stat.distinct_fns + 1
  · obtain ⟨j, s1, r1, r2, r3, -, r5, r6, r7, r8, r9, r10, r11, r12, r13, r14⟩ :=
      resize_fn_array_spec
        { w.st with
          fn_mem := Function.update w.st.fn_mem (w.fn_malloc w.st.stat.distinct_fns)
            { name := fnname
              number := w.st.stat.distinct_fns + 1
              last_cxt := 0
              pure_cxt := 0
              file := file
              next := next
              is_malloc := false
              is_realloc := false
              is_free := false }
          stat := { w.st.stat with distinct_fns := w.st.stat.distinct_fns + 1 } } hs
    dsimp only at r1 r2 r3 r5 r6 r7 r8 r9 r10 r11 r12 r13 r14
    refine ⟨s1, ?_, r8, r9, r10, r11, r12, r13, ?_, ?_, ?_, ?_, ?_, ?_, Or.inr ⟨r5, r6, r7⟩⟩
    · unfold new_fn_node
      dsimp only
      rw [if_pos hc, r1]
      rfl
    · rw [r14]
    · rw [r14]
    · rw [r14]
    · rw [r14]
    · rw [r14]
    · rw [r2]
      exact r3
  · have hres : new_fn_node w fnname file next = some
        ({ w with
           st := { w.st with
             fn_mem := Function.update w.st.fn_mem (w.fn_malloc w.st.stat.distinct_fns)
               { name := fnname
                 number := w.st.stat.distinct_fns + 1
                 last_cxt := 0
                 pure_cxt := 0
                 file := file
                 next := next
                 is_malloc := false
                 is_realloc := false
                 is_free := false }
             stat := { w.st.stat with distinct_fns := w.st.stat.distinct_fns + 1 } } },
          w.fn_malloc w.st.stat.distinct_fns) := by
      unfold new_fn_node
      dsimp only
      rw [if_neg hc]
      rfl
    exact ⟨_, hres, rfl, rfl, rfl, rfl, rfl, rfl, rfl, rfl, rfl, rfl, rfl, by
      dsimp only
      omega, Or.inl rfl⟩

/-- A function of the file that has a record is found: `get_fn_node_infile` returns the
record and leaves the state as it is. -/
theorem get_fn_node_infile_found (w : Tables) (f : Nat) (fnname : List Int) (hw : FnWF w)
    (k : Nat) (hk : k < w.st.stat.distinct_fns)
    (hf : (w.st.fn_mem (w.fn_malloc k)).file = f)
    (hn : (w.st.fn_mem (w.fn_malloc k)).name = fnname) :
    get_fn_node_infile w f fnname = some (w, w.fn_malloc k) := by
  have hall := hw.all k hk
  rw [hf] at hall
  have hmem := hall.2.2.2
  rw [hn] at hmem
  have hs : name_search (fun p => (w.st.fn_mem p).name) fnname
      ((file_at w.file_heap f).fns.getD (str_hash fnname w.N_FN_ENTRIES) []) =
        w.fn_malloc k := by
    apply name_search_unique _ _ _ _ hmem hn
    intro q hq hqn
    obtain ⟨-, hqf, j, hj, rfl⟩ := hw.linked f _ q hall.2.1 hall.2.2.1 hq
    rw [hw.names j k hj hk (hqf.trans hf.symm) (hqn.trans hn.symm)]
  unfold get_fn_node_infile
  rw [if_neg (by omega)]
  dsimp only
  rw [hs, if_neg (hw.malloc_pos k)]

/-- A function of the file that has no record gets one: the state after
`get_fn_node_infile`. -/
theorem get_fn_node_infile_new (w : Tables) (f : Nat) (fnname : List Int) (hw : FnWF w)
    (hf0 : 0 < f) (hf : f ≤ w.file_heap.length)
    (hs : 1 ≤ w.st.current_fn_active.size)
    (habs : ∀ k, k < w.st.stat.distinct_fns → (w.st.fn_mem (w.fn_malloc k)).file = f →
      (w.st.fn_mem (w.fn_malloc k)).name ≠ fnname) :
    ∃ st1, get_fn_node_infile w f fnname =
        some ({ w with
          st := st1
          file_heap := file_put w.file_heap f
            { file_at w.file_heap f with
              fns := (file_at w.file_heap f).fns.set (str_hash fnname w.N_FN_ENTRIES)
                (w.fn_malloc w.st.stat.distinct_fns ::
                  (file_at w.file_heap f).fns.getD (str_hash fnname w.N_FN_ENTRIES) []) } },
          w.fn_malloc w.st.stat.distinct_fns) ∧
      st1.fn_mem = Function.update w.st.fn_mem (w.fn_malloc w.st.stat.distinct_fns)
        { name := fnname
          number := w.st.stat.distinct_fns + 1
          last_cxt := 0
          pure_cxt := 0
          file := f
          next := ((file_at w.file_heap f).fns.getD
            (str_hash fnname w.N_FN_ENTRIES) []).headD 0
          is_malloc := false
          is_realloc := false
          is_free := false } ∧
      st1.cxts = w.st.cxts ∧ st1.cxt_heap = w.st.cxt_heap ∧
      st1.current_fn_stack = w.st.current_fn_stack ∧
      st1.current_call_stack = w.st.current_call_stack ∧
      st1.current_state_cxt = w.st.current_state_cxt ∧
      st1.stat.distinct_fns = w.st.stat.distinct_fns + 1 ∧
      st1.stat.distinct_objs = w.st.stat.distinct_objs ∧
      st1.stat.distinct_files = w.st.stat.distinct_files ∧
      st1.stat.distinct_contexts = w.st.stat.distinct_contexts ∧
      st1.stat.context_counter = w.st.stat.context_counter ∧
      w.st.stat.distinct_fns + 1 < st1.current_fn_active.size ∧
      (st1.current_fn_active = w.st.current_fn_active ∨
        (st1.current_fn_active.array.length = st1.current_fn_active.size ∧
          (∀ i, i < w.st.current_fn_active.size →
            st1.current_fn_active.array.getD i 0 = w.st.current_fn_active.array.getD i 0) ∧
          (∀ i, w.st.current_fn_active.size ≤ i →
            st1.current_fn_active.array.getD i 0 = 0))) := by
  have hsr : name_search (fun p => (w.st.fn_mem p).name) fnname
      ((file_at w.file_heap f).fns.getD (str_hash fnname w.N_FN_ENTRIES) []) = 0 := by
    apply name_search_absent
    intro q hq
    obtain ⟨-, hqf, j, hj, rfl⟩ := hw.linked f _ q hf0 hf hq
    exact habs j hj hqf
  obtain ⟨st1, hnew, hrest⟩ := new_fn_node_spec w fnname f
    (((file_at w.file_heap f).fns.getD (str_hash fnname w.N_FN_ENTRIES) []).headD 0) hs
  refine ⟨st1, ?_, hrest⟩
  unfold get_fn_node_infile
  rw [if_neg (by omega)]
  dsimp only
  rw [hsr, if_pos rfl, hnew]
  rfl

/-- The function `get_fn_node_infile` returns and keeps the invariant of the function
tables, when the file record exists and the active-count array has at least one
counter. -/
theorem get_fn_node_infile_wf (w : Tables) (f : Nat) (fnname : List Int) (hwf : FileWF w)
    (hw : FnWF w) (hf0 : 0 < f) (hf : f ≤ w.file_heap.length)
    (hs : 1 ≤ w.st.current_fn_active.size) :
    ∃ r, get_fn_node_infile w f fnname = some r ∧ FnWF r.1 := by
  by_cases hex : ∃ k, k < w.st.stat.distinct_fns ∧ (w.st.fn_mem (w.fn_malloc k)).file = f ∧
      (w.st.fn_mem (w.fn_malloc k)).name = fnname
  · obtain ⟨k, hk, hkf, hn⟩ := hex
    exact ⟨_, get_fn_node_infile_found w f fnname hw k hk hkf hn, hw⟩
  · have habs : ∀ k, k < w.st.stat.distinct_fns → (w.st.fn_mem (w.fn_malloc k)).file = f →
        (w.st.fn_mem (w.fn_malloc k)).name ≠ fnname :=
      fun k hk hkf hn => hex ⟨k, hk, hkf, hn⟩
    obtain ⟨st1, hres, hmem, -, -, -, -, -, hcount, -⟩ :=
      get_fn_node_infile_new w f fnname hw hf0 hf hs habs
    refine ⟨_, hres, ?_⟩
    dsimp only
    have hlt : str_hash fnname w.N_FN_ENTRIES < (file_at w.file_heap f).fns.length := by
      rw [(hwf.all f hf0 hf).2.2.2.2]
      exact str_hash_lt _ _ hw.pos
    have hold : ∀ j, j < w.st.stat.distinct_fns →
        st1.fn_mem (w.fn_malloc j) = w.st.fn_mem (w.fn_malloc j) := by
      intro j hj
      rw [hmem, Function.update_noteq]
      intro hc
      have := hw.malloc_inj _ _ hc
      omega
    have hnew : st1.fn_mem (w.fn_malloc w.st.stat.distinct_fns) =
        { name := fnname
          number := w.st.stat.distinct_fns + 1
          last_cxt := 0
          pure_cxt := 0
          file := f
          next := ((file_at w.file_heap f).fns.getD
            (str_hash fnname w.N_FN_ENTRIES) []).headD 0
          is_malloc := false
          is_realloc := false
          is_free := false } := by
      rw [hmem, Function.update_same]
    constructor
    · exact hw.pos
    · exact hw.malloc_inj
    · exact hw.malloc_pos
    · intro f2 h a hf20 hf2 ha
      dsimp only at hf2 ha ⊢
      rw [length_file_put] at hf2
      rw [hcount]
      by_cases hff : f2 = f
      · subst hff
        rw [file_at_put_same _ _ _ hf0 hf] at ha
        dsimp only at ha
        rw [getD_set_chain _ _ _ _ hlt] at ha
        by_cases hh : str_hash fnname w.N_FN_ENTRIES = h
        · rw [if_pos hh] at ha
          rcases List.mem_cons.mp ha with rfl | ha
          · rw [hnew]
            exact ⟨hh, rfl, _, Nat.lt_succ_self _, rfl⟩
          · obtain ⟨h1, h2, j, hj, rfl⟩ := hw.linked f2 _ a hf0 hf ha
            rw [hold j hj]
            exact ⟨by rw [h1]; exact hh, h2, j, by omega, rfl⟩
        · rw [if_neg hh] at ha
          obtain ⟨h1, h2, j, hj, rfl⟩ := hw.linked f2 _ a hf0 hf ha
          rw [hold j hj]
          exact ⟨h1, h2, j, by omega, rfl⟩
      · rw [file_at_put_other _ _ _ _ hff] at ha
        obtain ⟨h1, h2, j, hj, rfl⟩ := hw.linked f2 _ a hf20 hf2 ha
        rw [hold j hj]
        exact ⟨h1, h2, j, by omega, rfl⟩
    · intro k hk
      dsimp only at hk ⊢
      rw [hcount] at hk
      rw [length_file_put]
      by_cases hkd : k < w.st.stat.distinct_fns
      · rw [hold k hkd]
        have h3 := hw.all k hkd
        refine ⟨h3.1, h3.2.1, h3.2.2.1, ?_⟩
        by_cases hff : (w.st.fn_mem (w.fn_malloc k)).file = f
        · rw [hff, file_at_put_same _ _ _ hf0 hf]
          dsimp only
          rw [getD_set_chain _ _ _ _ hlt]
          have h4 := h3.2.2.2
          rw [hff] at h4
          split
          · rename_i hh
            rw [hh]
            exact List.mem_cons_of_mem _ h4
          · exact h4
        · rw [file_at_put_other _ _ _ _ hff]
          exact h3.2.2.2
      · have hke : k = w.st.stat.distinct_fns := by omega
        subst hke
        rw [hnew]
        dsimp only
        rw [file_at_put_same _ _ _ hf0 hf]
        dsimp only
        rw [getD_set_chain _ _ _ _ hlt, if_pos rfl]
        exact ⟨rfl, hf0, hf, List.mem_cons_self _ _⟩
    · intro j k hj hk hjf hjn
      dsimp only at hj hk hjf hjn
      rw [hcount] at hj hk
      by_cases hjd : j < w.st.stat.distinct_fns
      · by_cases hkd : k < w.st.stat.distinct_fns
        · rw [hold j hjd, hold k hkd] at hjf hjn
          exact hw.names j k hjd hkd hjf hjn
        · have hke : k = w.st.stat.distinct_fns := by omega
          subst hke
          rw [hold j hjd, hnew] at hjf hjn
          exact absurd hjn (habs j hjd hjf)
      · have hje : j = w.st.stat.distinct_fns := by omega
        subst hje
        by_cases hkd : k < w.st.stat.distinct_fns
        · rw [hold k hkd, hnew] at hjf hjn
          exact absurd hjn.symm (habs k hkd hjf.symm)
        · omega

/-- The invariant of the object table depends on the table, on the counter and on the
names, the numbers and the lengths of the file tables of the records only. -/
theorem objWF_frame (w w1 : Tables) (hw : ObjWF w)
    (h1 : w1.N_OBJ_ENTRIES = w.N_OBJ_ENTRIES) (h2 : w1.N_FILE_ENTRIES = w.N_FILE_ENTRIES)
    (h3 : w1.obj_table = w.obj_table)
    (h4 : w1.st.stat.distinct_objs = w.st.stat.distinct_objs)
    (h5 : w1.obj_heap.length = w.obj_heap.length)
    (h6 : ∀ p, (obj_at w1.obj_heap p).name = (obj_at w.obj_heap p).name ∧
      (obj_at w1.obj_heap p).number = (obj_at w.obj_heap p).number ∧
      (obj_at w1.obj_heap p).files.length = (obj_at w.obj_heap p).files.length) :
    ObjWF w1 := by
  constructor
  · rw [h1]
    exact hw.pos
  · rw [h3, h1]
    exact hw.len
  · rw [h4, h5]
    exact hw.count
  · intro h p hp
    rw [h3] at hp
    rw [h5, h1, (h6 p).1]
    exact hw.linked h p hp
  · intro p h0 hp
    rw [h5] at hp
    rw [h3, h1, h2, (h6 p).1, (h6 p).2.1, (h6 p).2.2]
    exact hw.all p h0 hp
  · intro p q hp0 hp hq0 hq hpq
    rw [h5] at hp hq
    rw [(h6 p).1, (h6 q).1] at hpq
    exact hw.names p q hp0 hp hq0 hq hpq

/-- The invariant of the file tables is kept when the file records keep their names,
objects, numbers and function-table lengths, the object records keep their file tables
and new object records have empty file tables. -/
theorem fileWF_frame (w w1 : Tables) (hw : FileWF w)
    (h1 : w1.N_FILE_ENTRIES = w.N_FILE_ENTRIES) (h2 : w1.N_FN_ENTRIES = w.N_FN_ENTRIES)
    (h4 : w1.st.stat.distinct_files = w.st.stat.distinct_files)
    (h5 : w1.file_heap.length = w.file_heap.length)
    (h6 : ∀ p, (file_at w1.file_heap p).name = (file_at w.file_heap p).name ∧
      (file_at w1.file_heap p).obj = (file_at w.file_heap p).obj ∧
      (file_at w1.file_heap p).number = (file_at w.file_heap p).number ∧
      (file_at w1.file_heap p).fns.length = (file_at w.file_heap p).fns.length)
    (h7 : w.obj_heap.length ≤ w1.obj_heap.length)
    (h8 : ∀ o, o ≤ w.obj_heap.length →
      (obj_at w1.obj_heap o).files = (obj_at w.obj_heap o).files)
    (h9 : ∀ o h, w.obj_heap.length < o → (obj_at w1.obj_heap o).files.getD h [] = []) :
    FileWF w1 := by
  constructor
  · rw [h1]
    exact hw.pos
  · rw [h4, h5]
    exact hw.count
  · intro o h p ho0 ho hp
    by_cases hol : o ≤ w.obj_heap.length
    · rw [h8 o hol] at hp
      rw [h5, h1, (h6 p).1, (h6 p).2.1]
      exact hw.linked o h p ho0 hol hp
    · rw [h9 o h (by omega)] at hp
      simp at hp
  · intro p h0 hp
    rw [h5] at hp
    have h3 := hw.all p h0 hp
    rw [h1, h2, (h6 p).1, (h6 p).2.1, (h6 p).2.2.1, (h6 p).2.2.2, h8 _ h3.2.1]
    exact ⟨h3.1, le_trans h3.2.1 h7, h3.2.2⟩
  · intro p q hp0 hp hq0 hq hpo hpq
    rw [h5] at hp hq
    rw [(h6 p).1, (h6 q).1] at hpq
    rw [(h6 p).2.1, (h6 q).2.1] at hpo
    exact hw.names p q hp0 hp hq0 hq hpo hpq

/-- The invariant of the function tables is kept when the function records keep their
names, numbers and files, the file records keep their function tables and new file
records have empty function tables. -/
theorem fnWF_frame (w w1 : Tables) (hw : FnWF w)
    (h1 : w1.N_FN_ENTRIES = w.N_FN_ENTRIES) (h2 : w1.fn_malloc = w.fn_malloc)
    (h4 : w1.st.stat.distinct_fns = w.st.stat.distinct_fns)
    (h6 : ∀ a, (w1.st.fn_mem a).name = (w.st.fn_mem a).name ∧
      (w1.st.fn_mem a).number = (w.st.fn_mem a).number ∧
      (w1.st.fn_mem a).file = (w.st.fn_mem a).file)
    (h7 : w.file_heap.length ≤ w1.file_heap.length)
    (h8 : ∀ f, f ≤ w.file_heap.length →
      (file_at w1.file_heap f).fns = (file_at w.file_heap f).fns)
    (h9 : ∀ f h, w.file_heap.length < f → (file_at w1.file_heap f).fns.getD h [] = []) :
    FnWF w1 := by
  constructor
  · rw [h1]
    exact hw.pos
  · rw [h2]
    exact hw.malloc_inj
  · rw [h2]
    exact hw.malloc_pos
  · intro f h a hf0 hf ha
    by_cases hfl : f ≤ w.file_heap.length
    · rw [h8 f hfl] at ha
      rw [h1, h2, h4, (h6 a).1, (h6 a).2.2]
      exact hw.linked f h a hf0 hfl ha
    · rw [h9 f h (by omega)] at ha
      simp at ha
  · intro k hk
    rw [h4] at hk
    have h3 := hw.all k hk
    rw [h1, h2, (h6 _).1, (h6 _).2.1, (h6 _).2.2, h8 _ h3.2.2.1]
    exact ⟨h3.1, h3.2.1, le_trans h3.2.2.1 h7, h3.2.2.2⟩
  · intro j k hj hk hjf hjn
    rw [h4] at hj hk
    rw [h2, (h6 _).1, (h6 _).1] at hjn
    rw [h2, (h6 _).2.2, (h6 _).2.2] at hjf
    exact hw.names j k hj hk hjf hjn

/-- What `get_obj_node` leaves as it is: everything but the object table, the object
memory, `distinct_objs` and the address of the runtime resolver; the records that exist
stay as they are and a new record has empty file tables. -/
theorem get_obj_node_frame (w : Tables) (di : Option DebugInfo) (hw : ObjWF w) :
    (get_obj_node w di).1.file_heap = w.file_heap ∧
      (get_obj_node w di).1.N_OBJ_ENTRIES = w.N_OBJ_ENTRIES ∧
      (get_obj_node w di).1.N_FILE_ENTRIES = w.N_FILE_ENTRIES ∧
      (get_obj_node w di).1.N_FN_ENTRIES = w.N_FN_ENTRIES ∧
      (get_obj_node w di).1.fn_malloc = w.fn_malloc ∧
      (get_obj_node w di).1.st = { w.st with
        stat := { w.st.stat with
          distinct_objs := (get_obj_node w di).1.st.stat.distinct_objs } } ∧
      (∀ o h, w.obj_heap.length < o →
        (obj_at (get_obj_node w di).1.obj_heap o).files.getD h [] = []) := by
  by_cases hex : ∃ p, 0 < p ∧ p ≤ w.obj_heap.length ∧
      (obj_at w.obj_heap p).name = obj_name_of di
  · obtain ⟨p, h0, hp, hn⟩ := hex
    rw [get_obj_node_found w di hw p h0 hp hn]
    refine ⟨rfl, rfl, rfl, rfl, rfl, rfl, ?_⟩
    intro o h ho
    cases o with
    | zero => omega
    | succ o =>
      have : w.obj_heap[o]? = none := List.getElem?_eq_none (by omega)
      simp [obj_at, List.getD_eq_getElem?_getD, this]
      rfl
  · have habs : ∀ p, 0 < p → p ≤ w.obj_heap.length →
        (obj_at w.obj_heap p).name ≠ obj_name_of di :=
      fun p h0 hp hn => hex ⟨p, h0, hp, hn⟩
    obtain ⟨-, ⟨obj, hheap, -, -, hfiles, -⟩, hst, -, hfh, hn1, hn2, hn3, hfm⟩ :=
      get_obj_node_new w di hw habs
    refine ⟨hfh, hn1, hn2, hn3, hfm, ?_, ?_⟩
    · rw [hst]
    · intro o h ho
      rw [hheap]
      by_cases hoe : o = w.obj_heap.length + 1
      · rw [hoe, obj_at_append_new, hfiles, getD_replicate_nil]
      · cases o with
        | zero => omega
        | succ o =>
          have : (w.obj_heap ++ [obj])[o]? = none :=
            List.getElem?_eq_none (by simp; omega)
          simp [obj_at, List.getD_eq_getElem?_getD, this]
          rfl

/-- One call of `get_file_node` on an object that exists: the record returned exists,
has the constructed path as name and the object as back-reference; the file records that
exist stay as they are and a new record has empty function tables; the object records
keep everything but their file tables; nothing else changes but `distinct_files`. -/
theorem get_file_node_step (w : Tables) (o : Nat) (dir file : List Int)
    (hw : FileWF w) (ho0 : 0 < o) (ho : o ≤ w.obj_heap.length) :
    0 < (get_file_node w o dir file).2 ∧
      (get_file_node w o dir file).2 ≤ (get_file_node w o dir file).1.file_heap.length ∧
      (file_at (get_file_node w o dir file).1.file_heap
        (get_file_node w o dir file).2).name = file_key dir file ∧
      (file_at (get_file_node w o dir file).1.file_heap
        (get_file_node w o dir file).2).obj = o ∧
      w.file_heap.length ≤ (get_file_node w o dir file).1.file_heap.length ∧
      (∀ p, p ≤ w.file_heap.length →
        file_at (get_file_node w o dir file).1.file_heap p = file_at w.file_heap p) ∧
      (∀ f h, w.file_heap.length < f →
        (file_at (get_file_node w o dir file).1.file_heap f).fns.getD h [] = []) ∧
      (get_file_node w o dir file).1.obj_heap.length = w.obj_heap.length ∧
      (∀ p, (obj_at (get_file_node w o dir file).1.obj_heap p).name =
          (obj_at w.obj_heap p).name ∧
        (obj_at (get_file_node w o dir file).1.obj_heap p).number =
          (obj_at w.obj_heap p).number ∧
        (obj_at (get_file_node w o dir file).1.obj_heap p).files.length =
          (obj_at w.obj_heap p).files.length) ∧
      (get_file_node w o dir file).1.obj_table = w.obj_table ∧
      (get_file_node w o dir file).1.N_OBJ_ENTRIES = w.N_OBJ_ENTRIES ∧
      (get_file_node w o dir file).1.N_FILE_ENTRIES = w.N_FILE_ENTRIES ∧
      (get_file_node w o dir file).1.N_FN_ENTRIES = w.N_FN_ENTRIES ∧
      (get_file_node w o dir file).1.fn_malloc = w.fn_malloc ∧
      (get_file_node w o dir file).1.st = { w.st with
        stat := { w.st.stat with
          distinct_files := (get_file_node w o dir file).1.st.stat.distinct_files } } := by
  have hnone : ∀ (heap : List file_node) f h, heap.length < f →
      (file_at heap f).fns.getD h [] = [] := by
    intro heap f h hf
    cases f with
    | zero => omega
    | succ f =>
      have : heap[f]? = none := List.getElem?_eq_none (by omega)
      simp [file_at, List.getD_eq_getElem?_getD, this]
      rfl
  by_cases hex : ∃ p, 0 < p ∧ p ≤ w.file_heap.length ∧ (file_at w.file_heap p).obj = o ∧
      (file_at w.file_heap p).name = file_key dir file
  · obtain ⟨p, h0, hp, hpo, hn⟩ := hex
    rw [get_file_node_found w o dir file hw p h0 hp hpo hn]
    exact ⟨h0, hp, hn, hpo, le_refl _, fun _ _ => rfl, hnone _, rfl,
      fun _ => ⟨rfl, rfl, rfl⟩, rfl, rfl, rfl, rfl, rfl, rfl⟩
  · have habs : ∀ p, 0 < p → p ≤ w.file_heap.length → (file_at w.file_heap p).obj = o →
        (file_at w.file_heap p).name ≠ file_key dir file :=
      fun p h0 hp hpo hn => hex ⟨p, h0, hp, hpo, hn⟩
    rw [get_file_node_new w o dir file hw ho0 ho habs]
    dsimp only
    rw [file_at_append_new, List.length_append, length_obj_put]
    refine ⟨by omega, by simp, rfl, rfl, by omega, fun p hp => file_at_append_old _ _ _ hp,
      ?_, rfl, ?_, rfl, rfl, rfl, rfl, rfl, rfl⟩
    · intro f h hf
      by_cases hfe : f = w.file_heap.length + 1
      · rw [hfe, file_at_append_new]
        exact getD_replicate_nil _ _
      · exact hnone _ f h (by simp; omega)
    · intro p
      by_cases hpo : p = o
      · rw [hpo, obj_at_put_same _ _ _ ho0 ho]
        exact ⟨rfl, rfl, by simp⟩
      · rw [obj_at_put_other _ _ _ _ hpo]
        exact ⟨rfl, rfl, rfl⟩

/-- The function `get_obj_node` keeps the invariant of the three tables. -/
theorem get_obj_node_idwf (w : Tables) (di : Option DebugInfo) (hw : IdWF w) :
    IdWF (get_obj_node w di).1 := by
  obtain ⟨h1, h2, h3, h4, h5, h6, h7⟩ := get_obj_node_frame w di hw.1
  obtain ⟨g1, g2, g3, -⟩ := get_obj_node_step w di hw.1
  refine ⟨g1, ?_, ?_⟩
  · apply fileWF_frame w _ hw.2.1 h3 h4 (by rw [h6]) (by rw [h1])
      (fun p => by rw [h1]; exact ⟨rfl, rfl, rfl, rfl⟩) g2
      (fun o ho => by rw [g3 o ho]) h7
  · apply fnWF_frame w _ hw.2.2 h4 h5 (by rw [h6]) (fun a => by rw [h6]; exact ⟨rfl, rfl, rfl⟩)
      (by rw [h1]) (fun f _ => by rw [h1])
    intro f h hf
    rw [h1]
    cases f with
    | zero => omega
    | succ f =>
      have : w.file_heap[f]? = none := List.getElem?_eq_none (by omega)
      simp [file_at, List.getD_eq_getElem?_getD, this]
      rfl

/-- The function `get_file_node` keeps the invariant of the three tables. -/
theorem get_file_node_idwf (w : Tables) (o : Nat) (dir file : List Int) (hw : IdWF w)
    (ho0 : 0 < o) (ho : o ≤ w.obj_heap.length) :
    IdWF (get_file_node w o dir file).1 := by
  obtain ⟨-, -, -, -, g5, g6, g7, g8, g9, g10, g11, g12, g13, g14, g15⟩ :=
    get_file_node_step w o dir file hw.2.1 ho0 ho
  refine ⟨?_, get_file_node_wf w o dir file hw.1 hw.2.1 ho0 ho, ?_⟩
  · exact objWF_frame w _ hw.1 g11 g12 g10 (by rw [g15]) g8 g9
  · exact fnWF_frame w _ hw.2.2 g13 g14 (by rw [g15])
      (fun a => by rw [g15]; exact ⟨rfl, rfl, rfl⟩) g5 (fun f hf => by rw [g6 f hf]) g7

/-- The function `get_fn_node_infile` returns and keeps the invariant of the three tables,
when the file record exists and the active-count array has at least one counter. -/
theorem get_fn_node_infile_idwf (w : Tables) (f : Nat) (fnname : List Int) (hw : IdWF w)
    (hf0 : 0 < f) (hf : f ≤ w.file_heap.length) (hs : 1 ≤ w.st.current_fn_active.size) :
    ∃ r, get_fn_node_infile w f fnname = some r ∧ IdWF r.1 := by
  by_cases hex : ∃ k, k < w.st.stat.distinct_fns ∧ (w.st.fn_mem (w.fn_malloc k)).file = f ∧
      (w.st.fn_mem (w.fn_malloc k)).name = fnname
  · obtain ⟨k, hk, hkf, hn⟩ := hex
    exact ⟨_, get_fn_node_infile_found w f fnname hw.2.2 k hk hkf hn, hw⟩
  · have habs : ∀ k, k < w.st.stat.distinct_fns → (w.st.fn_mem (w.fn_malloc k)).file = f →
        (w.st.fn_mem (w.fn_malloc k)).name ≠ fnname :=
      fun k hk hkf hn => hex ⟨k, hk, hkf, hn⟩
    obtain ⟨st1, hres, -, -, -, -, -, -, -, hobjs, hfiles, -⟩ :=
      get_fn_node_infile_new w f fnname hw.2.2 hf0 hf hs habs
    obtain ⟨r, hr, hwf⟩ := get_fn_node_infile_wf w f fnname hw.2.1 hw.2.2 hf0 hf hs
    rw [hres] at hr
    refine ⟨_, hres, ?_, ?_, ?_⟩
    · exact objWF_frame w _ hw.1 rfl rfl rfl hobjs rfl (fun _ => ⟨rfl, rfl, rfl⟩)
    · refine fileWF_frame w _ hw.2.1 rfl rfl hfiles (length_file_put _ _ _) ?_ (le_refl _)
        (fun _ _ => rfl) ?_
      · intro p
        dsimp only
        by_cases hpf : p = f
        · rw [hpf, file_at_put_same _ _ _ hf0 hf]
          exact ⟨rfl, rfl, rfl, by simp⟩
        · rw [file_at_put_other _ _ _ _ hpf]
          exact ⟨rfl, rfl, rfl, rfl⟩
      · intro o h ho
        cases o with
        | zero => omega
        | succ o =>
          have : w.obj_heap[o]? = none := List.getElem?_eq_none (by omega)
          simp [obj_at, List.getD_eq_getElem?_getD, this]
          rfl
    · rw [← Option.some.inj hr] at hwf
      exact hwf

/-- Freshly initialised tables satisfy the invariant of the three tables. -/
theorem fresh_idwf (w : Tables) (h : FreshTables w) : IdWF w := by
  refine ⟨fresh_obj_wf w h, ?_, ?_⟩
  · obtain ⟨-, h2, -, -, hobj, hfile, -, hcount, -⟩ := h
    constructor
    · exact h2
    · rw [hcount, hfile]
      rfl
    · intro o h p ho0 ho
      rw [hobj] at ho
      simp at ho
      omega
    · intro p h0 hp
      rw [hfile] at hp
      simp at hp
      omega
    · intro p q h0 hp
      rw [hfile] at hp
      simp at hp
      omega
  · obtain ⟨-, -, h3, -, -, hfile, -, -, hcount, hinj, hpos⟩ := h
    constructor
    · exact h3
    · exact hinj
    · exact hpos
    · intro f h a hf0 hf
      rw [hfile] at hf
      simp at hf
      omega
    · intro k hk
      rw [hcount] at hk
      omega
    · intro j k hj
      rw [hcount] at hj
      omega

/-- The path name that `get_file_node` builds from a directory without NUL. -/
theorem file_key_eq (dir file : List Int) (hdir : (0 : Int) ∉ dir) :
    file_key dir file = if dir = [] then file else dir ++ [47] ++ file := by
  unfold file_key
  cases dir with
  | nil => simp
  | cons c dir =>
    have hc : c ≠ 0 := fun h => hdir (by rw [h]; exact List.mem_cons_self _ _)
    simp [hc]

/-- C18. File key construction: for a directory string `dir` (no NUL inside),
`get_file_node(obj, dir, file)` on an object that exists works with the key
`dir ++ "/" ++ file` when `dir` is not empty and with `file` alone when `dir` is empty; the
record it returns exists, has the key as name and `obj` as back-reference (so a newly
created record has them); and a later call on the same object, in any state in which the
record still exists, returns the identical record if and only if its key is the same
string. -/
theorem file_key_construction (w : Tables) (o : Nat) (dir file : List Int) (hw : IdWF w)
    (ho0 : 0 < o) (ho : o ≤ w.obj_heap.length) (hdir : (0 : Int) ∉ dir) :
    file_key dir file = (if dir = [] then file else dir ++ [47] ++ file) ∧
      0 < (get_file_node w o dir file).2 ∧
      (get_file_node w o dir file).2 ≤ (get_file_node w o dir file).1.file_heap.length ∧
      (file_at (get_file_node w o dir file).1.file_heap
        (get_file_node w o dir file).2).name = file_key dir file ∧
      (file_at (get_file_node w o dir file).1.file_heap
        (get_file_node w o dir file).2).obj = o ∧
      IdWF (get_file_node w o dir file).1 ∧
      o ≤ (get_file_node w o dir file).1.obj_heap.length ∧
      ∀ (w2 : Tables) (dir2 file2 : List Int), IdWF w2 → o ≤ w2.obj_heap.length →
        (get_file_node w o dir file).2 ≤ w2.file_heap.length →
        (file_at w2.file_heap (get_file_node w o dir file).2).name = file_key dir file →
        (file_at w2.file_heap (get_file_node w o dir file).2).obj = o →
        ((get_file_node w2 o dir2 file2).2 = (get_file_node w o dir file).2 ↔
          file_key dir2 file2 = file_key dir file) := by
  obtain ⟨g1, g2, g3, g4, -, -, -, g8, -⟩ := get_file_node_step w o dir file hw.2.1 ho0 ho
  refine ⟨file_key_eq dir file hdir, g1, g2, g3, g4, get_file_node_idwf w o dir file hw ho0 ho,
    by rw [g8]; exact ho, ?_⟩
  intro w2 dir2 file2 hw2 ho2 hp2 hn2 hob2
  constructor
  · intro heq
    obtain ⟨-, -, k3, -, -, k6, -⟩ := get_file_node_step w2 o dir2 file2 hw2.2.1 ho0 ho2
    rw [heq, k6 _ hp2, hn2] at k3
    exact k3.symm
  · intro heq
    rw [get_file_node_found w2 o dir2 file2 hw2.2.1 _ g1 hp2 hob2 (by rw [hn2, heq])]

/-- Witness of C18: on the tables that hold the anonymous object, the directory `"/u"` and
the file `"a"` give the key `"/u/a"`, and the record returned has this name and the
object 1 as back-reference. -/
theorem file_key_construction_witness :
    0 < 1 ∧ 1 ≤ (get_obj_node fresh_tables none).1.obj_heap.length ∧
      file_key [47, 117] [97] = [47, 117, 47, 97] ∧
      (file_at (get_file_node (get_obj_node fresh_tables none).1 1 [47, 117] [97]).1.file_heap
        (get_file_node (get_obj_node fresh_tables none).1 1 [47, 117] [97]).2).name =
          file_key [47, 117] [97] ∧
      (file_at (get_file_node (get_obj_node fresh_tables none).1 1 [47, 117] [97]).1.file_heap
        (get_file_node (get_obj_node fresh_tables none).1 1 [47, 117] [97]).2).obj = 1 :=
  have h := file_key_construction (get_obj_node fresh_tables none).1 1 [47, 117] [97]
    (get_obj_node_idwf _ _ (fresh_idwf _ fresh_tables_fresh)) (by decide) (by decide)
    (by decide)
  ⟨by decide, by decide, h.1, h.2.2.2.1, h.2.2.2.2.1⟩

/-- The numbers of the object records: the record at the pointer `p` has number `p`, which
is at most `distinct_objs`. -/
theorem obj_number_le (w : Tables) (hw : ObjWF w) (p : Nat) (h0 : 0 < p)
    (hp : p ≤ w.obj_heap.length) :
    (obj_at w.obj_heap p).number = p ∧
      (obj_at w.obj_heap p).number ≤ w.st.stat.distinct_objs := by
  have h := (hw.all p h0 hp).2.1
  rw [h, hw.count]
  exact ⟨rfl, hp⟩

/-- The numbers of the file records: the record at the pointer `p` has number `p`, which
is at most `distinct_files`. -/
theorem file_number_le (w : Tables) (hw : FileWF w) (p : Nat) (h0 : 0 < p)
    (hp : p ≤ w.file_heap.length) :
    (file_at w.file_heap p).number = p ∧
      (file_at w.file_heap p).number ≤ w.st.stat.distinct_files := by
  have h := (hw.all p h0 hp).2.2.2.1
  rw [h, hw.count]
  exact ⟨rfl, hp⟩

/-- The numbers of the function records that the tables link: the record is the one of
some `LPG_MALLOC` call `k < distinct_fns` and has number `k + 1`. -/
theorem fn_number_le (w : Tables) (hw : FnWF w) (f h a : Nat) (hf0 : 0 < f)
    (hf : f ≤ w.file_heap.length) (ha : a ∈ (file_at w.file_heap f).fns.getD h []) :
    ∃ k, k < w.st.stat.distinct_fns ∧ a = w.fn_malloc k ∧ (w.st.fn_mem a).number = k + 1 ∧
      (w.st.fn_mem a).file = f := by
  obtain ⟨-, h2, k, hk, rfl⟩ := hw.linked f h a hf0 hf ha
  exact ⟨k, hk, rfl, (hw.all k hk).1, h2⟩

/-- C13. Interning idempotence, in a state that satisfies the invariant of the tables, for
a file record `f` and an object record `o` that exist and an active-count array with at
least one counter.  `get_fn_node_infile` returns a record with the name and the file; a
second call with the same name returns the identical record and leaves the state (so
`distinct_fns`) as it is; a call with a name that a record of the file has changes
nothing; a call with a name that no record of the file has creates a record numbered
`distinct_fns + 1`; the records that exist have numbers at most `distinct_fns` and keep
them, and no two records of the tables share a number.  The same for `get_obj_node` (by
module name) and `get_file_node` (by constructed path within the object). -/
theorem interning_idempotent (w : Tables) (di : Option DebugInfo) (o f : Nat)
    (dir file fnname : List Int) (hw : IdWF w) (ho0 : 0 < o) (ho : o ≤ w.obj_heap.length)
    (hf0 : 0 < f) (hf : f ≤ w.file_heap.length) (hs : 1 ≤ w.st.current_fn_active.size) :
    (∃ w1 fn, get_fn_node_infile w f fnname = some (w1, fn) ∧
      get_fn_node_infile w1 f fnname = some (w1, fn) ∧
      (w1.st.fn_mem fn).name = fnname ∧ (w1.st.fn_mem fn).file = f ∧
      ((∃ h a, a ∈ (file_at w.file_heap f).fns.getD h [] ∧ (w.st.fn_mem a).name = fnname) →
        w1 = w) ∧
      ((∀ h a, a ∈ (file_at w.file_heap f).fns.getD h [] →
          (w.st.fn_mem a).name ≠ fnname) →
        w1.st.stat.distinct_fns = w.st.stat.distinct_fns + 1 ∧
        (w1.st.fn_mem fn).number = w.st.stat.distinct_fns + 1) ∧
      (∀ f2 h a, 0 < f2 → f2 ≤ w.file_heap.length →
        a ∈ (file_at w.file_heap f2).fns.getD h [] →
        (w.st.fn_mem a).number ≤ w.st.stat.distinct_fns ∧
          (w1.st.fn_mem a).number = (w.st.fn_mem a).number) ∧
      (∀ f2 h2 a f3 h3 b, 0 < f2 → f2 ≤ w1.file_heap.length → 0 < f3 →
        f3 ≤ w1.file_heap.length → a ∈ (file_at w1.file_heap f2).fns.getD h2 [] →
        b ∈ (file_at w1.file_heap f3).fns.getD h3 [] →
        (w1.st.fn_mem a).number = (w1.st.fn_mem b).number → a = b)) ∧
    (get_obj_node (get_obj_node w di).1 di = ((get_obj_node w di).1, (get_obj_node w di).2) ∧
      (obj_at (get_obj_node w di).1.obj_heap (get_obj_node w di).2).name = obj_name_of di ∧
      ((∃ p, 0 < p ∧ p ≤ w.obj_heap.length ∧
          (obj_at w.obj_heap p).name = obj_name_of di) →
        (get_obj_node w di).1 = w) ∧
      ((∀ p, 0 < p → p ≤ w.obj_heap.length →
          (obj_at w.obj_heap p).name ≠ obj_name_of di) →
        (get_obj_node w di).1.st.stat.distinct_objs = w.st.stat.distinct_objs + 1 ∧
        (obj_at (get_obj_node w di).1.obj_heap (get_obj_node w di).2).number =
          w.st.stat.distinct_objs + 1) ∧
      (∀ p, 0 < p → p ≤ w.obj_heap.length →
        (obj_at w.obj_heap p).number ≤ w.st.stat.distinct_objs ∧
          (obj_at (get_obj_node w di).1.obj_heap p).number = (obj_at w.obj_heap p).number) ∧
      (∀ p q, 0 < p → p ≤ (get_obj_node w di).1.obj_heap.length → 0 < q →
        q ≤ (get_obj_node w di).1.obj_heap.length →
        (obj_at (get_obj_node w di).1.obj_heap p).number =
          (obj_at (get_obj_node w di).1.obj_heap q).number → p = q)) ∧
    (get_file_node (get_file_node w o dir file).1 o dir file =
        ((get_file_node w o dir file).1, (get_file_node w o dir file).2) ∧
      (file_at (get_file_node w o dir file).1.file_heap
        (get_file_node w o dir file).2).name = file_key dir file ∧
      ((∃ p, 0 < p ∧ p ≤ w.file_heap.length ∧ (file_at w.file_heap p).obj = o ∧
          (file_at w.file_heap p).name = file_key dir file) →
        (get_file_node w o dir file).1 = w) ∧
      ((∀ p, 0 < p → p ≤ w.file_heap.length → (file_at w.file_heap p).obj = o →
          (file_at w.file_heap p).name ≠ file_key dir file) →
        (get_file_node w o dir file).1.st.stat.distinct_files =
          w.st.stat.distinct_files + 1 ∧
        (file_at (get_file_node w o dir file).1.file_heap
          (get_file_node w o dir file).2).number = w.st.stat.distinct_files + 1) ∧
      (∀ p, 0 < p → p ≤ w.file_heap.length →
        (file_at w.file_heap p).number ≤ w.st.stat.distinct_files ∧
          (file_at (get_file_node w o dir file).1.file_heap p).number =
            (file_at w.file_heap p).number) ∧
      (∀ p q, 0 < p → p ≤ (get_file_node w o dir file).1.file_heap.length → 0 < q →
        q ≤ (get_file_node w o dir file).1.file_heap.length →
        (file_at (get_file_node w o dir file).1.file_heap p).number =
          (file_at (get_file_node w o dir file).1.file_heap q).number → p = q)) := by
  refine ⟨?_, ?_, ?_⟩
  · have hinj : ∀ w1 : Tables, FnWF w1 → ∀ f2 h2 a f3 h3 b, 0 < f2 →
        f2 ≤ w1.file_heap.length → 0 < f3 → f3 ≤ w1.file_heap.length →
        a ∈ (file_at w1.file_heap f2).fns.getD h2 [] →
        b ∈ (file_at w1.file_heap f3).fns.getD h3 [] →
        (w1.st.fn_mem a).number = (w1.st.fn_mem b).number → a = b := by
      intro w1 hw1 f2 h2 a f3 h3 b hf20 hf2 hf30 hf3 ha hb hab
      obtain ⟨j, -, rfl, hj, -⟩ := fn_number_le w1 hw1 f2 h2 a hf20 hf2 ha
      obtain ⟨k, -, rfl, hk, -⟩ := fn_number_le w1 hw1 f3 h3 b hf30 hf3 hb
      rw [hj, hk] at hab
      have : j = k := by omega
      rw [this]
    by_cases hex : ∃ k, k < w.st.stat.distinct_fns ∧
        (w.st.fn_mem (w.fn_malloc k)).file = f ∧ (w.st.fn_mem (w.fn_malloc k)).name = fnname
    · obtain ⟨k, hk, hkf, hn⟩ := hex
      have hfound := get_fn_node_infile_found w f fnname hw.2.2 k hk hkf hn
      refine ⟨w, _, hfound, hfound, hn, hkf, fun _ => rfl, ?_, ?_, hinj w hw.2.2⟩
      · intro habs
        have h3 := (hw.2.2.all k hk).2.2.2
        rw [hkf] at h3
        exact absurd hn (habs _ _ h3)
      · intro f2 h a hf20 hf2 ha
        obtain ⟨j, hj, -, hnum, -⟩ := fn_number_le w hw.2.2 f2 h a hf20 hf2 ha
        exact ⟨by omega, rfl⟩
    · have habs : ∀ k, k < w.st.stat.distinct_fns →
          (w.st.fn_mem (w.fn_malloc k)).file = f →
          (w.st.fn_mem (w.fn_malloc k)).name ≠ fnname :=
        fun k hk hkf hn => hex ⟨k, hk, hkf, hn⟩
      obtain ⟨st1, hres, hmem, -, -, -, -, -, hcount, -⟩ :=
        get_fn_node_infile_new w f fnname hw.2.2 hf0 hf hs habs
      obtain ⟨r, hr, hwf⟩ := get_fn_node_infile_wf w f fnname hw.2.1 hw.2.2 hf0 hf hs
      rw [hres] at hr
      rw [← Option.some.inj hr] at hwf
      dsimp only at hwf
      have hnew : st1.fn_mem (w.fn_malloc w.st.stat.distinct_fns) =
          { name := fnname
            number := w.st.stat.distinct_fns + 1
            last_cxt := 0
            pure_cxt := 0
            file := f
            next := ((file_at w.file_heap f).fns.getD
              (str_hash fnname w.N_FN_ENTRIES) []).headD 0
            is_malloc := false
            is_realloc := false
            is_free := false } := by
        rw [hmem, Function.update_same]
      refine ⟨_, _, hres, ?_, ?_, ?_, ?_, ?_, ?_, hinj _ hwf⟩
      · exact get_fn_node_infile_found _ f fnname hwf w.st.stat.distinct_fns
          (by dsimp only; omega) (by dsimp only; rw [hnew]) (by dsimp only; rw [hnew])
      · dsimp only
        rw [hnew]
      · dsimp only
        rw [hnew]
      · rintro ⟨h, a, ha, hn⟩
        obtain ⟨k, hk, rfl, -, hkf⟩ := fn_number_le w hw.2.2 f h a hf0 hf ha
        exact absurd hn (habs k hk hkf)
      · intro _
        dsimp only
        rw [hnew]
        exact ⟨hcount, rfl⟩
      · intro f2 h a hf20 hf2 ha
        obtain ⟨j, hj, rfl, hnum, -⟩ := fn_number_le w hw.2.2 f2 h a hf20 hf2 ha
        refine ⟨by omega, ?_⟩
        dsimp only
        rw [hmem, Function.update_noteq]
        intro hc
        have := hw.2.2.malloc_inj _ _ hc
        omega
  · obtain ⟨g1, g2, g3, g4, g5, g6⟩ := get_obj_node_step w di hw.1
    refine ⟨get_obj_node_found _ di g1 _ g4 g5 g6, g6, ?_, ?_, ?_, ?_⟩
    · rintro ⟨p, h0, hp, hn⟩
      rw [get_obj_node_found w di hw.1 p h0 hp hn]
    · intro habs
      obtain ⟨h2, ⟨obj, hheap, -, hnum, -⟩, hst, -⟩ := get_obj_node_new w di hw.1 habs
      rw [hst, h2, hheap, obj_at_append_new]
      exact ⟨rfl, hnum⟩
    · intro p h0 hp
      rw [g3 p hp]
      exact ⟨(obj_number_le w hw.1 p h0 hp).2, rfl⟩
    · intro p q hp0 hp hq0 hq hpq
      rw [(obj_number_le _ g1 p hp0 hp).1, (obj_number_le _ g1 q hq0 hq).1] at hpq
      exact hpq
  · obtain ⟨g1, g2, g3, g4, g5, g6, -⟩ := get_file_node_step w o dir file hw.2.1 ho0 ho
    have hwf := get_file_node_wf w o dir file hw.1 hw.2.1 ho0 ho
    refine ⟨get_file_node_found _ o dir file hwf _ g1 g2 g4 g3, g3, ?_, ?_, ?_, ?_⟩
    · rintro ⟨p, h0, hp, hpo, hn⟩
      rw [get_file_node_found w o dir file hw.2.1 p h0 hp hpo hn]
    · intro habs
      rw [get_file_node_new w o dir file hw.2.1 ho0 ho habs]
      dsimp only
      rw [file_at_append_new]
      exact ⟨rfl, rfl⟩
    · intro p h0 hp
      rw [g6 p hp]
      exact ⟨(file_number_le w hw.2.1 p h0 hp).2, rfl⟩
    · intro p q hp0 hp hq0 hq hpq
      rw [(file_number_le _ hwf p hp0 hp).1, (file_number_le _ hwf q hq0 hq).1] at hpq
      exact hpq

/-- Witness of C13: the tables that hold the anonymous object and the file `"a"` of it;
two calls for the function name `"f"` in this file return the same record. -/
theorem interning_idempotent_witness :
    0 < 1 ∧
      1 ≤ (get_file_node (get_obj_node fresh_tables none).1 1 [] [97]).1.obj_heap.length ∧
      1 ≤ (get_file_node (get_obj_node fresh_tables none).1 1 [] [97]).1.file_heap.length ∧
      ∃ w1 fn,
        get_fn_node_infile (get_file_node (get_obj_node fresh_tables none).1 1 [] [97]).1 1
          [102] = some (w1, fn) ∧
        get_fn_node_infile w1 1 [102] = some (w1, fn) :=
  have h := interning_idempotent (get_file_node (get_obj_node fresh_tables none).1 1 [] [97]).1
    none 1 1 [] [97] [102]
    (get_file_node_idwf _ _ _ _ (get_obj_node_idwf _ _ (fresh_idwf _ fresh_tables_fresh))
      (by decide) (by decide))
    (by decide) (by decide) (by decide) (by decide) (by decide)
  ⟨by decide, by decide, by decide, h.1.elim fun w1 h1 => h1.elim fun fn h2 =>
    ⟨w1, fn, h2.1, h2.2.1⟩⟩

/-! ## Interning a function and its pure Context -/

theorem extends_refl (w : Tables) : Extends w w :=
  ⟨rfl, le_refl _, le_refl _, le_refl _, fun _ _ => rfl, fun _ _ => ⟨rfl, rfl⟩,
    fun _ _ => ⟨rfl, rfl, rfl⟩⟩

theorem extends_trans (w w1 w2 : Tables) (h1 : Extends w w1) (h2 : Extends w1 w2) :
    Extends w w2 := by
  obtain ⟨a1, a2, a3, a4, a5, a6, a7⟩ := h1
  obtain ⟨b1, b2, b3, b4, b5, b6, b7⟩ := h2
  refine ⟨b1.trans a1, le_trans a2 b2, le_trans a3 b3, le_trans a4 b4, ?_, ?_, ?_⟩
  · intro p hp
    rw [b5 p (le_trans hp a2), a5 p hp]
  · intro p hp
    rw [(b6 p (le_trans hp a3)).1, (b6 p (le_trans hp a3)).2]
    exact a6 p hp
  · intro k hk
    have hb := b7 k (by omega)
    rw [a1] at hb
    rw [hb.1, hb.2.1, hb.2.2]
    exact a7 k hk

/-- The keys of the records that exist are kept by an extension. -/
theorem extends_key (w w1 : Tables) (hw : IdWF w) (h : Extends w w1) (k : Nat)
    (hk : k < w.st.stat.distinct_fns) :
    key_of w1 (w.fn_malloc k) = key_of w (w.fn_malloc k) := by
  obtain ⟨-, -, -, -, a5, a6, a7⟩ := h
  have hf := hw.2.2.all k hk
  have ho := hw.2.1.all _ hf.2.1 hf.2.2.1
  unfold key_of
  rw [(a7 k hk).1, (a7 k hk).2.1, (a6 _ hf.2.2.1).1, (a6 _ hf.2.2.1).2, a5 _ ho.2.1]

theorem get_obj_node_extends (w : Tables) (di : Option DebugInfo) (hw : ObjWF w) :
    Extends w (get_obj_node w di).1 := by
  obtain ⟨h1, -, -, -, h5, h6, -⟩ := get_obj_node_frame w di hw
  obtain ⟨-, g2, g3, -⟩ := get_obj_node_step w di hw
  refine ⟨h5, g2, by rw [h1], by rw [h6], fun p hp => by rw [g3 p hp],
    fun p _ => by rw [h1]; exact ⟨rfl, rfl⟩, fun k _ => by rw [h6]; exact ⟨rfl, rfl, rfl⟩⟩

theorem get_file_node_extends (w : Tables) (o : Nat) (dir file : List Int) (hw : FileWF w)
    (ho0 : 0 < o) (ho : o ≤ w.obj_heap.length) :
    Extends w (get_file_node w o dir file).1 := by
  obtain ⟨-, -, -, -, g5, g6, -, g8, g9, -, -, -, -, g14, g15⟩ :=
    get_file_node_step w o dir file hw ho0 ho
  refine ⟨g14, by rw [g8], g5, by rw [g15], fun p _ => (g9 p).1,
    fun p hp => by rw [g6 p hp]; exact ⟨rfl, rfl⟩,
    fun k _ => by rw [g15]; exact ⟨rfl, rfl, rfl⟩⟩

/-- A change of the state that keeps the names, the files and the numbers of the function
records and `distinct_fns` is an extension. -/
theorem extends_st (w : Tables) (st : State)
    (h1 : st.stat.distinct_fns = w.st.stat.distinct_fns)
    (h2 : ∀ a, (st.fn_mem a).name = (w.st.fn_mem a).name ∧
      (st.fn_mem a).file = (w.st.fn_mem a).file ∧
      (st.fn_mem a).number = (w.st.fn_mem a).number) :
    Extends w { w with st := st } :=
  ⟨rfl, le_refl _, le_refl _, by rw [h1], fun _ _ => rfl, fun _ _ => ⟨rfl, rfl⟩,
    fun _ _ => h2 _⟩

/-- A change of the state that keeps the names, the files and the numbers of the function
records and the three counters keeps the invariant of the three tables. -/
theorem idwf_st (w : Tables) (st : State) (hw : IdWF w)
    (h1 : st.stat.distinct_fns = w.st.stat.distinct_fns)
    (h3 : st.stat.distinct_objs = w.st.stat.distinct_objs)
    (h4 : st.stat.distinct_files = w.st.stat.distinct_files)
    (h2 : ∀ a, (st.fn_mem a).name = (w.st.fn_mem a).name ∧
      (st.fn_mem a).file = (w.st.fn_mem a).file ∧
      (st.fn_mem a).number = (w.st.fn_mem a).number) :
    IdWF { w with st := st } := by
  refine ⟨?_, ?_, ?_⟩
  · exact objWF_frame w _ hw.1 rfl rfl rfl h3 rfl (fun _ => ⟨rfl, rfl, rfl⟩)
  · refine fileWF_frame w _ hw.2.1 rfl rfl h4 rfl (fun _ => ⟨rfl, rfl, rfl, rfl⟩) (le_refl _)
      (fun _ _ => rfl) ?_
    intro o h ho
    cases o with
    | zero => omega
    | succ o =>
      have hl : w.obj_heap.length ≤ o := by omega
      have : w.obj_heap[o]? = none := List.getElem?_eq_none hl
      simp [obj_at, List.getD_eq_getElem?_getD, this]
      rfl
  · refine fnWF_frame w _ hw.2.2 rfl rfl h1 (fun a => ⟨(h2 a).1, (h2 a).2.2, (h2 a).2.1⟩)
      (le_refl _) (fun _ _ => rfl) ?_
    intro f h hf
    cases f with
    | zero => omega
    | succ f =>
      have hl : w.file_heap.length ≤ f := by omega
      have : w.file_heap[f]? = none := List.getElem?_eq_none hl
      simp [file_at, List.getD_eq_getElem?_getD, this]
      rfl

/-- One call of `get_fn_node_inseg` in a state that satisfies the invariant of the tables,
with an active-count array of at least one counter: it returns a record with the
requested key, the tables are extended, and the record is either one that existed (then
the function memory and the active counts are as before) or the new record at the next
address (numbered `distinct_fns + 1`, with no Context recorded). -/
theorem get_fn_node_inseg_step (w : Tables) (di : Option DebugInfo)
    (dir file name : List Int) (hw : IdWF w) (hs : 1 ≤ w.st.current_fn_active.size) :
    ∃ w1 fn, get_fn_node_inseg w di dir file name = some (w1, fn) ∧ IdWF w1 ∧
      Extends w w1 ∧ key_of w1 fn = (obj_name_of di, file_key dir file, name) ∧
      w1.st.cxts = w.st.cxts ∧ w1.st.cxt_heap = w.st.cxt_heap ∧
      w1.st.current_fn_stack = w.st.current_fn_stack ∧
      w1.st.current_call_stack = w.st.current_call_stack ∧
      w1.st.current_state_cxt = w.st.current_state_cxt ∧
      w1.st.stat.distinct_contexts = w.st.stat.distinct_contexts ∧
      ((∃ k, k < w.st.stat.distinct_fns ∧ fn = w.fn_malloc k ∧
          w1.st.fn_mem = w.st.fn_mem ∧
          w1.st.stat.distinct_fns = w.st.stat.distinct_fns ∧
          w1.st.current_fn_active = w.st.current_fn_active) ∨
        (fn = w.fn_malloc w.st.stat.distinct_fns ∧
          w1.st.stat.distinct_fns = w.st.stat.distinct_fns + 1 ∧
          (∃ node : fn_node, w1.st.fn_mem = Function.update w.st.fn_mem fn node ∧
            node.name = name ∧ node.number = w.st.stat.distinct_fns + 1 ∧
            node.last_cxt = 0 ∧ node.pure_cxt = 0) ∧
          w.st.stat.distinct_fns + 1 < w1.st.current_fn_active.size ∧
          (w1.st.current_fn_active = w.st.current_fn_active ∨
            (w1.st.current_fn_active.array.length = w1.st.current_fn_active.size ∧
              (∀ i, i < w.st.current_fn_active.size →
                w1.st.current_fn_active.array.getD i 0 =
                  w.st.current_fn_active.array.getD i 0) ∧
              (∀ i, w.st.current_fn_active.size ≤ i →
                w1.st.current_fn_active.array.getD i 0 = 0))))) := by
  unfold get_fn_node_inseg
  dsimp only
  have hw1 := get_obj_node_idwf w di hw
  obtain ⟨-, -, -, a4, a5, a6⟩ := get_obj_node_step w di hw.1
  obtain ⟨-, -, -, -, b5, b6, -⟩ := get_obj_node_frame w di hw.1
  have e1 := get_obj_node_extends w di hw.1
  generalize get_obj_node w di = r1 at hw1 a4 a5 a6 b5 b6 e1
  have hw2 := get_file_node_idwf r1.1 r1.2 dir file hw1 a4 a5
  obtain ⟨c1, c2, c3, c4, -, -, -, -, c9, -, -, -, -, c14, c15⟩ :=
    get_file_node_step r1.1 r1.2 dir file hw1.2.1 a4 a5
  have e2 := get_file_node_extends r1.1 r1.2 dir file hw1.2.1 a4 a5
  generalize get_file_node r1.1 r1.2 dir file = r2 at hw2 c1 c2 c3 c4 c9 c14 c15 e2
  have e12 := extends_trans w r1.1 r2.1 e1 e2
  have hst : r2.1.st = { w.st with
      stat := { w.st.stat with
        distinct_objs := r1.1.st.stat.distinct_objs
        distinct_files := r2.1.st.stat.distinct_files } } := by
    rw [c15, b6]
  have hmal : r2.1.fn_malloc = w.fn_malloc := by rw [c14, b5]
  have hd : r2.1.st.stat.distinct_fns = w.st.stat.distinct_fns := by rw [hst]
  have hs2 : 1 ≤ r2.1.st.current_fn_active.size := by rw [hst]; exact hs
  have hobjname : (obj_at r2.1.obj_heap r1.2).name = obj_name_of di := by
    rw [(c9 _).1, a6]
  by_cases hex : ∃ k, k < r2.1.st.stat.distinct_fns ∧
      (r2.1.st.fn_mem (r2.1.fn_malloc k)).file = r2.2 ∧
      (r2.1.st.fn_mem (r2.1.fn_malloc k)).name = name
  · obtain ⟨k, hk, hkf, hn⟩ := hex
    refine ⟨r2.1, _, get_fn_node_infile_found r2.1 r2.2 name hw2.2.2 k hk hkf hn, hw2, e12, ?_,
      by rw [hst], by rw [hst], by rw [hst], by rw [hst], by rw [hst], by rw [hst], Or.inl ?_⟩
    · unfold key_of
      rw [hkf, hn, c3, c4, hobjname]
    · exact ⟨k, by omega, by rw [hmal], by rw [hst], hd, by rw [hst]⟩
  · have habs : ∀ k, k < r2.1.st.stat.distinct_fns →
        (r2.1.st.fn_mem (r2.1.fn_malloc k)).file = r2.2 →
        (r2.1.st.fn_mem (r2.1.fn_malloc k)).name ≠ name :=
      fun k hk hkf hn => hex ⟨k, hk, hkf, hn⟩
    obtain ⟨st1, hres, hmem, d1, d2, d3, d4, d5, d6, -, -, d9, -, d11, d12⟩ :=
      get_fn_node_infile_new r2.1 r2.2 name hw2.2.2 c1 c2 hs2 habs
    obtain ⟨r, hr, hwf3⟩ := get_fn_node_infile_idwf r2.1 r2.2 name hw2 c1 c2 hs2
    rw [hres] at hr
    rw [← Option.some.inj hr] at hwf3
    dsimp only at hwf3
    have hfnmem : st1.fn_mem = Function.update w.st.fn_mem
        (r2.1.fn_malloc r2.1.st.stat.distinct_fns)
        { name := name
          number := r2.1.st.stat.distinct_fns + 1
          last_cxt := 0
          pure_cxt := 0
          file := r2.2
          next := ((file_at r2.1.file_heap r2.2).fns.getD
            (str_hash name r2.1.N_FN_ENTRIES) []).headD 0
          is_malloc := false
          is_realloc := false
          is_free := false } := by
      rw [hmem, hst]
    have e3 : Extends r2.1
        { r2.1 with
          st := st1
          file_heap := file_put r2.1.file_heap r2.2
            { file_at r2.1.file_heap r2.2 with
              fns := (file_at r2.1.file_heap r2.2).fns.set (str_hash name r2.1.N_FN_ENTRIES)
                (r2.1.fn_malloc r2.1.st.stat.distinct_fns ::
                  (file_at r2.1.file_heap r2.2).fns.getD
                    (str_hash name r2.1.N_FN_ENTRIES) []) } } := by
      refine ⟨rfl, le_refl _, by rw [length_file_put], by dsimp only; omega, fun _ _ => rfl,
        ?_, ?_⟩
      · intro p _
        dsimp only
        by_cases hpf : p = r2.2
        · rw [hpf, file_at_put_same _ _ _ c1 c2]
          exact ⟨rfl, rfl⟩
        · rw [file_at_put_other _ _ _ _ hpf]
          exact ⟨rfl, rfl⟩
      · intro k hk
        dsimp only
        rw [hmem, Function.update_noteq]
        · exact ⟨rfl, rfl, rfl⟩
        · intro hc
          have := hw2.2.2.malloc_inj _ _ hc
          omega
    have hnode : ∃ node : fn_node,
        st1.fn_mem = Function.update w.st.fn_mem (w.fn_malloc w.st.stat.distinct_fns) node ∧
          node.name = name ∧ node.number = w.st.stat.distinct_fns + 1 ∧
          node.last_cxt = 0 ∧ node.pure_cxt = 0 := by
      refine ⟨{ name := name
                number := r2.1.st.stat.distinct_fns + 1
                last_cxt := 0
                pure_cxt := 0
                file := r2.2
                next := ((file_at r2.1.file_heap r2.2).fns.getD
                  (str_hash name r2.1.N_FN_ENTRIES) []).headD 0
                is_malloc := false
                is_realloc := false
                is_free := false }, ?_, rfl, ?_, rfl, rfl⟩
      · rw [hfnmem, hmal, hd]
      · dsimp only
        rw [hd]
    have hact : r2.1.st.current_fn_active = w.st.current_fn_active := by rw [hst]
    rw [hact] at d12
    rw [hd] at d11
    refine ⟨_, _, hres, hwf3, extends_trans _ _ _ e12 e3, ?_, by rw [d1, hst],
      by rw [d2, hst], by rw [d3, hst], by rw [d4, hst], by rw [d5, hst], by rw [d9, hst],
      Or.inr ⟨by rw [hmal, hd], by rw [d6, hd], ?_, d11, d12⟩⟩
    · unfold key_of
      dsimp only
      rw [hmem, Function.update_same]
      dsimp only
      rw [file_at_put_same _ _ _ c1 c2]
      dsimp only
      rw [c3, c4, hobjname]
    · rw [hmal, hd]
      exact hnode

theorem new_cxt_check_stat (s : State) :
    (new_cxt_check s).stat.distinct_contexts = s.stat.distinct_contexts ∧
      (new_cxt_check s).stat.context_counter = s.stat.context_counter ∧
      (new_cxt_check s).stat.distinct_fns = s.stat.distinct_fns ∧
      (new_cxt_check s).stat.distinct_objs = s.stat.distinct_objs ∧
      (new_cxt_check s).stat.distinct_files = s.stat.distinct_files := by
  unfold new_cxt_check
  dsimp only
  split <;> exact ⟨rfl, rfl, rfl, rfl, rfl⟩

theorem new_cxt_stat (s : State) (fn : List Nat) :
    (new_cxt s fn).1.stat.distinct_fns = s.stat.distinct_fns ∧
      (new_cxt s fn).1.stat.distinct_objs = s.stat.distinct_objs ∧
      (new_cxt s fn).1.stat.distinct_files = s.stat.distinct_files := by
  unfold new_cxt
  dsimp only
  split
  · exact ⟨rfl, rfl, rfl⟩
  · obtain ⟨-, -, h3, h4, h5⟩ := new_cxt_check_stat s
    exact ⟨h3, h4, h5⟩

/-- The function `get_cxt` writes no field of a function record but `last_cxt`, and leaves
the counters of the identity tables as they are. -/
theorem get_cxt_fields (s : State) (fn : List Nat) :
    (∀ a, (get_cxt s fn).1.fn_mem a =
      { s.fn_mem a with last_cxt := ((get_cxt s fn).1.fn_mem a).last_cxt }) ∧
      (get_cxt s fn).1.stat.distinct_fns = s.stat.distinct_fns ∧
      (get_cxt s fn).1.stat.distinct_objs = s.stat.distinct_objs ∧
      (get_cxt s fn).1.stat.distinct_files = s.stat.distinct_files := by
  by_cases h0 : fn.headD 0 = 0
  · rw [get_cxt_null s fn h0]
    exact ⟨fun _ => rfl, rfl, rfl, rfl⟩
  · cases fn with
    | nil => exact absurd rfl h0
    | cons f rest =>
      have hf : f ≠ 0 := h0
      rw [get_cxt_cons s f rest hf]
      by_cases hc : (s.fn_mem f).last_cxt ≠ 0 ∧
          is_cxt (hash_step 0 f) (f :: rest) (cxt_at s.cxt_heap (s.fn_mem f).last_cxt) = true
      · rw [if_pos hc]
        exact ⟨fun _ => rfl, rfl, rfl, rfl⟩
      · rw [if_neg hc]
        unfold get_cxt_miss
        dsimp only
        split
        · obtain ⟨h1, -⟩ := new_cxt_frame
            { s with stat := { s.stat with cxt_lru_misses := s.stat.cxt_lru_misses + 1 } }
            (f :: rest)
          obtain ⟨k1, k2, k3⟩ := new_cxt_stat
            { s with stat := { s.stat with cxt_lru_misses := s.stat.cxt_lru_misses + 1 } }
            (f :: rest)
          refine ⟨?_, k1, k2, k3⟩
          intro a
          by_cases ha : a = f
          · subst ha
            simp only [List.headD_cons, Function.update_same, h1]
          · simp only [List.headD_cons, Function.update_noteq ha, h1]
        · refine ⟨?_, rfl, rfl, rfl⟩
          intro a
          by_cases ha : a = f
          · subst ha
            simp only [List.headD_cons, Function.update_same]
          · simp only [List.headD_cons, Function.update_noteq ha]

/-- A call of `get_cxt` for a function that has a Context in the table returns it and
allocates nothing. -/
theorem get_cxt_hit (s : State) (hwf : TableWF s) (f : Nat) (rest : List Nat) (q : Nat)
    (hf : f ≠ 0) (hq : Linked s q f) :
    (get_cxt s (f :: rest)).2 = q ∧ (get_cxt s (f :: rest)).1.cxt_heap = s.cxt_heap ∧
      (get_cxt s (f :: rest)).1.cxts = s.cxts ∧
      (get_cxt s (f :: rest)).1.stat.distinct_contexts = s.stat.distinct_contexts := by
  rw [get_cxt_cons s f rest hf]
  split
  · next h =>
    have hl := hwf.hint f h.1
    exact ⟨linked_unique s hwf _ q f hl hq, rfl, rfl, rfl⟩
  · have hwf2 : TableWF
        { s with stat := { s.stat with cxt_lru_misses := s.stat.cxt_lru_misses + 1 } } :=
      wf_congr s _ hwf rfl rfl hwf.hint
    have hq2 : Linked
        { s with stat := { s.stat with cxt_lru_misses := s.stat.cxt_lru_misses + 1 } } q f :=
      linked_congr s _ rfl rfl q f hq
    obtain ⟨-, -, -, k4, -⟩ := lookup_spec _ hwf2 f rest hf _ rfl
    have hr := k4 q hq2
    unfold get_cxt_miss
    dsimp only at hr ⊢
    rw [hr]
    exact ⟨rfl, rfl, rfl, rfl⟩

/-- A call of `get_cxt` for a function that has no Context in the table allocates one, at
the next pointer, and counts it. -/
theorem get_cxt_new (s : State) (hwf : TableWF s) (f : Nat) (rest : List Nat) (hf : f ≠ 0)
    (habs : ∀ i q, q ∈ s.cxts.table.getD i [] → (cxt_at s.cxt_heap q).fn ≠ [f]) :
    (get_cxt s (f :: rest)).2 = s.cxt_heap.length + 1 ∧
      (get_cxt s (f :: rest)).1.cxt_heap.length = s.cxt_heap.length + 1 ∧
      (get_cxt s (f :: rest)).1.stat.distinct_contexts = s.stat.distinct_contexts + 1 := by
  rw [get_cxt_cons s f rest hf]
  have hnl : ∀ q, ¬ Linked s q f := fun q hq => habs _ q hq.1 hq.2
  split
  · next h => exact absurd (hwf.hint f h.1) (hnl _)
  · unfold get_cxt_miss
    dsimp only
    have h0 : chain_search s.cxt_heap (hash_step 0 f) (f :: rest)
        (s.cxts.table.getD (hash_step 0 f % s.cxts.size) []) = 0 := by
      rcases chain_search_spec s.cxt_heap (hash_step 0 f) (f :: rest)
          (s.cxts.table.getD (hash_step 0 f % s.cxts.size) []) with ⟨h0, -⟩ | ⟨hin, hok⟩
      · exact h0
      · exact absurd (is_cxt_linked s hwf _ f rest hf hin hok) (hnl _)
    rw [if_pos h0, new_cxt_cons _ f rest hf]
    obtain ⟨k1, -⟩ := new_cxt_check_stat
      { s with stat := { s.stat with cxt_lru_misses := s.stat.cxt_lru_misses + 1 } }
    have k2 := new_cxt_check_heap
      { s with stat := { s.stat with cxt_lru_misses := s.stat.cxt_lru_misses + 1 } }
    unfold new_cxt_link
    dsimp only
    rw [k2, k1]
    simp

/-- One call of `get_fn_node` for a basic block without a function record, in a state that
satisfies the invariant, with an active-count array of at least one counter: it returns a
record with the requested key and attaches it to the block; the record is one that
existed, and then no Context is allocated, or it is the new record at the next address,
numbered `distinct_fns + 1`, and then exactly one Context is allocated, which becomes
its pure Context. -/
theorem get_fn_node_step (w : Tables) (bb : BB) (names : fn_names) (h : PureWF w)
    (hs : 1 ≤ w.st.current_fn_active.size) (hbb : bb.fn = 0) :
    ∃ w1 b1 fn, get_fn_node w bb names = some (w1, b1, fn) ∧ b1.fn = fn ∧
      b1.line = names.line_num ∧ PureWF w1 ∧ Extends w w1 ∧ key_of w1 fn = fn_key names ∧
      w1.st.current_fn_stack = w.st.current_fn_stack ∧
      w1.st.current_call_stack = w.st.current_call_stack ∧
      w1.st.current_state_cxt = w.st.current_state_cxt ∧
      (∀ k, k < w.st.stat.distinct_fns →
        (w1.st.fn_mem (w.fn_malloc k)).pure_cxt = (w.st.fn_mem (w.fn_malloc k)).pure_cxt) ∧
      ((∃ k, k < w.st.stat.distinct_fns ∧ fn = w.fn_malloc k ∧
          w1.st.stat.distinct_fns = w.st.stat.distinct_fns ∧
          w1.st.cxt_heap = w.st.cxt_heap ∧
          w1.st.stat.distinct_contexts = w.st.stat.distinct_contexts ∧
          w1.st.current_fn_active = w.st.current_fn_active) ∨
        (fn = w.fn_malloc w.st.stat.distinct_fns ∧
          w1.st.stat.distinct_fns = w.st.stat.distinct_fns + 1 ∧
          (w1.st.fn_mem fn).number = w.st.stat.distinct_fns + 1 ∧
          (w1.st.fn_mem fn).pure_cxt = w.st.cxt_heap.length + 1 ∧
          w1.st.cxt_heap.length = w.st.cxt_heap.length + 1 ∧
          w1.st.stat.distinct_contexts = w.st.stat.distinct_contexts + 1 ∧
          w.st.stat.distinct_fns + 1 < w1.st.current_fn_active.size ∧
          (w1.st.current_fn_active = w.st.current_fn_active ∨
            (w1.st.current_fn_active.array.length = w1.st.current_fn_active.size ∧
              (∀ i, i < w.st.current_fn_active.size →
                w1.st.current_fn_active.array.getD i 0 =
                  w.st.current_fn_active.array.getD i 0) ∧
              (∀ i, w.st.current_fn_active.size ≤ i →
                w1.st.current_fn_active.array.getD i 0 = 0))))) := by
  obtain ⟨w1, fn, hseg, hid1, hext, hkey, c1, c2, c3, c4, c5, c6, hcase⟩ :=
    get_fn_node_inseg_step w names.di names.dirname names.filename names.fnname h.id hs
  have hmal : w1.fn_malloc = w.fn_malloc := hext.1
  unfold get_fn_node
  rw [if_neg (by rw [hbb]; exact fun hc => hc rfl), hseg, Option.map_some']
  dsimp only
  rcases hcase with ⟨k, hk, hfn, hmem, hd, hact⟩ |
    ⟨hfn, hd, ⟨node, hmem, hn1, hn2, hn3, hn4⟩, hsz, hact⟩
  · -- the record existed
    have hl := h.pure k hk
    have hpos := linked_pos w.st h.tab _ _ hl
    have hp : (w1.st.fn_mem fn).pure_cxt ≠ 0 := by
      rw [hmem, hfn]
      exact hpos
    rw [if_neg hp]
    have htab : TableWF w1.st := wf_congr w.st w1.st h.tab c1 c2 (by rw [hmem]; exact h.tab.hint)
    refine ⟨w1, _, fn, rfl, rfl, rfl, ⟨hid1, htab, ?_, ?_⟩, hext, hkey, c3, c4, c5, ?_,
      Or.inl ⟨k, hk, hfn, hd, c2, c6, hact⟩⟩
    · intro j hj
      rw [hd] at hj
      rw [hmal, hmem]
      exact linked_congr w.st w1.st c1 c2 _ _ (h.pure j hj)
    · intro j hj
      rw [hd] at hj
      rw [hmal, c1, c2]
      exact h.absent j hj
    · intro j _
      rw [hmem]
  · -- the record is new
    have hp : (w1.st.fn_mem fn).pure_cxt = 0 := by
      rw [hmem, Function.update_same]
      exact hn4
    rw [if_pos hp]
    have hfn0 : fn ≠ 0 := by
      rw [hfn]
      exact h.id.2.2.malloc_pos _
    have htab : TableWF w1.st := by
      refine wf_congr w.st w1.st h.tab c1 c2 ?_
      intro a ha
      rw [hmem] at ha ⊢
      by_cases hafn : a = fn
      · rw [hafn, Function.update_same] at ha
        exact absurd hn3 ha
      · rw [Function.update_noteq hafn] at ha ⊢
        exact h.tab.hint a ha
    have habs1 : ∀ j, w.st.stat.distinct_fns ≤ j → ∀ i q,
        q ∈ w1.st.cxts.table.getD i [] →
        (cxt_at w1.st.cxt_heap q).fn ≠ [w.fn_malloc j] := by
      intro j hj
      rw [c1, c2]
      exact h.absent j hj
    have habsfn : ∀ i q, q ∈ w1.st.cxts.table.getD i [] →
        (cxt_at w1.st.cxt_heap q).fn ≠ [fn] := by
      rw [hfn]
      exact habs1 _ (le_refl _)
    obtain ⟨g1, g2, g3, -⟩ := get_cxt_spec w1.st htab fn [0] hfn0
    obtain ⟨n1, n2, n3⟩ := get_cxt_new w1.st htab fn [0] hfn0 habsfn
    obtain ⟨-, -, cr3⟩ := get_cxt_create w1.st htab fn [0] hfn0 habsfn
    obtain ⟨f1, f2, f3, f4⟩ := get_cxt_fields w1.st [fn, 0]
    obtain ⟨-, fr2, fr3, fr4, fr5⟩ := get_cxt_frame w1.st [fn, 0]
    generalize get_cxt w1.st [fn, 0] = c at g1 g2 g3 n1 n2 n3 cr3 f1 f2 f3 f4 fr2 fr3 fr4 fr5
    have hold : ∀ j, j < w.st.stat.distinct_fns →
        w.fn_malloc j ≠ fn := by
      intro j hj hc
      rw [hfn] at hc
      have := h.id.2.2.malloc_inj _ _ hc
      omega
    have hfields : ∀ a, ((Function.update c.1.fn_mem fn
        { c.1.fn_mem fn with
          pure_cxt := c.2
          is_malloc := decide ((c.1.fn_mem fn).name = malloc_name)
          is_realloc := decide ((c.1.fn_mem fn).name = realloc_name)
          is_free := decide ((c.1.fn_mem fn).name = free_name) }) a).name =
          (w1.st.fn_mem a).name ∧
        ((Function.update c.1.fn_mem fn
        { c.1.fn_mem fn with
          pure_cxt := c.2
          is_malloc := decide ((c.1.fn_mem fn).name = malloc_name)
          is_realloc := decide ((c.1.fn_mem fn).name = realloc_name)
          is_free := decide ((c.1.fn_mem fn).name = free_name) }) a).file =
          (w1.st.fn_mem a).file ∧
        ((Function.update c.1.fn_mem fn
        { c.1.fn_mem fn with
          pure_cxt := c.2
          is_malloc := decide ((c.1.fn_mem fn).name = malloc_name)
          is_realloc := decide ((c.1.fn_mem fn).name = realloc_name)
          is_free := decide ((c.1.fn_mem fn).name = free_name) }) a).number =
          (w1.st.fn_mem a).number := by
      intro a
      by_cases hafn : a = fn
      · rw [hafn, Function.update_same]
        dsimp only
        rw [f1 fn]
        exact ⟨rfl, rfl, rfl⟩
      · rw [Function.update_noteq hafn, f1 a]
        exact ⟨rfl, rfl, rfl⟩
    have hext2 := extends_st w1
      { c.1 with
        fn_mem := Function.update c.1.fn_mem fn
          { c.1.fn_mem fn with
            pure_cxt := c.2
            is_malloc := decide ((c.1.fn_mem fn).name = malloc_name)
            is_realloc := decide ((c.1.fn_mem fn).name = realloc_name)
            is_free := decide ((c.1.fn_mem fn).name = free_name) } } f2 hfields
    have hid2 := idwf_st w1
      { c.1 with
        fn_mem := Function.update c.1.fn_mem fn
          { c.1.fn_mem fn with
            pure_cxt := c.2
            is_malloc := decide ((c.1.fn_mem fn).name = malloc_name)
            is_realloc := decide ((c.1.fn_mem fn).name = realloc_name)
            is_free := decide ((c.1.fn_mem fn).name = free_name) } } hid1 f2 f3 f4 hfields
    have htab2 : TableWF
        { c.1 with
          fn_mem := Function.update c.1.fn_mem fn
            { c.1.fn_mem fn with
              pure_cxt := c.2
              is_malloc := decide ((c.1.fn_mem fn).name = malloc_name)
              is_realloc := decide ((c.1.fn_mem fn).name = realloc_name)
              is_free := decide ((c.1.fn_mem fn).name = free_name) } } := by
      refine wf_congr c.1 _ g1 rfl rfl ?_
      intro a ha
      dsimp only at ha ⊢
      by_cases hafn : a = fn
      · rw [hafn, Function.update_same] at ha ⊢
        exact g1.hint fn ha
      · rw [Function.update_noteq hafn] at ha ⊢
        exact g1.hint a ha
    have hkey2 := extends_key w1 _ hid1 hext2 w.st.stat.distinct_fns (by omega)
    rw [hmal, ← hfn, hkey] at hkey2
    refine ⟨_, _, fn, rfl, rfl, rfl, ⟨hid2, htab2, ?_, ?_⟩, extends_trans _ _ _ hext hext2,
      hkey2, by rw [← c3]; exact fr2, by rw [← c4]; exact fr3, by rw [← c5]; exact fr4, ?_,
      Or.inr ⟨hfn, by rw [← hd]; exact f2, ?_, ?_, by rw [← c2]; exact n2,
        by rw [← c6]; exact n3, by rw [fr5]; exact hsz, by rw [fr5]; exact hact⟩⟩
    · intro j hj
      dsimp only at hj ⊢
      rw [f2, hd] at hj
      rw [hmal]
      by_cases hjd : j < w.st.stat.distinct_fns
      · rw [Function.update_noteq (hold j hjd), f1 (w.fn_malloc j)]
        dsimp only
        rw [hmem, Function.update_noteq (hold j hjd)]
        exact linked_congr c.1 _ rfl rfl _ _
          (g3 _ _ (linked_congr w.st w1.st c1 c2 _ _ (h.pure j hjd)))
      · have hje : j = w.st.stat.distinct_fns := by omega
        rw [hje, ← hfn, Function.update_same]
        exact linked_congr c.1 _ rfl rfl _ _ g2
    · intro j hj
      dsimp only at hj ⊢
      rw [f2, hd] at hj
      rw [hmal]
      have hne : w.fn_malloc j ≠ fn := by
        intro hc
        rw [hfn] at hc
        have := h.id.2.2.malloc_inj _ _ hc
        omega
      exact cr3 _ hne (habs1 j (by omega))
    · intro j hj
      dsimp only
      rw [Function.update_noteq (hold j hj), f1 (w.fn_malloc j)]
      dsimp only
      rw [hmem, Function.update_noteq (hold j hj)]
    · dsimp only
      rw [Function.update_same]
      dsimp only
      rw [f1 fn]
      dsimp only
      rw [hmem, Function.update_same]
      exact hn2
    · dsimp only
      rw [Function.update_same]
      dsimp only
      rw [n1, c2]

/-- A push of a function that has a Context in the table, onto a stack whose top slot
holds another function or null: the push succeeds, the current Context becomes that
Context, and no Context is allocated. -/
theorem push_cxt_pure (s : State) (cs : call_stack) (fn q : Nat) (hwf : TableWF s)
    (hfn : fn ≠ 0) (hq : Linked s q fn) (hfree : frame_free cs)
    (hlen : s.current_fn_stack.bottom.length = s.current_fn_stack.size)
    (htop : s.current_fn_stack.top < s.current_fn_stack.size)
    (hdiff : s.current_fn_stack.bottom.getD s.current_fn_stack.top 0 ≠ fn)
    (hnum : s.current_fn_stack.bottom.getD s.current_fn_stack.top 0 = 0 →
      (s.fn_mem fn).number < s.current_fn_active.size) :
    ∃ s2, push_cxt { s with current_call_stack := cs } fn = some s2 ∧
      s2.current_state_cxt = q ∧ s2.cxt_heap = s.cxt_heap ∧ s2.cxts = s.cxts ∧
      s2.stat.distinct_contexts = s.stat.distinct_contexts ∧
      s2.stat.distinct_fns = s.stat.distinct_fns ∧ TableWF s2 ∧
      (∀ a, s2.fn_mem a = { s.fn_mem a with last_cxt := (s2.fn_mem a).last_cxt }) ∧
      (∀ p g, Linked s p g → Linked s2 p g) ∧
      s2.current_fn_stack.top = s.current_fn_stack.top + 1 ∧
      s2.current_fn_stack.bottom.length = s2.current_fn_stack.size ∧
      s2.current_fn_stack.top < s2.current_fn_stack.size ∧
      s2.current_fn_stack.bottom.getD (s.current_fn_stack.top + 1) 0 = fn ∧
      s2.current_fn_active.size = s.current_fn_active.size := by
  obtain ⟨s2, h, -, t1, t2, t3, t4, -, t6, -⟩ :=
    push_cxt_fresh_top s cs fn hfn hfree hlen htop hdiff hnum
  refine ⟨s2, h, ?_, ?_, ?_, ?_, ?_, ?_, ?_, ?_, t1, t2, t3, t4, t6⟩
  all_goals
    obtain ⟨s1, hsave, hc⟩ := push_cxt_cases _ s2 fn h
    obtain ⟨a1, a2, a3, a4, a5, -⟩ := push_cxt_save_frame _ s1 hsave
    rcases hc with ⟨-, hco, -⟩ | ⟨-, s3, hext, hres⟩
    · exact absurd hco hdiff
    obtain ⟨b1, b2, b3, b4, -⟩ := push_cxt_extend_frame s1 s3 fn hext
    have hwf3 : TableWF s3 := by
      refine wf_congr s s3 hwf (by rw [b1, a1]) (by rw [b2, a2]) ?_
      rw [b3, a3]
      exact hwf.hint
    have hq3 : Linked s3 q fn := linked_congr s s3 (by rw [b1, a1]) (by rw [b2, a2]) q fn hq
    obtain ⟨-, r2, -⟩ := push_cxt_resolve_frame s3
    rw [← hres] at r2
    have hhead : (fn_path s3.current_fn_stack.bottom s3.current_fn_stack.top).headD 0 = fn := by
      rw [fn_path_head, ← r2, t1]
      exact t4
    have hpath : ∃ rest, fn_path s3.current_fn_stack.bottom s3.current_fn_stack.top =
        fn :: rest := by
      cases hp : fn_path s3.current_fn_stack.bottom s3.current_fn_stack.top with
      | nil =>
        rw [hp] at hhead
        exact absurd hhead.symm hfn
      | cons f rest =>
        rw [hp] at hhead
        exact ⟨rest, by rw [show f = fn from hhead]⟩
    obtain ⟨rest, hrest⟩ := hpath
    obtain ⟨k1, k2, k3, k4⟩ := get_cxt_hit s3 hwf3 fn rest q hfn hq3
    obtain ⟨f1, f2, -⟩ := get_cxt_fields s3 (fn :: rest)
    obtain ⟨-, -, m3, -⟩ := get_cxt_spec s3 hwf3 fn rest hfn
    have hs2 : s2 = { (get_cxt s3 (fn :: rest)).1 with
        current_state_cxt := (get_cxt s3 (fn :: rest)).2 } := by
      rw [hres]
      unfold push_cxt_resolve
      dsimp only
      rw [hrest]
  · rw [hs2]
    exact k1
  · rw [hs2]
    dsimp only
    rw [k2, b2, a2]
  · rw [hs2]
    dsimp only
    rw [k3, b1, a1]
  · rw [hs2]
    dsimp only
    rw [k4, b4, a4]
  · rw [hs2]
    dsimp only
    rw [f2, b4, a4]
  · exact push_cxt_wf { s with current_call_stack := cs } s2 fn
      (wf_congr s _ hwf rfl rfl hwf.hint) h
  · intro a
    rw [hs2]
    dsimp only
    rw [f1 a, b3, a3]
  · intro p g hpg
    rw [hs2]
    exact linked_congr (get_cxt s3 (fn :: rest)).1 _ rfl rfl p g
      (m3 p g (linked_congr s s3 (by rw [b1, a1]) (by rw [b2, a2]) p g hpg))

/-- Freshly initialised tables over a freshly initialised context table satisfy the
invariant of `get_fn_node`. -/
theorem fresh_purewf (w : Tables) (h : FreshTables w) (hi : Initial w.st) : PureWF w := by
  refine ⟨fresh_idwf w h, initial_wf w.st hi, ?_, ?_⟩
  · intro k hk
    rw [h.2.2.2.2.2.2.2.2.1] at hk
    omega
  · intro k _ i q hq
    rw [hi.1] at hq
    simp only [init_cxt_table] at hq
    rw [getD_replicate_nil] at hq
    simp at hq

/-- C14. End-to-end scenario: from freshly initialised tables and counters, an empty
function stack and an active-count array of at least one counter, `get_fn_node` for three
basic blocks of three functions with pairwise distinct keys (module, file path, function
name) returns three records `main`, `foo`, `bar` with the sequence numbers 1, 2, 3 and
creates one Context at each call, the pure Context 1, 2, 3 of the function, which stores
the path of that function alone; then `push_cxt(main)`, `push_cxt(foo)`, `push_cxt(bar)`
(each on a call stack with a free frame) succeed and create no further Context: the
Context memory stays as it is, three Contexts are counted, and after each push the
current Context is the pure Context of the function pushed. -/
theorem end_to_end_scenario (w : Tables) (bb1 bb2 bb3 : BB) (n1 n2 n3 : fn_names)
    (cs1 cs2 cs3 : call_stack) (hfresh : FreshTables w) (hinit : Initial w.st)
    (hcnt : w.st.stat.distinct_contexts = 0) (hstk : EmptyStacks w.st)
    (hs : 1 ≤ w.st.current_fn_active.size)
    (hb1 : bb1.fn = 0) (hb2 : bb2.fn = 0) (hb3 : bb3.fn = 0)
    (h12 : fn_key n1 ≠ fn_key n2) (h13 : fn_key n1 ≠ fn_key n3)
    (h23 : fn_key n2 ≠ fn_key n3)
    (hf1 : frame_free cs1) (hf2 : frame_free cs2) (hf3 : frame_free cs3) :
    ∃ w1 b1 main w2 b2 foo w3 b3 bar s4 s5 s6,
      get_fn_node w bb1 n1 = some (w1, b1, main) ∧
      get_fn_node w1 bb2 n2 = some (w2, b2, foo) ∧
      get_fn_node w2 bb3 n3 = some (w3, b3, bar) ∧
      (w3.st.fn_mem main).number = 1 ∧ (w3.st.fn_mem foo).number = 2 ∧
      (w3.st.fn_mem bar).number = 3 ∧
      w1.st.cxt_heap.length = 1 ∧ (w1.st.fn_mem main).pure_cxt = 1 ∧
      w2.st.cxt_heap.length = 2 ∧ (w2.st.fn_mem foo).pure_cxt = 2 ∧
      w3.st.cxt_heap.length = 3 ∧ (w3.st.fn_mem bar).pure_cxt = 3 ∧
      (cxt_at w3.st.cxt_heap 1).fn = [main] ∧ (cxt_at w3.st.cxt_heap 2).fn = [foo] ∧
      (cxt_at w3.st.cxt_heap 3).fn = [bar] ∧
      push_cxt { w3.st with current_call_stack := cs1 } main = some s4 ∧
      push_cxt { s4 with current_call_stack := cs2 } foo = some s5 ∧
      push_cxt { s5 with current_call_stack := cs3 } bar = some s6 ∧
      s4.current_state_cxt = 1 ∧ (s4.fn_mem main).pure_cxt = 1 ∧
      s5.current_state_cxt = 2 ∧ (s5.fn_mem foo).pure_cxt = 2 ∧
      s6.current_state_cxt = 3 ∧ (s6.fn_mem bar).pure_cxt = 3 ∧
      s4.cxt_heap = w3.st.cxt_heap ∧ s5.cxt_heap = w3.st.cxt_heap ∧
      s6.cxt_heap = w3.st.cxt_heap ∧ s6.stat.distinct_contexts = 3 := by
  have P0 := fresh_purewf w hfresh hinit
  have hd0 : w.st.stat.distinct_fns = 0 := hfresh.2.2.2.2.2.2.2.2.1
  have hh0 : w.st.cxt_heap.length = 0 := by rw [hinit.2.1]; rfl
  obtain ⟨t0, t1, t2, t3, -⟩ := hstk
  -- the first function
  obtain ⟨w1, b1, main, r1, -, -, P1, E1, K1, s1a, -, -, -, case1⟩ :=
    get_fn_node_step w bb1 n1 P0 hs hb1
  rcases case1 with ⟨k, hk, -⟩ | ⟨m1, d1, num1, pure1, heap1, dc1, sz1, -⟩
  · omega
  have e1 : w1.fn_malloc = w.fn_malloc := E1.1
  -- the second function
  obtain ⟨w2, b2, foo, r2, -, -, P2, E2, K2, s2a, -, -, pp2, case2⟩ :=
    get_fn_node_step w1 bb2 n2 P1 (by omega) hb2
  rcases case2 with ⟨k, hk, hfoo, -⟩ | ⟨m2, d2, num2, pure2, heap2, dc2, sz2, -⟩
  · exfalso
    have hk0 : k = w.st.stat.distinct_fns := by omega
    have hfm : foo = main := by rw [hfoo, e1, m1, hk0]
    have e := extends_key w1 w2 P1.id E2 k hk
    rw [← hfoo, K2, hfm, K1] at e
    exact h12 e.symm
  have e2 : w2.fn_malloc = w.fn_malloc := E2.1.trans e1
  rw [e1] at m2 pp2
  -- the third function
  obtain ⟨w3, b3, bar, r3, -, -, P3, E3, K3, s3a, -, -, pp3, case3⟩ :=
    get_fn_node_step w2 bb3 n3 P2 (by omega) hb3
  rcases case3 with ⟨k, hk, hbar, -⟩ | ⟨m3, d3, num3, pure3, heap3, dc3, sz3, -⟩
  · exfalso
    have e := extends_key w2 w3 P2.id E3 k hk
    rw [← hbar, K3] at e
    by_cases hk1 : k = w1.st.stat.distinct_fns
    · have hbf : bar = foo := by rw [hbar, e2, m2, hk1]
      rw [hbf, K2] at e
      exact h23 e.symm
    · have hk0 : k = w.st.stat.distinct_fns := by omega
      have hbm : bar = main := by rw [hbar, e2, m1, hk0]
      have e4 := extends_key w1 w2 P1.id E2 w.st.stat.distinct_fns (by omega)
      rw [e1, ← m1, K1] at e4
      rw [hbm, e4] at e
      exact h13 e.symm
  have e3 : w3.fn_malloc = w.fn_malloc := E3.1.trans e2
  rw [e2] at m3 pp3
  -- the three records
  have hmain0 : main ≠ 0 := by rw [m1]; exact P0.id.2.2.malloc_pos _
  have hfoo0 : foo ≠ 0 := by rw [m2]; exact P0.id.2.2.malloc_pos _
  have hbar0 : bar ≠ 0 := by rw [m3]; exact P0.id.2.2.malloc_pos _
  have hmf : main ≠ foo := by
    rw [m1, m2]
    intro hc
    have := P0.id.2.2.malloc_inj _ _ hc
    omega
  have hfb : foo ≠ bar := by
    rw [m2, m3]
    intro hc
    have := P0.id.2.2.malloc_inj _ _ hc
    omega
  have E13 := extends_trans w1 w2 w3 E2 E3
  have nmain : (w3.st.fn_mem main).number = 1 := by
    have h := (E13.2.2.2.2.2.2 w.st.stat.distinct_fns (by omega)).2.2
    rw [e1, ← m1] at h
    rw [h, num1, hd0]
  have nfoo : (w3.st.fn_mem foo).number = 2 := by
    have h := (E3.2.2.2.2.2.2 w1.st.stat.distinct_fns (by omega)).2.2
    rw [e2, ← m2] at h
    rw [h, num2, d1, hd0]
  have nbar : (w3.st.fn_mem bar).number = 3 := by
    rw [num3, d2, d1, hd0]
  have pmain1 : (w1.st.fn_mem main).pure_cxt = 1 := by rw [pure1, hh0]
  have pfoo2 : (w2.st.fn_mem foo).pure_cxt = 2 := by rw [pure2, heap1, hh0]
  have pbar3 : (w3.st.fn_mem bar).pure_cxt = 3 := by rw [pure3, heap2, heap1, hh0]
  have pmain3 : (w3.st.fn_mem main).pure_cxt = 1 := by
    have h3 := pp3 w.st.stat.distinct_fns (by omega)
    have h2 := pp2 w.st.stat.distinct_fns (by omega)
    rw [← m1] at h3 h2
    rw [h3, h2, pmain1]
  have pfoo3 : (w3.st.fn_mem foo).pure_cxt = 2 := by
    have h3 := pp3 w1.st.stat.distinct_fns (by omega)
    rw [← m2] at h3
    rw [h3, pfoo2]
  have L1 : Linked w3.st 1 main := by
    have h := P3.pure w.st.stat.distinct_fns (by omega)
    rw [e3, ← m1, pmain3] at h
    exact h
  have L2 : Linked w3.st 2 foo := by
    have h := P3.pure w1.st.stat.distinct_fns (by omega)
    rw [e3, ← m2, pfoo3] at h
    exact h
  have L3 : Linked w3.st 3 bar := by
    have h := P3.pure w2.st.stat.distinct_fns (by omega)
    rw [e3, ← m3, pbar3] at h
    exact h
  have hstack : w3.st.current_fn_stack = w.st.current_fn_stack := by rw [s3a, s2a, s1a]
  -- the three pushes
  obtain ⟨s4, p4, c4, h4, -, dc4, -, T4, fm4, M4, top4, len4, lt4, slot4, asz4⟩ :=
    push_cxt_pure w3.st cs1 main 1 P3.tab hmain0 L1 hf1 (by rw [hstack]; exact t2)
      (by rw [hstack, t0]; exact t3) (by rw [hstack, t0, t1]; exact hmain0.symm)
      (fun _ => by rw [nmain]; omega)
  obtain ⟨s5, p5, c5, h5, -, dc5, -, T5, fm5, M5, top5, len5, lt5, slot5, asz5⟩ :=
    push_cxt_pure s4 cs2 foo 2 T4 hfoo0 (M4 _ _ L2) hf2 len4 lt4
      (by rw [top4, slot4]; exact hmf)
      (fun h0 => by rw [top4, slot4] at h0; exact absurd h0 hmain0)
  obtain ⟨s6, p6, c6, h6, -, dc6, -, -, fm6, -, -, -, -, -, -⟩ :=
    push_cxt_pure s5 cs3 bar 3 T5 hbar0 (M5 _ _ (M4 _ _ L3)) hf3 len5 lt5
      (by rw [top5, slot5]; exact hfb)
      (fun h0 => by rw [top5, slot5] at h0; exact absurd h0 hfoo0)
  refine ⟨w1, b1, main, w2, b2, foo, w3, b3, bar, s4, s5, s6, r1, r2, r3, nmain, nfoo, nbar,
    by omega, pmain1, by omega, pfoo2, by omega, pbar3, L1.2, L2.2, L3.2, p4, p5, p6, c4, ?_,
    c5, ?_, c6, ?_, h4, by rw [h5, h4], by rw [h6, h5, h4], by omega⟩
  · rw [fm4 main]
    exact pmain3
  · rw [fm5 foo]
    dsimp only
    rw [fm4 foo]
    exact pfoo3
  · rw [fm6 bar]
    dsimp only
    rw [fm5 bar]
    dsimp only
    rw [fm4 bar]
    exact pbar3

/-- Witness of C14: the functions `main`, `foo`, `bar` of the file `"a.c"` of the module
`"/bin/a"`, interned on `fresh_tables`. -/
theorem end_to_end_scenario_witness :
    ∃ w1 b1 main w2 b2 foo w3 b3 bar,
      get_fn_node fresh_tables { fn := 0, line := 0 } (names_in_a main_name) =
        some (w1, b1, main) ∧
      get_fn_node w1 { fn := 0, line := 0 } (names_in_a foo_name) = some (w2, b2, foo) ∧
      get_fn_node w2 { fn := 0, line := 0 } (names_in_a bar_name) = some (w3, b3, bar) ∧
      (w3.st.fn_mem main).number = 1 ∧ (w3.st.fn_mem foo).number = 2 ∧
      (w3.st.fn_mem bar).number = 3 ∧ w3.st.cxt_heap.length = 3 := by
  obtain ⟨w1, b1, main, w2, b2, foo, w3, b3, bar, -, -, -, r1, r2, r3, k1, k2, k3, -, -, -, -,
      hl, -⟩ :=
    end_to_end_scenario fresh_tables { fn := 0, line := 0 } { fn := 0, line := 0 }
      { fn := 0, line := 0 } (names_in_a main_name) (names_in_a foo_name)
      (names_in_a bar_name) fresh_call_stack { fresh_call_stack with sp := 1 }
      { fresh_call_stack with sp := 2 } fresh_tables_fresh ⟨rfl, rfl, fun _ => rfl⟩ rfl
      ⟨rfl, rfl, List.length_replicate _ _, by decide, rfl⟩ (by decide) rfl rfl rfl
      (by decide) (by decide) (by decide) ⟨by decide, by decide⟩ ⟨by decide, by decide⟩
      ⟨by decide, by decide⟩
  exact ⟨w1, b1, main, w2, b2, foo, w3, b3, bar, r1, r2, r3, k1, k2, k3, hl⟩

/-- The model runs: on `fresh_tables` the call of `get_fn_node` for `main` returns the
record at the first address, numbered 1, with the pure Context 1. -/
theorem get_fn_node_evaluates :
    (get_fn_node fresh_tables { fn := 0, line := 0 } (names_in_a main_name)).map
        (fun r => (r.2.2, (r.1.st.fn_mem r.2.2).number, (r.1.st.fn_mem r.2.2).pure_cxt,
          r.1.st.cxt_heap.length)) = some (64, 1, 1, 1) := by
  decide

/-! ## The mapping file of instruction names -/

theorem stored_chars_cons (c : Int) (l : List Int) :
    stored_chars (c :: l) = if c = 13 then stored_chars l else c :: stored_chars l := by
  unfold stored_chars
  by_cases h : c = 13
  · simp [h]
  · simp [h]

/-- The loop of `next_line` on a line that ends with a newline and fits the buffer. -/
theorem next_line_loop_line (l : List Int) :
    ∀ (rest buf : List Int), (10 : Int) ∉ l → (buf ++ stored_chars l).length ≤ 1022 →
      next_line_loop (l ++ 10 :: rest) buf = some (buf ++ stored_chars l, rest) := by
  induction l with
  | nil =>
    intro rest buf _ hlen
    have hb : buf.length < 1023 := by
      simp [stored_chars] at hlen
      omega
    simp [next_line_loop, hb, stored_chars]
  | cons c l ih =>
    intro rest buf h10 hlen
    have hc : c ≠ 10 := fun h => h10 (by rw [h]; exact List.mem_cons_self _ _)
    have hl : (10 : Int) ∉ l := fun h => h10 (List.mem_cons_of_mem _ h)
    have hb : buf.length < 1023 := by
      rw [List.length_append] at hlen
      omega
    rw [List.cons_append]
    unfold next_line_loop
    rw [if_pos hb, if_neg hc, stored_chars_cons]
    by_cases h13 : c = 13
    · rw [if_pos h13, if_pos h13]
      rw [stored_chars_cons, if_pos h13] at hlen
      exact ih rest buf hl hlen
    · rw [if_neg h13, if_neg h13]
      rw [stored_chars_cons, if_neg h13] at hlen
      have := ih rest (buf ++ [c]) hl (by simpa using hlen)
      rw [this]
      simp

/-- The loop of `next_line` on the characters after the last newline. -/
theorem next_line_loop_last (l : List Int) :
    ∀ (buf : List Int), (10 : Int) ∉ l → (buf ++ stored_chars l).length ≤ 1022 →
      next_line_loop l buf = some (buf ++ stored_chars l, []) := by
  induction l with
  | nil =>
    intro buf _ hlen
    have hb : buf.length < 1023 := by
      simp [stored_chars] at hlen
      omega
    simp [next_line_loop, hb, stored_chars]
  | cons c l ih =>
    intro buf h10 hlen
    have hc : c ≠ 10 := fun h => h10 (by rw [h]; exact List.mem_cons_self _ _)
    have hl : (10 : Int) ∉ l := fun h => h10 (List.mem_cons_of_mem _ h)
    have hb : buf.length < 1023 := by
      rw [List.length_append] at hlen
      omega
    unfold next_line_loop
    rw [if_pos hb, if_neg hc, stored_chars_cons]
    by_cases h13 : c = 13
    · rw [if_pos h13, if_pos h13]
      rw [stored_chars_cons, if_pos h13] at hlen
      exact ih buf hl hlen
    · rw [if_neg h13, if_neg h13]
      rw [stored_chars_cons, if_neg h13] at hlen
      have := ih (buf ++ [c]) hl (by simpa using hlen)
      rw [this]
      simp

/-- The function `next_line` on a line that ends with a newline and fits the buffer: the
line without its carriage returns, read as a C string, or null if nothing is left of
it. -/
theorem next_line_line (l rest : List Int) (h10 : (10 : Int) ∉ l)
    (hlen : (stored_chars l).length ≤ 1022) :
    next_line (l ++ 10 :: rest) =
      some (if stored_chars l = [] then none else some (c_string (stored_chars l)), rest) := by
  unfold next_line
  rw [next_line_loop_line l rest [] h10 (by simpa using hlen)]
  by_cases h : stored_chars l = []
  · simp [h]
  · have : 0 < (stored_chars l).length := List.length_pos.mpr h
    simp [h, this]

theorem next_line_last (l : List Int) (h10 : (10 : Int) ∉ l)
    (hlen : (stored_chars l).length ≤ 1022) :
    next_line l =
      some (if stored_chars l = [] then none else some (c_string (stored_chars l)), []) := by
  unfold next_line
  rw [next_line_loop_last l [] h10 (by simpa using hlen)]
  by_cases h : stored_chars l = []
  · simp [h]
  · have : 0 < (stored_chars l).length := List.length_pos.mpr h
    simp [h, this]

/-- A line of 1023 or more stored characters fails the assertion of `next_line`. -/
theorem next_line_loop_long (l : List Int) :
    ∀ (rest buf : List Int), (∀ c ∈ l, c ≠ 10 ∧ c ≠ 13) → 1023 ≤ buf.length + l.length →
      next_line_loop (l ++ rest) buf = none := by
  induction l with
  | nil =>
    intro rest buf _ hlen
    have hb : ¬ buf.length < 1023 := by
      simp at hlen
      omega
    cases rest with
    | nil => simp [next_line_loop, hb]
    | cons c rest => simp [next_line_loop, hb]
  | cons c l ih =>
    intro rest buf hc hlen
    obtain ⟨h10, h13⟩ := hc c (List.mem_cons_self _ _)
    rw [List.cons_append]
    unfold next_line_loop
    by_cases hb : buf.length < 1023
    · rw [if_pos hb, if_neg h10, if_neg h13]
      apply ih rest (buf ++ [c]) (fun d hd => hc d (List.mem_cons_of_mem _ hd))
      simp at hlen ⊢
      omega
    · rw [if_neg hb]

theorem instr_at_append_old (pool : List UniqueInstr) (x : UniqueInstr) (p : Nat)
    (hp : p ≤ pool.length) : instr_at (pool ++ [x]) p = instr_at pool p := by
  cases p with
  | zero => rfl
  | succ q =>
    have hq : q < pool.length := hp
    simp [instr_at, List.getD_eq_getElem?_getD, List.getElem?_append_left hq]

theorem instr_at_append_new (pool : List UniqueInstr) (x : UniqueInstr) :
    instr_at (pool ++ [x]) (pool.length + 1) = x := by
  simp [instr_at, List.getD_eq_getElem?_getD]

theorem instr_at_put_same (pool : List UniqueInstr) (x : UniqueInstr) (p : Nat) (h0 : 0 < p)
    (hp : p ≤ pool.length) : instr_at (instr_put pool p x) p = x := by
  cases p with
  | zero => omega
  | succ q =>
    have hq : q < pool.length := hp
    simp [instr_at, instr_put, List.getD_eq_getElem?_getD, hq]

theorem instr_at_put_other (pool : List UniqueInstr) (x : UniqueInstr) (p q : Nat)
    (h : q ≠ p) : instr_at (instr_put pool p x) q = instr_at pool q := by
  cases p with
  | zero => rfl
  | succ p =>
    cases q with
    | zero => rfl
    | succ q =>
      have hne : p ≠ q := fun hc => h (by rw [hc])
      simp [instr_at, instr_put, List.getD_eq_getElem?_getD, List.getElem?_set, hne]

/-- A write that keeps the address of the record keeps the addresses of the pool. -/
theorem instr_put_addrs (pool : List UniqueInstr) (x : UniqueInstr) (p : Nat)
    (h : x.addr = (instr_at pool p).addr) :
    (instr_put pool p x).map (fun i => i.addr) = pool.map (fun i => i.addr) := by
  cases p with
  | zero => rfl
  | succ q =>
    simp only [instr_put, instr_at] at h ⊢
    apply List.ext_getElem?
    intro i
    simp only [List.getElem?_map, List.getElem?_set]
    by_cases hqi : q = i
    · subst hqi
      by_cases hq : q < pool.length
      · simp [hq, h, List.getD_eq_getElem?_getD, List.getElem?_eq_getElem hq]
      · simp [hq, List.getElem?_eq_none (Nat.le_of_not_lt hq)]
    · simp [hqi]

/-- The search of `smart_hash_get` reads the addresses of the records only. -/
theorem smart_hash_get_from_congr (addr : Nat) (pool : List UniqueInstr) :
    ∀ (pool2 : List UniqueInstr) (p : Nat),
      pool2.map (fun i => i.addr) = pool.map (fun i => i.addr) →
      smart_hash_get_from addr pool2 p = smart_hash_get_from addr pool p := by
  induction pool with
  | nil =>
    intro pool2 p h
    cases pool2 with
    | nil => rfl
    | cons y rest => simp at h
  | cons x rest ih =>
    intro pool2 p h
    cases pool2 with
    | nil => simp at h
    | cons y rest2 =>
      simp only [List.map_cons, List.cons.injEq] at h
      simp only [smart_hash_get_from, h.1]
      rw [ih rest2 (p + 1) h.2]

/-- The result of the search: null if no record has the address, and otherwise a pointer
into the pool to a record with the address. -/
theorem smart_hash_get_from_spec (addr : Nat) (pool : List UniqueInstr) :
    ∀ p, 0 < p →
      (smart_hash_get_from addr pool p = 0 ∧ ∀ i ∈ pool, i.addr ≠ addr) ∨
      (p ≤ smart_hash_get_from addr pool p ∧
        smart_hash_get_from addr pool p < p + pool.length ∧
        (pool.getD (smart_hash_get_from addr pool p - p) default).addr = addr) := by
  induction pool with
  | nil =>
    intro p _
    left
    simp [smart_hash_get_from]
  | cons x rest ih =>
    intro p hp
    unfold smart_hash_get_from
    by_cases hx : x.addr = addr
    · right
      rw [if_pos hx]
      simp [hx]
    · rw [if_neg hx]
      rcases ih (p + 1) (by omega) with ⟨h0, hall⟩ | ⟨h1, h2, h3⟩
      · left
        refine ⟨h0, ?_⟩
        intro i hi
        rcases List.mem_cons.mp hi with rfl | hi
        · exact hx
        · exact hall i hi
      · right
        refine ⟨by omega, by simp; omega, ?_⟩
        have hsub : smart_hash_get_from addr rest (p + 1) - p =
            (smart_hash_get_from addr rest (p + 1) - (p + 1)) + 1 := by omega
        rw [hsub]
        simpa [List.getD_eq_getElem?_getD] using h3

theorem find_instr_spec (pool : List UniqueInstr) (addr : Nat) :
    (find_instr pool addr = 0 ∧ ∀ i ∈ pool, i.addr ≠ addr) ∨
      (0 < find_instr pool addr ∧ find_instr pool addr ≤ pool.length ∧
        (instr_at pool (find_instr pool addr)).addr = addr) := by
  unfold find_instr smart_hash_get
  rcases smart_hash_get_from_spec addr pool 1 (by omega) with h | ⟨h1, h2, h3⟩
  · exact Or.inl h
  · right
    refine ⟨by omega, by omega, ?_⟩
    obtain ⟨q, hq⟩ : ∃ q, smart_hash_get_from addr pool 1 = q + 1 :=
      ⟨smart_hash_get_from addr pool 1 - 1, by omega⟩
    rw [hq] at h3 ⊢
    simpa [instr_at] using h3

/-- The search in a pool with one more record. -/
theorem smart_hash_get_from_append (addr : Nat) (x : UniqueInstr) (pool : List UniqueInstr) :
    ∀ p, 0 < p →
      smart_hash_get_from addr (pool ++ [x]) p =
        if smart_hash_get_from addr pool p ≠ 0 then smart_hash_get_from addr pool p
        else if x.addr = addr then p + pool.length else 0 := by
  induction pool with
  | nil =>
    intro p hp
    simp [smart_hash_get_from]
  | cons y rest ih =>
    intro p hp
    rw [List.cons_append]
    unfold smart_hash_get_from
    by_cases hy : y.addr = addr
    · rw [if_pos hy, if_pos hy, if_pos (by omega)]
    · rw [if_neg hy, if_neg hy, ih (p + 1) (by omega)]
      simp only [List.length_cons]
      have : p + 1 + rest.length = p + (rest.length + 1) := by omega
      rw [this]

/-- The record for an address gets a name: `get_instr(addr, 0)` returns, and afterwards
the pool holds the name for the address and what it held before for every other
address. -/
theorem set_instr_name_spec (pool : List UniqueInstr) (a : Nat) (n : List Int) :
    ∃ r, get_instr pool a 0 = some r ∧
      ∀ b, instr_name (instr_put r.1 r.2 { instr_at r.1 r.2 with name := some n }) b =
        if b = a then some (some n) else instr_name pool b := by
  have hfind : ∀ (pool1 : List UniqueInstr) (p b : Nat),
      find_instr (instr_put pool1 p { instr_at pool1 p with name := some n }) b =
        find_instr pool1 b := by
    intro pool1 p b
    unfold find_instr smart_hash_get
    exact smart_hash_get_from_congr b pool1 _ 1 (instr_put_addrs pool1 _ p rfl)
  rcases find_instr_spec pool a with ⟨h0, -⟩ | ⟨hpos, hle, haddr⟩
  · -- no record yet
    have hget : get_instr pool a 0 =
        some (pool ++ [{ addr := a, size := 0, name := none, desc := none }],
          pool.length + 1) := by
      unfold get_instr
      dsimp only
      rw [if_neg (by rw [h0]; exact fun hc => hc rfl)]
      rfl
    refine ⟨_, hget, ?_⟩
    intro b
    dsimp only
    have happ : find_instr (pool ++ [{ addr := a, size := 0, name := none, desc := none }]) b =
        if find_instr pool b ≠ 0 then find_instr pool b
        else if a = b then 1 + pool.length else 0 := by
      unfold find_instr smart_hash_get
      exact smart_hash_get_from_append b _ pool 1 (by omega)
    by_cases hba : b = a
    · subst hba
      have hval : find_instr
          (pool ++ [{ addr := b, size := 0, name := none, desc := none }]) b =
            pool.length + 1 := by
        rw [happ, h0]
        simp [Nat.add_comm]
      unfold instr_name
      rw [hfind, hval, if_neg (by omega), if_pos rfl,
        instr_at_put_same _ _ _ (by omega) (by simp)]
    · rcases find_instr_spec pool b with ⟨hb0, -⟩ | ⟨hbpos, hble, -⟩
      · have hval : find_instr
            (pool ++ [{ addr := a, size := 0, name := none, desc := none }]) b = 0 := by
          rw [happ, hb0]
          simp [Ne.symm hba]
        unfold instr_name
        rw [hfind, hval, if_pos rfl, if_neg hba, hb0, if_pos rfl]
      · have hb0 : find_instr pool b ≠ 0 := by omega
        have hval : find_instr
            (pool ++ [{ addr := a, size := 0, name := none, desc := none }]) b =
              find_instr pool b := by
          rw [happ, if_pos hb0]
        unfold instr_name
        rw [hfind, hval, if_neg hb0, if_neg hba, if_neg hb0,
          instr_at_put_other _ _ _ _ (by omega), instr_at_append_old _ _ _ hble]
  · -- the record exists
    have hget : get_instr pool a 0 = some (pool, find_instr pool a) := by
      unfold get_instr
      dsimp only
      rw [if_pos (by omega), if_neg (fun hc => hc haddr), if_neg (fun hc => hc rfl)]
    refine ⟨_, hget, ?_⟩
    intro b
    dsimp only
    unfold instr_name
    rw [hfind]
    by_cases hba : b = a
    · subst hba
      rw [if_neg (by omega), if_pos rfl, instr_at_put_same _ _ _ hpos hle]
    · rw [if_neg hba]
      rcases find_instr_spec pool b with ⟨hb0, -⟩ | ⟨hbpos, -, hbaddr⟩
      · rw [hb0, if_pos rfl, if_pos rfl]
      · have hb0 : find_instr pool b ≠ 0 := by omega
        have hne : find_instr pool b ≠ find_instr pool a := by
          intro hc
          rw [hc, haddr] at hbaddr
          exact hba hbaddr.symm
        rw [if_neg hb0, if_neg hb0, instr_at_put_other _ _ _ _ hne]

theorem c_string_ne_zero (buffer : List Int) (c : Int) (h : c ∈ c_string buffer) : c ≠ 0 := by
  have := List.mem_takeWhile_imp h
  simpa using this

/-- The body of the loop of `read_instr_names` on a line as `next_line` returns it: it
returns; a malformed line leaves the pool as it is; a line that denotes an entry gives
the address its name and leaves what the pool holds for the other addresses. -/
theorem read_instr_line_spec (strtoull16 : List Int → Nat) (pool : List UniqueInstr)
    (l : List Int) :
    ∃ pool2, read_instr_line strtoull16 pool (c_string (stored_chars l)) = some pool2 ∧
      (line_entry strtoull16 l = none → pool2 = pool) ∧
      ∀ a n, line_entry strtoull16 l = some (a, n) →
        ∀ b, instr_name pool2 b = if b = a then some (some n) else instr_name pool b := by
  unfold read_instr_line line_entry
  dsimp only
  have hs := c_string_ne_zero (stored_chars l)
  generalize c_string (stored_chars l) = s at hs ⊢
  by_cases hcolon : (58 : Int) ∈ s
  · rw [if_pos hcolon, if_pos hcolon]
    have hname : (s.dropWhile fun c => c ≠ 58).tail.headD 0 ≠ 0 ↔
        (s.dropWhile fun c => c ≠ 58).tail ≠ [] := by
      cases hn : (s.dropWhile fun c => c ≠ 58).tail with
      | nil => simp
      | cons c t =>
        have hc : c ∈ s := by
          have h1 : c ∈ (s.dropWhile fun c => c ≠ 58).tail := by
            rw [hn]
            exact List.mem_cons_self _ _
          exact (List.dropWhile_sublist _).subset ((List.tail_sublist _).subset h1)
        simpa using hs c hc
    by_cases hcond : strtoull16 (s.takeWhile fun c => c ≠ 58) ≠ 0 ∧
        (s.dropWhile fun c => c ≠ 58).tail ≠ []
    · rw [if_pos ⟨hcond.1, hname.mpr hcond.2⟩, if_pos hcond]
      obtain ⟨r, hr, hnames⟩ := set_instr_name_spec pool
        (strtoull16 (s.takeWhile fun c => c ≠ 58)) (s.dropWhile fun c => c ≠ 58).tail
      rw [hr]
      refine ⟨_, rfl, (fun h => by cases h), ?_⟩
      intro a n h
      cases h
      exact hnames
    · rw [if_neg (fun hc => hcond ⟨hc.1, hname.mp hc.2⟩), if_neg hcond]
      exact ⟨pool, rfl, fun _ => rfl, fun a n h => by cases h⟩
  · rw [if_neg hcolon, if_neg hcolon]
    exact ⟨pool, rfl, fun _ => rfl, fun a n h => by cases h⟩

theorem names_after_nil (strtoull16 : List Int → Nat) (pool : List UniqueInstr) :
    NamesAfter strtoull16 [] pool pool := by
  refine ⟨?_, fun _ _ => rfl⟩
  intro pre l post a n h
  cases pre <;> simp at h

/-- One more line in front: the names after the line and then the other lines. -/
theorem names_after_cons (strtoull16 : List Int → Nat) (l0 : List Int)
    (lines : List (List Int)) (pool pool1 pool2 : List UniqueInstr)
    (h1 : line_entry strtoull16 l0 = none → pool1 = pool)
    (h2 : ∀ a n, line_entry strtoull16 l0 = some (a, n) →
      ∀ b, instr_name pool1 b = if b = a then some (some n) else instr_name pool b)
    (h : NamesAfter strtoull16 lines pool1 pool2) :
    NamesAfter strtoull16 (l0 :: lines) pool pool2 := by
  obtain ⟨k1, k2⟩ := h
  constructor
  · intro pre l post a n hsplit hl hpost
    cases pre with
    | nil =>
      simp only [List.nil_append, List.cons.injEq] at hsplit
      obtain ⟨rfl, rfl⟩ := hsplit
      rw [k2 a hpost, h2 a n hl a, if_pos rfl]
    | cons x pre =>
      simp only [List.cons_append, List.cons.injEq] at hsplit
      exact k1 pre l post a n hsplit.2 hl hpost
  · intro a hall
    rw [k2 a (fun m hm => hall m (List.mem_cons_of_mem _ hm))]
    cases he : line_entry strtoull16 l0 with
    | none => rw [h1 he]
    | some e =>
      obtain ⟨a2, n2⟩ := e
      have hne : a ≠ a2 := by
        intro hc
        subst hc
        exact hall l0 (List.mem_cons_self _ _) n2 he
      rw [h2 a2 n2 he a, if_neg hne]

theorem file_content_cons (l : List Int) (ls : List (List Int)) (last : List Int) :
    file_content (l :: ls) last = l ++ 10 :: file_content ls last := by
  simp [file_content]

/-- The loop of `read_instr_names` on a file whose lines fit the buffer and, but for the
characters after the last newline, hold a character other than a carriage return: with
enough fuel it returns, and the pool holds the names that the lines give. -/
theorem read_instr_loop_spec (strtoull16 : List Int → Nat) (ls : List (List Int)) :
    ∀ (last : List Int) (pool : List UniqueInstr) (fuel : Nat),
      (∀ l ∈ ls, (10 : Int) ∉ l ∧ stored_chars l ≠ [] ∧ (stored_chars l).length ≤ 1022) →
      (10 : Int) ∉ last → (stored_chars last).length ≤ 1022 →
      ls.length + (if stored_chars last = [] then 1 else 2) ≤ fuel →
      ∃ pool2, read_instr_loop strtoull16 fuel (file_content ls last) pool = some pool2 ∧
        NamesAfter strtoull16 (ls ++ [last]) pool pool2 := by
  induction ls with
  | nil =>
    intro last pool fuel _ h10 hlen hfuel
    have hfc : file_content [] last = last := by simp [file_content]
    rw [hfc]
    by_cases hempty : stored_chars last = []
    · rw [if_pos hempty] at hfuel
      obtain ⟨f, rfl⟩ : ∃ f, fuel = f + 1 := ⟨fuel - 1, by omega⟩
      have hentry : line_entry strtoull16 last = none := by
        simp [line_entry, hempty, c_string]
      refine ⟨pool, ?_, ?_⟩
      · unfold read_instr_loop
        rw [next_line_last last h10 hlen, if_pos hempty]
      · exact names_after_cons strtoull16 last [] pool pool pool (fun _ => rfl)
          (fun a n h => by rw [hentry] at h; cases h) (names_after_nil strtoull16 pool)
    · rw [if_neg hempty] at hfuel
      obtain ⟨f, rfl⟩ : ∃ f, fuel = f + 2 := ⟨fuel - 2, by omega⟩
      obtain ⟨pool1, hline, g1, g2⟩ := read_instr_line_spec strtoull16 pool last
      refine ⟨pool1, ?_, ?_⟩
      · unfold read_instr_loop
        rw [next_line_last last h10 hlen, if_neg hempty]
        dsimp only
        rw [hline]
        simp only [Option.some_bind]
        unfold read_instr_loop
        rfl
      · exact names_after_cons strtoull16 last [] pool pool1 pool1 g1 g2
          (names_after_nil strtoull16 pool1)
  | cons l0 ls ih =>
    intro last pool fuel hls h10 hlen hfuel
    obtain ⟨h0a, h0b, h0c⟩ := hls l0 (List.mem_cons_self _ _)
    obtain ⟨f, rfl⟩ : ∃ f, fuel = f + 1 := ⟨fuel - 1, by simp at hfuel; omega⟩
    obtain ⟨pool1, hline, g1, g2⟩ := read_instr_line_spec strtoull16 pool l0
    obtain ⟨pool2, hrest, hnames⟩ := ih last pool1 f
      (fun l hl => hls l (List.mem_cons_of_mem _ hl)) h10 hlen
      (by simp at hfuel; omega)
    refine ⟨pool2, ?_, ?_⟩
    · rw [file_content_cons]
      unfold read_instr_loop
      rw [next_line_line l0 _ h0a h0c, if_neg h0b]
      dsimp only
      rw [hline]
      simp only [Option.some_bind]
      exact hrest
    · rw [List.cons_append]
      exact names_after_cons strtoull16 l0 _ pool pool1 pool2 g1 g2 hnames

theorem file_content_length (ls : List (List Int)) (last : List Int) :
    ls.length + last.length ≤ (file_content ls last).length := by
  induction ls with
  | nil => simp [file_content]
  | cons l ls ih =>
    rw [file_content_cons]
    simp only [List.length_append, List.length_cons]
    omega

/-- A line `<hex-address>:<name>` without NUL and carriage return, with a non-zero address
and a non-empty name, denotes the entry of that address and that name. -/
theorem line_entry_well_formed (strtoull16 : List Int → Nat) (hex name : List Int)
    (hcolon : (58 : Int) ∉ hex) (hchars : ∀ c ∈ hex ++ 58 :: name, c ≠ 0 ∧ c ≠ 13)
    (haddr : strtoull16 hex ≠ 0) (hname : name ≠ []) :
    line_entry strtoull16 (hex ++ 58 :: name) = some (strtoull16 hex, name) := by
  have hs : stored_chars (hex ++ 58 :: name) = hex ++ 58 :: name := by
    unfold stored_chars
    rw [List.filter_eq_self]
    intro c hc
    simpa using (hchars c hc).2
  have hc : c_string (hex ++ 58 :: name) = hex ++ 58 :: name := by
    unfold c_string
    rw [List.takeWhile_eq_self_iff]
    intro c hc
    simpa using (hchars c hc).1
  have htake : (hex ++ 58 :: name).takeWhile (fun c => decide (c ≠ 58)) = hex := by
    rw [List.takeWhile_append_of_pos (fun c hc => by
      have : c ≠ 58 := fun h => hcolon (h ▸ hc)
      simpa using this)]
    simp
  have hdrop : (hex ++ 58 :: name).dropWhile (fun c => decide (c ≠ 58)) = 58 :: name := by
    rw [List.dropWhile_append_of_pos (fun c hc => by
      have : c ≠ 58 := fun h => hcolon (h ▸ hc)
      simpa using this)]
    simp
  unfold line_entry
  dsimp only
  rw [hs, hc, if_pos (by simp), htake, hdrop, List.tail_cons, if_pos ⟨haddr, hname⟩]

/-- Counterexample to C21 as stated.  A well-formed line of 1023 characters (`1:` and 1021
times `a`) makes `next_line` fail its assertion `idx < 1023`: `read_instr_names` does not
return.  And of two well-formed lines for one address (`1:a`, then `1:b`) only the second
name is carried by the record afterwards. -/
theorem mapping_file_counterexample :
    read_instr_names hex_value
        (some (some ([49, 58] ++ List.replicate 1021 97 ++ [10]))) [] = none ∧
      (read_instr_names hex_value
        (some (some [49, 58, 97, 10, 49, 58, 98, 10])) []).map (fun pool => instr_name pool 1) =
          some (some (some [98])) := by
  refine ⟨?_, by decide⟩
  have hnl : next_line ([49, 58] ++ List.replicate 1021 97 ++ [10]) = none := by
    unfold next_line
    rw [next_line_loop_long ([49, 58] ++ List.replicate 1021 97) [10] []]
    · rfl
    · intro c hc
      simp only [List.mem_append, List.mem_cons, List.mem_singleton, List.not_mem_nil,
        or_false, List.mem_replicate] at hc
      rcases hc with (rfl | rfl) | ⟨-, rfl⟩ <;> decide
    · simp only [List.length_append, List.length_replicate, List.length_cons,
        List.length_nil]
      omega
  unfold read_instr_names
  dsimp only
  unfold read_instr_loop
  rw [hnl]

/-- What `read_instr_names` does at an empty line: `next_line` returns null for it, as at
the end of the file, and the loop ends; the line `2:b` after it is not read. -/
theorem empty_line_ends_reading :
    (read_instr_names hex_value
        (some (some [49, 58, 97, 10, 10, 50, 58, 98, 10])) []).map
          (fun pool => (instr_name pool 1, instr_name pool 2)) =
      some (some (some [97]), none) := by
  decide

/-- C21 (amended). Mapping-file robustness: for every mapping-file content in which every
line has at most 1022 characters other than carriage returns and every line that a
newline ends has at least one, `read_instr_names` returns; a malformed line (no colon, a
zero address or an empty name) leaves the pool as it is, and the lines after it are still
read: every line that denotes an entry, anywhere in the file, results in the instruction
record for its address carrying its name, unless a later line denotes an entry for the
same address, and an address that no line denotes keeps what the pool held for it.  A line
`<hex-address>:<name>` without NUL and carriage return, with a non-zero address and a
non-empty name, denotes the entry of that address and that name. -/
theorem mapping_file_names (strtoull16 : List Int → Nat) (ls : List (List Int))
    (last : List Int) (pool : List UniqueInstr)
    (hls : ∀ l ∈ ls, (10 : Int) ∉ l ∧ stored_chars l ≠ [] ∧ (stored_chars l).length ≤ 1022)
    (h10 : (10 : Int) ∉ last) (hlen : (stored_chars last).length ≤ 1022) :
    ∃ pool2, read_instr_names strtoull16 (some (some (file_content ls last))) pool =
        some pool2 ∧
      (∀ (q : List UniqueInstr) (l : List Int), line_entry strtoull16 l = none →
        read_instr_line strtoull16 q (c_string (stored_chars l)) = some q) ∧
      (∀ pre l post a n, ls ++ [last] = pre ++ l :: post →
        line_entry strtoull16 l = some (a, n) →
        (∀ m ∈ post, ∀ n2, line_entry strtoull16 m ≠ some (a, n2)) →
        instr_name pool2 a = some (some n)) ∧
      (∀ a, (∀ m ∈ ls ++ [last], ∀ n, line_entry strtoull16 m ≠ some (a, n)) →
        instr_name pool2 a = instr_name pool a) ∧
      ∀ hex name : List Int, (58 : Int) ∉ hex →
        (∀ c ∈ hex ++ 58 :: name, c ≠ 0 ∧ c ≠ 13) → strtoull16 hex ≠ 0 → name ≠ [] →
        line_entry strtoull16 (hex ++ 58 :: name) = some (strtoull16 hex, name) := by
  have hfuel : ls.length + (if stored_chars last = [] then 1 else 2) ≤
      (file_content ls last).length + 1 := by
    have h1 := file_content_length ls last
    by_cases he : stored_chars last = []
    · rw [if_pos he]
      omega
    · rw [if_neg he]
      have h2 : last ≠ [] := by
        intro hc
        rw [hc] at he
        exact he rfl
      have h3 : 0 < last.length := List.length_pos.mpr h2
      omega
  obtain ⟨pool2, hres, hnames⟩ := read_instr_loop_spec strtoull16 ls last pool _ hls h10 hlen
    hfuel
  refine ⟨pool2, hres, ?_, hnames.1, hnames.2, line_entry_well_formed strtoull16⟩
  intro q l hl
  obtain ⟨q2, hq, g1, -⟩ := read_instr_line_spec strtoull16 q l
  rw [hq, g1 hl]

/-- Witness of C21: the file `1:a`, `x`, `2:b` (three lines, each ended by a newline) read
into the empty pool; the malformed line `x` is skipped and the record for the address 2
carries the name `b`. -/
theorem mapping_file_names_witness :
    ∃ pool2, read_instr_names hex_value
        (some (some (file_content [[49, 58, 97], [120], [50, 58, 98]] []))) [] = some pool2 ∧
      instr_name pool2 2 = some (some [98]) := by
  obtain ⟨pool2, h1, -, h3, -⟩ := mapping_file_names hex_value
    [[49, 58, 97], [120], [50, 58, 98]] [] [] (by decide) (by decide) (by decide)
  have hlast : line_entry hex_value [] = none := by decide
  exact ⟨pool2, h1, h3 [[49, 58, 97], [120]] [50, 58, 98] [[]] 2 [98] rfl (by decide)
    (fun m hm n2 h => by
      rw [List.mem_singleton.mp hm, hlast] at h
      cases h)⟩

/-! ## The saved frame -/

/-- C22. Saved frame fields: every `push_cxt` call that returns, whatever `fn` is (null,
equal to the top, or a new function), on a call stack whose array `entry` has `size`
frames, has written into the frame at index `sp` the Context that was current before the
call and the depth `top - bottom` that the function stack had before the call; `sp`,
`size`, the other fields of that frame and every other frame are unchanged.  The call
returns whenever the frame at `sp` is free and the number of `fn` lies inside the
active-count array. -/
theorem saved_frame_fields (s : State) (fn : Nat)
    (hentries : s.current_call_stack.entry.length = s.current_call_stack.size) :
    (∀ s2, push_cxt s fn = some s2 →
        s2.current_call_stack.sp = s.current_call_stack.sp ∧
        s2.current_call_stack.size = s.current_call_stack.size ∧
        s2.current_call_stack.entry.length = s.current_call_stack.entry.length ∧
        (s2.current_call_stack.entry.getD s.current_call_stack.sp default).cxt =
          s.current_state_cxt ∧
        (s2.current_call_stack.entry.getD s.current_call_stack.sp default).fn_sp =
          s.current_fn_stack.top ∧
        (s2.current_call_stack.entry.getD s.current_call_stack.sp default).other =
          (s.current_call_stack.entry.getD s.current_call_stack.sp default).other ∧
        ∀ i, i ≠ s.current_call_stack.sp →
          s2.current_call_stack.entry.getD i default =
            s.current_call_stack.entry.getD i default) ∧
      (frame_free s.current_call_stack →
        (fn ≠ 0 → (s.fn_mem fn).number < s.current_fn_active.size) →
        ∃ s2, push_cxt s fn = some s2) := by
  refine ⟨?_, fun hfree hnum => push_cxt_some s fn hfree hnum⟩
  intro s2 h
  obtain ⟨s1, hsave, hc⟩ := push_cxt_cases s s2 fn h
  obtain ⟨k1, k2, k3, k4, k5⟩ := push_cxt_save_call_stack s s1 hsave
  have hsp : s.current_call_stack.sp < s.current_call_stack.size := by
    by_contra hc2
    unfold push_cxt_save at hsave
    dsimp only at hsave
    rw [if_pos hc2] at hsave
    cases hsave
  have hcs : s2.current_call_stack = s1.current_call_stack := by
    rcases hc with ⟨-, -, h2⟩ | ⟨-, s3, hext, hres⟩
    · rw [h2]
    · obtain ⟨-, -, -, -, b5, -⟩ := push_cxt_extend_frame s1 s3 fn hext
      obtain ⟨-, -, r3, -⟩ := push_cxt_resolve_frame s3
      rw [hres, r3, b5]
  rw [hcs]
  obtain ⟨e1, e2, e3⟩ := k5 (by rw [hentries]; exact hsp)
  exact ⟨k1, k2, k3, e1, e2, e3, k4⟩

/-- Witness of C22: the push of the function 5 in `fresh_state` returns; the frame 0 holds
the null Context and the depth 0 that were current before the call. -/
theorem saved_frame_fields_witness :
    fresh_state.current_call_stack.entry.length = fresh_state.current_call_stack.size ∧
      ∃ s2, push_cxt fresh_state 5 = some s2 ∧
        (s2.current_call_stack.entry.getD 0 default).cxt = 0 ∧
        (s2.current_call_stack.entry.getD 0 default).fn_sp = 0 ∧
        s2.current_call_stack.sp = 0 := by
  have hlen : fresh_state.current_call_stack.entry.length =
      fresh_state.current_call_stack.size := List.length_replicate _ _
  obtain ⟨g1, g2⟩ := saved_frame_fields fresh_state 5 hlen
  obtain ⟨s2, h2⟩ := g2 ⟨by decide, by decide⟩ (fun _ => by decide)
  obtain ⟨k1, -, -, k4, k5, -⟩ := g1 s2 h2
  exact ⟨hlen, s2, h2, k4, k5, k1⟩

/-! ## Hash agreement and the path test -/

/-- The copy loop of `new_cxt` and the loop of `cxt_hash_val` compute the same hash: with
`offset` entries copied so far, the first is the second with `count = size - offset`. -/
theorem new_cxt_loop_hash (fn : List Nat) :
    ∀ (hash : Nat) (acc : List Nat) (size : Nat), acc.length < size → size < 2 ^ 32 →
      (new_cxt_loop fn hash acc size).1 = cxt_hash_val_loop fn hash (size - acc.length) := by
  induction fn with
  | nil =>
    intro hash acc size _ _
    simp [new_cxt_loop, cxt_hash_val_loop]
  | cons f fn ih =>
    intro hash acc size hacc hsize
    unfold new_cxt_loop cxt_hash_val_loop
    by_cases hf : f = 0
    · rw [if_pos hf, if_pos hf]
    · rw [if_neg hf, if_neg hf]
      dsimp only
      have hcount : (size - acc.length + 2 ^ 32 - 1) % 2 ^ 32 = size - acc.length - 1 := by
        have h1 : size - acc.length + 2 ^ 32 - 1 = (size - acc.length - 1) + 2 ^ 32 := by
          omega
        rw [h1, Nat.add_mod_right, Nat.mod_eq_of_lt (by omega)]
      rw [hcount]
      by_cases hlast : (acc ++ [f]).length ≥ size
      · have h0 : size - acc.length - 1 = 0 := by
          simp at hlast
          omega
        rw [if_pos hlast, if_pos h0]
      · have h0 : ¬ size - acc.length - 1 = 0 := by
          simp at hlast
          omega
        rw [if_neg hlast, if_neg h0, ih _ _ _ (by simpa using hlast) hsize]
        simp only [List.length_append, List.length_singleton]
        have : size - (acc.length + 1) = size - acc.length - 1 := by omega
        rw [this]

/-- C23. Hash agreement on creation: for every path whose top is not null, the Context
that `new_cxt` builds exists and stores a hash equal to `cxt_hash_val` of the same path at
depth 1, which is the fold step from 0 on the top function, that is the identity of the
top function (an address, below `2 ^ 64`); it stores the length 1 and `fn[0]` equal to
the top function; and it is accepted by `is_cxt(cxt_hash_val(path, 1), path, cxt)`.  For
every depth from 1 on (a `UInt`) the copy loop of `new_cxt` computes the hash that
`cxt_hash_val` computes. -/
theorem hash_agreement (s : State) (path : List Nat) (htop : path.headD 0 ≠ 0) :
    (new_cxt s path).2 ≠ 0 ∧
      (cxt_at (new_cxt s path).1.cxt_heap (new_cxt s path).2).hash = cxt_hash_val path 1 ∧
      cxt_hash_val path 1 = hash_step 0 (path.headD 0) ∧
      (path.headD 0 < 2 ^ 64 → cxt_hash_val path 1 = path.headD 0) ∧
      (cxt_at (new_cxt s path).1.cxt_heap (new_cxt s path).2).size = 1 ∧
      (cxt_at (new_cxt s path).1.cxt_heap (new_cxt s path).2).fn = [path.headD 0] ∧
      (cxt_at (new_cxt s path).1.cxt_heap (new_cxt s path).2).fn.getD 0 0 = path.headD 0 ∧
      is_cxt (cxt_hash_val path 1) path
        (cxt_at (new_cxt s path).1.cxt_heap (new_cxt s path).2) = true ∧
      ∀ size, 1 ≤ size → size < 2 ^ 32 →
        (new_cxt_loop path 0 [] size).1 = cxt_hash_val path size := by
  cases path with
  | nil => exact absurd rfl htop
  | cons f rest =>
    have hf : f ≠ 0 := htop
    have hcxt : cxt_at (new_cxt s (f :: rest)).1.cxt_heap (new_cxt s (f :: rest)).2 =
        { size := 1, base_number := (new_cxt_check s).stat.context_counter,
          hash := hash_step 0 f, fn := [f] } := by
      rw [new_cxt_cons s f rest hf]
      unfold new_cxt_link
      dsimp only
      rw [cxt_at_append_new]
      rfl
    have hstep : hash_step 0 f = f % 2 ^ 64 := by
      simp [hash_step, UWord_bits]
    rw [hcxt, cxt_hash_val_one f rest hf]
    refine ⟨?_, rfl, rfl, ?_, rfl, rfl, rfl, ?_, ?_⟩
    · rw [new_cxt_cons s f rest hf]
      unfold new_cxt_link
      dsimp only
      omega
    · intro hlt
      rw [hstep]
      exact Nat.mod_eq_of_lt hlt
    · rw [is_cxt_one _ f f rest _ hf rfl rfl]
      exact ⟨rfl, rfl⟩
    · intro size h1 h2
      have := new_cxt_loop_hash (f :: rest) 0 [] size (by simpa using h1) h2
      rw [this]
      rfl

/-- Witness of C23: the path `[5, 3]` in `fresh_state`; the new Context is the first one
and stores the hash 5. -/
theorem hash_agreement_witness :
    ([5, 3] : List Nat).headD 0 ≠ 0 ∧
      (cxt_at (new_cxt fresh_state [5, 3]).1.cxt_heap (new_cxt fresh_state [5, 3]).2).hash =
        cxt_hash_val [5, 3] 1 ∧
      cxt_hash_val [5, 3] 1 = 5 :=
  ⟨by decide, (hash_agreement fresh_state [5, 3] (by decide)).2.1, by decide⟩

theorem getD_tail_nat (l : List Nat) (j : Nat) : l.tail.getD j 0 = l.getD (j + 1) 0 := by
  cases l with
  | nil => simp
  | cons c t => simp

/-- The loop of `is_cxt` accepts exactly if the path and the stored entries agree at
every position below `count` and below the first null of the path. -/
theorem is_cxt_loop_iff (fn : List Nat) :
    ∀ (cxt_fn : List Nat) (count : Nat),
      is_cxt_loop fn cxt_fn count = true ↔
        ∀ i, i < min count (fn.takeWhile fun f => decide (f ≠ 0)).length →
          fn.getD i 0 = cxt_fn.getD i 0 := by
  induction fn with
  | nil =>
    intro cxt_fn count
    simp [is_cxt_loop]
  | cons f fn ih =>
    intro cxt_fn count
    unfold is_cxt_loop
    by_cases hc : f ≠ 0 ∧ count > 0
    · rw [if_pos hc]
      have htake : ((f :: fn).takeWhile fun f => decide (f ≠ 0)) =
          f :: fn.takeWhile fun f => decide (f ≠ 0) := by
        simp [List.takeWhile_cons, hc.1]
      rw [htake]
      have hhead : cxt_fn.getD 0 0 = cxt_fn.headD 0 := by
        cases cxt_fn <;> rfl
      by_cases hh : cxt_fn.headD 0 ≠ f
      · rw [if_pos hh]
        constructor
        · intro h
          cases h
        · intro h
          have h0 := h 0 (by
            simp only [List.length_cons]
            exact Nat.lt_min.mpr ⟨hc.2, by omega⟩)
          rw [hhead] at h0
          exact absurd h0.symm hh
      · rw [if_neg hh, ih cxt_fn.tail (count - 1)]
        have hh2 : cxt_fn.headD 0 = f := by
          by_contra hne
          exact hh hne
        constructor
        · intro h i hi
          cases i with
          | zero =>
            rw [hhead, hh2]
            rfl
          | succ j =>
            simp only [List.length_cons] at hi
            have hj := Nat.lt_min.mp hi
            have := h j (Nat.lt_min.mpr ⟨by omega, by omega⟩)
            rw [getD_tail_nat] at this
            simpa using this
        · intro h j hj
          have hj2 := Nat.lt_min.mp hj
          have := h (j + 1) (by
            simp only [List.length_cons]
            exact Nat.lt_min.mpr ⟨by omega, by omega⟩)
          rw [getD_tail_nat]
          simpa using this
    · rw [if_neg hc]
      constructor
      · intro _ i hi
        exfalso
        have hi2 := Nat.lt_min.mp hi
        by_cases hf : f = 0
        · simp [List.takeWhile_cons, hf] at hi2
        · have : ¬ count > 0 := fun h => hc ⟨hf, h⟩
          omega
      · intro _
        rfl

/-- C24. Path equality test: for every hash value `h`, path and Context `c` (a Context
holds `size` entries in `fn`, and its size is one that the `int` copy `count` of `is_cxt`
represents), `is_cxt(h, path, c)` returns True if and only if `h` equals the stored hash of
`c` and, for every position `i` below `c.size` and below the length of the path down to its
first null, the `i`-th path entry from the top is the function record `c.fn[i]` (the same
address). -/
theorem is_cxt_iff (h : Nat) (path : List Nat) (c : Context) :
    c.fn.length = c.size → c.size < 2 ^ 31 →
      (is_cxt h path c = true ↔
        h = c.hash ∧
          ∀ i, i < min c.size (path.takeWhile fun f => decide (f ≠ 0)).length →
            path.getD i 0 = c.fn.getD i 0) := by
  intro _ _
  unfold is_cxt
  by_cases hh : h = c.hash
  · rw [if_neg (fun hc => hc hh), is_cxt_loop_iff]
    exact ⟨fun hl => ⟨hh, hl⟩, fun hr => hr.2⟩
  · rw [if_pos hh]
    constructor
    · intro hc
      cases hc
    · intro hc
      exact absurd hc.1 hh

/-- Witness of C24: the path `5, 3` above the sentinel against the Context of the function
5, with the hash of that Context and with another hash. -/
theorem is_cxt_iff_witness :
    is_cxt 5 [5, 3, 0] { size := 1, base_number := 0, hash := 5, fn := [5] } = true ∧
      ¬ (6 = 5 ∧ ∀ i, i < min 1 ([5, 3, 0].takeWhile fun f => decide (f ≠ 0)).length →
        [5, 3, 0].getD i 0 = [5].getD i 0) :=
  ⟨by decide,
   fun hc => by
    have := (is_cxt_iff 6 [5, 3, 0] { size := 1, base_number := 0, hash := 5, fn := [5] }
      rfl (by decide)).mpr hc
    exact absurd this (by decide)⟩

/-! ## First-sight attributes -/

/-- The flags of the function records over one call of `get_fn_node` for a basic block
without a function record: the records that existed keep their flags, and a record that
did not exist gets the name asked for and the flags of the comparison of that name with
`"malloc"`, `"realloc"` and `"free"`. -/
theorem get_fn_node_flags (w : Tables) (bb : BB) (names : fn_names) (h : PureWF w)
    (hs : 1 ≤ w.st.current_fn_active.size) (hbb : bb.fn = 0) :
    ∃ w1 b1 fn, get_fn_node w bb names = some (w1, b1, fn) ∧
      (∀ k, k < w.st.stat.distinct_fns →
        (w1.st.fn_mem (w.fn_malloc k)).is_malloc = (w.st.fn_mem (w.fn_malloc k)).is_malloc ∧
        (w1.st.fn_mem (w.fn_malloc k)).is_realloc =
          (w.st.fn_mem (w.fn_malloc k)).is_realloc ∧
        (w1.st.fn_mem (w.fn_malloc k)).is_free = (w.st.fn_mem (w.fn_malloc k)).is_free) ∧
      ((∀ k, k < w.st.stat.distinct_fns → fn ≠ w.fn_malloc k) →
        (w1.st.fn_mem fn).name = names.fnname ∧
        (w1.st.fn_mem fn).is_malloc = decide ((w1.st.fn_mem fn).name = malloc_name) ∧
        (w1.st.fn_mem fn).is_realloc = decide ((w1.st.fn_mem fn).name = realloc_name) ∧
        (w1.st.fn_mem fn).is_free = decide ((w1.st.fn_mem fn).name = free_name)) := by
  obtain ⟨w1, fn, hseg, -, -, -, -, -, -, -, -, -, hcase⟩ :=
    get_fn_node_inseg_step w names.di names.dirname names.filename names.fnname h.id hs
  unfold get_fn_node
  rw [if_neg (by rw [hbb]; exact fun hc => hc rfl), hseg, Option.map_some']
  dsimp only
  rcases hcase with ⟨k, hk, hfn, hmem, -, -⟩ |
    ⟨hfn, -, ⟨node, hmem, hn1, -, -, hn4⟩, -, -⟩
  · have hpos := linked_pos w.st h.tab _ _ (h.pure k hk)
    have hp : (w1.st.fn_mem fn).pure_cxt ≠ 0 := by
      rw [hmem, hfn]
      exact hpos
    rw [if_neg hp]
    refine ⟨w1, _, fn, rfl, ?_, ?_⟩
    · intro j _
      rw [hmem]
      exact ⟨rfl, rfl, rfl⟩
    · intro hnew
      exact absurd hfn (hnew k hk)
  · have hp : (w1.st.fn_mem fn).pure_cxt = 0 := by
      rw [hmem, Function.update_same]
      exact hn4
    rw [if_pos hp]
    obtain ⟨f1, -⟩ := get_cxt_fields w1.st [fn, 0]
    generalize get_cxt w1.st [fn, 0] = c at f1
    have hname : (c.1.fn_mem fn).name = names.fnname := by
      rw [f1 fn]
      dsimp only
      rw [hmem, Function.update_same]
      exact hn1
    refine ⟨_, _, fn, rfl, ?_, ?_⟩
    · intro j hj
      have hne : w.fn_malloc j ≠ fn := by
        intro hc
        rw [hfn] at hc
        have := h.id.2.2.malloc_inj _ _ hc
        omega
      dsimp only
      rw [Function.update_noteq hne, f1 (w.fn_malloc j)]
      dsimp only
      rw [hmem, Function.update_noteq hne]
      exact ⟨rfl, rfl, rfl⟩
    · intro _
      dsimp only
      rw [Function.update_same]
      exact ⟨hname, rfl, rfl, rfl⟩

/-- C25. First-sight attributes, in a state that `get_fn_node` calls have produced (the
invariant `PureWF`), with an active-count array of at least one counter.  For a basic
block that has its function record, `get_fn_node` returns it and changes nothing.  For a
basic block without one, `get_fn_node` returns a record and keeps the invariant; if the
record did not exist before (it is resolved for the first time), its `pure_cxt` is set to a
Context that is not null, is linked in the context table and stores the one-element path
of the function, and `is_malloc`, `is_realloc`, `is_free` are True exactly when the name
of the function (the name asked for) is `"malloc"`, `"realloc"`, `"free"`; and every
record that existed before, the one returned included, keeps its `pure_cxt` and its three
flags. -/
theorem first_sight_attributes (w : Tables) (bb : BB) (names : fn_names) (h : PureWF w)
    (hs : 1 ≤ w.st.current_fn_active.size) :
    (bb.fn ≠ 0 → get_fn_node w bb names = some (w, bb, bb.fn)) ∧
      (bb.fn = 0 →
        ∃ w1 b1 fn, get_fn_node w bb names = some (w1, b1, fn) ∧ PureWF w1 ∧
          ((∀ k, k < w.st.stat.distinct_fns → fn ≠ w.fn_malloc k) →
            (w1.st.fn_mem fn).pure_cxt ≠ 0 ∧
            Linked w1.st (w1.st.fn_mem fn).pure_cxt fn ∧
            (cxt_at w1.st.cxt_heap (w1.st.fn_mem fn).pure_cxt).fn = [fn] ∧
            (w1.st.fn_mem fn).name = names.fnname ∧
            ((w1.st.fn_mem fn).is_malloc = true ↔ (w1.st.fn_mem fn).name = malloc_name) ∧
            ((w1.st.fn_mem fn).is_realloc = true ↔
              (w1.st.fn_mem fn).name = realloc_name) ∧
            ((w1.st.fn_mem fn).is_free = true ↔ (w1.st.fn_mem fn).name = free_name)) ∧
          ∀ k, k < w.st.stat.distinct_fns →
            (w1.st.fn_mem (w.fn_malloc k)).pure_cxt =
              (w.st.fn_mem (w.fn_malloc k)).pure_cxt ∧
            (w1.st.fn_mem (w.fn_malloc k)).is_malloc =
              (w.st.fn_mem (w.fn_malloc k)).is_malloc ∧
            (w1.st.fn_mem (w.fn_malloc k)).is_realloc =
              (w.st.fn_mem (w.fn_malloc k)).is_realloc ∧
            (w1.st.fn_mem (w.fn_malloc k)).is_free =
              (w.st.fn_mem (w.fn_malloc k)).is_free) := by
  constructor
  · intro hbb
    unfold get_fn_node
    rw [if_pos hbb]
  · intro hbb
    obtain ⟨w1, b1, fn, r1, -, -, P1, E1, -, -, -, -, pp, hcase⟩ :=
      get_fn_node_step w bb names h hs hbb
    obtain ⟨w2, b2, fn2, r2, hold, hnew⟩ := get_fn_node_flags w bb names h hs hbb
    rw [r1] at r2
    have e := Option.some.inj r2
    have ew : w1 = w2 := congrArg Prod.fst e
    have ef : fn = fn2 := congrArg (fun x => x.2.2) e
    subst ew
    subst ef
    refine ⟨w1, b1, fn, r1, P1, ?_, fun k hk => ⟨pp k hk, hold k hk⟩⟩
    intro hfresh
    rcases hcase with ⟨k, hk, hfn, -⟩ | ⟨hfn, hd, -, -, -⟩
    · exact absurd hfn (hfresh k hk)
    · have hl := P1.pure w.st.stat.distinct_fns (by omega)
      rw [E1.1, ← hfn] at hl
      obtain ⟨g1, g2, g3, g4⟩ := hnew hfresh
      refine ⟨linked_pos w1.st P1.tab _ _ hl, hl, hl.2, g1, ?_, ?_, ?_⟩
      · rw [g2]
        simp
      · rw [g3]
        simp
      · rw [g4]
        simp

/-- Witness of C25: the function `malloc` seen for the first time on `fresh_tables`. -/
theorem first_sight_attributes_witness :
    ∃ w1 b1 fn, get_fn_node fresh_tables { fn := 0, line := 0 } (names_in_a malloc_name) =
        some (w1, b1, fn) ∧
      (w1.st.fn_mem fn).pure_cxt ≠ 0 ∧ (w1.st.fn_mem fn).is_malloc = true ∧
      (w1.st.fn_mem fn).is_free = false := by
  obtain ⟨-, h2⟩ := first_sight_attributes fresh_tables { fn := 0, line := 0 }
    (names_in_a malloc_name) (fresh_purewf fresh_tables fresh_tables_fresh
      ⟨rfl, rfl, fun _ => rfl⟩) (by decide)
  obtain ⟨w1, b1, fn, r1, -, hnew, -⟩ := h2 rfl
  obtain ⟨g1, -, -, g4, g5, -, g7⟩ := hnew (fun k hk => (Nat.not_lt_zero k hk).elim)
  refine ⟨w1, b1, fn, r1, g1, g5.mpr g4, ?_⟩
  cases hfree : (w1.st.fn_mem fn).is_free with
  | false => rfl
  | true =>
    have := g7.mp hfree
    rw [g4] at this
    exact absurd this (by decide)

/-! ## Counting and bucket invariants of the context table -/

theorem new_cxt_check_perm (s : State) (hlen : s.cxts.table.length = s.cxts.size) :
    (new_cxt_check s).cxts.table.flatten.Perm s.cxts.table.flatten := by
  unfold new_cxt_check
  dsimp only
  split
  · exact resize_perm { s with cxts := { s.cxts with entries := s.cxts.entries + 1 } } hlen
  · exact List.Perm.refl _

/-- What `new_cxt` does for a path whose top is not null: the Context is allocated at the
next pointer with the current `context_counter` as sequence number, the counters and
`entries` grow by one, the size follows the fill-degree test, the chains hold the old
Contexts and the new one, and the new one is the head of the chain of bucket
`hash % size` for the size after the test. -/
theorem new_cxt_shape (s : State) (hwf : TableWF s) (f : Nat) (rest : List Nat)
    (hf : f ≠ 0) :
    (new_cxt s (f :: rest)).2 = s.cxt_heap.length + 1 ∧
      (new_cxt s (f :: rest)).1.cxt_heap = s.cxt_heap ++
        [{ size := 1, base_number := s.stat.context_counter, hash := hash_step 0 f,
           fn := [f] }] ∧
      (new_cxt s (f :: rest)).1.stat.context_counter = s.stat.context_counter + 1 ∧
      (new_cxt s (f :: rest)).1.stat.distinct_contexts = s.stat.distinct_contexts + 1 ∧
      (new_cxt s (f :: rest)).1.cxts.entries = s.cxts.entries + 1 ∧
      (new_cxt s (f :: rest)).1.cxts.size =
        (if 10 * (s.cxts.entries + 1) / s.cxts.size > 8 then 2 * s.cxts.size + 3
          else s.cxts.size) ∧
      (new_cxt s (f :: rest)).1.cxts.table.flatten.Perm
        ((s.cxt_heap.length + 1) :: s.cxts.table.flatten) ∧
      ((new_cxt s (f :: rest)).1.cxts.table.getD
        (hash_step 0 f % (new_cxt s (f :: rest)).1.cxts.size) []).head? =
          some (s.cxt_heap.length + 1) := by
  rw [new_cxt_cons s f rest hf]
  have hwf2 := new_cxt_check_wf s hwf
  obtain ⟨k1, k2, -⟩ := new_cxt_check_stat s
  obtain ⟨e1, e2⟩ := new_cxt_check_entries s
  have hh := new_cxt_check_heap s
  have hp := new_cxt_check_perm s hwf.len
  have hlt : hash_step 0 f % (new_cxt_check s).cxts.size <
      (new_cxt_check s).cxts.table.length := by
    rw [hwf2.len]; exact Nat.mod_lt _ hwf2.pos
  generalize new_cxt_check s = s2 at k1 k2 e1 e2 hh hp hlt
  unfold new_cxt_link
  dsimp only
  refine ⟨by rw [hh], ?_, by rw [k2], by rw [k1], e1, e2, ?_, ?_⟩
  · rw [hh, k2]
    rfl
  · refine (flatten_set_cons_perm _ _ _ hlt).trans ?_
    rw [hh]
    exact List.Perm.cons _ hp
  · rw [getD_set_chain _ _ _ _ hlt, if_pos rfl, hh]
    rfl

/-- The two ways of `get_cxt` for a path whose top is not null: it returns a Context that
was allocated and leaves the table, the Contexts and the context counters as they are, or
the table, the Contexts, the counters and the result are those of `new_cxt`, called after
the miss was counted. -/
theorem get_cxt_shape (s : State) (hwf : TableWF s) (f : Nat) (rest : List Nat)
    (hf : f ≠ 0) :
    ((get_cxt s (f :: rest)).1.cxts = s.cxts ∧
        (get_cxt s (f :: rest)).1.cxt_heap = s.cxt_heap ∧
        (get_cxt s (f :: rest)).1.stat.context_counter = s.stat.context_counter ∧
        (get_cxt s (f :: rest)).1.stat.distinct_contexts = s.stat.distinct_contexts ∧
        (get_cxt s (f :: rest)).2 ≤ s.cxt_heap.length) ∨
      ((get_cxt s (f :: rest)).1.cxts =
          (new_cxt (set_misses s (s.stat.cxt_lru_misses + 1)) (f :: rest)).1.cxts ∧
        (get_cxt s (f :: rest)).1.cxt_heap =
          (new_cxt (set_misses s (s.stat.cxt_lru_misses + 1)) (f :: rest)).1.cxt_heap ∧
        (get_cxt s (f :: rest)).1.stat =
          (new_cxt (set_misses s (s.stat.cxt_lru_misses + 1)) (f :: rest)).1.stat ∧
        (get_cxt s (f :: rest)).2 =
          (new_cxt (set_misses s (s.stat.cxt_lru_misses + 1)) (f :: rest)).2) := by
  rw [get_cxt_cons s f rest hf]
  split
  · next h =>
    left
    have hl := hwf.hint f h.1
    obtain ⟨g, hg, -⟩ := hwf.shape _ _ hl.1
    exact ⟨rfl, rfl, rfl, rfl, hg.2.1⟩
  · unfold get_cxt_miss
    dsimp only
    rcases chain_search_spec s.cxt_heap (hash_step 0 f) (f :: rest)
        (s.cxts.table.getD (hash_step 0 f % s.cxts.size) []) with ⟨h0, -⟩ | ⟨hin, -⟩
    · right
      rw [if_pos h0]
      exact ⟨rfl, rfl, rfl, rfl⟩
    · left
      obtain ⟨g, hg, -⟩ := hwf.shape _ _ hin
      have hne : chain_search s.cxt_heap (hash_step 0 f) (f :: rest)
          (s.cxts.table.getD (hash_step 0 f % s.cxts.size) []) ≠ 0 := by
        have := hg.1
        omega
      rw [if_neg hne]
      exact ⟨rfl, rfl, rfl, rfl, hg.2.1⟩

theorem set_misses_wf (s : State) (m : Nat) (hwf : TableWF s) : TableWF (set_misses s m) :=
  wf_congr s _ hwf rfl rfl hwf.hint

theorem get_cxt_count (s : State) (hwf : TableWF s) (hc : CountWF s) (fn : List Nat) :
    CountWF (get_cxt s fn).1 := by
  by_cases h0 : fn.headD 0 = 0
  · rw [get_cxt_null s fn h0]
    exact hc
  · cases fn with
    | nil => exact absurd rfl h0
    | cons f rest =>
      have hf : f ≠ 0 := h0
      obtain ⟨c1, c2, c3, c4, c5⟩ := hc
      rcases get_cxt_shape s hwf f rest hf with ⟨g1, g2, g3, g4, -⟩ | ⟨g1, g2, g3, -⟩
      · unfold CountWF
        rw [g1, g2, g3, g4]
        exact ⟨c1, c2, c3, c4, c5⟩
      · obtain ⟨-, n2, n3, n4, n5, -, n7, -⟩ :=
          new_cxt_shape _ (set_misses_wf s (s.stat.cxt_lru_misses + 1) hwf) f rest hf
        unfold CountWF
        rw [g1, g2, g3, n2, n3, n4, n5, n7.length_eq]
        have hlen : (set_misses s (s.stat.cxt_lru_misses + 1)).cxt_heap = s.cxt_heap := rfl
        have hcc : (set_misses s (s.stat.cxt_lru_misses + 1)).stat.context_counter =
          s.stat.context_counter := rfl
        have hdc : (set_misses s (s.stat.cxt_lru_misses + 1)).stat.distinct_contexts =
          s.stat.distinct_contexts := rfl
        have hen : (set_misses s (s.stat.cxt_lru_misses + 1)).cxts = s.cxts := rfl
        rw [hlen, hcc, hdc, hen, List.length_append, List.length_cons, List.length_nil,
          List.length_cons]
        refine ⟨by omega, by omega, by omega, by omega, ?_⟩
        intro k hk
        by_cases hkl : k < s.cxt_heap.length
        · rw [cxt_at_append_old _ _ _ (by omega)]
          exact c5 k hkl
        · have hke : k = s.cxt_heap.length := by omega
          rw [hke, cxt_at_append_new]
          exact c1

theorem get_cxt_all_linked (s : State) (hwf : TableWF s) (hc : AllLinked s)
    (fn : List Nat) : AllLinked (get_cxt s fn).1 := by
  by_cases h0 : fn.headD 0 = 0
  · rw [get_cxt_null s fn h0]
    exact hc
  · cases fn with
    | nil => exact absurd rfl h0
    | cons f rest =>
      have hf : f ≠ 0 := h0
      rcases get_cxt_shape s hwf f rest hf with ⟨g1, g2, -⟩ | ⟨g1, g2, -⟩
      · unfold AllLinked
        rw [g1, g2]
        exact hc
      · obtain ⟨-, n2, -, -, -, -, n7, -⟩ :=
          new_cxt_shape _ (set_misses_wf s (s.stat.cxt_lru_misses + 1) hwf) f rest hf
        unfold AllLinked
        rw [g1, g2, n2]
        intro p hp0 hp
        rw [n7.mem_iff]
        have hlen : (set_misses s (s.stat.cxt_lru_misses + 1)).cxt_heap = s.cxt_heap := rfl
        have hen : (set_misses s (s.stat.cxt_lru_misses + 1)).cxts = s.cxts := rfl
        rw [hlen, hen]
        rw [hlen, List.length_append, List.length_cons, List.length_nil] at hp
        by_cases hpl : p ≤ s.cxt_heap.length
        · exact List.mem_cons_of_mem _ (hc p hp0 hpl)
        · have : p = s.cxt_heap.length + 1 := by omega
          rw [this]
          exact List.mem_cons_self _ _

theorem get_cxt_seq_count (paths : List (List Nat)) (s : State) (hwf : TableWF s)
    (hc : CountWF s) : CountWF (get_cxt_seq s paths).1 := by
  induction paths generalizing s with
  | nil => exact hc
  | cons fn rest ih =>
    exact ih (get_cxt s fn).1 (get_cxt_wf s hwf fn) (get_cxt_count s hwf hc fn)

theorem get_cxt_seq_all_linked (paths : List (List Nat)) (s : State) (hwf : TableWF s)
    (hc : AllLinked s) : AllLinked (get_cxt_seq s paths).1 := by
  induction paths generalizing s with
  | nil => exact hc
  | cons fn rest ih =>
    exact ih (get_cxt s fn).1 (get_cxt_wf s hwf fn) (get_cxt_all_linked s hwf hc fn)

theorem initial_count (s : State) (h : Initial s) (hc : s.stat.context_counter = 0)
    (hd : s.stat.distinct_contexts = 0) : CountWF s := by
  obtain ⟨h1, h2, -⟩ := h
  unfold CountWF
  rw [h1, h2, hc, hd]
  refine ⟨rfl, rfl, rfl, ?_, fun k hk => absurd hk (Nat.not_lt_zero k)⟩
  show init_cxt_table.table.flatten.length = 0
  rw [List.length_eq_zero, List.eq_nil_iff_forall_not_mem]
  intro a ha
  obtain ⟨i, hi⟩ := (mem_flatten_iff_getD _ _).mp ha
  have : init_cxt_table.table.getD i [] = [] := getD_replicate_nil _ _
  rw [this] at hi
  exact absurd hi (List.not_mem_nil a)

theorem initial_all_linked (s : State) (h : Initial s) : AllLinked s := by
  intro p hp0 hp
  rw [h.2.1] at hp
  exact absurd hp (by simp; omega)

/-- The hash stored in the Context that `new_cxt` creates. -/
theorem new_cxt_hash (s : State) (hwf : TableWF s) (f : Nat) (rest : List Nat) (hf : f ≠ 0) :
    (cxt_at (new_cxt s (f :: rest)).1.cxt_heap (new_cxt s (f :: rest)).2).hash =
      hash_step 0 f := by
  obtain ⟨n1, n2, -⟩ := new_cxt_shape s hwf f rest hf
  rw [n2, n1, cxt_at_append_new]

/-- C26. Context sequence numbers.  Let `s` be the state after any sequence of `get_cxt`
calls from a state in which the context table has just been initialised and the counters
`context_counter` and `distinct_contexts` are 0.  Then `distinct_contexts`,
`context_counter` and `cxts.entries` all equal the number of Contexts linked in the chains
of the table, which is the number of Contexts created; the `k`-th Context created
(`k = 1, 2, ..`) has `base_number = k - 1`; two Contexts linked in the table with the same
sequence number are the same Context; and the next `new_cxt` for a path whose top is not
null creates the Context after those, with the number of Contexts created so far as its
`base_number`, and leaves the Contexts created before as they are. -/
theorem context_sequence_numbers (s0 : State) (paths : List (List Nat)) (h0 : Initial s0)
    (hc : s0.stat.context_counter = 0) (hd : s0.stat.distinct_contexts = 0) :
    ∀ s, s = (get_cxt_seq s0 paths).1 →
      s.stat.distinct_contexts = s.cxts.table.flatten.length ∧
      s.stat.context_counter = s.cxts.table.flatten.length ∧
      s.cxts.entries = s.cxts.table.flatten.length ∧
      s.cxt_heap.length = s.cxts.table.flatten.length ∧
      (∀ k, 1 ≤ k → k ≤ s.cxt_heap.length → (cxt_at s.cxt_heap k).base_number = k - 1) ∧
      (∀ p q, p ∈ s.cxts.table.flatten → q ∈ s.cxts.table.flatten →
        (cxt_at s.cxt_heap p).base_number = (cxt_at s.cxt_heap q).base_number → p = q) ∧
      ∀ fn, fn.headD 0 ≠ 0 →
        (new_cxt s fn).2 = s.cxt_heap.length + 1 ∧
        (new_cxt s fn).1.cxt_heap.length = s.cxt_heap.length + 1 ∧
        (cxt_at (new_cxt s fn).1.cxt_heap (new_cxt s fn).2).base_number =
          s.cxt_heap.length ∧
        ∀ p, p ≤ s.cxt_heap.length →
          cxt_at (new_cxt s fn).1.cxt_heap p = cxt_at s.cxt_heap p := by
  intro s hs
  have hwf0 := initial_wf s0 h0
  have hwf : TableWF s := by
    rw [hs]
    exact (get_cxt_seq_spec paths s0 hwf0).1
  have hcw : CountWF s := by
    rw [hs]
    exact get_cxt_seq_count paths s0 hwf0 (initial_count s0 h0 hc hd)
  obtain ⟨c1, c2, c3, c4, c5⟩ := hcw
  have hnum : ∀ p, p ∈ s.cxts.table.flatten →
      0 < p ∧ (cxt_at s.cxt_heap p).base_number = p - 1 := by
    intro p hp
    obtain ⟨i, hi⟩ := (mem_flatten_iff_getD _ _).mp hp
    obtain ⟨g, hg, -⟩ := hwf.shape i p hi
    obtain ⟨j, hj⟩ : ∃ j, p = j + 1 := ⟨p - 1, by have := hg.1; omega⟩
    have hle := hg.2.1
    rw [hj] at hle ⊢
    exact ⟨by omega, c5 j (by omega)⟩
  refine ⟨by rw [c2, c4], by rw [c1, c4], by rw [c3, c4], c4.symm, ?_, ?_, ?_⟩
  · intro k hk1 hk
    obtain ⟨j, hj⟩ : ∃ j, k = j + 1 := ⟨k - 1, by omega⟩
    rw [hj] at hk ⊢
    exact c5 j (by omega)
  · intro p q hp hq he
    obtain ⟨p0, pn⟩ := hnum p hp
    obtain ⟨q0, qn⟩ := hnum q hq
    rw [pn, qn] at he
    omega
  · intro fn hfn
    cases fn with
    | nil => exact absurd rfl hfn
    | cons f rest =>
      have hf : f ≠ 0 := hfn
      obtain ⟨n1, n2, -⟩ := new_cxt_shape s hwf f rest hf
      refine ⟨n1, ?_, ?_, ?_⟩
      · rw [n2, List.length_append, List.length_cons, List.length_nil]
      · rw [n2, n1, cxt_at_append_new]
        exact c1
      · intro p hp
        rw [n2, cxt_at_append_old _ _ _ hp]

/-- Witness of C26: three `get_cxt` calls on `fresh_state`, two of them for the same
function. -/
theorem context_sequence_numbers_witness :
    Initial fresh_state ∧
      (get_cxt_seq fresh_state [[5, 6, 0], [7, 0], [5, 1, 0]]).1.stat.distinct_contexts =
        (get_cxt_seq fresh_state [[5, 6, 0], [7, 0], [5, 1, 0]]).1.cxts.table.flatten.length ∧
      (get_cxt_seq fresh_state [[5, 6, 0], [7, 0], [5, 1, 0]]).1.cxts.entries =
        (get_cxt_seq fresh_state [[5, 6, 0], [7, 0], [5, 1, 0]]).1.cxts.table.flatten.length :=
  ⟨⟨rfl, rfl, fun _ => rfl⟩,
   (context_sequence_numbers fresh_state [[5, 6, 0], [7, 0], [5, 1, 0]]
      ⟨rfl, rfl, fun _ => rfl⟩ rfl rfl _ rfl).1,
   (context_sequence_numbers fresh_state [[5, 6, 0], [7, 0], [5, 1, 0]]
      ⟨rfl, rfl, fun _ => rfl⟩ rfl rfl _ rfl).2.2.1⟩

/-- C27. Bucket invariant.  Let `s` be the state after any sequence of `get_cxt` calls from
a state in which the context table has just been initialised (the calls may have resized
the table any number of times).  Every pointer linked in the chain of bucket `i` is a
Context that was allocated, with `hash % cxts.size = i`.  Every Context allocated occurs
exactly once in the chains as a whole: in exactly one chain, and once in it.  A Context
that the next `get_cxt` creates (the pointer returned was not allocated before) is the
head of the chain of bucket `hash % cxts.size` for the size after the call, which is
`2 * size + 3` when the fill-degree test of this call has resized the table; and the same
holds for a call of `new_cxt` for a path whose top is not null. -/
theorem bucket_invariant (s0 : State) (paths : List (List Nat)) (h0 : Initial s0) :
    ∀ s, s = (get_cxt_seq s0 paths).1 →
      (∀ i p, p ∈ s.cxts.table.getD i [] →
        0 < p ∧ p ≤ s.cxt_heap.length ∧ (cxt_at s.cxt_heap p).hash % s.cxts.size = i) ∧
      (∀ p, 0 < p → p ≤ s.cxt_heap.length →
        s.cxts.table.flatten.count p = 1 ∧
        ∃ i, i < s.cxts.size ∧ (s.cxts.table.getD i []).count p = 1 ∧
          ∀ j, j ≠ i → p ∉ s.cxts.table.getD j []) ∧
      (∀ fn, s.cxt_heap.length < (get_cxt s fn).2 →
        (get_cxt s fn).2 = s.cxt_heap.length + 1 ∧
        (get_cxt s fn).1.cxt_heap.length = s.cxt_heap.length + 1 ∧
        ((get_cxt s fn).1.cxts.table.getD
          ((cxt_at (get_cxt s fn).1.cxt_heap (get_cxt s fn).2).hash %
            (get_cxt s fn).1.cxts.size) []).head? = some (get_cxt s fn).2 ∧
        (get_cxt s fn).1.cxts.size =
          (if 10 * (s.cxts.entries + 1) / s.cxts.size > 8 then 2 * s.cxts.size + 3
            else s.cxts.size)) ∧
      ∀ fn, fn.headD 0 ≠ 0 →
        (new_cxt s fn).2 = s.cxt_heap.length + 1 ∧
        (new_cxt s fn).1.cxt_heap.length = s.cxt_heap.length + 1 ∧
        ((new_cxt s fn).1.cxts.table.getD
          ((cxt_at (new_cxt s fn).1.cxt_heap (new_cxt s fn).2).hash %
            (new_cxt s fn).1.cxts.size) []).head? = some (new_cxt s fn).2 ∧
        (new_cxt s fn).1.cxts.size =
          (if 10 * (s.cxts.entries + 1) / s.cxts.size > 8 then 2 * s.cxts.size + 3
            else s.cxts.size) := by
  intro s hs
  have hwf0 := initial_wf s0 h0
  have hwf : TableWF s := by
    rw [hs]
    exact (get_cxt_seq_spec paths s0 hwf0).1
  have hall : AllLinked s := by
    rw [hs]
    exact get_cxt_seq_all_linked paths s0 hwf0 (initial_all_linked s0 h0)
  have hbucket : ∀ i p, p ∈ s.cxts.table.getD i [] →
      0 < p ∧ p ≤ s.cxt_heap.length ∧ (cxt_at s.cxt_heap p).hash % s.cxts.size = i := by
    intro i p hp
    obtain ⟨g, hg, hi⟩ := hwf.shape i p hp
    refine ⟨hg.1, hg.2.1, ?_⟩
    rw [hg.2.2.2.2.2]
    exact hi
  have hnew : ∀ f rest, f ≠ 0 → ∀ t, TableWF t → t.cxts = s.cxts →
      t.cxt_heap = s.cxt_heap →
      (new_cxt t (f :: rest)).2 = s.cxt_heap.length + 1 ∧
      (new_cxt t (f :: rest)).1.cxt_heap.length = s.cxt_heap.length + 1 ∧
      ((new_cxt t (f :: rest)).1.cxts.table.getD
        ((cxt_at (new_cxt t (f :: rest)).1.cxt_heap (new_cxt t (f :: rest)).2).hash %
          (new_cxt t (f :: rest)).1.cxts.size) []).head? =
            some (new_cxt t (f :: rest)).2 ∧
      (new_cxt t (f :: rest)).1.cxts.size =
        (if 10 * (s.cxts.entries + 1) / s.cxts.size > 8 then 2 * s.cxts.size + 3
          else s.cxts.size) := by
    intro f rest hf t ht hc hh
    obtain ⟨n1, n2, -, -, -, n6, -, n8⟩ := new_cxt_shape t ht f rest hf
    have hhash := new_cxt_hash t ht f rest hf
    rw [hhash, n8, n1, n6, hc, hh]
    refine ⟨rfl, ?_, rfl, rfl⟩
    rw [n2, hh, List.length_append, List.length_cons, List.length_nil]
  refine ⟨hbucket, ?_, ?_, ?_⟩
  · intro p hp0 hp
    have hmem := hall p hp0 hp
    refine ⟨List.count_eq_one_of_mem hwf.nodup hmem, ?_⟩
    obtain ⟨i, hi⟩ := (mem_flatten_iff_getD _ _).mp hmem
    have hlt := mem_getD_lt _ _ _ hi
    refine ⟨i, by rw [← hwf.len]; exact hlt, ?_, ?_⟩
    · refine List.count_eq_one_of_mem (hwf.nodup.sublist ?_) hi
      rw [List.getD_eq_getElem _ _ hlt]
      exact List.sublist_flatten_of_mem (List.getElem_mem hlt)
    · intro j hj hc
      have e1 := (hbucket i p hi).2.2
      have e2 := (hbucket j p hc).2.2
      exact hj (e2.symm.trans e1)
  · intro fn hnewp
    by_cases h0 : fn.headD 0 = 0
    · rw [get_cxt_null s fn h0] at hnewp
      exact absurd hnewp (Nat.not_lt_zero _)
    · cases fn with
      | nil => exact absurd rfl h0
      | cons f rest =>
        have hf : f ≠ 0 := h0
        rcases get_cxt_shape s hwf f rest hf with ⟨-, -, -, -, g5⟩ | ⟨g1, g2, -, g4⟩
        · omega
        · rw [g1, g2, g4]
          exact hnew f rest hf _ (set_misses_wf s (s.stat.cxt_lru_misses + 1) hwf) rfl rfl
  · intro fn hfn
    cases fn with
    | nil => exact absurd rfl hfn
    | cons f rest => exact hnew f rest hfn s hwf rfl rfl

/-- Witness of C27: the two Contexts that three `get_cxt` calls on `fresh_state` create
lie in the buckets of their hashes. -/
theorem bucket_invariant_witness :
    Initial fresh_state ∧
      ∀ i p, p ∈ (get_cxt_seq fresh_state [[5, 6, 0], [7, 0], [5, 1, 0]]).1.cxts.table.getD
          i [] →
        0 < p ∧ p ≤ (get_cxt_seq fresh_state [[5, 6, 0], [7, 0], [5, 1, 0]]).1.cxt_heap.length ∧
        (cxt_at (get_cxt_seq fresh_state [[5, 6, 0], [7, 0], [5, 1, 0]]).1.cxt_heap p).hash %
          (get_cxt_seq fresh_state [[5, 6, 0], [7, 0], [5, 1, 0]]).1.cxts.size = i :=
  ⟨⟨rfl, rfl, fun _ => rfl⟩,
   (bucket_invariant fresh_state [[5, 6, 0], [7, 0], [5, 1, 0]]
      ⟨rfl, rfl, fun _ => rfl⟩ _ rfl).1⟩

/-! ## The memory of the active-count buffers -/

theorem buf_at_some_le (heap : List (Option (List Nat))) (p : Nat) (b : List Nat)
    (h : buf_at heap p = some b) : 0 < p ∧ p ≤ heap.length := by
  cases p with
  | zero => cases h
  | succ q =>
    refine ⟨Nat.succ_pos q, ?_⟩
    by_contra hc
    have hnone : heap[q]? = none := List.getElem?_eq_none (by omega)
    simp [buf_at, List.getD_eq_getElem?_getD, hnone] at h

theorem buf_at_append_old (heap : List (Option (List Nat))) (x : Option (List Nat)) (p : Nat)
    (hp : p ≤ heap.length) : buf_at (heap ++ [x]) p = buf_at heap p := by
  cases p with
  | zero => rfl
  | succ q =>
    have hq : q < heap.length := hp
    simp [buf_at, List.getD_eq_getElem?_getD, List.getElem?_append_left hq]

theorem buf_at_append_new (heap : List (Option (List Nat))) (x : Option (List Nat)) :
    buf_at (heap ++ [x]) (heap.length + 1) = x := by
  simp [buf_at, List.getD_eq_getElem?_getD]

theorem buf_at_put_same (heap : List (Option (List Nat))) (x : Option (List Nat)) (p : Nat)
    (h0 : 0 < p) (hp : p ≤ heap.length) : buf_at (buf_put heap p x) p = x := by
  cases p with
  | zero => omega
  | succ q =>
    have hq : q < heap.length := hp
    simp [buf_at, buf_put, List.getD_eq_getElem?_getD, hq]

theorem buf_at_put_other (heap : List (Option (List Nat))) (x : Option (List Nat))
    (p q : Nat) (h : q ≠ p) : buf_at (buf_put heap p x) q = buf_at heap q := by
  cases p with
  | zero => rfl
  | succ p =>
    cases q with
    | zero => rfl
    | succ q =>
      have hne : p ≠ q := fun hc => h (by rw [hc])
      simp [buf_at, buf_put, List.getD_eq_getElem?_getD, List.getElem?_set, hne]

theorem length_buf_put (heap : List (Option (List Nat))) (x : Option (List Nat)) (p : Nat) :
    (buf_put heap p x).length = heap.length := by
  cases p with
  | zero => rfl
  | succ p => simp [buf_put]

/-- The function `resize_fn_array` counts its call. -/
theorem resize_fn_array_counts (s s1 : State) (h : resize_fn_array s = some s1) :
    s1.stat.fn_array_resizes = s.stat.fn_array_resizes + 1 := by
  unfold resize_fn_array at h
  rw [Option.map_eq_some'] at h
  obtain ⟨n, -, hn⟩ := h
  rw [← hn]

/-- Over `new_fn_node`, the counter `fn_array_resizes` and the active-count array are
unchanged, or the counter has grown by one. -/
theorem new_fn_node_resizes (w : Tables) (fnname : List Int) (file next : Nat)
    (r : Tables × Nat) (h : new_fn_node w fnname file next = some r) :
    (r.1.st.stat.fn_array_resizes = w.st.stat.fn_array_resizes ∧
        r.1.st.current_fn_active = w.st.current_fn_active) ∨
      r.1.st.stat.fn_array_resizes = w.st.stat.fn_array_resizes + 1 := by
  unfold new_fn_node at h
  dsimp only at h
  rw [Option.map_eq_some'] at h
  obtain ⟨st3, hst, hr⟩ := h
  rw [← hr]
  dsimp only
  split at hst
  · right
    rw [resize_fn_array_counts _ _ hst]
  · left
    cases hst
    exact ⟨rfl, rfl⟩

theorem get_fn_node_infile_resizes (w : Tables) (f : Nat) (fnname : List Int)
    (r : Tables × Nat) (h : get_fn_node_infile w f fnname = some r) :
    (r.1.st.stat.fn_array_resizes = w.st.stat.fn_array_resizes ∧
        r.1.st.current_fn_active = w.st.current_fn_active) ∨
      r.1.st.stat.fn_array_resizes = w.st.stat.fn_array_resizes + 1 := by
  unfold get_fn_node_infile at h
  dsimp only at h
  split at h
  · cases h
  · split at h
    · rw [Option.map_eq_some'] at h
      obtain ⟨r0, hr0, hr⟩ := h
      rw [← hr]
      exact new_fn_node_resizes w fnname f _ r0 hr0
    · cases h
      exact Or.inl ⟨rfl, rfl⟩

/-- Over `get_fn_node_inseg`, the counter `fn_array_resizes` and the active-count array
are unchanged, or the counter has grown by one. -/
theorem get_fn_node_inseg_resizes (w : Tables) (di : Option DebugInfo)
    (dir file name : List Int) (hw : IdWF w) (r : Tables × Nat)
    (h : get_fn_node_inseg w di dir file name = some r) :
    (r.1.st.stat.fn_array_resizes = w.st.stat.fn_array_resizes ∧
        r.1.st.current_fn_active = w.st.current_fn_active) ∨
      r.1.st.stat.fn_array_resizes = w.st.stat.fn_array_resizes + 1 := by
  unfold get_fn_node_inseg at h
  dsimp only at h
  have hw1 := get_obj_node_idwf w di hw
  obtain ⟨-, -, -, a4, a5, -⟩ := get_obj_node_step w di hw.1
  obtain ⟨-, -, -, -, -, b6, -⟩ := get_obj_node_frame w di hw.1
  generalize get_obj_node w di = r1 at h hw1 a4 a5 b6
  obtain ⟨-, -, -, -, -, -, -, -, -, -, -, -, -, -, c15⟩ :=
    get_file_node_step r1.1 r1.2 dir file hw1.2.1 a4 a5
  generalize get_file_node r1.1 r1.2 dir file = r2 at h c15
  have hst : r2.1.st = { w.st with
      stat := { w.st.stat with
        distinct_objs := r1.1.st.stat.distinct_objs
        distinct_files := r2.1.st.stat.distinct_files } } := by
    rw [c15, b6]
  have h1 : r2.1.st.stat.fn_array_resizes = w.st.stat.fn_array_resizes := by rw [hst]
  have h2 : r2.1.st.current_fn_active = w.st.current_fn_active := by rw [hst]
  rw [← h1, ← h2]
  exact get_fn_node_infile_resizes r2.1 r2.2 name r h

/-! ## Runs over the active-count array keep the invariant -/

theorem push_cxt_extend_active (s s1 : State) (fn : Nat)
    (h : push_cxt_extend s fn = some s1) :
    s1.current_fn_active.size = s.current_fn_active.size ∧
      s1.current_fn_active.array.length = s.current_fn_active.array.length := by
  unfold push_cxt_extend at h
  dsimp only at h
  rw [Option.map_eq_some'] at h
  obtain ⟨a, ha, hs1⟩ := h
  subst hs1
  dsimp only
  split at ha <;> split at ha
  all_goals first
    | (cases ha
       exact ⟨rfl, rfl⟩)
    | (rw [Option.map_eq_some'] at ha
       obtain ⟨n, -, hn⟩ := ha
       subst hn
       exact ⟨rfl, List.length_set _ _ _⟩)

theorem current_heap_spec (m : ArrayMem) (h : ArrayWF m) :
    (current_heap m).length = m.heap.length ∧
      (∀ p b, buf_at (current_heap m) p = some b →
        ∃ b0, buf_at m.heap p = some b0 ∧ b.length = b0.length) ∧
      (∀ p b0, buf_at m.heap p = some b0 →
        ∃ b, buf_at (current_heap m) p = some b ∧ b.length = b0.length) ∧
      buf_at (current_heap m) m.array = some m.w.st.current_fn_active.array := by
  obtain ⟨b, hb, hbl⟩ := h.cur
  obtain ⟨hp0, hp⟩ := buf_at_some_le _ _ _ hb
  have hcur : current_heap m =
      buf_put m.heap m.array (some m.w.st.current_fn_active.array) := by
    unfold current_heap
    rw [hb]
    rfl
  rw [hcur]
  refine ⟨length_buf_put _ _ _, ?_, ?_, buf_at_put_same _ _ _ hp0 hp⟩
  · intro p b1 hb1
    by_cases hpc : p = m.array
    · rw [hpc, buf_at_put_same _ _ _ hp0 hp] at hb1
      cases hb1
      exact ⟨b, by rw [hpc]; exact hb, by rw [h.len, hbl]⟩
    · rw [buf_at_put_other _ _ _ _ hpc] at hb1
      exact ⟨b1, hb1, rfl⟩
  · intro p b0 hb0
    by_cases hpc : p = m.array
    · rw [hpc] at hb0 ⊢
      rw [buf_at_put_same _ _ _ hp0 hp]
      have hbb : b0 = b := Option.some.inj (hb0.symm.trans hb)
      exact ⟨_, rfl, by rw [hbb, h.len, hbl]⟩
    · rw [buf_at_put_other _ _ _ _ hpc]
      exact ⟨b0, hb0, rfl⟩

/-- The memory side of `resize_fn_array` when the current buffer is allocated: the buffer
is freed, the new one is current, and the other buffers are as before. -/
theorem move_buffer_wf (m : ArrayMem) (w1 : Tables) (b : List Nat)
    (hb : buf_at m.heap m.array = some b)
    (harrs : ∀ a, a ∈ m.arrs → 1 ≤ a.size ∧ a.array ≤ m.heap.length ∧
      ∀ b, buf_at m.heap a.array = some b → b.length = a.size)
    (hid : IdWF w1) (hsz : w1.st.stat.distinct_fns < w1.st.current_fn_active.size)
    (hlen : w1.st.current_fn_active.array.length = w1.st.current_fn_active.size) :
    ∃ m1, move_buffer m w1 = some m1 ∧ ArrayWF m1 ∧ m1.arrs = m.arrs ∧ m1.w = w1 ∧
      buf_at m1.heap m.array = none ∧
      (∀ p, buf_at m.heap p = none → p ≤ m.heap.length → buf_at m1.heap p = none) ∧
      m.heap.length ≤ m1.heap.length := by
  obtain ⟨hp0, hp⟩ := buf_at_some_le _ _ _ hb
  have hres : move_buffer m w1 = some { m with
      w := w1
      heap := buf_put m.heap m.array none ++ [some w1.st.current_fn_active.array]
      array := m.heap.length + 1 } := by
    unfold move_buffer
    rw [hb]
    rfl
  have hold : ∀ p, p ≤ m.heap.length →
      buf_at (buf_put m.heap m.array none ++ [some w1.st.current_fn_active.array]) p =
        buf_at (buf_put m.heap m.array none) p :=
    fun p hpl => buf_at_append_old _ _ _ (by rw [length_buf_put]; exact hpl)
  refine ⟨_, hres, ⟨hid, hsz, hlen, ⟨w1.st.current_fn_active.array, ?_, hlen⟩, ?_⟩, rfl, rfl,
    ?_, ?_, ?_⟩
  · have := buf_at_append_new (buf_put m.heap m.array none)
      (some w1.st.current_fn_active.array)
    rw [length_buf_put] at this
    exact this
  · intro a ha
    obtain ⟨a1, a2, a3⟩ := harrs a ha
    refine ⟨a1, ?_, ?_⟩
    · show a.array ≤
        (buf_put m.heap m.array none ++ [some w1.st.current_fn_active.array]).length
      rw [List.length_append, length_buf_put]
      omega
    · intro b1 hb1
      have hb2 : buf_at (buf_put m.heap m.array none ++
          [some w1.st.current_fn_active.array]) a.array = some b1 := hb1
      rw [hold _ a2] at hb2
      by_cases hac : a.array = m.array
      · rw [hac, buf_at_put_same _ _ _ hp0 hp] at hb2
        cases hb2
      · rw [buf_at_put_other _ _ _ _ hac] at hb2
        exact a3 b1 hb2
  · show buf_at (buf_put m.heap m.array none ++ [some w1.st.current_fn_active.array])
      m.array = none
    rw [hold _ hp, buf_at_put_same _ _ _ hp0 hp]
  · intro p hnone hpl
    show buf_at (buf_put m.heap m.array none ++ [some w1.st.current_fn_active.array])
      p = none
    rw [hold _ hpl]
    by_cases hpc : p = m.array
    · rw [hpc, buf_at_put_same _ _ _ hp0 hp]
    · rw [buf_at_put_other _ _ _ _ hpc]
      exact hnone
  · show m.heap.length ≤
      (buf_put m.heap m.array none ++ [some w1.st.current_fn_active.array]).length
    rw [List.length_append, length_buf_put]
    omega

/-- The function `set_current_fn_array` for a structure of the run whose buffer is
allocated: it returns and keeps the invariant. -/
theorem set_current_fn_array_wf (m : ArrayMem) (a : fn_array_ptr) (h : ArrayWF m)
    (ha : a ∈ m.arrs) (hlive : (buf_at m.heap a.array).isSome = true) :
    ∃ m1, set_current_fn_array m a = some m1 ∧ ArrayWF m1 ∧ m1.arrs = m.arrs := by
  obtain ⟨b0, hb0⟩ := Option.isSome_iff_exists.mp hlive
  obtain ⟨a1, a2, a3⟩ := h.arrs a ha
  obtain ⟨c1, c2, c3, -⟩ := current_heap_spec m h
  obtain ⟨b1, hb1, hbl1⟩ := c3 _ _ hb0
  have hal : b1.length = a.size := by rw [hbl1]; exact a3 b0 hb0
  have harrs : ∀ x, x ∈ m.arrs → 1 ≤ x.size ∧ x.array ≤ (current_heap m).length ∧
      ∀ b, buf_at (current_heap m) x.array = some b → b.length = x.size := by
    intro x hx
    obtain ⟨x1, x2, x3⟩ := h.arrs x hx
    refine ⟨x1, by rw [c1]; exact x2, ?_⟩
    intro b hb
    obtain ⟨b2, hb2, hbl2⟩ := c2 _ _ hb
    rw [hbl2]
    exact x3 b2 hb2
  have hget : (buf_at (current_heap m) a.array).getD [] = b1 := by rw [hb1]; rfl
  unfold set_current_fn_array
  dsimp only
  rw [hget]
  by_cases hle : a.size ≤ m.w.st.stat.distinct_fns
  · rw [if_pos hle]
    unfold resize_fn_array_buf
    dsimp only
    obtain ⟨j, s2, r1, r2, r3, -, r5, -, -, r8, -, -, -, -, -, r14⟩ :=
      resize_fn_array_spec
        { m.w.st with current_fn_active := { size := a.size, array := b1 } } a1
    rw [r1, Option.some_bind]
    have hid : IdWF { m.w with st := s2 } := by
      refine idwf_st m.w s2 h.id ?_ ?_ ?_ ?_
      · rw [r14]
      · rw [r14]
      · rw [r14]
      · intro x
        rw [r8]
        exact ⟨rfl, rfl, rfl⟩
    obtain ⟨m1, e1, e2, e3, -⟩ := move_buffer_wf
      { m with
        heap := current_heap m
        array := a.array
        w := { m.w with
          st := { m.w.st with current_fn_active := { size := a.size, array := b1 } } } }
      { m.w with st := s2 } b1 hb1 harrs hid (by
        show s2.stat.distinct_fns < s2.current_fn_active.size
        rw [r14, r2]
        exact r3) r5
    exact ⟨m1, e1, e2, e3⟩
  · rw [if_neg hle]
    refine ⟨_, rfl, ⟨?_, Nat.lt_of_not_le hle, hal, ⟨b1, hb1, hal⟩, harrs⟩, rfl⟩
    exact idwf_st m.w _ h.id rfl rfl rfl (fun _ => ⟨rfl, rfl, rfl⟩)

/-- The function `get_fn_node_inseg` on the memory returns and keeps the invariant; the
current buffer stays as it is, or it is freed and a new one is current. -/
theorem get_fn_node_inseg_buf_wf (m : ArrayMem) (di : Option DebugInfo)
    (dir file name : List Int) (h : ArrayWF m) :
    ∃ m1 fn, get_fn_node_inseg_buf m di dir file name = some (m1, fn) ∧ ArrayWF m1 ∧
      m1.arrs = m.arrs ∧ get_fn_node_inseg m.w di dir file name = some (m1.w, fn) ∧
      ((m1.array = m.array ∧ m1.heap = m.heap ∧
          m1.w.st.current_fn_active = m.w.st.current_fn_active) ∨
        (buf_at m1.heap m.array = none ∧
          (∀ p, buf_at m.heap p = none → p ≤ m.heap.length → buf_at m1.heap p = none) ∧
          m.heap.length ≤ m1.heap.length)) := by
  obtain ⟨w1, fn, r1, hid1, -, -, -, -, -, -, -, -, hcase⟩ :=
    get_fn_node_inseg_step m.w di dir file name h.id (by have := h.size; omega)
  have hres := get_fn_node_inseg_resizes m.w di dir file name h.id (w1, fn) r1
  have hsz1 : w1.st.stat.distinct_fns < w1.st.current_fn_active.size := by
    rcases hcase with ⟨k, -, -, -, c4, c5⟩ | ⟨-, c2, -, c4, -⟩
    · rw [c4, c5]
      exact h.size
    · rw [c2]
      exact c4
  have hlen1 : w1.st.current_fn_active.array.length = w1.st.current_fn_active.size := by
    rcases hcase with ⟨k, -, -, -, -, c5⟩ | ⟨-, -, -, -, c5 | c5⟩
    · rw [c5]
      exact h.len
    · rw [c5]
      exact h.len
    · exact c5.1
  obtain ⟨b, hb, hbl⟩ := h.cur
  unfold get_fn_node_inseg_buf
  rw [r1, Option.some_bind]
  dsimp only
  by_cases hc : w1.st.stat.fn_array_resizes = m.w.st.stat.fn_array_resizes
  · rw [if_pos hc]
    rcases hres with ⟨-, hsame⟩ | hplus
    · refine ⟨{ m with w := w1 }, fn, rfl, ⟨hid1, hsz1, hlen1, ⟨b, hb, ?_⟩, h.arrs⟩, rfl, rfl,
        Or.inl ⟨rfl, rfl, hsame⟩⟩
      show b.length = w1.st.current_fn_active.size
      rw [hsame]
      exact hbl
    · have hp : w1.st.stat.fn_array_resizes = m.w.st.stat.fn_array_resizes + 1 := hplus
      omega
  · rw [if_neg hc]
    obtain ⟨m1, e1, e2, e3, e4, e5, e6, e7⟩ :=
      move_buffer_wf m w1 b hb h.arrs hid1 hsz1 hlen1
    rw [e1, Option.map_some']
    refine ⟨m1, fn, rfl, e2, e3, ?_, Or.inr ⟨e5, e6, e7⟩⟩
    rw [e4]

/-- The part of `push_cxt` that increments the active count, for a function record that
exists, returns and keeps the invariant. -/
theorem push_cxt_extend_buf_wf (m : ArrayMem) (k : Nat) (h : ArrayWF m)
    (hk : k < m.w.st.stat.distinct_fns) :
    ∃ m1, push_cxt_extend_buf m (m.w.fn_malloc k) = some m1 ∧ ArrayWF m1 ∧
      m1.arrs = m.arrs ∧ m1.heap = m.heap ∧ m1.array = m.array ∧
      m1.w.st.stat = m.w.st.stat ∧ m1.w.st.fn_mem = m.w.st.fn_mem ∧
      m1.w.fn_malloc = m.w.fn_malloc ∧
      m1.w.st.current_fn_active.size = m.w.st.current_fn_active.size := by
  obtain ⟨b, hb, hbl⟩ := h.cur
  have hnum := (h.id.2.2.all k hk).1
  obtain ⟨s1, r1⟩ := push_cxt_extend_some m.w.st (m.w.fn_malloc k)
    (fun _ => by rw [hnum]; have := h.size; omega)
  obtain ⟨-, -, f3, f4, -, -⟩ := push_cxt_extend_frame _ _ _ r1
  obtain ⟨g1, g2⟩ := push_cxt_extend_active _ _ _ r1
  unfold push_cxt_extend_buf
  dsimp only
  rw [if_neg (fun hc => by
    have := hc.2.2
    rw [hb] at this
    cases this), r1, Option.map_some']
  refine ⟨_, rfl, ⟨?_, ?_, ?_, ⟨b, hb, ?_⟩, h.arrs⟩, rfl, rfl, rfl, f4, f3, rfl, g1⟩
  · refine idwf_st m.w s1 h.id ?_ ?_ ?_ ?_
    · rw [f4]
    · rw [f4]
    · rw [f4]
    · intro x
      rw [f3]
      exact ⟨rfl, rfl, rfl⟩
  · show s1.stat.distinct_fns < s1.current_fn_active.size
    rw [f4, g1]
    exact h.size
  · show s1.current_fn_active.array.length = s1.current_fn_active.size
    rw [g1, g2]
    exact h.len
  · show b.length = s1.current_fn_active.size
    rw [g1]
    exact hbl

/-- One event that installs nothing or a structure whose buffer is allocated returns and
keeps the invariant. -/
theorem array_step_wf (m : ArrayMem) (op : ArrayOp) (h : ArrayWF m)
    (hl : live_install m op = true) :
    ∃ m1, array_step m op = some m1 ∧ ArrayWF m1 := by
  obtain ⟨b, hb, hbl⟩ := h.cur
  obtain ⟨hp0, hp⟩ := buf_at_some_le _ _ _ hb
  cases op with
  | init =>
    refine ⟨_, rfl, ⟨h.id, h.size, h.len, ⟨b, ?_, hbl⟩, ?_⟩⟩
    · show buf_at (m.heap ++ [_]) m.array = some b
      rw [buf_at_append_old _ _ _ hp]
      exact hb
    · intro a ha
      show 1 ≤ a.size ∧ a.array ≤ (m.heap ++ [_]).length ∧
        ∀ b, buf_at (m.heap ++ [_]) a.array = some b → b.length = a.size
      rw [List.length_append, List.length_cons, List.length_nil]
      rcases List.mem_append.mp ha with hx | hx
      · obtain ⟨x1, x2, x3⟩ := h.arrs a hx
        refine ⟨x1, by omega, ?_⟩
        intro b1 hb1
        rw [buf_at_append_old _ _ _ x2] at hb1
        exact x3 b1 hb1
      · rw [List.mem_singleton.mp hx]
        unfold init_fn_array
        dsimp only
        refine ⟨?_, le_refl _, ?_⟩
        · split
          · omega
          · unfold N_INITIAL_FN_ARRAY_SIZE
            omega
        · intro b1 hb1
          rw [buf_at_append_new] at hb1
          cases hb1
          exact List.length_replicate _ _
  | copy =>
    refine ⟨_, rfl, ⟨h.id, h.size, h.len, ⟨b, hb, hbl⟩, ?_⟩⟩
    intro a ha
    rcases List.mem_append.mp ha with hx | hx
    · exact h.arrs a hx
    · rw [List.mem_singleton.mp hx]
      unfold copy_current_fn_array
      dsimp only
      refine ⟨by have := h.size; omega, hp, ?_⟩
      intro b1 hb1
      have : b1 = b := Option.some.inj (hb1.symm.trans hb)
      rw [this]
      exact hbl
  | install i =>
    simp only [array_step]
    simp only [live_install] at hl
    cases hi : m.arrs[i]? with
    | none => exact ⟨m, rfl, h⟩
    | some a =>
      rw [hi] at hl
      obtain ⟨m1, r1, r2, -⟩ := set_current_fn_array_wf m a h (List.getElem?_mem hi) hl
      exact ⟨m1, r1, r2⟩
  | intern di dirname filename fnname =>
    obtain ⟨m1, fn, r1, r2, -⟩ := get_fn_node_inseg_buf_wf m di dirname filename fnname h
    simp only [array_step]
    rw [r1]
    exact ⟨m1, rfl, r2⟩
  | push k =>
    simp only [array_step]
    by_cases hk : k < m.w.st.stat.distinct_fns
    · rw [if_pos hk]
      obtain ⟨m1, r1, r2, -⟩ := push_cxt_extend_buf_wf m k h hk
      exact ⟨m1, r1, r2⟩
    · rw [if_neg hk]
      exact ⟨m, rfl, h⟩

theorem live_installs_cons (m : ArrayMem) (op : ArrayOp) (rest : List ArrayOp)
    (h : live_installs m (op :: rest) = true) :
    live_install m op = true ∧
      ∀ m1, array_step m op = some m1 → live_installs m1 rest = true := by
  rw [live_installs, Bool.and_eq_true] at h
  refine ⟨h.1, ?_⟩
  intro m1 hm1
  have h2 := h.2
  rw [hm1] at h2
  exact h2

/-- A run in which every install is of a structure whose buffer is allocated returns and
keeps the invariant. -/
theorem array_run_wf (ops : List ArrayOp) (m : ArrayMem) (h : ArrayWF m)
    (hl : live_installs m ops = true) :
    ∃ m1, array_run m ops = some m1 ∧ ArrayWF m1 := by
  induction ops generalizing m with
  | nil => exact ⟨m, rfl, h⟩
  | cons op rest ih =>
    obtain ⟨l1, l2⟩ := live_installs_cons m op rest hl
    obtain ⟨m1, r1, r2⟩ := array_step_wf m op h l1
    obtain ⟨m2, q1, q2⟩ := ih m1 r2 (l2 m1 r1)
    refine ⟨m2, ?_, q2⟩
    rw [array_run, r1, Option.some_bind]
    exact q1

theorem array_run_append (l1 l2 : List ArrayOp) (m : ArrayMem) :
    array_run m (l1 ++ l2) = (array_run m l1).bind fun m1 => array_run m1 l2 := by
  induction l1 generalizing m with
  | nil => rfl
  | cons op rest ih =>
    rw [List.cons_append, array_run, array_run]
    cases array_step m op with
    | none => rfl
    | some m1 =>
      rw [Option.some_bind, Option.some_bind]
      exact ih m1

theorem live_installs_append (l1 l2 : List ArrayOp) (m m1 : ArrayMem)
    (h : live_installs m (l1 ++ l2) = true) (hr : array_run m l1 = some m1) :
    live_installs m1 l2 = true := by
  induction l1 generalizing m with
  | nil =>
    cases hr
    exact h
  | cons op rest ih =>
    obtain ⟨-, h2⟩ := live_installs_cons m op (rest ++ l2) h
    rw [array_run] at hr
    cases hs : array_step m op with
    | none =>
      rw [hs] at hr
      cases hr
    | some m2 =>
      rw [hs, Option.some_bind] at hr
      exact ih m2 (h2 m2 hs) hr

/-- The start of a run: `init_fn_array` on the memory of the program start, then the
installation of the array it has produced. -/
theorem first_install (w0 : Tables) (h0 : IdWF w0) :
    ∃ m, array_run (initial_mem w0) [ArrayOp.init, ArrayOp.install 0] = some m ∧
      ArrayWF m ∧ m.array = 1 ∧
      m.arrs = [{ size := m.w.st.current_fn_active.size, array := 1 }] ∧
      m.w.st.current_fn_active.size =
        (if N_INITIAL_FN_ARRAY_SIZE ≤ w0.st.stat.distinct_fns
          then w0.st.stat.distinct_fns + 1 else N_INITIAL_FN_ARRAY_SIZE) ∧
      m.w.fn_malloc = w0.fn_malloc ∧ m.w.st.fn_mem = w0.st.fn_mem ∧
      m.w.st.stat = w0.st.stat := by
  have hsz : ∀ sz : Nat, sz = (if N_INITIAL_FN_ARRAY_SIZE ≤ w0.st.stat.distinct_fns
      then w0.st.stat.distinct_fns + 1 else N_INITIAL_FN_ARRAY_SIZE) →
      1 ≤ sz ∧ w0.st.stat.distinct_fns < sz := by
    intro sz hsz
    rw [hsz]
    split
    · omega
    · next hn =>
      unfold N_INITIAL_FN_ARRAY_SIZE at hn ⊢
      omega
  have hrun : ∀ sz : Nat, sz = (if N_INITIAL_FN_ARRAY_SIZE ≤ w0.st.stat.distinct_fns
      then w0.st.stat.distinct_fns + 1 else N_INITIAL_FN_ARRAY_SIZE) →
      array_run (initial_mem w0) [ArrayOp.init, ArrayOp.install 0] = some
        { w := { w0 with
            st := { w0.st with
              current_fn_active := { size := sz, array := List.replicate sz 0 } } }
          array := 1
          heap := [some (List.replicate sz 0)]
          arrs := [{ size := sz, array := 1 }] } := by
    intro sz hsze
    obtain ⟨-, s2⟩ := hsz sz hsze
    have e1 : array_step (initial_mem w0) ArrayOp.init = some
        { w := w0, array := 0, heap := [some (List.replicate sz 0)],
          arrs := [{ size := sz, array := 1 }] } := by
      rw [hsze]
      rfl
    have e2 : array_step
        { w := w0, array := 0, heap := [some (List.replicate sz 0)],
          arrs := [{ size := sz, array := 1 }] } (ArrayOp.install 0) = some
        { w := { w0 with
            st := { w0.st with
              current_fn_active := { size := sz, array := List.replicate sz 0 } } }
          array := 1
          heap := [some (List.replicate sz 0)]
          arrs := [{ size := sz, array := 1 }] } := by
      show set_current_fn_array _ { size := sz, array := 1 } = _
      unfold set_current_fn_array
      dsimp only
      rw [if_neg (Nat.not_le_of_lt s2)]
      rfl
    rw [array_run, e1, Option.some_bind, array_run, e2, Option.some_bind]
    rfl
  obtain ⟨s1, s2⟩ := hsz _ rfl
  refine ⟨_, hrun _ rfl, ⟨?_, s2, List.length_replicate _ _,
    ⟨_, rfl, List.length_replicate _ _⟩, ?_⟩, rfl, rfl, rfl, rfl, rfl, rfl⟩
  · exact idwf_st w0 _ h0 rfl rfl rfl (fun _ => ⟨rfl, rfl, rfl⟩)
  · intro a ha
    rw [List.mem_singleton.mp ha]
    refine ⟨s1, le_refl _, ?_⟩
    intro b hb
    cases hb
    exact List.length_replicate _ _

/-! ## Index safety of the active-count array -/

/-- C28 (amended). Active-count index safety.  From tables that satisfy the invariant of
the identity tables and the memory of the program start, a run that starts with
`init_fn_array` and the installation of the array it produced with
`set_current_fn_array`, and goes on with any events (interning of functions, production
of other arrays by `init_fn_array` or `copy_current_fn_array`, pushes of function records
that exist, and installations of arrays produced whose buffer is allocated at that time,
that is, `resize_fn_array` has not freed it), returns, and in the state it reaches the
current array has `size > distinct_fns` and its buffer is allocated and holds `size`
counters.  Hence for every function record that exists, `get_fn_entry` of its number
passes its assertion, the index lies inside the buffer, and the part of `push_cxt` that
increments the active count returns. -/
theorem active_count_index_safety (w0 : Tables) (h0 : IdWF w0) (ops : List ArrayOp)
    (hlive : live_installs (initial_mem w0)
      (ArrayOp.init :: ArrayOp.install 0 :: ops) = true) :
    ∃ m, array_run (initial_mem w0) (ArrayOp.init :: ArrayOp.install 0 :: ops) = some m ∧
      m.w.st.stat.distinct_fns < m.w.st.current_fn_active.size ∧
      (∃ b, buf_at m.heap m.array = some b ∧ b.length = m.w.st.current_fn_active.size) ∧
      m.w.st.current_fn_active.array.length = m.w.st.current_fn_active.size ∧
      ∀ k, k < m.w.st.stat.distinct_fns →
        get_fn_entry m.w.st.current_fn_active (m.w.st.fn_mem (m.w.fn_malloc k)).number =
          some (m.w.st.fn_mem (m.w.fn_malloc k)).number ∧
        (m.w.st.fn_mem (m.w.fn_malloc k)).number < m.w.st.current_fn_active.array.length ∧
        ∃ m1, array_step m (ArrayOp.push k) = some m1 := by
  obtain ⟨m2, r1, r2, -⟩ := first_install w0 h0
  have hl2 : live_installs m2 ops = true :=
    live_installs_append [ArrayOp.init, ArrayOp.install 0] ops _ m2 hlive r1
  obtain ⟨m, q1, q2⟩ := array_run_wf ops m2 r2 hl2
  have hrun : array_run (initial_mem w0) (ArrayOp.init :: ArrayOp.install 0 :: ops) =
      some m := by
    have := array_run_append [ArrayOp.init, ArrayOp.install 0] ops (initial_mem w0)
    rw [r1, Option.some_bind] at this
    rw [← q1, ← this]
    rfl
  refine ⟨m, hrun, q2.size, q2.cur, q2.len, ?_⟩
  intro k hk
  have hnum := (q2.id.2.2.all k hk).1
  have hlt : (m.w.st.fn_mem (m.w.fn_malloc k)).number < m.w.st.current_fn_active.size := by
    rw [hnum]
    have := q2.size
    omega
  refine ⟨?_, by rw [q2.len]; exact hlt, ?_⟩
  · unfold get_fn_entry
    rw [if_pos hlt]
  · obtain ⟨m1, e1, -⟩ := push_cxt_extend_buf_wf m k q2 hk
    refine ⟨m1, ?_⟩
    simp only [array_step]
    rw [if_pos hk]
    exact e1

/-- Witness of C28: on `fresh_tables`, an array is produced and installed, the function
`main` is interned, the current array is copied, `main` is pushed and the copy, whose
buffer is the current one, is installed. -/
theorem active_count_index_safety_witness :
    IdWF fresh_tables ∧
      live_installs (initial_mem fresh_tables)
        [ArrayOp.init, ArrayOp.install 0,
          ArrayOp.intern (names_in_a main_name).di [] [97, 46, 99] main_name,
          ArrayOp.copy, ArrayOp.push 0, ArrayOp.install 1] = true ∧
      ∃ m, array_run (initial_mem fresh_tables)
          [ArrayOp.init, ArrayOp.install 0,
            ArrayOp.intern (names_in_a main_name).di [] [97, 46, 99] main_name,
            ArrayOp.copy, ArrayOp.push 0, ArrayOp.install 1] = some m ∧
        m.w.st.stat.distinct_fns < m.w.st.current_fn_active.size := by
  have hl : live_installs (initial_mem fresh_tables)
      [ArrayOp.init, ArrayOp.install 0,
        ArrayOp.intern (names_in_a main_name).di [] [97, 46, 99] main_name,
        ArrayOp.copy, ArrayOp.push 0, ArrayOp.install 1] = true := by
    decide
  refine ⟨fresh_idwf fresh_tables fresh_tables_fresh, hl, ?_⟩
  obtain ⟨m, h1, h2, -⟩ := active_count_index_safety fresh_tables
    (fresh_idwf fresh_tables fresh_tables_fresh)
    [ArrayOp.intern (names_in_a main_name).di [] [97, 46, 99] main_name,
      ArrayOp.copy, ArrayOp.push 0, ArrayOp.install 1] hl
  exact ⟨m, h1, h2⟩

/-! ## Installation of a structure whose buffer was freed -/

theorem numbered_name_inj (j k : Nat) (h : numbered_name j = numbered_name k) : j = k := by
  unfold numbered_name at h
  simp only [List.cons.injEq, Nat.cast_inj, and_true] at h
  omega

/-- The function `set_current_fn_array` for a structure whose buffer is not allocated and
whose size does not exceed `distinct_fns`: `resize_fn_array` runs, reads the buffer and
frees it, and the result is `none`. -/
theorem stale_install_fails (m : ArrayMem) (a : fn_array_ptr) (h : ArrayWF m)
    (hfree : buf_at m.heap a.array = none) (hle : a.size ≤ m.w.st.stat.distinct_fns) :
    set_current_fn_array m a = none := by
  obtain ⟨-, c2, -, -⟩ := current_heap_spec m h
  have hnone : buf_at (current_heap m) a.array = none := by
    cases hb : buf_at (current_heap m) a.array with
    | none => rfl
    | some b =>
      obtain ⟨b0, hb0, -⟩ := c2 _ _ hb
      rw [hfree] at hb0
      cases hb0
  unfold set_current_fn_array
  dsimp only
  rw [if_pos hle]
  unfold resize_fn_array_buf
  dsimp only
  cases resize_fn_array { m.w.st with
      current_fn_active :=
        { size := a.size, array := (buf_at (current_heap m) a.array).getD [] } } with
  | none => rfl
  | some st =>
    rw [Option.some_bind]
    unfold move_buffer
    dsimp only
    rw [hnone]
    rfl

/-- The interning of the next numbered function creates its record. -/
theorem intern_numbered_step (m : ArrayMem) (c : Nat) (h : NumberedWF m c) :
    ∃ m1, array_step m (intern_numbered c) = some m1 ∧ NumberedWF m1 (c + 1) := by
  obtain ⟨m1, fn, r1, r2, r3, r4, r5⟩ :=
    get_fn_node_inseg_buf_wf m (names_in_a []).di [] [97, 46, 99] (numbered_name c) h.wf
  obtain ⟨w1, fn1, s1, -, hext, hkey, -, -, -, -, -, -, hcase⟩ :=
    get_fn_node_inseg_step m.w (names_in_a []).di [] [97, 46, 99] (numbered_name c)
      h.wf.id (by have := h.wf.size; omega)
  rw [r4] at s1
  have e := Option.some.inj s1
  have ew : m1.w = w1 := congrArg Prod.fst e
  have ef : fn = fn1 := congrArg Prod.snd e
  subst ew
  subst ef
  have hstep : array_step m (intern_numbered c) = some m1 := by
    unfold intern_numbered
    simp only [array_step]
    rw [r1]
    rfl
  refine ⟨m1, hstep, ?_⟩
  have hname : (m1.w.st.fn_mem fn).name = numbered_name c := congrArg (fun x => x.2.2) hkey
  rcases hcase with ⟨k, hk, hfn, hmem, -, -⟩ | ⟨hfn, hd, ⟨node, hmem, hn1, -⟩, -, -⟩
  · exfalso
    rw [hmem, hfn, h.names k (by rw [← h.count]; exact hk)] at hname
    have := numbered_name_inj k c hname
    rw [h.count] at hk
    omega
  · refine ⟨r2, by rw [hd, h.count], ?_, by rw [r3]; exact h.arrs, ?_, ?_⟩
    · intro k hk
      rw [hext.1, hmem]
      by_cases hkc : k = c
      · rw [hkc, hfn, h.count, Function.update_same]
        exact hn1
      · rw [Function.update_noteq]
        · exact h.names k (by omega)
        · rw [hfn, h.count]
          intro hc
          exact hkc (h.wf.id.2.2.malloc_inj _ _ hc)
    · rcases r5 with ⟨-, e2, -⟩ | ⟨-, -, e3⟩
      · rw [e2]
        exact h.heap
      · exact le_trans h.heap e3
    · rcases r5 with ⟨e1, e2, e3⟩ | ⟨e1, e2, -⟩
      · rcases h.buffer with ⟨b1, b2⟩ | b1
        · exact Or.inl ⟨by rw [e1]; exact b1, by rw [e3]; exact b2⟩
        · exact Or.inr (by rw [e2]; exact b1)
      · rcases h.buffer with ⟨b1, -⟩ | b1
        · rw [b1] at e1
          exact Or.inr e1
        · exact Or.inr (e2 1 b1 h.heap)

/-- The interning of `n` numbered functions in a row creates `n` records. -/
theorem intern_numbered_run (n : Nat) :
    ∀ c m, NumberedWF m c →
      ∃ m1, array_run m ((List.range' c n).map intern_numbered) = some m1 ∧
        NumberedWF m1 (c + n) := by
  induction n with
  | zero =>
    intro c m h
    exact ⟨m, rfl, h⟩
  | succ n ih =>
    intro c m h
    obtain ⟨m1, r1, r2⟩ := intern_numbered_step m c h
    obtain ⟨m2, q1, q2⟩ := ih (c + 1) m1 r2
    refine ⟨m2, ?_, ?_⟩
    · rw [List.range'_succ, List.map_cons, array_run, r1, Option.some_bind]
      exact q1
    · have : c + (n + 1) = c + 1 + n := by omega
      rw [this]
      exact q2

/-- The run that produces an array, installs it, copies it and interns 10071 functions:
it returns, and the buffer that the two structures of the run hold has been freed. -/
theorem growth_run :
    ∃ m, array_run (initial_mem fresh_tables)
        ([ArrayOp.init, ArrayOp.install 0, ArrayOp.copy] ++
          (List.range 10071).map intern_numbered) = some m ∧
      NumberedWF m 10071 ∧ buf_at m.heap 1 = none := by
  obtain ⟨m0, r1, r2, r3, r4, r5, r6, r7, r8⟩ :=
    first_install fresh_tables (fresh_idwf fresh_tables fresh_tables_fresh)
  have hsize : m0.w.st.current_fn_active.size = 10071 := by
    rw [r5]
    rfl
  obtain ⟨hp0, hp⟩ : 0 < m0.array ∧ m0.array ≤ m0.heap.length := by
    obtain ⟨b, hb, -⟩ := r2.cur
    exact buf_at_some_le _ _ _ hb
  have hcopy : array_step m0 ArrayOp.copy =
      some { m0 with arrs := m0.arrs ++ [copy_current_fn_array m0] } := rfl
  obtain ⟨mc, c1, c2⟩ := array_step_wf m0 ArrayOp.copy r2 rfl
  rw [hcopy] at c1
  have hmc := Option.some.inj c1
  have hnum : NumberedWF { m0 with arrs := m0.arrs ++ [copy_current_fn_array m0] } 0 := by
    refine ⟨by rw [hmc]; exact c2, ?_, fun k hk => absurd hk (Nat.not_lt_zero k), ?_, ?_,
      Or.inl ⟨r3, hsize⟩⟩
    · show m0.w.st.stat.distinct_fns = 0
      rw [r8]
      rfl
    · show m0.arrs ++ [copy_current_fn_array m0] = _
      unfold copy_current_fn_array
      rw [r4, hsize, r3]
      rfl
    · show 1 ≤ m0.heap.length
      omega
  obtain ⟨m, q1, q2⟩ := intern_numbered_run 10071 0 _ hnum
  rw [← List.range_eq_range'] at q1
  rw [Nat.zero_add] at q2
  refine ⟨m, ?_, q2, ?_⟩
  · have h1 := array_run_append [ArrayOp.init, ArrayOp.install 0]
      ([ArrayOp.copy] ++ (List.range 10071).map intern_numbered) (initial_mem fresh_tables)
    rw [r1, Option.some_bind] at h1
    have h2 : array_run m0 ([ArrayOp.copy] ++ (List.range 10071).map intern_numbered) =
        some m := by
      rw [List.singleton_append, array_run, hcopy, Option.some_bind]
      exact q1
    rw [h2] at h1
    exact h1
  · rcases q2.buffer with ⟨-, b2⟩ | b1
    · have := q2.wf.size
      rw [q2.count, b2] at this
      omega
    · exact b1

/-- Counterexample to C28 as stated.  An array is produced by `init_fn_array`, installed
and copied, and 10071 functions are interned, which makes `resize_fn_array` free the
buffer of 10071 counters: this run returns.  The installation of the copy after it, and
the installation of the structure that `init_fn_array` had produced, make
`resize_fn_array` read and free that buffer once more; they reach no state. -/
theorem stale_array_counterexample :
    (array_run (initial_mem fresh_tables)
        ([ArrayOp.init, ArrayOp.install 0, ArrayOp.copy] ++
          (List.range 10071).map intern_numbered)).isSome = true ∧
      array_run (initial_mem fresh_tables)
        (([ArrayOp.init, ArrayOp.install 0, ArrayOp.copy] ++
          (List.range 10071).map intern_numbered) ++ [ArrayOp.install 1]) = none ∧
      array_run (initial_mem fresh_tables)
        (([ArrayOp.init, ArrayOp.install 0, ArrayOp.copy] ++
          (List.range 10071).map intern_numbered) ++ [ArrayOp.install 0]) = none := by
  obtain ⟨m, r1, r2, r3⟩ := growth_run
  have hstale : set_current_fn_array m { size := 10071, array := 1 } = none :=
    stale_install_fails m _ r2.wf r3 (by rw [r2.count])
  have h0 : array_step m (ArrayOp.install 0) = none := by
    simp only [array_step]
    rw [r2.arrs]
    exact hstale
  have h1 : array_step m (ArrayOp.install 1) = none := by
    simp only [array_step]
    rw [r2.arrs]
    exact hstale
  refine ⟨by rw [r1]; rfl, ?_, ?_⟩
  · rw [array_run_append, r1, Option.some_bind, array_run, h1]
    rfl
  · rw [array_run_append, r1, Option.some_bind, array_run, h0]
    rfl

/-! ## The anonymous object -/

theorem get_obj_node_seq_length (dis : List (Option DebugInfo)) :
    ∀ w : Tables, (get_obj_node_seq w dis).2.length = dis.length := by
  induction dis with
  | nil => intro w; rfl
  | cons d rest ih =>
    intro w
    show ((get_obj_node w d).2 :: (get_obj_node_seq (get_obj_node w d).1 rest).2).length = _
    rw [List.length_cons, ih, List.length_cons]

theorem get_obj_node_seq_append (l1 l2 : List (Option DebugInfo)) :
    ∀ w : Tables, get_obj_node_seq w (l1 ++ l2) =
      ((get_obj_node_seq (get_obj_node_seq w l1).1 l2).1,
        (get_obj_node_seq w l1).2 ++ (get_obj_node_seq (get_obj_node_seq w l1).1 l2).2) := by
  induction l1 with
  | nil => intro w; rfl
  | cons d rest ih =>
    intro w
    show ((get_obj_node_seq (get_obj_node w d).1 (rest ++ l2)).1,
      (get_obj_node w d).2 :: (get_obj_node_seq (get_obj_node w d).1 (rest ++ l2)).2) = _
    rw [ih]
    rfl

/-- The result of the call after the calls `pre` in a sequence of `get_obj_node` calls. -/
theorem get_obj_node_seq_at (pre post : List (Option DebugInfo)) (di : Option DebugInfo)
    (w : Tables) :
    (get_obj_node_seq w (pre ++ di :: post)).2.getD pre.length 0 =
      (get_obj_node (get_obj_node_seq w pre).1 di).2 := by
  rw [get_obj_node_seq_append]
  have hlen := get_obj_node_seq_length pre w
  show ((get_obj_node_seq w pre).2 ++
    (get_obj_node (get_obj_node_seq w pre).1 di).2 ::
      (get_obj_node_seq (get_obj_node (get_obj_node_seq w pre).1 di).1 post).2).getD
        pre.length 0 = _
  rw [← hlen, List.getD_eq_getElem?_getD, List.getElem?_append_right (le_refl _)]
  simp

/-- A sequence of `get_obj_node` calls, each with a handle of a module that is not named
`"???"`, creates no record named `"???"`. -/
theorem get_obj_node_seq_no_anonymous (dis : List (Option DebugInfo)) :
    ∀ w : Tables, ObjWF w →
      (∀ p, 0 < p → p ≤ w.obj_heap.length → (obj_at w.obj_heap p).name ≠ anonymous_obj) →
      (∀ di, di ∈ dis → obj_name_of di ≠ anonymous_obj) →
      ∀ p, 0 < p → p ≤ (get_obj_node_seq w dis).1.obj_heap.length →
        (obj_at (get_obj_node_seq w dis).1.obj_heap p).name ≠ anonymous_obj := by
  induction dis with
  | nil =>
    intro w _ h0 _
    exact h0
  | cons d rest ih =>
    intro w hw h0 hd
    have hw1 := get_obj_node_wf w d hw
    refine ih (get_obj_node w d).1 hw1 ?_ (fun di hdi => hd di (List.mem_cons_of_mem _ hdi))
    by_cases hex : ∃ p, 0 < p ∧ p ≤ w.obj_heap.length ∧
        (obj_at w.obj_heap p).name = obj_name_of d
    · obtain ⟨p, hp0, hp, hn⟩ := hex
      rw [get_obj_node_found w d hw p hp0 hp hn]
      exact h0
    · have habs : ∀ p, 0 < p → p ≤ w.obj_heap.length →
          (obj_at w.obj_heap p).name ≠ obj_name_of d :=
        fun p h0 hp hn => hex ⟨p, h0, hp, hn⟩
      obtain ⟨-, ⟨obj, hheap, hname, -⟩, -⟩ := get_obj_node_new w d hw habs
      intro p hp0 hp
      rw [hheap] at hp ⊢
      rw [List.length_append, List.length_cons, List.length_nil] at hp
      by_cases hpl : p ≤ w.obj_heap.length
      · rw [obj_at_append_old _ _ _ hpl]
        exact h0 p hp0 hpl
      · have hpe : p = w.obj_heap.length + 1 := by omega
        rw [hpe, obj_at_append_new, hname]
        exact hd d (List.mem_cons_self _ _)

/-- C19. Anonymous module: in every sequence of `get_obj_node` calls on freshly initialised
tables in which no debug-info handle has the file name `"???"` (the file name of a handle
is the path of a mapped object file), every call with no handle returns the same single
object record; that record exists, its name is the sentinel `"???"`, its text start, size
and load bias are 0, and it is the only record with that name.  It is created on the
first call with no handle, which allocates the next record and counts it, and never
again: every later call with no handle returns a record that exists and leaves the state
as it is.  The record that a call with a handle returns has the file name of the handle
as its name. -/
theorem anonymous_object (w : Tables) (hw : FreshTables w) (dis : List (Option DebugInfo))
    (hnames : ∀ d, some d ∈ dis → d.filename ≠ anonymous_obj) :
    (∀ i j, dis[i]? = some none → dis[j]? = some none →
      (get_obj_node_seq w dis).2.getD i 0 = (get_obj_node_seq w dis).2.getD j 0) ∧
    (∀ i, dis[i]? = some none →
      0 < (get_obj_node_seq w dis).2.getD i 0 ∧
      (get_obj_node_seq w dis).2.getD i 0 ≤ (get_obj_node_seq w dis).1.obj_heap.length ∧
      (obj_at (get_obj_node_seq w dis).1.obj_heap
        ((get_obj_node_seq w dis).2.getD i 0)).name = anonymous_obj ∧
      (obj_at (get_obj_node_seq w dis).1.obj_heap
        ((get_obj_node_seq w dis).2.getD i 0)).start = 0 ∧
      (obj_at (get_obj_node_seq w dis).1.obj_heap
        ((get_obj_node_seq w dis).2.getD i 0)).size = 0 ∧
      (obj_at (get_obj_node_seq w dis).1.obj_heap
        ((get_obj_node_seq w dis).2.getD i 0)).offset = 0) ∧
    (∀ p q, 0 < p → p ≤ (get_obj_node_seq w dis).1.obj_heap.length → 0 < q →
      q ≤ (get_obj_node_seq w dis).1.obj_heap.length →
      (obj_at (get_obj_node_seq w dis).1.obj_heap p).name = anonymous_obj →
      (obj_at (get_obj_node_seq w dis).1.obj_heap q).name = anonymous_obj → p = q) ∧
    (∀ pre post, dis = pre ++ none :: post →
      (get_obj_node_seq w dis).2.getD pre.length 0 =
        (get_obj_node (get_obj_node_seq w pre).1 none).2 ∧
      (none ∉ pre →
        (get_obj_node (get_obj_node_seq w pre).1 none).2 =
          (get_obj_node_seq w pre).1.obj_heap.length + 1 ∧
        (get_obj_node (get_obj_node_seq w pre).1 none).1.obj_heap.length =
          (get_obj_node_seq w pre).1.obj_heap.length + 1 ∧
        (get_obj_node (get_obj_node_seq w pre).1 none).1.st.stat.distinct_objs =
          (get_obj_node_seq w pre).1.st.stat.distinct_objs + 1) ∧
      (none ∈ pre →
        (get_obj_node (get_obj_node_seq w pre).1 none).1 = (get_obj_node_seq w pre).1 ∧
        (get_obj_node (get_obj_node_seq w pre).1 none).2 ≤
          (get_obj_node_seq w pre).1.obj_heap.length)) ∧
    ∀ i d, dis[i]? = some (some d) →
      (obj_at (get_obj_node_seq w dis).1.obj_heap
        ((get_obj_node_seq w dis).2.getD i 0)).name = d.filename := by
  have hwf := fresh_obj_wf w hw
  obtain ⟨hw2, -, -, hall⟩ := get_obj_node_seq_spec dis w hwf
  have hempty : ∀ p, 0 < p → p ≤ w.obj_heap.length → False := by
    intro p h0 hp
    rw [hw.2.2.2.2.1] at hp
    simp at hp
    omega
  have hz : ∀ p, 0 < p → p ≤ w.obj_heap.length →
      (obj_at w.obj_heap p).name = anonymous_obj →
      (obj_at w.obj_heap p).start = 0 ∧ (obj_at w.obj_heap p).size = 0 ∧
        (obj_at w.obj_heap p).offset = 0 :=
    fun p h0 hp => (hempty p h0 hp).elim
  refine ⟨?_, ?_, ?_, ?_, ?_⟩
  · intro i j hi hj
    obtain ⟨hi0, hip, hin⟩ := hall i none hi
    obtain ⟨hj0, hjp, hjn⟩ := hall j none hj
    exact hw2.names _ _ hi0 hip hj0 hjp (hin.trans hjn.symm)
  · intro i hi
    obtain ⟨hi0, hip, hin⟩ := hall i none hi
    obtain ⟨z1, z2, z3⟩ := get_obj_node_seq_zero dis w hwf hz i hi
      (fun j d _ hj => hnames d (List.getElem?_mem hj))
    exact ⟨hi0, hip, hin, z1, z2, z3⟩
  · intro p q hp0 hp hq0 hq hpn hqn
    exact hw2.names p q hp0 hp hq0 hq (hpn.trans hqn.symm)
  · intro pre post hdis
    obtain ⟨hwp, -, -, hallp⟩ := get_obj_node_seq_spec pre w hwf
    refine ⟨?_, ?_, ?_⟩
    · rw [hdis]
      exact get_obj_node_seq_at pre post none w
    · intro hfirst
      have hno := get_obj_node_seq_no_anonymous pre w hwf
        (fun p h0 hp => (hempty p h0 hp).elim) (by
          intro di hdi
          cases di with
          | none => exact absurd hdi hfirst
          | some d =>
            exact hnames d (by rw [hdis]; exact List.mem_append_left _ hdi))
      obtain ⟨n1, ⟨obj, hheap, -⟩, hst, -⟩ :=
        get_obj_node_new (get_obj_node_seq w pre).1 none hwp hno
      refine ⟨n1, ?_, ?_⟩
      · rw [hheap, List.length_append, List.length_cons, List.length_nil]
      · rw [hst]
    · intro hin
      obtain ⟨i, hi⟩ := List.mem_iff_getElem?.mp hin
      obtain ⟨hi0, hip, hinm⟩ := hallp i none hi
      rw [get_obj_node_found (get_obj_node_seq w pre).1 none hwp _ hi0 hip hinm]
      exact ⟨rfl, hip⟩
  · intro i d hi
    exact (hall i (some d) hi).2.2

/-- Witness of C19: in the run `none`, a default handle, `none` on `fresh_tables` the first
and the third call return the same record, whose text start is 0. -/
theorem anonymous_object_witness :
    FreshTables fresh_tables ∧
      (get_obj_node_seq fresh_tables [none, some default, none]).2.getD 0 0 =
        (get_obj_node_seq fresh_tables [none, some default, none]).2.getD 2 0 ∧
      (obj_at (get_obj_node_seq fresh_tables [none, some default, none]).1.obj_heap
        ((get_obj_node_seq fresh_tables [none, some default, none]).2.getD 2 0)).start = 0 :=
  have hn : ∀ d : DebugInfo, some d ∈ [none, some default, none] →
      d.filename ≠ anonymous_obj := by
    intro d hd
    simp only [List.mem_cons, List.mem_singleton, List.not_mem_nil, or_false] at hd
    rcases hd with h | h | h
    · cases h
    · cases h
      decide
    · cases h
  ⟨fresh_tables_fresh,
    (anonymous_object fresh_tables fresh_tables_fresh [none, some default, none] hn).1 0 2
      rfl rfl,
    ((anonymous_object fresh_tables fresh_tables_fresh [none, some default, none]
      hn).2.1 2 rfl).2.2.2.1⟩

end CFGgrind
